import Mathlib

/-!
# gg: versions, modules and the constraint solver

A shallow embedding of `internal/gg` (version.go, hash.go, module.go,
stringset.go, stringgraph.go, solve.go, memo.go) and theorems about it.

Conventions of the embedding

* Go `int` is the 64-bit two's complement integer: arithmetic that can
  overflow goes through `wrapInt`.
* A Go `string` is a Lean `String`; `[]rune(str)` is its list of characters.
  Go compares strings bytewise, which on UTF-8 is the order of the code points,
  so `a < b` on strings is `strLess a b`, the lexicographic order of the
  character lists.
* A Go `map[string]V` is an association list with distinct keys, in some order
  (Go leaves the iteration order open).  Where the source ranges over a map and
  the order can matter the order is a parameter.
* `time.Time` is the instant as an integer, the zero `time.Time{}` being 0.
* The loader (`SolverLoader`) mutates the slice it is given in place; the
  embedding returns the mutated slice, threads the loader's own state, and the
  solver continues with the returned slice as the source does.
* Loops that need not terminate take fuel and return `none` when it runs out.
-/

namespace GG

/-! ## Machine integers -/

/-- Two's complement wrap-around of a Go `int` (64 bits). -/
def wrapInt (x : Int) : Int := (x + 2 ^ 63) % 2 ^ 64 - 2 ^ 63

/-- Go string comparison `a < b`. -/
def strLess (a b : String) : Prop := a.data < b.data

instance (a b : String) : Decidable (strLess a b) := by
  unfold strLess; infer_instance

/-! ## version.go -/

/-- Version is `[3]int`: major, minor, patch. -/
structure Version where
  major : Int := 0
  minor : Int := 0
  patch : Int := 0
deriving DecidableEq, Repr

/-- NoVersion is the zero value of a version. -/
def NoVersion : Version := {}

/-- Version.Before -/
def Version.Before (v w : Version) : Bool :=
  if v.major ≠ w.major then decide (v.major < w.major)
  else if v.minor ≠ w.minor then decide (v.minor < w.minor)
  else decide (v.patch < w.patch)

/-- Version.nextBreak -/
def Version.nextBreak (v : Version) : Version :=
  if v.major = 0 then { major := v.major, minor := wrapInt (v.minor + 1), patch := 0 }
  else { major := wrapInt (v.major + 1), minor := 0, patch := 0 }

/-- Version.CanUpgradeTo -/
def Version.CanUpgradeTo (v w : Version) : Bool :=
  v.Before w && w.Before v.nextBreak

/-- The assignment `version[digit] = x`. -/
def Version.setIndex (v : Version) (digit : Nat) (x : Int) : Version :=
  match digit with
  | 0 => { v with major := x }
  | 1 => { v with minor := x }
  | _ => { v with patch := x }

/-- The read `version[digit]`. -/
def Version.getIndex (v : Version) (digit : Nat) : Int :=
  match digit with
  | 0 => v.major
  | 1 => v.minor
  | _ => v.patch

/-- The value `int(r - '0')` of a rune. -/
def runeValue (c : Char) : Int := (c.toNat : Int) - 48

/-- The inner loop of ParseVersion ("Subsequent digits"): accumulates decimal
digits into `acc` and returns it with the runes from `index` on. -/
def parseDigits (acc : Int) : List Char → Int × List Char
  | [] => (acc, [])
  | c :: cs =>
    if c < '0' ∨ c > '9' then (acc, c :: cs)
    else parseDigits (wrapInt (acc * 10 + runeValue c)) cs

/-- What one pass of the outer loop of ParseVersion does after a number:
it returns, or goes on to the next number with the remaining runes. -/
inductive ParseStep where
  | done (version : Version)
  | next (runes : List Char)

/-- The tail of the body of ParseVersion's outer loop, from `digit++` on.
`digit` is the value before the increment, `runes` is `runes[index:]`. -/
def parseAdvance (digit : Nat) (version : Version) (runes : List Char) : ParseStep :=
  if digit + 1 ≥ 3 then
    if runes ≠ [] then .done NoVersion else .done version
  else
    match runes with
    | [] => .done version
    | c :: rest =>
      if c ≠ '.' then .done NoVersion
      else if rest = [] then .done NoVersion
      else .next rest

/-- The outer loop of ParseVersion.  `runes` is `runes[index:]`, which is not
empty whenever the loop body starts.  The loop runs at most three times, as
`digit` goes up by one on each pass and the pass with `digit = 2` returns; the
first argument counts the passes that are left. -/
def parseLoop : Nat → Nat → Version → List Char → Version
  | 0, _, _, _ => NoVersion
  | passes + 1, digit, version, runes =>
    match runes with
    | [] => NoVersion
    | c :: rest =>
      if c = '0' then
        match rest with
        | [] => version
        | d :: _ =>
          if d ≠ '.' then NoVersion
          else
            match parseAdvance digit version rest with
            | .done v => v
            | .next runes => parseLoop passes (digit + 1) version runes
      else if '1' ≤ c ∧ c ≤ '9' then
        let r := parseDigits (runeValue c) rest
        match parseAdvance digit (version.setIndex digit r.1) r.2 with
        | .done v => v
        | .next runes => parseLoop passes (digit + 1) (version.setIndex digit r.1) runes
      else NoVersion

/-- ParseVersion on the runes of the string. -/
def parseVersionRunes (runes : List Char) : Version :=
  match runes with
  | [] => NoVersion
  | c :: rest =>
    if c = 'v' then
      if rest = [] then NoVersion else parseLoop 3 0 {} rest
    else parseLoop 3 0 {} (c :: rest)

/-- ParseVersion -/
def ParseVersion (str : String) : Version := parseVersionRunes str.data

/-! ## hash.go -/

/-- The type plumbing.Hash: `[20]byte`. -/
abbrev Hash := { l : List (Fin 256) // l.length = 20 }

/-- NoHash is the zero value for a hash. -/
def NoHash : Hash := ⟨List.replicate 20 0, rfl⟩

/-- The loop of HashBefore over the bytes that are left. -/
def hashBeforeLoop : List (Fin 256) → List (Fin 256) → Bool
  | x :: xs, y :: ys => if x < y then true else if x > y then false else hashBeforeLoop xs ys
  | _, _ => false

/-- HashBefore compares two hashes numerically. -/
def HashBefore (a b : Hash) : Bool := hashBeforeLoop a.1 b.1

/-- The loop of HashAfter over the bytes that are left. -/
def hashAfterLoop : List (Fin 256) → List (Fin 256) → Bool
  | x :: xs, y :: ys => if x > y then true else if x < y then false else hashAfterLoop xs ys
  | _, _ => false

/-- HashAfter returns whether one hash is more than another. -/
def HashAfter (a b : Hash) : Bool := hashAfterLoop a.1 b.1

/-- HashBetween returns whether a hash is between inclusive bounds. -/
def HashBetween (min hash max : Hash) : Bool := !HashAfter hash max && !HashAfter min hash

/-! ## stringset.go, stringgraph.go -/

/-- StringSet is `map[string]struct{}`: a list of distinct strings. -/
abbrev StringSet := List String

/-- StringSet.Has -/
def StringSet.Has (s : StringSet) (str : String) : Bool := s.contains str

/-- StringSet.Add -/
def StringSet.Add (s : StringSet) (str : String) : StringSet :=
  if s.contains str then s else s ++ [str]

/-- StringGraph is `map[string]StringSet`. -/
abbrev StringGraph := List (String × StringSet)

/-- The read `g[src]` of a graph: the targets, the nil set when there are none. -/
def StringGraph.get (g : StringGraph) (src : String) : StringSet :=
  (g.lookup src).getD []

/-- StringGraph.Add: `g.Targets(src).Add(tgt)`, where Targets makes the entry
when it is missing. -/
def StringGraph.Add (g : StringGraph) (src tgt : String) : StringGraph :=
  match g with
  | [] => [(src, [tgt])]
  | (k, v) :: rest =>
    if k = src then (k, StringSet.Add v tgt) :: rest
    else (k, v) :: StringGraph.Add rest src tgt

/-- The inner loop of Transitive over the targets `g[name]`. -/
def transitiveInner : List String → StringSet × StringSet → StringSet × StringSet
  | [], fc => fc
  | imp :: imps, (frontier, collection) =>
    if StringSet.Has collection imp || StringSet.Has frontier imp then
      transitiveInner imps (frontier, collection)
    else
      transitiveInner imps (StringSet.Add frontier imp, StringSet.Add collection imp)

/-- The outer loops of Transitive: while the frontier is not empty a name is taken from it
and deleted, and its targets that are new are added to the collection and to the frontier.
The order in which `range frontier` gives the names is not fixed by Go: pass `fuel` takes the
name at position `pick fuel` (modulo the length). `none` when the fuel runs out. -/
def transitiveLoop (g : StringGraph) (pick : Nat → Nat) : Nat → StringSet → StringSet →
    Option StringSet
  | _, [], collection => some collection
  | 0, _ :: _, _ => none
  | fuel + 1, first :: others, collection =>
    let name := (first :: others).getD (pick (fuel + 1) % (others.length + 1)) first
    let fc := transitiveInner (g.get name) ((first :: others).erase name, collection)
    transitiveLoop g pick fuel fc.1 fc.2

/-- StringGraph.Transitive captures the set of transitively reachable destinations from the
given source, including itself. -/
def StringGraph.Transitive (g : StringGraph) (pick : Nat → Nat) (fuel : Nat)
    (frontier : StringSet) : Option StringSet :=
  transitiveLoop g pick fuel frontier frontier

/-! ## packages.go: the type -/

/-- Packages tracks the import and export paths of all the Go packages in a module or in an
entire solution. -/
structure Packages where
  All : StringSet
  Commands : StringSet
  Exports : StringSet
  Imports : StringGraph
  TestImports : StringGraph
  CoImports : StringGraph
  CoTestImports : StringGraph

/-- NewPackages returns Packages for tracking imports and exports. -/
def NewPackages : Packages :=
  { All := [], Commands := [], Exports := [], Imports := [], TestImports := [],
    CoImports := [], CoTestImports := [] }

/-! ## module.go -/

/-- The instant of a time.Time; `time.Time{}` is 0. -/
abbrev Time := Int

/-- Module is the model of a Go dependency in a Git repository. -/
structure Module where
  Name : String := ""
  Hash : GG.Hash := NoHash
  Version : GG.Version := NoVersion
  Remote : String := ""
  ExactRemote : Bool := false
  Root : String := ""
  Time : GG.Time := 0
  Ref : String := ""
  Refs : List String := []
  Test : Bool := false
  Modules : List GG.Module := []
  NoLock : Bool := false
  Packages : GG.Packages := NewPackages
  Warnings : List String := []
  Glidelock : GG.Hash := NoHash
  Deplock : GG.Hash := NoHash
  Changelog : GG.Hash := NoHash
  GitoliteMirror : Bool := false
  GitoliteMirrorCreated : Bool := false
  Fetched : Bool := false
  FetchError : Option String := none
  Finished : Bool := false

/-- Modules is a slice of modules. -/
abbrev Modules := List Module

/-- Module.Before -/
def Module.Before (module other : Module) : Bool :=
  if module.Name ≠ other.Name then decide (strLess module.Name other.Name)
  else if module.Version ≠ other.Version then module.Version.Before other.Version
  else if ¬ (module.Time = other.Time) then decide (module.Time < other.Time)
  else HashBefore module.Hash other.Hash

/-- One step of an insertion sort under Module.Before. -/
def insertModule (m : Module) : Modules → Modules
  | [] => [m]
  | x :: xs => if m.Before x then m :: x :: xs else x :: insertModule m xs

/-- The call `sort.Sort(modules)`, with Modules.Less being Module.Before.
sort.Sort is some comparison sort; on a slice in which no two modules tie under
Before every comparison sort gives the same slice, and this is one. -/
def sortModules : Modules → Modules
  | [] => []
  | m :: ms => insertModule m (sortModules ms)

/-- The call `sort.Strings(names)`. -/
def sortStrings (names : List String) : List String :=
  names.foldr (fun n acc =>
    (acc.filter (fun x => decide (strLess x n))) ++ n :: (acc.filter (fun x => !decide (strLess x n)))) []

/-! ## Go maps -/

/-- The assignment `m[k] = v` on a map. -/
def mapSet {V : Type} (m : List (String × V)) (k : String) (v : V) : List (String × V) :=
  match m with
  | [] => [(k, v)]
  | e :: rest => if e.1 = k then (e.1, v) :: rest else e :: mapSet rest k v

/-- The call `delete(m, k)` on a map. -/
def mapDelete {V : Type} (m : List (String × V)) (k : String) : List (String × V) :=
  match m with
  | [] => []
  | e :: rest => if e.1 = k then mapDelete rest k else e :: mapDelete rest k

/-- The read `v, ok := m[k]` on a map. -/
def mapGet {V : Type} (m : List (String × V)) (k : String) : Option V :=
  match m with
  | [] => none
  | e :: rest => if e.1 = k then some e.2 else mapGet rest k

/-! ## solve.go -/

/-- Partial indicates the module and the state to return to if the module
needs an upgrade.  `S` is State. -/
structure Partial (S : Type) where
  Module : GG.Module
  Back : S

/-- State represents a state of the constraint solver. -/
structure State where
  Frontier : Modules
  Problem : List (String × Nat)
  Solution : List (String × Partial State)
  Dependees : StringGraph

/-- Problem is a map of package names to indexes of modules in the frontier. -/
abbrev Problem := List (String × Nat)

/-- Solution is a map of package names to a module and the state to back-track
to. -/
abbrev Solution := List (String × Partial State)

/-- NewState returns an empty initial state. -/
def NewState : State := { Frontier := [], Problem := [], Solution := [], Dependees := [] }

/-- SolverLoader: the two methods of the interface.  `σ` is the state of the
loader; a method returns the error or the modules as it left them. -/
structure SolverLoader (σ : Type) where
  FinishModules : σ → Modules → Except String Modules × σ
  FinishModule : σ → Module → Except String Module × σ

/-- State.Has -/
def State.Has (state : State) (name : String) : Bool :=
  (mapGet state.Problem name).isSome || (mapGet state.Solution name).isSome

/-- The two statements `problem[module.Name] = len(frontier)` and
`frontier = append(frontier, module)`. -/
def appendFrontier (fp : Modules × Problem) (module : Module) : Modules × Problem :=
  (fp.1 ++ [module], mapSet fp.2 module.Name fp.1.length)

/-- The first loop of Consider: the frontier without the modules of the name
of the choice, and its index. -/
def considerFrontier (choice : Module) (frontier : Modules) : Modules × Problem :=
  frontier.foldl
    (fun fp module => if choice.Name ≠ module.Name then appendFrontier fp module else fp)
    ([], [])

/-- State.Consider.  The second loop copies the entries of the solution under
another name than that of the choice into a new map. -/
def State.Consider (state : State) (choice : GG.Module) : State :=
  let fp := considerFrontier choice state.Frontier
  let solution := mapDelete state.Solution choice.Name
  if choice.Name ≠ "" then
    { Frontier := fp.1
      Problem := fp.2
      Solution := mapSet solution choice.Name { Module := choice, Back := state }
      Dependees :=
        choice.Modules.foldl (fun d module => StringGraph.Add d module.Name choice.Name)
          state.Dependees }
  else
    { Frontier := fp.1, Problem := fp.2, Solution := solution, Dependees := state.Dependees }

/-- State.Clone -/
def State.Clone (state : State) : State :=
  state.Consider { Modules := [] }

/-- Partial.Backtrack -/
def Partial.Backtrack (p : Partial State) (module : GG.Module) : State :=
  p.Back.Consider module

/-- The body of the first loop of lock, over the frontier. -/
def lockFrontierStep (choice : Module) (acc : (Modules × Problem) × Bool) (module : Module) :
    (Modules × Problem) × Bool :=
  if module.Name = choice.Name then
    if choice.Before module then (appendFrontier acc.1 module, true) else acc
  else (appendFrontier acc.1 module, acc.2)

/-- The body of the second loop of lock, over the entries of the solution. -/
def lockSolutionStep (choice : Module) (acc : ((Modules × Problem) × Bool) × Solution)
    (e : String × Partial State) : ((Modules × Problem) × Bool) × Solution :=
  if e.2.Module.Name = choice.Name then
    if choice.Before e.2.Module then ((appendFrontier acc.1.1 e.2.Module, true), acc.2) else acc
  else
    (acc.1, mapSet acc.2 e.1 { Module := e.2.Module, Back := e.2.Back.Consider choice })

/-- State.lock -/
def State.lock (state : State) (choice : GG.Module) : State :=
  let r := state.Solution.foldl (lockSolutionStep choice)
    (state.Frontier.foldl (lockFrontierStep choice) (([], []), false), [])
  let fp := if !r.1.2 then appendFrontier r.1.1 choice else r.1.1
  { Frontier := fp.1, Problem := fp.2, Solution := r.2, Dependees := state.Dependees }

/-- The body of the first loop of Constrain: back-track for a module that is
in the solution at an earlier version. -/
def constrainBacktrack (state : State) (module : Module) : State :=
  match mapGet state.Solution module.Name with
  | some p => if p.Module.Before module then p.Backtrack module else state
  | none => state

/-- The statement `if test { module.Test = true }` of the second loop of
Constrain. -/
def applyTest (test : Bool) (module : Module) : Module :=
  if test then { module with Test := true } else module

/-- The merge of a module into the entry `problem` of the frontier that has its
name: the test flag is taken off when the module is not a test module, and the
module replaces the entry when the entry is before it. -/
def mergeFrontier (problem module : Module) : Module :=
  let problem := if !module.Test then { problem with Test := false } else problem
  if problem.Before module then module else problem

/-- The statements `solution.Module.Test = false` and
`state.Solution[module.Name] = solution`, made when the module is not a test
module: the entry of the solution as it is afterwards. -/
def promoteEntry (solution : Partial State) (module : Module) : Partial State :=
  if !module.Test then { solution with Module := { solution.Module with Test := false } }
  else solution

/-- The state after the statements of promoteEntry. -/
def promoteSolution (state : State) (solution : Partial State) (module : Module) : State :=
  if !module.Test then
    { state with Solution := mapSet state.Solution module.Name (promoteEntry solution module) }
  else state

/-- The three statements that append a module to the frontier:
`delete(state.Solution, module.Name)`, `state.Problem[module.Name] =
len(state.Frontier)` and `state.Frontier = append(state.Frontier, module)`. -/
def enqueue (state : State) (module : Module) : State :=
  { state with
    Solution := mapDelete state.Solution module.Name
    Problem := mapSet state.Problem module.Name state.Frontier.length
    Frontier := state.Frontier ++ [module] }

/-- The body of the second loop of Constrain, after `if test`: add a module to
the frontier.  The read `state.Frontier[i]` is in range, as Clone has just
rebuilt Problem from Frontier; were it not, the source would stop with a
run-time error, and the model leaves the state as it is. -/
def constrainMerge (state : State) (module : Module) : State :=
  match mapGet state.Problem module.Name with
  | some i =>
    match state.Frontier[i]? with
    | none => state
    | some problem => { state with Frontier := state.Frontier.set i (mergeFrontier problem module) }
  | none =>
    match mapGet state.Solution module.Name with
    | some solution =>
      if (promoteEntry solution module).Module.Before module then
        enqueue (promoteSolution state solution module) module
      else promoteSolution state solution module
    | none => enqueue state module

/-- The body of the second loop of Constrain. -/
def constrainAdd (test : Bool) (state : State) (module : Module) : State :=
  constrainMerge state (applyTest test module)

/-- Constrain once the loader has finished the modules. -/
def constrainFinished (state : State) (modules : Modules) (test : Bool) : State :=
  modules.foldl (constrainAdd test) (modules.foldl constrainBacktrack state).Clone

/-- State.Constrain: the state and the error, and the state of the loader. -/
def State.Constrain {σ : Type} (loader : SolverLoader σ) (ls : σ) (state : State)
    (modules : GG.Modules) (test : Bool) : (State × Option String) × σ :=
  match loader.FinishModules ls modules with
  | (.error err, ls) => ((state, some err), ls)
  | (.ok modules, ls) => ((constrainFinished state modules test, none), ls)

/-- State.Solve: the state and the error, and the state of the loader; `none`
when the loop has not come to an end within `fuel` passes. -/
def State.Solve {σ : Type} (loader : SolverLoader σ) :
    Nat → σ → State → Option ((State × Option String) × σ)
  | 0, ls, state =>
    match state.Frontier with
    | [] => some ((state, none), ls)
    | _ :: _ => none
  | fuel + 1, ls, state =>
    match state.Frontier with
    | [] => some ((state, none), ls)
    | consider :: _ =>
      match (state.Consider consider).Constrain loader ls consider.Modules consider.Test with
      | ((state, some err), ls) => some ((state, some err), ls)
      | ((state, none), ls) => State.Solve loader fuel ls state

/-- State.Add: the state (nil when the loader fails on the module) and the
error. -/
def State.Add {σ : Type} (loader : SolverLoader σ) (fuel : Nat) (ls : σ) (state : State)
    (module : GG.Module) : Option ((Option State × Option String) × σ) :=
  match loader.FinishModule ls module with
  | (.error err, ls) => some ((none, some err), ls)
  | (.ok module, ls) =>
    match (state.lock module).Solve loader fuel ls with
    | none => none
    | some ((state, err), ls) => some ((some state, err), ls)

/-- State.Remove.  `order` is the order in which `range state.Solution` yields
the entries of the map. -/
def State.Remove {σ : Type} (loader : SolverLoader σ) (fuel : Nat) (ls : σ) (state : State)
    (name : String) (order : GG.Solution → GG.Solution) :
    Option ((Option State × Option String) × σ) :=
  match state.Solve loader fuel ls with
  | none => none
  | some ((_, some err), ls) => some ((none, some err), ls)
  | some ((state, none), ls) =>
    match StringGraph.Transitive state.Dependees (fun _ => 0) fuel [name] with
    | none => none
    | some dependees =>
      let constraints : GG.Modules :=
        ((order state.Solution).filter
          (fun e => !StringSet.Has dependees e.2.Module.Name)).map (fun e => e.2.Module)
      match NewState.Constrain loader ls constraints false with
      | ((_, some err), ls) => some ((none, some err), ls)
      | ((state, none), ls) =>
        match state.Solve loader fuel ls with
        | none => none
        | some ((_, some err), ls) => some ((none, some err), ls)
        | some ((state, none), ls) => some ((some state, none), ls)

/-- Solution.Names -/
def Solution.Names (solution : GG.Solution) : List String :=
  sortStrings (solution.map (fun e => e.1))

/-- The read `state.Solution[name].Module`, the zero module for a missing
name. -/
def solutionModule (solution : Solution) (name : String) : Module :=
  match mapGet solution name with
  | some p => p.Module
  | none => { Modules := [] }

/-- State.Modules -/
def State.Modules (state : State) : GG.Modules :=
  sortModules
    ((Solution.Names state.Solution).map (solutionModule state.Solution) ++ state.Frontier)

/-! ## memo.go: the loader -/

/-- ModuleResult: a finished module and the error of finishing it. -/
structure ModuleResult where
  Module : GG.Module
  Error : Option String

/-- Memo, as far as FinishModule goes: the memo of finished modules by hash,
and the rest of the memo (remotes, references, the repository), of type `ρ`. -/
structure Memo (ρ : Type) where
  Finished : List (Hash × ModuleResult)
  rest : ρ

/-- The assignment `memo.Finished[hash] = result`. -/
def finishedSet (m : List (Hash × ModuleResult)) (hash : Hash) (result : ModuleResult) :
    List (Hash × ModuleResult) :=
  match m with
  | [] => [(hash, result)]
  | e :: rest => if e.1 = hash then (e.1, result) :: rest else e :: finishedSet rest hash result

/-- The read `result, ok := memo.Finished[hash]`. -/
def finishedGet (m : List (Hash × ModuleResult)) (hash : Hash) : Option ModuleResult :=
  match m with
  | [] => none
  | e :: rest => if e.1 = hash then some e.2 else finishedGet rest hash

/-- Memo.FinishModule: the module as it is left, and the error.  The method
memoFinishModule, which works on the repository, is the parameter `finish`. -/
def Memo.FinishModule {ρ : Type} (finish : ρ → Module → (Module × Option String) × ρ)
    (memo : Memo ρ) (module : Module) : (Module × Option String) × Memo ρ :=
  if module.Hash = NoHash then ((module, none), memo)
  else
    match finishedGet memo.Finished module.Hash with
    | some result => ((result.Module, result.Error), memo)
    | none =>
      let r := finish memo.rest module
      (r.1, { Finished := finishedSet memo.Finished r.1.1.Hash ⟨r.1.1, r.1.2⟩, rest := r.2 })

/-- Memo.FinishModules: every module is finished in turn; an error of
FinishModule is written to the output and dropped.  (The context is never
cancelled in the model.) -/
def Memo.FinishModules {ρ : Type} (finish : ρ → Module → (Module × Option String) × ρ)
    (memo : Memo ρ) : Modules → Modules × Memo ρ
  | [] => ([], memo)
  | module :: rest =>
    let r := Memo.FinishModule finish memo module
    let rs := Memo.FinishModules finish r.2 rest
    (r.1.1 :: rs.1, rs.2)

/-- The memo as a SolverLoader. -/
def memoLoader {ρ : Type} (finish : ρ → Module → (Module × Option String) × ρ) :
    SolverLoader (Memo ρ) where
  FinishModules := fun memo modules =>
    let r := Memo.FinishModules finish memo modules
    (.ok r.1, r.2)
  FinishModule := fun memo module =>
    let r := Memo.FinishModule finish memo module
    match r.1.2 with
    | some err => (.error err, r.2)
    | none => (.ok r.1.1, r.2)

/-! ## Properties of a state, as the claims word them -/

/-- The module that a state holds under a name: the entry of the frontier that
Problem points to, or else the module of the solution. -/
def heldModule (s : State) (name : String) : Option Module :=
  match mapGet s.Problem name with
  | some i => s.Frontier[i]?
  | none => (mapGet s.Solution name).map (fun p => p.Module)

/-- Every module listed in the Modules of a module of the solution is held by
the state, at a version that is not before the listed one. -/
def shallowConstraintsMet (s : State) : Bool :=
  s.Solution.all (fun e => e.2.Module.Modules.all (fun m =>
    match heldModule s m.Name with
    | some h => s.Has m.Name && !h.Before m
    | none => false))

/-- The names and test flags of a list of modules. -/
def namesAndTests (ms : Modules) : List (String × Bool) :=
  ms.map (fun m => (m.Name, m.Test))

/-- No module of the solution lists a module of the given name. -/
def solutionMentions (s : State) (name : String) : Bool :=
  s.Solution.any (fun e => e.2.Module.Modules.any (fun m => m.Name = name))

/-- Whenever a module of the solution is not a test module, the modules it
lists that are in the solution are not test modules either. -/
def testPromotionClosed (s : State) : Bool :=
  s.Solution.all (fun e => e.2.Module.Test || e.2.Module.Modules.all (fun m =>
    match mapGet s.Solution m.Name with
    | some p => !p.Module.Test
    | none => true))

/-! ## Concrete loaders and modules

The modules below carry no hash, so that Memo.FinishModule returns them as they
are (memo.go, `if module.Hash == NoHash`), and are marked finished, so that the
FinishModules of the test double passes over them as well. -/

/-- A memo whose repository part is trivial. -/
def emptyMemo : Memo Unit := { Finished := [], rest := () }

/-- The memo loader over the trivial repository. -/
def plainLoader : SolverLoader (Memo Unit) := memoLoader (fun r m => ((m, none), r))

/-- The state `NewState().Constrain(cs, false)` followed by Solve, with the
error of Solve. -/
def constrainAndSolve (fuel : Nat) (cs : Modules) : Option (State × Option String) :=
  match NewState.Constrain plainLoader emptyMemo cs false with
  | ((_, some err), _) => some (NewState, some err)
  | ((s, none), memo) => (s.Solve plainLoader fuel memo).map (fun r => r.1)

/-- Module z: no constraints. -/
def modZ : Module := { Name := "z", Modules := [], Finished := true }

/-- Module c at version 1.0.0: no constraints. -/
def modC1 : Module :=
  { Name := "c", Version := { major := 1 }, Modules := [], Finished := true }

/-- Module c at version 2.0.0, which needs z. -/
def modC2 : Module :=
  { Name := "c", Version := { major := 2 }, Modules := [modZ], Finished := true }

/-- Module y, which needs c at version 2.0.0. -/
def modY : Module := { Name := "y", Modules := [modC2], Finished := true }

/-- Modules q and p at versions 1.0.0 and 2.0.0: no constraints. -/
def modQ1 : Module :=
  { Name := "q", Version := { major := 1 }, Modules := [], Finished := true }

/-- Module q at version 2.0.0. -/
def modQ2 : Module :=
  { Name := "q", Version := { major := 2 }, Modules := [], Finished := true }

/-- Module p at version 1.0.0. -/
def modP1 : Module :=
  { Name := "p", Version := { major := 1 }, Modules := [], Finished := true }

/-- Module p at version 2.0.0. -/
def modP2 : Module :=
  { Name := "p", Version := { major := 2 }, Modules := [], Finished := true }

/-- Module m, which needs p and q at version 2.0.0. -/
def modM : Module := { Name := "m", Modules := [modP2, modQ2], Finished := true }

/-- The state `NewState().Constrain([q@1.0.0, p@1.0.0], false)`, solved, and
then `Add(m)`: the state and the error that Add returns. -/
def addAfterSolve (fuel : Nat) : Option (Option State × Option String) :=
  match constrainAndSolve fuel [modQ1, modP1] with
  | some (s, none) => (s.Add plainLoader fuel emptyMemo modM).map (fun r => r.1)
  | _ => none

/-- Module n: no constraints. -/
def modN : Module := { Name := "n", Modules := [], Finished := true }

/-- Module z, in a revision that needs n. -/
def modZn : Module := { Name := "z", Modules := [modN], Finished := true }

/-- Module c at version 2.0.0, in a revision that needs z, which needs n. -/
def modC2n : Module :=
  { Name := "c", Version := { major := 2 }, Modules := [modZn], Finished := true }

/-- The state `NewState().Constrain([c@1.0.0], false)`, solved, and then
`Constrain([c@2.0.0], false)`. -/
def constrainAfterSolve (fuel : Nat) : Option State :=
  match constrainAndSolve fuel [modC1] with
  | some (s, none) => some (s.Constrain plainLoader emptyMemo [modC2n] false).1.1
  | _ => none

/-- The state above, and then `Remove("n")`: the state and the error that
Remove returns. -/
def removeAfterConstrain (fuel : Nat) : Option (Option State × Option String) :=
  match constrainAfterSolve fuel with
  | some s => (s.Remove plainLoader fuel emptyMemo "n" id).map (fun r => r.1)
  | none => none

/-- Module x at version 1.0.0, not a test module. -/
def modX1 : Module :=
  { Name := "x", Version := { major := 1 }, Modules := [], Finished := true }

/-- Module x at version 2.0.0, a test module. -/
def modX2Test : Module :=
  { Name := "x", Version := { major := 2 }, Test := true, Modules := [], Finished := true }

/-- Module d: no constraints. -/
def modD : Module := { Name := "d", Modules := [], Finished := true }

/-- Module b, which needs d. -/
def modB : Module := { Name := "b", Modules := [modD], Finished := true }

/-- Module b as a test module. -/
def modBTest : Module := { Name := "b", Test := true, Modules := [modD], Finished := true }

/-- Module a, which needs b. -/
def modA : Module := { Name := "a", Modules := [modB], Finished := true }

/-- The solved state of the constraints y and c@1.0.0. -/
def solvedYC : State :=
  match (NewState.Constrain plainLoader emptyMemo [modY, modC1] false).1.1.Solve
      plainLoader 4 emptyMemo with
  | some r => r.1.1
  | none => NewState

/-! ## The grammar of versions, as the specification words it -/

/-- A decimal digit. -/
def isDigit (c : Char) : Bool := decide ('0' ≤ c ∧ c ≤ '9')

/-- A number `N` of the grammar: `0`, or a string of digits without a leading
zero. -/
def isVersionNumber (l : List Char) : Bool :=
  match l with
  | [] => false
  | c :: cs => decide (c = '0' ∧ cs = []) || (decide ('1' ≤ c ∧ c ≤ '9') && cs.all isDigit)

/-- The number that a string of decimal digits denotes. -/
def decimalValue (l : List Char) : Int :=
  l.foldl (fun acc c => acc * 10 + runeValue c) 0

/-- The numbers joined by dots: `N`, `N.N`, `N.N.N`. -/
def joinDots : List (List Char) → List Char
  | [] => []
  | [n] => n
  | n :: rest => n ++ '.' :: joinDots rest

/-- The string `s` matches `v?N(.N(.N)?)?`, the numbers being `ns`. -/
def matchesVersion (s : List Char) (ns : List (List Char)) : Prop :=
  1 ≤ ns.length ∧ ns.length ≤ 3 ∧ (∀ n ∈ ns, isVersionNumber n = true) ∧
  (s = joinDots ns ∨ s = 'v' :: joinDots ns)

instance (s : List Char) (ns : List (List Char)) : Decidable (matchesVersion s ns) := by
  unfold matchesVersion; infer_instance

/-- The triple of the numbers, a missing minor or patch number being 0. -/
def versionOf (ns : List (List Char)) : Version :=
  { major := decimalValue (ns.getD 0 [])
    minor := decimalValue (ns.getD 1 [])
    patch := decimalValue (ns.getD 2 []) }

/-- The digits of a number accumulated as ParseVersion does, with the
arithmetic of `int`. -/
def digitsValue (acc : Int) (ds : List Char) : Int :=
  ds.foldl (fun a c => wrapInt (a * 10 + runeValue c)) acc

/-- The number at the head of the runes and the runes after it: what one pass
of the loop of ParseVersion reads as a number. -/
def splitNumber : List Char → Option (List Char × List Char)
  | [] => none
  | c :: rest =>
    if c = '0' then some (['0'], rest)
    else if '1' ≤ c ∧ c ≤ '9' then some (c :: rest.takeWhile isDigit, rest.dropWhile isDigit)
    else none

/-! ## Well-formed states -/

/-- Problem is an exact index of the frontier: `Problem[n] = i` if and only if
`Frontier[i].Name = n`. -/
def ProblemIndexes (problem : Problem) (frontier : Modules) : Prop :=
  ∀ n i, mapGet problem n = some i ↔ (frontier[i]?).map (fun m => m.Name) = some n

/-- A frontier and its index, as the loops of Consider and lock build them:
no two modules share a name, and the index is exact. -/
def ValidFrontier (fp : Modules × Problem) : Prop :=
  (fp.1.map (fun m => m.Name)).Nodup ∧ ProblemIndexes fp.2 fp.1

/-- What holds of the maps and the frontier of one state: no two modules of
the frontier share a name, Problem is an exact index of the frontier, no key of
the solution is repeated (the map is a map), every key of the solution is the
name of its module, and no name is in the frontier and in the solution. -/
structure State.Local (s : State) : Prop where
  validFrontier : ValidFrontier (s.Frontier, s.Problem)
  keysNodup : (s.Solution.map (fun e => e.1)).Nodup
  keyName : ∀ e ∈ s.Solution, e.2.Module.Name = e.1
  disjoint : ∀ m ∈ s.Frontier, ∀ e ∈ s.Solution, m.Name ≠ e.1

/-- The invariant of the solver: the state is well formed, and so is every
state that an entry of the solution points back to. -/
inductive State.Inv : State → Prop
  | intro (s : State) : s.Local → (∀ e ∈ s.Solution, State.Inv e.2.Back) → State.Inv s

/-- The states that come from NewState by Constrain, Solve, Add and Remove,
for any modules, any state of the loader and any fuel, and any order in which
Remove ranges over the solution. -/
inductive Reachable {σ : Type} (loader : SolverLoader σ) : State → Prop
  | newState : Reachable loader NewState
  | constrain (s : State) (ls : σ) (modules : Modules) (test : Bool) :
      Reachable loader s → Reachable loader (s.Constrain loader ls modules test).1.1
  | solve (s s' : State) (fuel : Nat) (ls ls' : σ) (err : Option String) :
      Reachable loader s → s.Solve loader fuel ls = some ((s', err), ls') →
      Reachable loader s'
  | add (s s' : State) (fuel : Nat) (ls ls' : σ) (module : Module) (err : Option String) :
      Reachable loader s → s.Add loader fuel ls module = some ((some s', err), ls') →
      Reachable loader s'
  | remove (s s' : State) (fuel : Nat) (ls ls' : σ) (name : String)
      (order : Solution → Solution) (err : Option String) :
      Reachable loader s →
      s.Remove loader fuel ls name order = some ((some s', err), ls') →
      Reachable loader s'

/-! ## The order of the keys and the measure of the solver -/

/-- The fields of a module that Before compares. -/
abbrev ModuleKey := String × Version × Time × Hash

/-- The key of a module: name, version, time and hash. -/
def Module.key (m : Module) : ModuleKey := (m.Name, m.Version, m.Time, m.Hash)

/-- Module.Before, on the keys. -/
def keyBefore (a b : ModuleKey) : Bool :=
  if a.1 ≠ b.1 then decide (strLess a.1 b.1)
  else if a.2.1 ≠ b.2.1 then a.2.1.Before b.2.1
  else if ¬ (a.2.2.1 = b.2.2.1) then decide (a.2.2.1 < b.2.2.1)
  else HashBefore a.2.2.2 b.2.2.2

/-- The rank of a key among the keys of the universe: one more than the
number of keys of the universe before it. -/
def keyRank (K : List ModuleKey) (k : ModuleKey) : Nat :=
  (K.filter (fun k' => keyBefore k' k)).length + 1

/-- The weight of a list of ranks read as the digits of a number in base `B`,
the first digit at the power `n`. -/
def chainMeasure (B : Nat) : Nat → List Nat → Nat
  | _, [] => 0
  | n, r :: rs => r * B ^ n + chainMeasure B (n - 1) rs

/-- What the chain of back-pointers reads of an entry of the solution: the key
of the map, the key of the module, and the state to back-track to. -/
def entrySig (e : String × Partial State) : String × ModuleKey × State :=
  (e.1, e.2.Module.key, e.2.Back)

/-- The entries of the solution, as the chain of back-pointers reads them. -/
def State.sig (s : State) : List (String × ModuleKey × State) :=
  s.Solution.map entrySig

/-- A key of the universe `K` of the loader, with a name that is not empty. -/
def inUniverse (K : List ModuleKey) (k : ModuleKey) : Prop := k.1 ≠ "" ∧ k ∈ K

/-- The solution as a chain: every module of the state is of the universe, and
the state that the entry at place `i` points back to has for solution the
entries before place `i` (same keys, same module keys, same back-pointers), and
is a chain in turn. -/
inductive Chain (K : List ModuleKey) : State → Prop
  | intro (s : State) :
      (∀ m ∈ s.Frontier, inUniverse K m.key) →
      (∀ x ∈ s.sig, inUniverse K x.2.1) →
      (∀ i x, s.sig[i]? = some x → x.2.2.sig = s.sig.take i) →
      (∀ x ∈ s.sig, Chain K x.2.2) →
      Chain K s

/-- The measure of a state: the ranks of the modules of the solution, in the
order in which they were considered, as a number in base `|K| + 2`. -/
def solverMeasure (K : List ModuleKey) (s : State) : Nat :=
  chainMeasure (K.length + 2) K.length (s.sig.map (fun x => keyRank K x.2.1))

/-- No entry of the solution under the name of the module is before the
module. -/
def notBefore (s : State) (m : Module) : Prop :=
  ∀ x ∈ s.sig, x.1 = m.Name → keyBefore x.2.1 m.key = false

/-- The universe of the loader is finite: `K` lists the key (name, version,
time, hash) of every module that FinishModules returns, and no module that it
returns has the empty name. -/
def loaderWithin {σ : Type} (loader : SolverLoader σ) (K : List ModuleKey) : Prop :=
  ∀ ls ms out ls', loader.FinishModules ls ms = (.ok out, ls') → ∀ m ∈ out, inUniverse K m.key

/-- The states that come from NewState by Constrain alone. -/
inductive ConstrainReachable {σ : Type} (loader : SolverLoader σ) : State → Prop
  | newState : ConstrainReachable loader NewState
  | constrain (s : State) (ls : σ) (modules : Modules) (test : Bool) :
      ConstrainReachable loader s →
      ConstrainReachable loader (s.Constrain loader ls modules test).1.1

/-- A loader over a finite universe, in the manner of the test double
(fakes_test.go): FinishModule looks the module up in the universe by name,
version and time (which is what LoaderHash hashes), fails when it is not there,
and returns the module of the universe with the Test flag of the module given
and Finished set. -/
def universeFinish (known : Modules) (m : Module) : Except String Module :=
  match known.find?
      (fun u => decide (u.Name = m.Name ∧ u.Version = m.Version ∧ u.Time = m.Time)) with
  | some u => .ok { u with Test := m.Test, Finished := true }
  | none => .error "could not fetch module"

/-- FinishModules of the loader over a finite universe: every module in
turn, up to the first error. -/
def universeFinishModules (known : Modules) : Modules → Except String Modules
  | [] => .ok []
  | m :: rest =>
    match universeFinish known m with
    | .error err => .error err
    | .ok m' =>
      match universeFinishModules known rest with
      | .error err => .error err
      | .ok rest' => .ok (m' :: rest')

/-- The loader over a finite universe as a SolverLoader; it has no state. -/
def universeLoader (known : Modules) : SolverLoader Unit where
  FinishModules := fun ls ms => (universeFinishModules known ms, ls)
  FinishModule := fun ls m => (universeFinish known m, ls)

/-- A universe of one module: it has the empty name and lists a module with
the empty name. -/
def loopUniverse : Modules := [{ Name := "", Modules := [{ Name := "", Modules := [] }] }]

/-- The state `NewState().Constrain([{Name: ""}], false)` with the loader over
loopUniverse. -/
def loopState : State :=
  (NewState.Constrain (universeLoader loopUniverse) () [{ Name := "", Modules := [] }] false).1.1

/-- The universe c@1.0.0, c@2.0.0 (which needs z), y (which needs c@2.0.0)
and z. -/
def smallUniverse : Modules := [modC1, modC2, modY, modZ]

/-! ## Promotion of test modules: definitions -/

/-- The state holds a module under the name, and it is not a test module. -/
def heldNonTest (s : State) (name : String) : Prop :=
  ∃ h, heldModule s name = some h ∧ h.Test = false

/-- Modules of the test of the solver (solve_test.go): carey at version 1.0.0,
morgan, which needs carey, and leslie, which needs morgan for its tests. -/
def modCarey : Module :=
  { Name := "carey", Version := { major := 1 }, Modules := [], Finished := true }

/-- Module morgan, which needs carey. -/
def modMorgan : Module := { Name := "morgan", Modules := [modCarey], Finished := true }

/-- Module morgan as a test module. -/
def modMorganTest : Module :=
  { Name := "morgan", Modules := [modCarey], Test := true, Finished := true }

/-- Module leslie, which needs morgan as a test module. -/
def modLeslie : Module := { Name := "leslie", Modules := [modMorganTest], Finished := true }

/-- The solved state of the constraint b as a test module: b and d are test
modules of the solution. -/
def solvedBTest : State :=
  match (NewState.Constrain plainLoader emptyMemo [modBTest] false).1.1.Solve
      plainLoader 4 emptyMemo with
  | some r => r.1.1
  | none => NewState

/-! ## version.go: versions at the edge of int -/

/-- The version 9223372036854775807.0.0. -/
def versionMaxMajor : Version := { major := 2 ^ 63 - 1, minor := 0, patch := 0 }

/-- The version 9223372036854775807.0.1. -/
def versionMaxMajorPatch : Version := { major := 2 ^ 63 - 1, minor := 0, patch := 1 }

/-! ## hash.go: ParseHashPrefix -/

/-- MaxHash is the maximum git hash value. -/
def MaxHash : Hash := ⟨List.replicate 20 255, rfl⟩

/-- The conversion `byte(x)` of a number that is not negative: the low eight bits. -/
def toByte (x : Nat) : Fin 256 := ⟨x % 256, Nat.mod_lt x (by decide)⟩

/-- The element `hash[i]`. -/
def Hash.get (hash : Hash) (i : Nat) : Fin 256 := hash.1.getD i 0

/-- The assignment `hash[i] = b`. -/
def Hash.set (hash : Hash) (i : Nat) (b : Fin 256) : Hash :=
  ⟨hash.1.set i b, by rw [List.length_set]; exact hash.2⟩

/-- The value `16 * (r - '0')` or `16 * (r - 'a' + 10)` of the first digit of a byte, none for
a rune that is no digit of `0-9a-f`. -/
def highDigit (r : Char) : Option (Fin 256) :=
  if '0'.toNat ≤ r.toNat ∧ r.toNat ≤ '9'.toNat then some (toByte (16 * (r.toNat - '0'.toNat)))
  else if 'a'.toNat ≤ r.toNat ∧ r.toNat ≤ 'f'.toNat then some (toByte (16 * (r.toNat - 'a'.toNat + 10)))
  else none

/-- The value `r - '0'` or `r - 'a' + 10` of the second digit of a byte. -/
def lowDigit (r : Char) : Option (Fin 256) :=
  if '0'.toNat ≤ r.toNat ∧ r.toNat ≤ '9'.toNat then some (toByte (r.toNat - '0'.toNat))
  else if 'a'.toNat ≤ r.toNat ∧ r.toNat ≤ 'f'.toNat then some (toByte (r.toNat - 'a'.toNat + 10))
  else none

/-- The loop of ParseHashPrefix from index `i` (even) over the runes `runes[i:length]`: every
pass reads `runes[i]` into the high half of byte `i/2` and, unless the runes end there,
`runes[i+1]` into its low half. Byte arithmetic wraps at 256: `max[i/2] += val - 0xf`. -/
def parseHashPrefixLoop : Nat → List Char → Hash → Hash → Hash × Hash
  | _, [], min, max => (min, max)
  | i, [r], min, max =>
    match highDigit r with
    | none => (NoHash, NoHash)
    | some val => (min.set (i / 2) val, max.set (i / 2) (toByte (val.val + 0xf)))
  | i, r :: r2 :: rest, min, max =>
    match highDigit r with
    | none => (NoHash, NoHash)
    | some val =>
      let min1 := min.set (i / 2) val
      let max1 := max.set (i / 2) (toByte (val.val + 0xf))
      match lowDigit r2 with
      | none => (NoHash, NoHash)
      | some val2 =>
        parseHashPrefixLoop (i + 2) rest
          (min1.set ((i + 1) / 2) (toByte ((min1.get ((i + 1) / 2)).val + val2.val)))
          (max1.set ((i + 1) / 2)
            (toByte ((max1.get ((i + 1) / 2)).val + (toByte (val2.val + 256 - 0xf)).val)))

/-- ParseHashPrefix parses a hash prefix, taking the given digits as the most significant
digits of the resulting hash, or returns NoHash if the string is not a hash prefix. -/
def ParseHashPrefix (str : String) : Hash × Hash :=
  let runes := str.data
  if runes.length > 40 then (NoHash, NoHash)
  else
    let length := if runes.length < 40 then runes.length else 40
    parseHashPrefixLoop 0 (runes.take length) NoHash MaxHash

/-- The digit of `encoding/hex` for a value below 16. -/
def hexDigit (n : Nat) : Char := if n < 10 then Char.ofNat (48 + n) else Char.ofNat (87 + n)

/-- The hexadecimal form of a hash, `hash.String()`: two digits of `0-9a-f` per byte. -/
def hashHex (hash : Hash) : List Char :=
  hash.1.flatMap (fun b => [hexDigit (b.val / 16), hexDigit (b.val % 16)])

/-- A rune of `0-9` or `a-f`. -/
def isHexRune (r : Char) : Prop :=
  ('0'.toNat ≤ r.toNat ∧ r.toNat ≤ '9'.toNat) ∨ ('a'.toNat ≤ r.toNat ∧ r.toNat ≤ 'f'.toNat)

instance (r : Char) : Decidable (isHexRune r) := by
  unfold isHexRune; infer_instance

/-- The value of a digit of `0-9a-f`. -/
def hexValue (r : Char) : Nat :=
  if r.toNat ≤ '9'.toNat then r.toNat - '0'.toNat else r.toNat - 'a'.toNat + 10

/-- The bytes that a string of digits stands for, two digits per byte; `pad` is the low half
of the last byte when the number of digits is odd. -/
def packBytes (pad : Nat) : List Char → List (Fin 256)
  | [] => []
  | [r] => [toByte (16 * hexValue r + pad)]
  | r :: r2 :: rest => toByte (16 * hexValue r + hexValue r2) :: packBytes pad rest
/-! ## module.go: CanUpgradeTo, Better, FindVersion, FindBestVersion; upgrade.go -/

/-- The zero value `Module{}`. -/
def zeroModule : Module := { Modules := [] }

/-- Module.CanUpgradeTo returns a heuristic for whether this module can be upgraded to
another module. -/
def Module.CanUpgradeTo (module other : Module) : Bool :=
  if module.Time > other.Time then false
  else if module.Version ≠ other.Version then module.Version.CanUpgradeTo other.Version
  else if module.Ref = "" then decide (other.Ref = "heads/master")
  else decide (module.Time < other.Time) && decide (module.Ref = other.Ref)

/-- Module.Better returns whether the module is better suited than the other if we needed
to add one version of the module. -/
def Module.Better (module other : Module) : Bool :=
  if module.Ref = "heads/master" ∧ other.Version = NoVersion then true
  else if module.Version = NoVersion then false
  else if module.Version = other.Version then decide (module.Time > other.Time)
  else other.Version.Before module.Version

/-- One pass of the loop of findUpgradeModule. -/
def upgradeStep (module upgrade : Module) : Module :=
  if module.CanUpgradeTo upgrade then upgrade else module

/-- The function findUpgradeModule of upgrade.go. -/
def findUpgradeModule (modules : Modules) (module : Module) : Module :=
  modules.foldl upgradeStep module

/-- One pass of the loop of FindVersion over the variables version, found and ok. -/
def findVersionStep (st : Version × Module × Bool) (module : Module) : Version × Module × Bool :=
  if st.1 = module.Version ∨ st.1.CanUpgradeTo module.Version = true then
    (module.Version, module, true)
  else st

/-- Modules.FindVersion returns the module with the highest version that satisfies the given
version's implied semantic version range, and whether one such was found. -/
def Modules.FindVersion (modules : GG.Modules) (version : Version) : Module × Bool :=
  (modules.foldl findVersionStep (version, zeroModule, false)).2

/-- One pass of the loop of FindBestVersion over the variables best and found. -/
def findBestVersionStep (st : Module × Bool) (module : Module) : Module × Bool :=
  if module.Better st.1 then (module, true) else st

/-- Modules.FindBestVersion returns the module in a slice of module versions that would be
the best guess to fill a missing module. -/
def Modules.FindBestVersion (modules : GG.Modules) : Module × Bool :=
  modules.foldl findBestVersionStep (zeroModule, false)

/-- A version without a negative component. -/
def Version.NonNegative (v : Version) : Prop := 0 ≤ v.major ∧ 0 ≤ v.minor ∧ 0 ≤ v.patch

instance (v : Version) : Decidable v.NonNegative := by
  unfold Version.NonNegative; infer_instance

/-- The revision of example.com/alpha at the tag v2.0.0. -/
def alphaTwo : Module :=
  { Name := "example.com/alpha", Version := { major := 2, minor := 0, patch := 0 },
    Ref := "tags/v2.0.0", Modules := [] }

/-- The revisions of example.com/alpha in module_test.go (times: `time.Time{}` is 0,
`time.Unix(0, 0)` is 62135596800000000000 nanoseconds later). -/
def alphaRevisions : Modules :=
  [ { Name := "example.com/alpha", Ref := "heads/feature", Modules := [] },
    { Name := "example.com/alpha", Ref := "heads/master", Modules := [] },
    { Name := "example.com/alpha", Version := { major := 0, minor := 0, patch := 1 },
      Ref := "tags/v0.0.1", Time := 62135596800000000000, Modules := [] },
    { Name := "example.com/alpha", Version := { major := 0, minor := 0, patch := 1 },
      Ref := "tags/v0.0.1", Time := 62135596800000000001, Modules := [] },
    { Name := "example.com/alpha", Version := { major := 1, minor := 0, patch := 0 },
      Ref := "tags/v1.0.0", Modules := [] },
    alphaTwo ]

/-- A module at version 0.1.0. -/
def modOld : Module := { Name := "a", Version := { major := 0, minor := 1, patch := 0 }, Modules := [] }

/-- A module whose tag 0.2.18446744073709551615 ParseVersion reads as the version
{0, 2, -1}. -/
def modWrapped : Module :=
  { Name := "a", Version := { major := 0, minor := 2, patch := -1 }, Modules := [] }

/-- A module at version 0.2.5. -/
def modNew : Module := { Name := "a", Version := { major := 0, minor := 2, patch := 5 }, Modules := [] }

/-- A module whose tag 0.0.18446744073709551615 ParseVersion reads as the version
{0, 0, -1}. -/
def modNegative : Module :=
  { Name := "a", Version := { major := 0, minor := 0, patch := -1 }, Modules := [] }

/-- A module at version 0.1.5. -/
def modPatch : Module := { Name := "a", Version := { major := 0, minor := 1, patch := 5 }, Modules := [] }

/-- A version that FindVersion accepts for the version asked for. -/
def versionSatisfies (v w : Version) : Prop := w = v ∨ v.CanUpgradeTo w = true

/-! ### Candidates whose versions and commit times disagree

A release 1.5.1 that is cut after the release 1.7.0, as a maintenance release of an older
minor version is. -/

/-- The module example.com/alpha at 1.0.0, committed at the time 0. -/
def up100 : Module :=
  { Name := "example.com/alpha", Version := { major := 1, minor := 0, patch := 0 }, Time := 0,
    Modules := [] }

/-- The module example.com/alpha at 1.5.1, committed at the time 10. -/
def up151 : Module :=
  { Name := "example.com/alpha", Version := { major := 1, minor := 5, patch := 1 }, Time := 10,
    Modules := [] }

/-- The module example.com/alpha at 1.7.0, committed at the time 5. -/
def up170 : Module :=
  { Name := "example.com/alpha", Version := { major := 1, minor := 7, patch := 0 }, Time := 5,
    Modules := [] }
/-! ## stringgraph.go: Has, and what Transitive is to compute -/

/-- StringGraph.Has returns whether there is an edge from one node to another. -/
def StringGraph.Has (g : StringGraph) (src tgt : String) : Bool :=
  match g.lookup src with
  | some tgts => StringSet.Has tgts tgt
  | none => false

/-- The nodes that can be reached from a member of the seed by zero or more edges. -/
inductive Reaches (g : StringGraph) (seed : StringSet) : String → Prop
  | seed (x : String) : x ∈ seed → Reaches g seed x
  | step (a b : String) : Reaches g seed a → StringGraph.Has g a b = true → Reaches g seed b

/-- Every node that is the target of an edge. -/
def StringGraph.allTargets (g : StringGraph) : List String := g.flatMap (fun e => e.2)

/-- The number of targets of the graph that are not in the collection yet. -/
def unseenTargets (g : StringGraph) (collection : StringSet) : Nat :=
  ((StringGraph.allTargets g).filter (fun x => !collection.contains x)).length

/-- The graph newTestGraph of stringgraph_test.go, which has cycles. -/
def testGraph : StringGraph :=
  StringGraph.Add (StringGraph.Add (StringGraph.Add (StringGraph.Add (StringGraph.Add
    (StringGraph.Add [] "dca" "irn") "dca" "sfo") "phx" "sfo") "sfo" "dca") "sfo" "phx")
    "sfo" "sea"
/-! ## patterns.go -/

/-- Pattern is a directive to replace some terms, including some `*` or `...` wildcards,
with the corresponding replacement terms. -/
structure Pattern where
  Match : List String
  Replace : List String

/-- Patterns is an ordered list of pattern replacements. -/
abbrev Patterns := List Pattern

/-- The closure `flush` of PatternSplit: the part read so far, when it is not empty, is
appended to the parts. -/
def flushPart (parts : List String) (part : List Char) : List String :=
  if part.length > 0 then parts ++ [String.mk part] else parts

/-- The loop of PatternSplit over the runes from index `i` on; `skip` is the number of runes
that `i += 2` has stepped over already. -/
def patternSplitLoop : List Char → Nat → List Char → List String → List String
  | [], _, part, parts => flushPart parts part
  | _ :: rest, skip + 1, part, parts => patternSplitLoop rest skip part parts
  | r :: rest, 0, part, parts =>
    if r = '*' then patternSplitLoop rest 0 [] (flushPart parts part ++ ["*"])
    else if r = '.' ∧ rest.take 2 = ['.', '.'] then
      patternSplitLoop rest 2 [] (flushPart parts part ++ ["..."])
    else if r = '/' ∨ r = ':' then
      patternSplitLoop rest 0 [] (flushPart parts part ++ [String.mk [r]])
    else patternSplitLoop rest 0 (part ++ [r]) parts

/-- PatternSplit divides a string into `/`, `:`, `*`, and `...` delimited components,
including components for each delimiter. -/
def PatternSplit (str : String) : List String := patternSplitLoop str.data 0 [] []

/-- The first loop of Pattern.replace, over the terms of `pattern.Match` from index `i` on:
the parts matched and the parts that the wildcards took, none for a part that differs. -/
def matchLoop (parts : List String) :
    Nat → List String → List String → List String → Option (List String × List String)
  | _, [], matched, wild => some (matched, wild)
  | i, part :: rest, matched, wild =>
    if part = "*" then
      matchLoop parts (i + 1) rest (matched ++ [parts.getD i ""]) (wild ++ [parts.getD i ""])
    else if part = "..." then some (matched ++ parts.drop i, wild ++ parts.drop i)
    else if part ≠ parts.getD i "" then none
    else matchLoop parts (i + 1) rest (matched ++ [part]) wild

/-- The second loop of Pattern.replace, over the terms of `pattern.Replace`: none when a `*`
finds no wildcard part left. -/
def replaceLoop : List String → List String → List String → Option (List String)
  | [], _, replaced => some replaced
  | part :: rest, wild, replaced =>
    if part = "*" then
      match wild with
      | [] => none
      | w :: ws => replaceLoop rest ws (replaced ++ [w])
    else if part = "..." then replaceLoop rest [] (replaced ++ wild)
    else replaceLoop rest wild (replaced ++ [part])

/-- Pattern.replace: the parts matched and their replacement; none stands for the result
`nil, nil`. -/
def Pattern.replace (pattern : Pattern) (parts : List String) :
    Option (List String × List String) :=
  if parts.length < pattern.Match.length then none
  else
    match matchLoop parts 0 pattern.Match [] [] with
    | none => none
    | some (matched, wild) =>
      match replaceLoop pattern.Replace wild [] with
      | none => none
      | some replaced => some (matched, replaced)

/-- The call `strings.Join(parts, "")`. -/
def joinParts (parts : List String) : String := String.mk (parts.flatMap String.data)

/-- The loop of Patterns.Replace from the pattern at `index` on. -/
def patternsReplaceLoop (parts : List String) : Int → List Pattern → String × String × Int
  | _, [] => ("", "", -1)
  | index, pattern :: rest =>
    match pattern.replace parts with
    | some (matched, replaced) => (joinParts matched, joinParts replaced, index)
    | none => patternsReplaceLoop parts (index + 1) rest

/-- Patterns.Replace takes a string and returns the part of the string that matched a
pattern and its corresponding replacement, or just a pair of empty strings if none of the
patterns matched, and the index of the applied rule, or -1. -/
def Patterns.Replace (patterns : GG.Patterns) (str : String) : String × String × Int :=
  patternsReplaceLoop (PatternSplit str) 0 patterns

/-- NewPatterns creates a glob-like pattern match and replace tool. -/
def NewPatterns (tuples : List (String × String)) : Patterns :=
  tuples.map (fun tuple => { Match := PatternSplit tuple.1, Replace := PatternSplit tuple.2 })

/-- The patterns of TestPatternMatch. -/
def testPatterns : Patterns :=
  NewPatterns
    [("github.com/*/*", "ssh://gitolite@code.uber.internal:github/*/*"),
     ("go.uber.org/*", "ssh://gitolite@code.uber.internal:github/uber-go/*"),
     ("code.uber.internal/...", "ssh://gitolite@code.uber.internal:..."),
     ("example.com", "ssh://example.com/*")]

/-! ### What the patterns are to do, in the words of the specification -/

/-- A pattern matches a token sequence if fixed tokens are equal, each `*` consumes one token
and `...` consumes the remaining suffix: the tokens matched and the tokens that the wildcards
consumed, in order. -/
def specMatch : List String → List String → Option (List String × List String)
  | [], _ => some ([], [])
  | m :: ms, ts =>
    if m = "..." then some (ts, ts)
    else
      match ts with
      | [] => none
      | t :: ts =>
        if m = "*" then (specMatch ms ts).map (fun r => (t :: r.1, t :: r.2))
        else if m = t then (specMatch ms ts).map (fun r => (t :: r.1, r.2))
        else none

/-- Replace substitutes the consumed wildcard tokens in order into a replacement pattern:
none when a `*` has no token left to take. -/
def specSubst : List String → List String → Option (List String)
  | [], _ => some []
  | r :: rs, wild =>
    if r = "*" then
      match wild with
      | [] => none
      | w :: ws => (specSubst rs ws).map (fun out => w :: out)
    else if r = "..." then (specSubst rs []).map (fun out => wild ++ out)
    else (specSubst rs wild).map (fun out => r :: out)

/-- A pattern applies to a token sequence that is not shorter than its match side, that its
match side matches, and whose wildcard tokens are enough for the `*` of its replacement
side: the tokens matched and their replacement. -/
def patternApplies (pattern : Pattern) (ts : List String) : Option (List String × List String) :=
  if ts.length < pattern.Match.length then none
  else
    (specMatch pattern.Match ts).bind (fun r =>
      (specSubst pattern.Replace r.2).map (fun out => (r.1, out)))

/-- The wildcards of a pattern, in order. -/
def wildcards (pattern : List String) : List String :=
  pattern.filter (fun t => t = "*" ∨ t = "...")

/-- The term `...` is nowhere but at the end of the pattern. -/
def restLast : List String → Bool
  | [] => true
  | p :: ps => (p != "..." || ps.isEmpty) && restLast ps

/-- The tokens are what a sequence of wildcards consumes: one token for each `*`, and at
least one for a `...`. -/
def wildFits : List String → List String → Prop
  | [], wild => wild = []
  | w :: ws, wild =>
    if w = "..." then wild ≠ []
    else
      match wild with
      | [] => False
      | _ :: rest => wildFits ws rest
/-! ## treewalk.go -/

/-- TreeEntry is an entry in a directory: its name, whether it is a directory, and for a
directory whether List succeeds and the entries it returns. -/
inductive TreeEntry where
  | file (name : String) : TreeEntry
  | dir (name : String) (listed : Bool) (entries : List TreeEntry) : TreeEntry

/-- TreeEntry.Name -/
def TreeEntry.Name : TreeEntry → String
  | .file name => name
  | .dir name _ _ => name

/-- TreeEntry.IsDir -/
def TreeEntry.IsDir : TreeEntry → Bool
  | .file _ => false
  | .dir _ _ _ => true

/-- TreeEntry.List: the entries, or an error. -/
def TreeEntry.List : TreeEntry → Except String (List TreeEntry)
  | .file _ => .error "not a directory"
  | .dir _ true entries => .ok entries
  | .dir _ false _ => .error "list failed"

/-- The frame walkerFrame represents the next entry to reveal, or whether the current branch
has no further children. -/
structure walkerFrame where
  Prefix : String
  Entries : List TreeEntry
  Index : Nat

/-- The slice walkerStack of frames; the top of the stack, `w[len(w)-1]`, is the head of
the list. -/
abbrev walkerStack := List walkerFrame

/-- The result of Next: the stack, the path, the entry and the error (`io.EOF` at the end of
the traversal). -/
structure NextResult where
  stack : walkerStack
  path : String
  entry : Option TreeEntry
  err : Option String

/-- The method walkerStack.Next -/
def walkerStack.Next : walkerStack → NextResult
  | [] => { stack := [], path := "", entry := none, err := some "EOF" }
  | top :: below =>
    match top.Entries[top.Index]? with
    | none => walkerStack.Next below
    | some entry =>
      let path := top.Prefix ++ entry.Name
      let next : walkerStack := { top with Index := top.Index + 1 } :: below
      if entry.IsDir then
        match entry.List with
        | .error err => { stack := next, path := path, entry := some entry, err := some err }
        | .ok entries =>
          { stack := { Prefix := path ++ "/", Entries := entries, Index := 0 } :: next,
            path := path, entry := some entry, err := none }
      else { stack := next, path := path, entry := some entry, err := none }

/-- The method walkerStack.Skip advances the walker past a subtree. -/
def walkerStack.Skip : walkerStack → walkerStack
  | [] => []
  | _ :: below => below

/-- Walk returns a tree walker that will iterate the given tree and all of its descendants
in depth-first order; the walker is its stack. -/
def Walk (dir : String) (entry : TreeEntry) : walkerStack :=
  [{ Prefix := dir ++ "/", Entries := [entry], Index := 0 }]

/-- What `n` calls of Walker.Next in a row return: path, entry and error. -/
def nextCalls : Nat → walkerStack → List (String × Option TreeEntry × Option String)
  | 0, _ => []
  | n + 1, w =>
    ((walkerStack.Next w).path, (walkerStack.Next w).entry, (walkerStack.Next w).err) ::
      nextCalls n (walkerStack.Next w).stack

mutual
/-- The entries of a tree in depth-first pre-order, each with its path and with the error of
its List; the entries of a directory whose List fails are not reached. -/
def preorder (pre : String) : TreeEntry → List (String × Option TreeEntry × Option String)
  | .file name => [(pre ++ name, some (.file name), none)]
  | .dir name true entries =>
    (pre ++ name, some (.dir name true entries), none) :: preorderList (pre ++ name ++ "/") entries
  | .dir name false entries =>
    [(pre ++ name, some (.dir name false entries), some "list failed")]
/-- The entries of the trees of a list in depth-first pre-order. -/
def preorderList (pre : String) : List TreeEntry → List (String × Option TreeEntry × Option String)
  | [] => []
  | e :: es => preorder pre e ++ preorderList pre es
end

mutual
/-- Every List of the tree succeeds. -/
def listsSucceed : TreeEntry → Bool
  | .file _ => true
  | .dir _ listed entries => listed && listsSucceedList entries
/-- Every List of the trees succeeds. -/
def listsSucceedList : List TreeEntry → Bool
  | [] => true
  | e :: es => listsSucceed e && listsSucceedList es
end

/-- The tree of treewalk_test.go, in part. -/
def exampleTree : TreeEntry :=
  .dir "example" true
    [.file "CHANGELOG.md",
     .dir "internal" true [.dir "exampleutil" true [.file "exampleutil.go"]],
     .file "main.go",
     .dir "testdata" true [.file "x.go"]]

/-- A tree with a directory whose List fails. -/
def brokenTree : TreeEntry :=
  .dir "root" true [.dir "locked" false [], .file "main.go"]

/-- What a walker has still to return: for every frame from the top down, the entries from
its index on with their descendants. -/
def remaining : walkerStack → List (String × Option TreeEntry × Option String)
  | [] => []
  | top :: below => preorderList top.Prefix (top.Entries.drop top.Index) ++ remaining below

/-- What Next returns at the end of the traversal. -/
def endOfWalk : String × Option TreeEntry × Option String := ("", none, some "EOF")
/-! ## stringset.go, stringgraph.go: Include; packages.go -/

/-- StringSet.Include subsumes another set of strings into itself. -/
def StringSet.Include (s t : StringSet) : StringSet := t.foldl StringSet.Add s

/-- The statement `g.Targets(src).Include(tgts)`: Targets makes the entry when it is
missing. -/
def StringGraph.includeTargets (g : StringGraph) (src : String) (tgts : StringSet) :
    StringGraph :=
  match g with
  | [] => [(src, StringSet.Include [] tgts)]
  | (k, v) :: rest =>
    if k = src then (k, StringSet.Include v tgts) :: rest
    else (k, v) :: StringGraph.includeTargets rest src tgts

/-- StringGraph.Include adds all of the edges of another graph into this graph, if not
already present. -/
def StringGraph.Include (g q : StringGraph) : StringGraph :=
  q.foldl (fun g e => StringGraph.includeTargets g e.1 e.2) g

/-- The function isBuiltin indicates whether a package is the purview of the language to
provide: the part of the path before the first `/` contains no `.`. -/
def isBuiltin (pkg : String) : Bool := !(pkg.data.takeWhile (fun c => c != '/')).contains '.'

/-- Packages.Command adds a command (a package with a "main") package to the graph. -/
def Packages.Command (p : Packages) (exp : String) : Packages :=
  if isBuiltin exp then p
  else { p with Commands := StringSet.Add p.Commands exp, All := StringSet.Add p.All exp }

/-- Packages.Export adds a non-main package to the graph. -/
def Packages.Export (p : Packages) (exp : String) : Packages :=
  if isBuiltin exp then p
  else { p with Exports := StringSet.Add p.Exports exp, All := StringSet.Add p.All exp }

/-- Packages.Import adds a normal dependency to the package graph, indicating that a package
imports another. -/
def Packages.Import (p : Packages) (exp imp : String) : Packages :=
  if isBuiltin imp then p
  else
    { p with
      Imports := StringGraph.Add p.Imports exp imp
      CoImports := StringGraph.Add p.CoImports imp exp
      All := StringSet.Add (StringSet.Add p.All imp) exp }

/-- Packages.TestImport adds a test dependency to the package graph, indicating that a
package imports another in its tests. -/
def Packages.TestImport (p : Packages) (exp imp : String) : Packages :=
  if isBuiltin imp then p
  else
    { p with
      TestImports := StringGraph.Add p.TestImports exp imp
      CoTestImports := StringGraph.Add p.CoTestImports imp exp
      All := StringSet.Add (StringSet.Add p.All imp) exp }

/-- Packages.Include subsumes the imports and exports of another packages collection. -/
def Packages.Include (p q : Packages) : Packages :=
  { All := StringSet.Include p.All q.All
    Commands := StringSet.Include p.Commands q.Commands
    Exports := StringSet.Include p.Exports q.Exports
    Imports := StringGraph.Include p.Imports q.Imports
    TestImports := StringGraph.Include p.TestImports q.TestImports
    CoImports := StringGraph.Include p.CoImports q.CoImports
    CoTestImports := StringGraph.Include p.CoTestImports q.CoTestImports }

/-- The Packages values built from NewPackages() by Command, Export, Import, TestImport and
Include calls, where the importing package of every Import and TestImport satisfies
`importer`. -/
inductive Built (importer : String → Prop) : Packages → Prop
  | new : Built importer NewPackages
  | command (p : Packages) (exp : String) : Built importer p → Built importer (p.Command exp)
  | exported (p : Packages) (exp : String) : Built importer p → Built importer (p.Export exp)
  | imports (p : Packages) (exp imp : String) : Built importer p → importer exp →
      Built importer (p.Import exp imp)
  | testImports (p : Packages) (exp imp : String) : Built importer p → importer exp →
      Built importer (p.TestImport exp imp)
  | includes (p q : Packages) : Built importer p → Built importer q →
      Built importer (p.Include q)

/-- The packages averyPackages of packages_test.go. -/
def averyPackages : Packages :=
  (((((((((NewPackages.Export "example.com/avery").Import "example.com/avery" "net/http").Import
    "example.com/avery" "time").Import "example.com/avery" "example.com/blake").Import
    "example.com/avery" "example.com/carey").TestImport "example.com/avery"
    "example.com/carey").TestImport "example.com/avery" "example.com/drew/drewutil").Command
    "example.com/avery/cmd/avery").Import "example.com/avery/cmd/avery" "example.com/avery")

/-- The packages careyPackages of packages_test.go. -/
def careyPackages : Packages :=
  ((NewPackages.Export "example.com/carey").Import "example.com/carey"
    "example.com/carey/internal/carey").Import "example.com/carey/internal/carey"
    "example.com/carey"

/-- No source of the graph has two entries, as in a Go map. -/
def graphKeysNodup (g : StringGraph) : Prop := (g.map Prod.fst).Nodup

instance (g : StringGraph) : Decidable (graphKeysNodup g) := by
  unfold graphKeysNodup; infer_instance

/-- What holds of every Packages value that is built from NewPackages(). -/
structure PackagesInv (importer : String → Prop) (p : Packages) : Prop where
  keysImports : graphKeysNodup p.Imports
  keysTestImports : graphKeysNodup p.TestImports
  keysCoImports : graphKeysNodup p.CoImports
  keysCoTestImports : graphKeysNodup p.CoTestImports
  transpose : ∀ a b, StringGraph.Has p.CoImports b a = true ↔ StringGraph.Has p.Imports a b = true
  transposeTest : ∀ a b,
    StringGraph.Has p.CoTestImports b a = true ↔ StringGraph.Has p.TestImports a b = true
  commands : ∀ x ∈ p.Commands, isBuiltin x = false
  exports : ∀ x ∈ p.Exports, isBuiltin x = false
  imported : ∀ a b, StringGraph.Has p.Imports a b = true → isBuiltin b = false
  importedTest : ∀ a b, StringGraph.Has p.TestImports a b = true → isBuiltin b = false
  all : (∀ e, importer e → isBuiltin e = false) → ∀ x ∈ p.All, isBuiltin x = false
  importing : (∀ e, importer e → isBuiltin e = false) →
    ∀ a b, StringGraph.Has p.Imports a b = true → isBuiltin a = false
  importingTest : (∀ e, importer e → isBuiltin e = false) →
    ∀ a b, StringGraph.Has p.TestImports a b = true → isBuiltin a = false
/-! ## glidelock.go, glidelockmodulesmapper.go -/

/-- GlideLockRequirement models a requirement in a glide.lock. -/
structure GlideLockRequirement where
  Name : String := ""
  Root : String := ""
  Repo : String := ""
  Version : String := ""
  Revision : String := ""
  Ref : String := ""
  Time : GG.Time := 0
  VCS : String := ""

/-- GlideLockImport is a model of an imported module or test module from a glide.lock; the
embedded GlideLockRequirement is the field Requirement. -/
structure GlideLockImport where
  Requirement : GlideLockRequirement := {}
  Warnings : List String := []
  Changelog : String := ""
  Glidelock : String := ""
  GitoliteMirror : Bool := false
  GitoliteMirrorCreated : Bool := false
  Requirements : List GlideLockRequirement := []
  NoRequirements : Bool := false
  Commands : List String := []
  Exports : List String := []
  Imports : List (String × List String) := []
  TestImports : List (String × List String) := []

/-- GlideLock is a model of a glide.lock file. -/
structure GlideLock where
  Generator : String := ""
  Imports : List GlideLockImport := []
  TestImports : List GlideLockImport := []

/-- Stamp is a stamp for the "gg version" command to write. -/
def Stamp : String := "gg 1.0.0-pre"

/-- The decimal digits of a number, most significant first, in front of `acc`; `fuel` bounds
the number of digits. -/
def itoaLoop : Nat → Nat → List Char → List Char
  | 0, _, acc => acc
  | fuel + 1, n, acc =>
    if n < 10 then Char.ofNat (48 + n) :: acc
    else itoaLoop fuel (n / 10) (Char.ofNat (48 + n % 10) :: acc)

/-- The function strconv.Itoa on an `int`, which has at most twenty digits. -/
def Itoa (x : Int) : String :=
  if x < 0 then String.mk ('-' :: itoaLoop 20 x.natAbs []) else String.mk (itoaLoop 20 x.toNat [])

/-- Version.String returns a string representation of a version number or an empty string if
the version is zero. -/
def Version.String (v : Version) : String :=
  if v = NoVersion then ""
  else String.mk ((Itoa v.major).data ++ '.' :: (Itoa v.minor).data ++ '.' :: (Itoa v.patch).data)

/-- HashString returns the hexadecimal string representation of a hash, or an empty string
if the hash is not set. -/
def HashString (hash : Hash) : String :=
  if hash = NoHash then "" else String.mk (hashHex hash)

/-- The value of a hexadecimal digit for encoding/hex, which reads both cases. -/
def fromHexChar (c : Char) : Option Nat :=
  if '0'.toNat ≤ c.toNat ∧ c.toNat ≤ '9'.toNat then some (c.toNat - '0'.toNat)
  else if 'a'.toNat ≤ c.toNat ∧ c.toNat ≤ 'f'.toNat then some (c.toNat - 'a'.toNat + 10)
  else if 'A'.toNat ≤ c.toNat ∧ c.toNat ≤ 'F'.toNat then some (c.toNat - 'A'.toNat + 10)
  else none

/-- The function hex.DecodeString without its error: the bytes decoded before the input
turns out to be malformed. -/
def hexDecode : List Char → List (Fin 256)
  | a :: b :: rest =>
    match fromHexChar a, fromHexChar b with
    | some x, some y => toByte (16 * x + y) :: hexDecode rest
    | _, _ => []
  | _ => []

/-- The function plumbing.NewHash of go-git: the bytes of the hexadecimal string are copied
into a hash that is zero to begin with. -/
def NewHash (s : String) : Hash :=
  ⟨((hexDecode s.data).take 20) ++ List.replicate (20 - ((hexDecode s.data).take 20).length) 0,
    by
      rw [List.length_append, List.length_replicate]
      have : ((hexDecode s.data).take 20).length ≤ 20 := by
        rw [List.length_take]; exact Nat.min_le_left _ _
      omega⟩

/-- NewStringSet constructs a string set from a slice of strings. -/
def NewStringSet (strings : List String) : StringSet := strings.foldl StringSet.Add []

/-- StringSet.Keys returns a sorted list of all the strings in the set. -/
def StringSet.Keys (s : StringSet) : List String := sortStrings s

/-- StringGraph.SourcesIntoStringSet accumulates all of the source nodes in this graph into
a string set. -/
def StringGraph.SourcesIntoStringSet (g : StringGraph) (q : StringSet) : StringSet :=
  g.foldl (fun q e => StringSet.Add q e.1) q

/-- The function stringGraphToYAML. -/
def stringGraphToYAML (g : StringGraph) : List (String × List String) :=
  g.map (fun e => (e.1, StringSet.Keys e.2))

/-- The function yamlToStringGraphs: the graph and its transpose. -/
def yamlToStringGraphs (yaml : List (String × List String)) : StringGraph × StringGraph :=
  yaml.foldl
    (fun gs e =>
      e.2.foldl (fun gs value => (StringGraph.Add gs.1 e.1 value, StringGraph.Add gs.2 value e.1))
        gs)
    ([], [])

/-- The function moduleFromGlideLockRequirement. -/
def moduleFromGlideLockRequirement (requirement : GlideLockRequirement) : Module :=
  { Name := requirement.Name
    Version := ParseVersion requirement.Revision
    Hash := NewHash requirement.Version
    Time := requirement.Time
    Remote := requirement.Repo
    Root := requirement.Root
    Ref := requirement.Ref
    Modules := [] }

/-- The function glideLockRequirementFromModule. -/
def glideLockRequirementFromModule (module : Module) : GlideLockRequirement :=
  { Name := module.Name
    Revision := module.Version.String
    Version := HashString module.Hash
    Time := module.Time
    Repo := module.Remote
    Root := module.Root
    Ref := module.Ref }

/-- The function modulesFromGlideLockRequirements. -/
def modulesFromGlideLockRequirements (requirements : List GlideLockRequirement) : Modules :=
  requirements.foldl (fun modules requirement =>
    modules ++ [moduleFromGlideLockRequirement requirement]) []

/-- The function glideLockRequirementsFromModules: the test modules are left out. -/
def glideLockRequirementsFromModules (modules : Modules) : List GlideLockRequirement :=
  modules.foldl (fun requirements module =>
    if !module.Test then requirements ++ [glideLockRequirementFromModule module]
    else requirements) []

/-- The function moduleFromGlideLockImport. -/
def moduleFromGlideLockImport (imp : GlideLockImport) (test : Bool) : Except String Module :=
  if imp.Requirement.VCS ≠ "" ∧ imp.Requirement.VCS ≠ "git" then
    .error "VCS must be empty (or git) on all imports for gg"
  else
    let commands := NewStringSet imp.Commands
    let exports := NewStringSet imp.Exports
    let graphs := yamlToStringGraphs imp.Imports
    let testGraphs := yamlToStringGraphs imp.TestImports
    let all :=
      StringGraph.SourcesIntoStringSet testGraphs.2
        (StringGraph.SourcesIntoStringSet testGraphs.1
          (StringGraph.SourcesIntoStringSet graphs.2
            (StringGraph.SourcesIntoStringSet graphs.1
              (StringSet.Include (StringSet.Include [] commands) exports))))
    .ok
      { Name := imp.Requirement.Name
        Version := ParseVersion imp.Requirement.Revision
        Hash := NewHash imp.Requirement.Version
        Time := imp.Requirement.Time
        Remote := imp.Requirement.Repo
        Root := imp.Requirement.Root
        Ref := imp.Requirement.Ref
        Test := test
        Modules := modulesFromGlideLockRequirements imp.Requirements
        NoLock := imp.NoRequirements
        Warnings := imp.Warnings
        Changelog := NewHash imp.Changelog
        Glidelock := NewHash imp.Glidelock
        GitoliteMirror := imp.GitoliteMirror
        GitoliteMirrorCreated := imp.GitoliteMirrorCreated
        Packages :=
          { All := all, Commands := commands, Exports := exports, Imports := graphs.1,
            CoImports := graphs.2, TestImports := testGraphs.1, CoTestImports := testGraphs.2 } }

/-- The function glideLockImportFromModule. -/
def glideLockImportFromModule (module : Module) : GlideLockImport :=
  { Requirement := glideLockRequirementFromModule module
    Warnings := module.Warnings
    Changelog := HashString module.Changelog
    Glidelock := HashString module.Glidelock
    GitoliteMirror := module.GitoliteMirror
    GitoliteMirrorCreated := module.GitoliteMirrorCreated
    Requirements := glideLockRequirementsFromModules module.Modules
    NoRequirements := module.NoLock
    Commands := StringSet.Keys module.Packages.Commands
    Exports := StringSet.Keys module.Packages.Exports
    Imports := stringGraphToYAML module.Packages.Imports
    TestImports := stringGraphToYAML module.Packages.TestImports }

/-- One of the loops of ModulesFromGlideLock: the modules of the imports are appended, and the
first error ends the loop. -/
def modulesFromImports (test : Bool) : List GlideLockImport → Modules → Except String Modules
  | [], modules => .ok modules
  | imp :: rest, modules =>
    match moduleFromGlideLockImport imp test with
    | .error err => .error err
    | .ok module => modulesFromImports test rest (modules ++ [module])

/-- ModulesFromGlideLock converts a GlideLock model (as read from a glide.lock file) to the
GG internal Modules model; `none` is the nil lock. -/
def ModulesFromGlideLock (lock : Option GlideLock) : Except String Modules :=
  match lock with
  | none => .ok []
  | some lock =>
    match modulesFromImports false lock.Imports [] with
    | .error err => .error err
    | .ok modules => modulesFromImports true lock.TestImports modules

/-- GlideLockFromModules converts the GG internal Modules model into the GlideLock model,
suitable for writing to glide.lock. -/
def GlideLockFromModules (modules : Modules) : GlideLock :=
  let split := modules.foldl
    (fun (acc : List GlideLockImport × List GlideLockImport) module =>
      if module.Test then (acc.1, acc.2 ++ [glideLockImportFromModule module])
      else (acc.1 ++ [glideLockImportFromModule module], acc.2))
    ([], [])
  { Generator := Stamp, Imports := split.1, TestImports := split.2 }

/-- The hash a28ced3c08ed0b0a1cf11c341376b0e5f2bceeed of the tests. -/
def averyHash : Hash := NewHash "a28ced3c08ed0b0a1cf11c341376b0e5f2bceeed"

/-- A module that has a Gopkg.lock and a test module among its modules. -/
def modLocked : Module :=
  { Name := "avery", Hash := averyHash, Version := { major := 1 }, Deplock := averyHash,
    Modules := [{ Name := "blake", Modules := [] }, { Name := "carey", Test := true, Modules := [] }] }

/-- The modules of TestGlideLockModulesMapper, without their hashes. -/
def mapperModules : Modules :=
  [ { Name := "avery", Version := { major := 1 }, Packages := averyPackages, NoLock := true,
      Modules := [] },
    { Name := "blake", Ref := "heads/master", Modules := [{ Name := "carey", Modules := [] }] },
    { Name := "carey", Packages := careyPackages, Modules := [] },
    { Name := "drew", GitoliteMirror := true, GitoliteMirrorCreated := true, Test := true,
      Modules := [] } ]

/-- A version whose components are not negative and fit an `int`. -/
def Version.InRange (v : Version) : Prop :=
  (0 ≤ v.major ∧ v.major < 2 ^ 63) ∧ (0 ≤ v.minor ∧ v.minor < 2 ^ 63) ∧
    (0 ≤ v.patch ∧ v.patch < 2 ^ 63)

instance (v : Version) : Decidable v.InRange := by
  unfold Version.InRange; infer_instance

/-- What a glide.lock keeps of a module that is a requirement of another: name, version,
hash, time, remote, root and reference. -/
def requirementView (m : Module) : Module :=
  { Name := m.Name, Version := m.Version, Hash := m.Hash, Time := m.Time, Remote := m.Remote,
    Root := m.Root, Ref := m.Ref, Modules := [] }

/-- What the module `m'` read back from a glide.lock has of the module `m` that was written
to it. -/
structure KeepsFields (m m' : Module) : Prop where
  name : m'.Name = m.Name
  hash : m'.Hash = m.Hash
  time : m'.Time = m.Time
  ref : m'.Ref = m.Ref
  version : m'.Version = m.Version
  remote : m'.Remote = m.Remote
  root : m'.Root = m.Root
  test : m'.Test = m.Test
  noLock : m'.NoLock = m.NoLock
  changelog : m'.Changelog = m.Changelog
  glidelock : m'.Glidelock = m.Glidelock
  deplock : m'.Deplock = NoHash
  warnings : m'.Warnings = m.Warnings
  mirror : m'.GitoliteMirror = m.GitoliteMirror
  mirrorCreated : m'.GitoliteMirrorCreated = m.GitoliteMirrorCreated
  modules : m'.Modules = (m.Modules.filter (fun x => !x.Test)).map requirementView
  commands : ∀ x, x ∈ m'.Packages.Commands ↔ x ∈ m.Packages.Commands
  exports : ∀ x, x ∈ m'.Packages.Exports ↔ x ∈ m.Packages.Exports
  imports : ∀ a b, StringGraph.Has m'.Packages.Imports a b = true ↔
    StringGraph.Has m.Packages.Imports a b = true
  testImports : ∀ a b, StringGraph.Has m'.Packages.TestImports a b = true ↔
    StringGraph.Has m.Packages.TestImports a b = true
  coImports : ∀ a b, StringGraph.Has m'.Packages.CoImports b a = true ↔
    StringGraph.Has m.Packages.Imports a b = true
  coTestImports : ∀ a b, StringGraph.Has m'.Packages.CoTestImports b a = true ↔
    StringGraph.Has m.Packages.TestImports a b = true

/-- The modules that ModulesFromGlideLock reads from the lock that GlideLockFromModules
writes, none when it fails. -/
def rereadModules (modules : Modules) : Modules :=
  match ModulesFromGlideLock (some (GlideLockFromModules modules)) with
  | .ok modules => modules
  | .error _ => []
/-! ## memo.go: finishModuleRef, RootForRemote, Fetch -/

/-- The function strings.HasPrefix. -/
def hasPrefix (s pre : String) : Bool := pre.data.isPrefixOf s.data

/-- The function strings.TrimPrefix. -/
def trimPrefix (s pre : String) : String :=
  if hasPrefix s pre then String.mk (s.data.drop pre.data.length) else s

/-- One pass of the loop of finishModuleRef over the variables bestRef and bestVersion. -/
def finishRefStep (pre : String) (best : String × Version) (ref : String) : String × Version :=
  if hasPrefix ref pre then
    let ref := trimPrefix ref pre
    if hasPrefix ref "tags/" then
      let version := ParseVersion (trimPrefix ref "tags/")
      if best.2.Before version then (ref, version) else best
    else if best.2 = NoVersion ∧ (ref = "heads/master" ∨ strLess best.1 ref) then
      (trimPrefix ref pre, best.2)
    else best
  else best

/-- Memo.finishModuleRef looks up all references that refer to a module's commit hash; `refs`
is `memo.Refs`, the references by the hexadecimal form of the hash. -/
def finishModuleRef (refs : StringGraph) (module : Module) : Module :=
  let pre := "refs/vendor/" ++ module.Root ++ "/"
  let best := (StringSet.Keys (refs.get (String.mk (hashHex module.Hash)))).foldl
    (finishRefStep pre) ("", NoVersion)
  { module with Ref := best.1, Version := best.2 }

/-- A module of the root example.com/r. -/
def modRooted : Module := { Name := "example.com/r", Root := "example.com/r", Modules := [] }

/-- The references of the commit of modRooted: the branches master and zeta. -/
def refsMasterZeta : StringGraph :=
  [(String.mk (hashHex NoHash),
    ["refs/vendor/example.com/r/heads/master", "refs/vendor/example.com/r/heads/zeta"])]

/-- The references of the commit of modRooted: the branch dev and the tag rc1. -/
def refsDevTag : StringGraph :=
  [(String.mk (hashHex NoHash),
    ["refs/vendor/example.com/r/heads/dev", "refs/vendor/example.com/r/tags/rc1"])]

/-- The references of the commit of modRooted: the tags v1.2.0 and v1.10.0 and the branch
master. -/
def refsTags : StringGraph :=
  [(String.mk (hashHex NoHash),
    ["refs/vendor/example.com/r/tags/v1.2.0", "refs/vendor/example.com/r/heads/master",
     "refs/vendor/example.com/r/tags/v1.10.0"])]

/-- The function strings.HasSuffix. -/
def hasSuffix (s suf : String) : Bool := suf.data.isSuffixOf s.data

/-- The function strings.TrimSuffix. -/
def trimSuffix (s suf : String) : String :=
  if hasSuffix s suf then String.mk (s.data.take (s.data.length - suf.data.length)) else s

/-- The call `strings.Replace(remote, ":", "/", -1)` on the runes. -/
def colonsToSlashes (runes : List Char) : List Char :=
  runes.map (fun c => if c = ':' then '/' else c)

/-- The statement of RootForRemote for a remote that contains `@`: what follows the first `@`
is kept, `strings.SplitN(remote, "@", 2)[1]`. -/
def afterUserinfo (remote : String) : String :=
  if remote.data.contains '@' then
    String.mk ((remote.data.dropWhile (fun c => c != '@')).drop 1)
  else remote

/-- The switch of RootForRemote: the prefix `https://` or `git://` is trimmed. -/
def afterScheme (remote : String) : String :=
  if hasPrefix remote "https://" then trimPrefix remote "https://"
  else if hasPrefix remote "git://" then trimPrefix remote "git://"
  else remote

/-- RootForRemote computes a cache key for a remote repository, for the vendor reference in
the git cache, by stripping the protocol and normalizing the extension. -/
def RootForRemote (remote : String) : String :=
  String.mk (colonsToSlashes (afterScheme (afterUserinfo (trimSuffix remote ".git"))).data)

/-- The conversion `uint(x)` of an `int`. -/
def uintOf (x : Int) : Nat := (x % 2 ^ 64).toNat

/-- The retry loop of Memo.Fetch. `gitFetch n` is the error of call number `n` of
GitFetchRootRemote (none: it succeeds), `finishRemote a` the error of the FinishRemote that
follows attempt `a`, `attempts` the variable of that name, a `uint`, and `calls` the number
of calls of GitFetchRootRemote so far. The result is the number of calls and the error
returned; none when the fuel runs out. -/
def fetchLoop (maxAttempts : Int) (gitFetch finishRemote : Nat → Option String) :
    Nat → Nat → Nat → Option (Nat × Option String)
  | 0, _, _ => none
  | fuel + 1, attempts, calls =>
    match gitFetch calls with
    | some err =>
      let attempts := (attempts + 1) % 2 ^ 64
      if attempts > uintOf maxAttempts then some (calls + 1, some err)
      else if attempts % 2 = 0 then
        match finishRemote attempts with
        | some err => some (calls + 1, some err)
        | none => fetchLoop maxAttempts gitFetch finishRemote fuel attempts (calls + 1)
      else fetchLoop maxAttempts gitFetch finishRemote fuel attempts (calls + 1)
    | none => some (calls + 1, none)

/-- Memo.Fetch, as far as the calls of GitFetchRootRemote go: `offline` is `memo.Offline`,
`fetched` is `memo.Fetched`, and FinishRemote succeeds before the loop. The result is the
number of calls of GitFetchRootRemote and the error of the loop. -/
def memoFetch (offline : Bool) (fetched : StringSet) (module : Module) (maxAttempts : Int)
    (gitFetch finishRemote : Nat → Option String) (fuel : Nat) : Option (Nat × Option String) :=
  if offline then some (0, none)
  else if module.Name = "" then some (0, none)
  else if module.Remote = "" then some (0, none)
  else if StringSet.Has fetched module.Remote then some (0, none)
  else fetchLoop maxAttempts gitFetch finishRemote fuel 0 0

/-- FetchMaxAttempts is the maximum number of attempts that the memo will execute to attempt
to fetch new versions of a module. -/
def FetchMaxAttempts : Int := 5

/-- A module with a name and a remote. -/
def modRemote : Module :=
  { Name := "example.com/r", Remote := "https://example.com/r", Root := "example.com/r",
    Modules := [] }
/-! ## The states of the solver, Consider and lock included; the replay of the memo -/

/-- The states that come from NewState by Consider, Constrain, lock, Add, Solve and Remove,
for any modules, any state of the loader and any fuel, and any order in which Remove ranges
over the solution. -/
inductive ReachableByAll {σ : Type} (loader : SolverLoader σ) : State → Prop
  | newState : ReachableByAll loader NewState
  | consider (s : State) (choice : Module) :
      ReachableByAll loader s → ReachableByAll loader (s.Consider choice)
  | lock (s : State) (choice : Module) :
      ReachableByAll loader s → ReachableByAll loader (s.lock choice)
  | constrain (s : State) (ls : σ) (modules : Modules) (test : Bool) :
      ReachableByAll loader s → ReachableByAll loader (s.Constrain loader ls modules test).1.1
  | solve (s s' : State) (fuel : Nat) (ls ls' : σ) (err : Option String) :
      ReachableByAll loader s → s.Solve loader fuel ls = some ((s', err), ls') →
      ReachableByAll loader s'
  | add (s s' : State) (fuel : Nat) (ls ls' : σ) (module : Module) (err : Option String) :
      ReachableByAll loader s → s.Add loader fuel ls module = some ((some s', err), ls') →
      ReachableByAll loader s'
  | remove (s s' : State) (fuel : Nat) (ls ls' : σ) (name : String)
      (order : Solution → Solution) (err : Option String) :
      ReachableByAll loader s →
      s.Remove loader fuel ls name order = some ((some s', err), ls') →
      ReachableByAll loader s'

/-- The method memoFinishModule as far as the flags go: the module is marked as finished. -/
def markFinished (rest : Unit) (module : Module) : (Module × Option String) × Unit :=
  (({ module with Finished := true }, none), rest)

/-- A module as a test dependency. -/
def modAsTest : Module := { Name := "avery", Hash := averyHash, Test := true, Modules := [] }

/-- The same revision of the module, as a dependency that is not for tests only. -/
def modAsNormal : Module := { Name := "avery", Hash := averyHash, Test := false, Modules := [] }

/-- The memo after the module has been finished as a test dependency. -/
def memoAfterTest : Memo Unit :=
  (Memo.FinishModule markFinished { Finished := [], rest := () } modAsTest).2

/-! ## Modules of TestMonotonicModules (module_test.go)

The three modules that are "sequential by version, but not by time", and the
module that follows them with another name and an earlier time. Time stamps are
the seconds of `time.Unix(s, 0)`. -/

/-- The module example.com/alpha at 1.0.0, time.Unix(10, 0). -/
def alpha100 : Module :=
  { Name := "example.com/alpha", Version := { major := 1, minor := 0, patch := 0 }, Time := 10,
    Modules := [] }

/-- The module example.com/alpha at 1.0.1, time.Unix(30, 0). -/
def alpha101 : Module :=
  { Name := "example.com/alpha", Version := { major := 1, minor := 0, patch := 1 }, Time := 30,
    Modules := [] }

/-- The module example.com/alpha at 2.0.0, time.Unix(20, 0). -/
def alpha200 : Module :=
  { Name := "example.com/alpha", Version := { major := 2, minor := 0, patch := 0 }, Time := 20,
    Modules := [] }

/-- The module example.com/beta at 0.0.1, time.Unix(2, 0). -/
def beta001 : Module :=
  { Name := "example.com/beta", Version := { major := 0, minor := 0, patch := 1 }, Time := 2,
    Modules := [] }
/-! ## Theorems -/

/-! ### Go maps, and the names a state holds through Constrain -/

theorem mapGet_mapSet_self {V : Type} (m : List (String × V)) (k : String) (v : V) :
    mapGet (mapSet m k v) k = some v := by
  induction m with
  | nil => simp [mapSet, mapGet]
  | cons e rest ih =>
    unfold mapSet
    by_cases h : e.1 = k
    · simp [h, mapGet]
    · simp [h, mapGet, ih]

theorem mapGet_mapSet_ne {V : Type} (m : List (String × V)) (k k' : String) (v : V)
    (hne : k' ≠ k) : mapGet (mapSet m k v) k' = mapGet m k' := by
  induction m with
  | nil => simp [mapSet, mapGet, Ne.symm hne]
  | cons e rest ih =>
    unfold mapSet
    by_cases h : e.1 = k
    · have h2 : ¬ e.1 = k' := fun h' => hne (h'.symm.trans h)
      rw [if_pos h]
      simp only [mapGet, if_neg h2]
    · rw [if_neg h]
      by_cases h' : e.1 = k'
      · simp only [mapGet, if_pos h']
      · simp only [mapGet, if_neg h', ih]

theorem mapGet_mapDelete_ne {V : Type} (m : List (String × V)) (k k' : String)
    (hne : k' ≠ k) : mapGet (mapDelete m k) k' = mapGet m k' := by
  induction m with
  | nil => simp [mapDelete, mapGet]
  | cons e rest ih =>
    unfold mapDelete
    by_cases h : e.1 = k
    · have h2 : ¬ e.1 = k' := fun h' => hne (h'.symm.trans h)
      rw [if_pos h]
      simp only [mapGet, if_neg h2, ih]
    · rw [if_neg h]
      by_cases h' : e.1 = k'
      · simp only [mapGet, if_pos h']
      · simp only [mapGet, if_neg h', ih]

theorem mapGet_mapDelete_self {V : Type} (m : List (String × V)) (k : String) :
    mapGet (mapDelete m k) k = none := by
  induction m with
  | nil => simp [mapDelete, mapGet]
  | cons e rest ih =>
    unfold mapDelete
    by_cases h : e.1 = k
    · rw [if_pos h]; exact ih
    · rw [if_neg h]; simp only [mapGet, if_neg h, ih]

@[simp] theorem applyTest_Name (test : Bool) (m : Module) : (applyTest test m).Name = m.Name := by
  unfold applyTest; split <;> rfl

@[simp] theorem promoteSolution_Problem (s : State) (p : Partial State) (m : Module) :
    (promoteSolution s p m).Problem = s.Problem := by
  unfold promoteSolution; split <;> rfl

@[simp] theorem promoteSolution_Frontier (s : State) (p : Partial State) (m : Module) :
    (promoteSolution s p m).Frontier = s.Frontier := by
  unfold promoteSolution; split <;> rfl

theorem promoteSolution_get_ne (s : State) (p : Partial State) (m : Module) (n : String)
    (hn : n ≠ m.Name) :
    mapGet (promoteSolution s p m).Solution n = mapGet s.Solution n := by
  unfold promoteSolution; split
  · exact mapGet_mapSet_ne _ _ _ _ hn
  · rfl

theorem promoteSolution_get_self (s : State) (p : Partial State) (m : Module)
    (h : mapGet s.Solution m.Name = some p) :
    mapGet (promoteSolution s p m).Solution m.Name = some (promoteEntry p m) := by
  unfold promoteSolution promoteEntry; split
  · exact mapGet_mapSet_self _ _ _
  · exact h

theorem enqueue_has_self (s : State) (m : Module) : (enqueue s m).Has m.Name = true := by
  simp [enqueue, State.Has, mapGet_mapSet_self]

theorem enqueue_has_ne (s : State) (m : Module) (n : String) (hn : n ≠ m.Name) :
    (enqueue s m).Has n = s.Has n := by
  simp [enqueue, State.Has, mapGet_mapSet_ne _ _ _ _ hn, mapGet_mapDelete_ne _ _ _ hn]

theorem constrainMerge_of_index_none (s : State) (m : Module) (i : Nat)
    (hp : mapGet s.Problem m.Name = some i) (hf : s.Frontier[i]? = none) :
    constrainMerge s m = s := by
  simp [constrainMerge, hp, hf]

theorem constrainMerge_of_index (s : State) (m : Module) (i : Nat) (problem : Module)
    (hp : mapGet s.Problem m.Name = some i) (hf : s.Frontier[i]? = some problem) :
    constrainMerge s m
      = { s with Frontier := s.Frontier.set i (mergeFrontier problem m) } := by
  simp [constrainMerge, hp, hf]

theorem constrainMerge_of_solution (s : State) (m : Module) (p : Partial State)
    (hp : mapGet s.Problem m.Name = none) (hs : mapGet s.Solution m.Name = some p) :
    constrainMerge s m
      = if (promoteEntry p m).Module.Before m then enqueue (promoteSolution s p m) m
        else promoteSolution s p m := by
  simp [constrainMerge, hp, hs]

theorem constrainMerge_of_new (s : State) (m : Module)
    (hp : mapGet s.Problem m.Name = none) (hs : mapGet s.Solution m.Name = none) :
    constrainMerge s m = enqueue s m := by
  simp [constrainMerge, hp, hs]

theorem constrainMerge_has_self (s : State) (m : Module) :
    (constrainMerge s m).Has m.Name = true := by
  cases hp : mapGet s.Problem m.Name with
  | some i =>
    cases hf : s.Frontier[i]? with
    | none => rw [constrainMerge_of_index_none s m i hp hf]; simp [State.Has, hp]
    | some problem => rw [constrainMerge_of_index s m i problem hp hf]; simp [State.Has, hp]
  | none =>
    cases hs : mapGet s.Solution m.Name with
    | none => rw [constrainMerge_of_new s m hp hs]; exact enqueue_has_self s m
    | some solution =>
      rw [constrainMerge_of_solution s m solution hp hs]
      split
      · exact enqueue_has_self _ m
      · simp [State.Has, promoteSolution_get_self s solution m hs]

theorem constrainMerge_has_mono (s : State) (m : Module) (n : String)
    (h : s.Has n = true) : (constrainMerge s m).Has n = true := by
  by_cases hn : n = m.Name
  · subst hn; exact constrainMerge_has_self s m
  have hps : ∀ p, (promoteSolution s p m).Has n = true := by
    intro p
    simp only [State.Has, promoteSolution_Problem, promoteSolution_get_ne s p m n hn]
    exact h
  cases hp : mapGet s.Problem m.Name with
  | some i =>
    cases hf : s.Frontier[i]? with
    | none => rw [constrainMerge_of_index_none s m i hp hf]; exact h
    | some problem => rw [constrainMerge_of_index s m i problem hp hf]; simpa [State.Has] using h
  | none =>
    cases hs : mapGet s.Solution m.Name with
    | none => rw [constrainMerge_of_new s m hp hs, enqueue_has_ne s m n hn]; exact h
    | some solution =>
      rw [constrainMerge_of_solution s m solution hp hs]
      split
      · rw [enqueue_has_ne _ m n hn]; exact hps solution
      · exact hps solution

theorem foldl_constrainAdd_has_mono (test : Bool) (ms : Modules) (s : State) (n : String)
    (h : s.Has n = true) : (ms.foldl (constrainAdd test) s).Has n = true := by
  induction ms generalizing s with
  | nil => exact h
  | cons m rest ih =>
    exact ih _ (constrainMerge_has_mono s (applyTest test m) n h)

theorem constrainFinished_has (s : State) (ms : Modules) (test : Bool) (m : Module) (hm : m ∈ ms) :
    (constrainFinished s ms test).Has m.Name = true := by
  unfold constrainFinished
  generalize (List.foldl constrainBacktrack s ms).Clone = s0
  induction ms generalizing s0 with
  | nil => cases hm
  | cons x rest ih =>
    rw [List.foldl_cons]
    rcases List.mem_cons.1 hm with rfl | h
    · apply foldl_constrainAdd_has_mono
      have := constrainMerge_has_self s0 (applyTest test m)
      simpa [constrainAdd] using this
    · exact ih h _

/-- C5: when the loader finishes the modules given to Constrain without
error, Constrain returns no error, and the state it returns has a module for the
name of every finished module, whatever the state, the test argument and the
back-tracking. -/
theorem constrain_has_every_module {σ : Type} (loader : SolverLoader σ) (ls ls' : σ)
    (s : State) (ms finished : Modules) (test : Bool)
    (hfin : loader.FinishModules ls ms = (.ok finished, ls')) :
    (s.Constrain loader ls ms test).1.2 = none ∧
    ∀ m ∈ finished, (s.Constrain loader ls ms test).1.1.Has m.Name = true := by
  unfold State.Constrain
  rw [hfin]
  exact ⟨rfl, fun m hm => constrainFinished_has s finished test m hm⟩

/-- C5, witness: the state holds c@1.0.0 in its solution, and Constrain with
c@2.0.0 back-tracks; the state returned has a module named c. -/
theorem constrain_has_every_module_witness :
    plainLoader.FinishModules emptyMemo [modC2] = (.ok [modC2], emptyMemo) ∧
    (((NewState.Constrain plainLoader emptyMemo [modC1] false).1.1.Consider modC1).Constrain
      plainLoader emptyMemo [modC2] false).1.2 = none ∧
    ∀ m ∈ [modC2],
      (((NewState.Constrain plainLoader emptyMemo [modC1] false).1.1.Consider modC1).Constrain
        plainLoader emptyMemo [modC2] false).1.1.Has m.Name = true :=
  ⟨rfl, constrain_has_every_module plainLoader emptyMemo emptyMemo _ [modC2] [modC2] false rfl⟩

/-! ### ParseVersion -/

theorem parseDigits_eq (acc : Int) (cs : List Char) :
    parseDigits acc cs = (digitsValue acc (cs.takeWhile isDigit), cs.dropWhile isDigit) := by
  induction cs generalizing acc with
  | nil => simp [parseDigits, digitsValue]
  | cons c cs ih =>
    unfold parseDigits
    by_cases h : c < '0' ∨ c > '9'
    · have hd : isDigit c = false := by
        simp only [isDigit, decide_eq_false_iff_not, not_and, not_le]
        intro h0
        rcases h with h | h
        · exact absurd h (not_lt.2 h0)
        · exact h
      simp [h, hd, List.takeWhile, List.dropWhile, digitsValue]
    · have hd : isDigit c = true := by
        simp only [isDigit, decide_eq_true_eq]
        push_neg at h
        exact ⟨h.1, h.2⟩
      rw [if_neg h, ih]
      simp [hd, List.takeWhile, List.dropWhile, digitsValue]

theorem setIndex_getIndex (v : Version) (digit : Nat) (h : v.getIndex digit = 0) :
    v.setIndex digit 0 = v := by
  cases v
  unfold Version.setIndex
  unfold Version.getIndex at h
  split <;> simp_all

theorem wrapInt_small (x : Int) (h0 : 0 ≤ x) (h1 : x < 2 ^ 63) : wrapInt x = x := by
  unfold wrapInt
  have : (x + 2 ^ 63) % 2 ^ 64 = x + 2 ^ 63 := by
    apply Int.emod_eq_of_lt <;> omega
  omega

theorem runeValue_digit (c : Char) (h : isDigit c = true) :
    0 ≤ runeValue c ∧ runeValue c ≤ 9 := by
  simp only [isDigit, decide_eq_true_eq] at h
  have h1 : ('0' : Char).toNat ≤ c.toNat := h.1
  have h2 : c.toNat ≤ ('9' : Char).toNat := h.2
  have e1 : ('0' : Char).toNat = 48 := by decide
  have e2 : ('9' : Char).toNat = 57 := by decide
  unfold runeValue
  omega


theorem parseAdvance_not_dot (digit : Nat) (v : Version) (d : Char) (r : List Char)
    (hd : d ≠ '.') : parseAdvance digit v (d :: r) = .done NoVersion := by
  unfold parseAdvance
  by_cases h : digit + 1 ≥ 3
  · simp [h]
  · simp [h, hd]

theorem parseLoop_cons (passes digit : Nat) (version : Version) (c : Char) (rest : List Char) :
    parseLoop (passes + 1) digit version (c :: rest) =
      if c = '0' then
        match rest with
        | [] => version
        | d :: _ =>
          if d ≠ '.' then NoVersion
          else
            match parseAdvance digit version rest with
            | .done v => v
            | .next runes => parseLoop passes (digit + 1) version runes
      else if '1' ≤ c ∧ c ≤ '9' then
        match parseAdvance digit (version.setIndex digit (parseDigits (runeValue c) rest).1)
            (parseDigits (runeValue c) rest).2 with
        | .done v => v
        | .next runes =>
          parseLoop passes (digit + 1)
            (version.setIndex digit (parseDigits (runeValue c) rest).1) runes
      else NoVersion := by
  rfl

theorem parseLoop_eq (passes digit : Nat) (version : Version) (runes : List Char)
    (hz : version.getIndex digit = 0) :
    parseLoop (passes + 1) digit version runes =
      match splitNumber runes with
      | none => NoVersion
      | some (n, rest) =>
        match parseAdvance digit (version.setIndex digit (digitsValue 0 n)) rest with
        | .done v => v
        | .next r => parseLoop passes (digit + 1) (version.setIndex digit (digitsValue 0 n)) r := by
  cases runes with
  | nil => simp [parseLoop, splitNumber]
  | cons c rest =>
    rw [parseLoop_cons]
    unfold splitNumber
    by_cases h0 : c = '0'
    · subst h0
      have hv : digitsValue 0 ['0'] = 0 := by decide
      simp only [if_true, hv, setIndex_getIndex version digit hz]
      cases rest with
      | nil => simp [parseAdvance]
      | cons d rest' =>
        by_cases hd : d = '.'
        · subst hd; simp
        · simp only [ne_eq, hd, not_false_eq_true, if_true, parseAdvance_not_dot digit version d rest' hd]
    · simp only [if_neg h0]
      by_cases h19 : '1' ≤ c ∧ c ≤ '9'
      · have hc : isDigit c = true := by
          simp only [isDigit, decide_eq_true_eq]
          exact ⟨le_trans (by decide) h19.1, h19.2⟩
        have hr := runeValue_digit c hc
        have hw : wrapInt (0 * 10 + runeValue c) = runeValue c := by
          rw [zero_mul, zero_add]
          exact wrapInt_small _ hr.1 (by omega)
        have hv : digitsValue 0 (c :: rest.takeWhile isDigit)
            = digitsValue (runeValue c) (rest.takeWhile isDigit) := by
          simp only [digitsValue, List.foldl_cons, hw]
        simp only [if_pos h19, parseDigits_eq, hv]
      · simp only [if_neg h19]

theorem splitNumber_some (runes n rest : List Char) (h : splitNumber runes = some (n, rest)) :
    runes = n ++ rest ∧ isVersionNumber n = true := by
  cases runes with
  | nil => simp [splitNumber] at h
  | cons c cs =>
    unfold splitNumber at h
    by_cases h0 : c = '0'
    · simp only [if_pos h0, Option.some.injEq, Prod.mk.injEq] at h
      obtain ⟨rfl, rfl⟩ := h
      subst h0
      exact ⟨rfl, by decide⟩
    · simp only [if_neg h0] at h
      by_cases h19 : '1' ≤ c ∧ c ≤ '9'
      · simp only [if_pos h19, Option.some.injEq, Prod.mk.injEq] at h
        obtain ⟨rfl, rfl⟩ := h
        refine ⟨by simp [List.takeWhile_append_dropWhile], ?_⟩
        simp only [isVersionNumber, h0, false_and, decide_False, Bool.false_or,
          Bool.and_eq_true, decide_eq_true_eq, List.all_eq_true]
        exact ⟨h19, fun x hx => List.mem_takeWhile_imp hx⟩
      · simp [if_neg h19] at h

theorem splitNumber_append (n rest : List Char) (hn : isVersionNumber n = true)
    (hrest : rest = [] ∨ ∃ t, rest = '.' :: t) : splitNumber (n ++ rest) = some (n, rest) := by
  cases n with
  | nil => simp [isVersionNumber] at hn
  | cons c cs =>
    simp only [isVersionNumber, Bool.or_eq_true, decide_eq_true_eq, Bool.and_eq_true,
      List.all_eq_true] at hn
    rcases hn with ⟨rfl, rfl⟩ | ⟨h19, hall⟩
    · simp [splitNumber]
    · have h0 : c ≠ '0' := by
        rintro rfl
        exact absurd h19.1 (by decide)
      have htw : (cs ++ rest).takeWhile isDigit = cs ∧ (cs ++ rest).dropWhile isDigit = rest := by
        have hdot : isDigit '.' = false := by decide
        induction cs with
        | nil =>
          rcases hrest with rfl | ⟨t, rfl⟩
          · simp
          · simp [List.takeWhile, List.dropWhile, hdot]
        | cons d ds ih =>
          have hd : isDigit d = true := hall d (List.mem_cons_self _ _)
          have := ih (fun x hx => hall x (List.mem_cons_of_mem _ hx))
          simp [List.takeWhile, List.dropWhile, hd, this.1, this.2]
      simp only [List.cons_append, splitNumber, if_neg h0, if_pos h19, htw.1, htw.2]

theorem decimalFold_ge (ds : List Char) (acc : Int) (hacc : 0 ≤ acc)
    (hall : ∀ d ∈ ds, isDigit d = true) :
    acc ≤ ds.foldl (fun a c => a * 10 + runeValue c) acc := by
  induction ds generalizing acc with
  | nil => simp
  | cons d ds ih =>
    have hd := runeValue_digit d (hall d (List.mem_cons_self _ _))
    have h1 : 0 ≤ acc * 10 + runeValue d := by omega
    have := ih (acc * 10 + runeValue d) h1 (fun x hx => hall x (List.mem_cons_of_mem _ hx))
    simp only [List.foldl_cons]
    omega

theorem digitsValue_eq_fold (ds : List Char) (acc : Int) (hacc : 0 ≤ acc)
    (hall : ∀ d ∈ ds, isDigit d = true)
    (hlt : ds.foldl (fun a c => a * 10 + runeValue c) acc < 2 ^ 63) :
    digitsValue acc ds = ds.foldl (fun a c => a * 10 + runeValue c) acc := by
  induction ds generalizing acc with
  | nil => simp [digitsValue]
  | cons d ds ih =>
    have hd := runeValue_digit d (hall d (List.mem_cons_self _ _))
    have h1 : 0 ≤ acc * 10 + runeValue d := by omega
    have hall' : ∀ x ∈ ds, isDigit x = true := fun x hx => hall x (List.mem_cons_of_mem _ hx)
    simp only [List.foldl_cons] at hlt
    have hge := decimalFold_ge ds (acc * 10 + runeValue d) h1 hall'
    have hw : wrapInt (acc * 10 + runeValue d) = acc * 10 + runeValue d :=
      wrapInt_small _ h1 (lt_of_le_of_lt hge hlt)
    have := ih (acc * 10 + runeValue d) h1 hall' hlt
    simp only [digitsValue, List.foldl_cons, hw] at this ⊢
    exact this

theorem isVersionNumber_digits (n : List Char) (hn : isVersionNumber n = true) :
    n ≠ [] ∧ (∀ d ∈ n, isDigit d = true) ∧ n.head? ≠ some 'v' := by
  cases n with
  | nil => simp [isVersionNumber] at hn
  | cons c cs =>
    simp only [isVersionNumber, Bool.or_eq_true, decide_eq_true_eq, Bool.and_eq_true,
      List.all_eq_true] at hn
    rcases hn with ⟨rfl, rfl⟩ | ⟨h19, hall⟩
    · refine ⟨by simp, ?_, by decide⟩
      intro d hd
      simp only [List.mem_singleton] at hd
      subst hd
      decide
    · have hc : isDigit c = true := by
        simp only [isDigit, decide_eq_true_eq]
        exact ⟨le_trans (by decide) h19.1, h19.2⟩
      refine ⟨by simp, ?_, ?_⟩
      · intro d hd
        rcases List.mem_cons.1 hd with rfl | hd
        · exact hc
        · exact hall d hd
      · simp only [List.head?_cons, ne_eq, Option.some.injEq]
        rintro rfl
        exact absurd hc (by decide)

theorem digitsValue_number (n : List Char) (hn : isVersionNumber n = true)
    (hlt : decimalValue n < 2 ^ 63) : digitsValue 0 n = decimalValue n :=
  digitsValue_eq_fold n 0 (le_refl 0) (isVersionNumber_digits n hn).2.1 hlt

theorem parseAdvance_nil (digit : Nat) (v : Version) : parseAdvance digit v [] = .done v := by
  unfold parseAdvance
  by_cases h : digit + 1 ≥ 3 <;> simp [h]

theorem parseAdvance_dot (digit : Nat) (v : Version) (r : List Char) (hd : digit + 1 < 3)
    (hr : r ≠ []) : parseAdvance digit v ('.' :: r) = .next r := by
  unfold parseAdvance
  have h : ¬ digit + 1 ≥ 3 := by omega
  simp [h, hr]

theorem parseAdvance_done (digit : Nat) (v v' : Version) (t : List Char)
    (h : parseAdvance digit v t = .done v') : v' = NoVersion ∨ t = [] := by
  unfold parseAdvance at h
  by_cases hd : digit + 1 ≥ 3
  · rw [if_pos hd] at h
    by_cases ht : t = []
    · exact Or.inr ht
    · rw [if_pos ht] at h
      injection h with h
      exact Or.inl h.symm
  · rw [if_neg hd] at h
    cases t with
    | nil => exact Or.inr rfl
    | cons c rest =>
      simp only at h
      by_cases hc : c ≠ '.'
      · rw [if_pos hc] at h
        injection h with h
        exact Or.inl h.symm
      · rw [if_neg hc] at h
        by_cases hr : rest = []
        · rw [if_pos hr] at h
          injection h with h
          exact Or.inl h.symm
        · rw [if_neg hr] at h
          cases h

theorem parseAdvance_next (digit : Nat) (v : Version) (t r : List Char)
    (h : parseAdvance digit v t = .next r) : t = '.' :: r ∧ r ≠ [] ∧ digit + 1 < 3 := by
  unfold parseAdvance at h
  by_cases hd : digit + 1 ≥ 3
  · rw [if_pos hd] at h
    by_cases ht : t ≠ []
    · rw [if_pos ht] at h; cases h
    · rw [if_neg ht] at h; cases h
  · rw [if_neg hd] at h
    cases t with
    | nil => cases h
    | cons c rest =>
      simp only at h
      by_cases hc : c ≠ '.'
      · rw [if_pos hc] at h; cases h
      · rw [if_neg hc] at h
        by_cases hr : rest = []
        · rw [if_pos hr] at h; cases h
        · rw [if_neg hr] at h
          injection h with h
          subst h
          have : c = '.' := not_not.1 hc
          subst this
          exact ⟨rfl, hr, by omega⟩

theorem parseLoop_joinDots (ns : List (List Char)) (h1 : 1 ≤ ns.length) (h3 : ns.length ≤ 3)
    (hnum : ∀ n ∈ ns, isVersionNumber n = true) (hlt : ∀ n ∈ ns, decimalValue n < 2 ^ 63) :
    parseLoop 3 0 {} (joinDots ns) = versionOf ns := by
  have hne : ∀ n ∈ ns, n ≠ [] := fun n hn => (isVersionNumber_digits n (hnum n hn)).1
  match ns, h1, h3, hnum, hlt, hne with
  | [n1], _, _, hnum, hlt, _ =>
    have e1 := splitNumber_append n1 [] (hnum n1 (by simp)) (Or.inl rfl)
    rw [List.append_nil] at e1
    have v1 := digitsValue_number n1 (hnum n1 (by simp)) (hlt n1 (by simp))
    rw [joinDots, parseLoop_eq 2 0 {} n1 rfl, e1]
    simp only [parseAdvance_nil, v1]
    simp [versionOf, Version.setIndex, decimalValue]
  | [n1, n2], _, _, hnum, hlt, hne =>
    have e1 := splitNumber_append n1 ('.' :: n2) (hnum n1 (by simp)) (Or.inr ⟨n2, rfl⟩)
    have e2 := splitNumber_append n2 [] (hnum n2 (by simp)) (Or.inl rfl)
    rw [List.append_nil] at e2
    have v1 := digitsValue_number n1 (hnum n1 (by simp)) (hlt n1 (by simp))
    have v2 := digitsValue_number n2 (hnum n2 (by simp)) (hlt n2 (by simp))
    have a1 := fun v => parseAdvance_dot 0 v n2 (by omega) (hne n2 (by simp))
    simp only [joinDots]
    rw [parseLoop_eq 2 0 {} _ rfl, e1]
    simp only [a1]
    rw [parseLoop_eq 1 1 _ _ (by rfl), e2]
    simp only [parseAdvance_nil, v1, v2]
    simp [versionOf, Version.setIndex, decimalValue]
  | [n1, n2, n3], _, _, hnum, hlt, hne =>
    have e1 := splitNumber_append n1 ('.' :: (n2 ++ '.' :: n3)) (hnum n1 (by simp))
      (Or.inr ⟨_, rfl⟩)
    have e2 := splitNumber_append n2 ('.' :: n3) (hnum n2 (by simp)) (Or.inr ⟨n3, rfl⟩)
    have e3 := splitNumber_append n3 [] (hnum n3 (by simp)) (Or.inl rfl)
    rw [List.append_nil] at e3
    have v1 := digitsValue_number n1 (hnum n1 (by simp)) (hlt n1 (by simp))
    have v2 := digitsValue_number n2 (hnum n2 (by simp)) (hlt n2 (by simp))
    have v3 := digitsValue_number n3 (hnum n3 (by simp)) (hlt n3 (by simp))
    have a1 := fun v => parseAdvance_dot 0 v (n2 ++ '.' :: n3) (by omega) (by simp)
    have a2 := fun v => parseAdvance_dot 1 v n3 (by omega) (hne n3 (by simp))
    simp only [joinDots]
    rw [parseLoop_eq 2 0 {} _ rfl, e1]
    simp only [a1]
    rw [parseLoop_eq 1 1 _ _ (by rfl), e2]
    simp only [a2]
    rw [parseLoop_eq 0 2 _ _ (by rfl), e3]
    simp only [parseAdvance_nil, v1, v2, v3]
    simp [versionOf, Version.setIndex, decimalValue]
  | [], h1, _, _, _, _ => simp at h1
  | _ :: _ :: _ :: _ :: _, _, h3, _, _, _ => simp at h3

theorem parseLoop_matches (runes : List Char) (h : parseLoop 3 0 {} runes ≠ NoVersion) :
    ∃ ns : List (List Char), 1 ≤ ns.length ∧ ns.length ≤ 3 ∧
      (∀ n ∈ ns, isVersionNumber n = true) ∧ runes = joinDots ns := by
  rw [parseLoop_eq 2 0 {} runes rfl] at h
  cases hs1 : splitNumber runes with
  | none => rw [hs1] at h; exact absurd rfl h
  | some p1 =>
    obtain ⟨n1, t1⟩ := p1
    obtain ⟨hr1, hn1⟩ := splitNumber_some runes n1 t1 hs1
    rw [hs1] at h
    simp only at h
    cases ha1 : parseAdvance 0 (Version.setIndex {} 0 (digitsValue 0 n1)) t1 with
    | done v =>
      rw [ha1] at h
      rcases parseAdvance_done _ _ _ _ ha1 with hv | ht
      · exact absurd hv h
      · refine ⟨[n1], by simp, by simp, by simpa using hn1, ?_⟩
        simp [joinDots, hr1, ht]
    | next r1 =>
      rw [ha1] at h
      simp only at h
      obtain ⟨ht1, _, _⟩ := parseAdvance_next _ _ _ _ ha1
      rw [parseLoop_eq 1 1 _ r1 (by rfl)] at h
      cases hs2 : splitNumber r1 with
      | none => rw [hs2] at h; exact absurd rfl h
      | some p2 =>
        obtain ⟨n2, t2⟩ := p2
        obtain ⟨hr2, hn2⟩ := splitNumber_some r1 n2 t2 hs2
        rw [hs2] at h
        simp only at h
        cases ha2 : parseAdvance 1
            (Version.setIndex (Version.setIndex {} 0 (digitsValue 0 n1)) 1 (digitsValue 0 n2))
            t2 with
        | done v =>
          rw [ha2] at h
          rcases parseAdvance_done _ _ _ _ ha2 with hv | ht
          · exact absurd hv h
          · refine ⟨[n1, n2], by simp, by simp, ?_, ?_⟩
            · intro n hn
              simp only [List.mem_cons, List.mem_singleton, List.not_mem_nil, or_false] at hn
              rcases hn with rfl | rfl <;> assumption
            · simp [joinDots, hr1, ht1, hr2, ht]
        | next r2 =>
          rw [ha2] at h
          simp only at h
          obtain ⟨ht2, _, _⟩ := parseAdvance_next _ _ _ _ ha2
          rw [parseLoop_eq 0 2 _ r2 (by rfl)] at h
          cases hs3 : splitNumber r2 with
          | none => rw [hs3] at h; exact absurd rfl h
          | some p3 =>
            obtain ⟨n3, t3⟩ := p3
            obtain ⟨hr3, hn3⟩ := splitNumber_some r2 n3 t3 hs3
            rw [hs3] at h
            simp only at h
            cases ha3 : parseAdvance 2
                (Version.setIndex
                  (Version.setIndex (Version.setIndex {} 0 (digitsValue 0 n1)) 1
                    (digitsValue 0 n2)) 2 (digitsValue 0 n3)) t3 with
            | done v =>
              rw [ha3] at h
              rcases parseAdvance_done _ _ _ _ ha3 with hv | ht
              · exact absurd hv h
              · refine ⟨[n1, n2, n3], by simp, by simp, ?_, ?_⟩
                · intro n hn
                  simp only [List.mem_cons, List.mem_singleton, List.not_mem_nil,
                    or_false] at hn
                  rcases hn with rfl | rfl | rfl <;> assumption
                · simp [joinDots, hr1, ht1, hr2, ht2, hr3, ht]
            | next r3 =>
              obtain ⟨_, _, hlt⟩ := parseAdvance_next _ _ _ _ ha3
              omega

theorem joinDots_head (ns : List (List Char)) (h1 : 1 ≤ ns.length)
    (hnum : ∀ n ∈ ns, isVersionNumber n = true) :
    ∃ c rest, joinDots ns = c :: rest ∧ c ≠ 'v' := by
  match ns, h1, hnum with
  | [], h1, _ => simp at h1
  | n :: more, _, hnum =>
    obtain ⟨hne, _, hv⟩ := isVersionNumber_digits n (hnum n (by simp))
    cases n with
    | nil => exact absurd rfl hne
    | cons c cs =>
      have hc : c ≠ 'v' := by
        intro hc
        apply hv
        simp [hc]
      cases more with
      | nil => exact ⟨c, cs, rfl, hc⟩
      | cons n2 more2 => exact ⟨c, cs ++ '.' :: joinDots (n2 :: more2), rfl, hc⟩

theorem parseVersionRunes_matches (s : List Char) (ns : List (List Char))
    (hm : matchesVersion s ns) (hlt : ∀ n ∈ ns, decimalValue n < 2 ^ 63) :
    parseVersionRunes s = versionOf ns := by
  obtain ⟨h1, h3, hnum, hs⟩ := hm
  obtain ⟨c, rest, hj, hc⟩ := joinDots_head ns h1 hnum
  have hp := parseLoop_joinDots ns h1 h3 hnum hlt
  rcases hs with rfl | rfl
  · rw [hj] at hp ⊢
    simp only [parseVersionRunes, if_neg hc]
    exact hp
  · have hne : joinDots ns ≠ [] := by rw [hj]; simp
    simp only [parseVersionRunes, if_true, if_neg hne]
    exact hp

theorem parseVersionRunes_other (s : List Char)
    (h : ¬ ∃ ns, matchesVersion s ns) : parseVersionRunes s = NoVersion := by
  by_contra hv
  apply h
  cases s with
  | nil => exact absurd rfl hv
  | cons c rest =>
    unfold parseVersionRunes at hv
    simp only at hv
    by_cases hc : c = 'v'
    · subst hc
      rw [if_pos rfl] at hv
      by_cases hr : rest = []
      · rw [if_pos hr] at hv; exact absurd rfl hv
      · rw [if_neg hr] at hv
        obtain ⟨ns, h1, h3, hnum, hj⟩ := parseLoop_matches rest hv
        exact ⟨ns, h1, h3, hnum, Or.inr (by rw [hj])⟩
    · rw [if_neg hc] at hv
      obtain ⟨ns, h1, h3, hnum, hj⟩ := parseLoop_matches (c :: rest) hv
      exact ⟨ns, h1, h3, hnum, Or.inl hj⟩

/-- C10, as the code has it: ParseVersion returns the triple of the decimal
numbers of a string that matches `v?N(.N(.N)?)?`, each `N` being 0 or a string
of digits without a leading zero, when every number is below 2^63, and returns
NoVersion for every string that does not match, among them `v`, `01`, `1.`,
`1.2.3.4` and `1.0.0-rc1`. -/
theorem parseVersion_grammar (s : String) :
    (∀ ns, matchesVersion s.data ns → (∀ n ∈ ns, decimalValue n < 2 ^ 63) →
      ParseVersion s = versionOf ns) ∧
    ((¬ ∃ ns, matchesVersion s.data ns) → ParseVersion s = NoVersion) ∧
    ParseVersion "v" = NoVersion ∧ ParseVersion "01" = NoVersion ∧
    ParseVersion "1." = NoVersion ∧ ParseVersion "1.2.3.4" = NoVersion ∧
    ParseVersion "1.0.0-rc1" = NoVersion :=
  ⟨fun ns hm hlt => parseVersionRunes_matches s.data ns hm hlt,
    fun h => parseVersionRunes_other s.data h,
    by decide, by decide, by decide, by decide, by decide⟩

/-- C10, witness: `v1.20.3` matches with the numbers 1, 20 and 3, and `1.2x`
does not match. -/
theorem parseVersion_grammar_witness :
    matchesVersion "v1.20.3".data ["1".data, "20".data, "3".data] ∧
    ParseVersion "v1.20.3" = { major := 1, minor := 20, patch := 3 } :=
  ⟨by decide,
    (parseVersion_grammar "v1.20.3").1 ["1".data, "20".data, "3".data] (by decide)
      (by decide)⟩

set_option maxRecDepth 100000 in
/-- C10, counterexample: the string `9223372036854775808` matches the grammar
as a single number, and ParseVersion does not return the triple of that number:
the major number wraps around to -9223372036854775808. -/
theorem parseVersion_wraps_around :
    matchesVersion "9223372036854775808".data ["9223372036854775808".data] ∧
    versionOf ["9223372036854775808".data] = { major := 9223372036854775808 } ∧
    ParseVersion "9223372036854775808" = { major := -9223372036854775808 } ∧
    ParseVersion "9223372036854775808" ≠ versionOf ["9223372036854775808".data] := by
  refine ⟨by decide, by decide, by decide, by decide⟩
/-! ### The invariant of the solver -/

theorem validFrontier_nil : ValidFrontier ([], []) := by
  refine ⟨by simp, ?_⟩
  intro n i
  simp [mapGet]

theorem validFrontier_append (fp : Modules × Problem) (m : Module) (hv : ValidFrontier fp)
    (hm : m.Name ∉ fp.1.map (fun x => x.Name)) : ValidFrontier (appendFrontier fp m) := by
  obtain ⟨hnd, hidx⟩ := hv
  refine ⟨?_, ?_⟩
  · simp only [appendFrontier, List.map_append, List.map_cons, List.map_nil]
    rw [List.nodup_append]
    refine ⟨hnd, by simp, ?_⟩
    intro a ha hb
    simp only [List.mem_singleton] at hb
    subst hb
    exact hm ha
  · intro n i
    simp only [appendFrontier]
    by_cases hn : n = m.Name
    · subst hn
      rw [mapGet_mapSet_self]
      constructor
      · intro h
        injection h with h
        subst h
        simp
      · intro h
        rcases Nat.lt_trichotomy i fp.1.length with hlt | heq | hgt
        · exfalso
          rw [List.getElem?_append_left hlt] at h
          apply hm
          rw [List.getElem?_eq_getElem hlt] at h
          simp only [Option.map_some', Option.some.injEq] at h
          rw [← h]
          exact List.mem_map_of_mem _ (List.getElem_mem _)
        · rw [heq]
        · exfalso
          rw [List.getElem?_eq_none (by simp; omega)] at h
          simp at h
    · rw [mapGet_mapSet_ne _ _ _ _ hn, hidx n i]
      rcases Nat.lt_trichotomy i fp.1.length with hlt | heq | hgt
      · rw [List.getElem?_append_left hlt]
      · subst heq
        simp only [List.getElem?_eq_none (le_refl _), Option.map_none', List.getElem?_concat_length,
          Option.map_some', Option.some.injEq]
        constructor
        · intro h; cases h
        · intro h; exact absurd h.symm hn
      · rw [List.getElem?_eq_none (by omega), List.getElem?_eq_none (by simp; omega)]

theorem considerFold_valid (choice : Module) (l : Modules) (fp : Modules × Problem)
    (hv : ValidFrontier fp) (hnd : (l.map (fun m => m.Name)).Nodup)
    (hdisj : ∀ m ∈ l, m.Name ∉ fp.1.map (fun x => x.Name)) :
    ValidFrontier (l.foldl
      (fun fp module => if choice.Name ≠ module.Name then appendFrontier fp module else fp) fp) ∧
    (l.foldl
      (fun fp module => if choice.Name ≠ module.Name then appendFrontier fp module else fp) fp).1
      = fp.1 ++ l.filter (fun m => decide (choice.Name ≠ m.Name)) := by
  induction l generalizing fp with
  | nil => simp [hv]
  | cons m rest ih =>
    simp only [List.map_cons, List.nodup_cons] at hnd
    simp only [List.foldl_cons]
    by_cases hc : choice.Name ≠ m.Name
    · rw [if_pos hc]
      have hv' := validFrontier_append fp m hv (hdisj m (List.mem_cons_self _ _))
      have hdisj' : ∀ x ∈ rest, x.Name ∉ (appendFrontier fp m).1.map (fun x => x.Name) := by
        intro x hx
        simp only [appendFrontier, List.map_append, List.map_cons, List.map_nil,
          List.mem_append, List.mem_singleton, not_or]
        refine ⟨hdisj x (List.mem_cons_of_mem _ hx), ?_⟩
        intro hxm
        apply hnd.1
        rw [← hxm]
        exact List.mem_map_of_mem _ hx
      obtain ⟨h1, h2⟩ := ih (appendFrontier fp m) hv' hnd.2 hdisj'
      refine ⟨h1, ?_⟩
      rw [h2]
      simp [appendFrontier, hc]
    · rw [if_neg hc]
      obtain ⟨h1, h2⟩ := ih fp hv hnd.2 (fun x hx => hdisj x (List.mem_cons_of_mem _ hx))
      refine ⟨h1, ?_⟩
      rw [h2]
      simp [hc]

theorem considerFrontier_valid (choice : Module) (frontier : Modules)
    (hnd : (frontier.map (fun m => m.Name)).Nodup) :
    ValidFrontier (considerFrontier choice frontier) ∧
    (considerFrontier choice frontier).1
      = frontier.filter (fun m => decide (choice.Name ≠ m.Name)) := by
  have := considerFold_valid choice frontier ([], []) validFrontier_nil hnd (by simp)
  simpa [considerFrontier] using this

theorem mem_mapDelete {V : Type} (m : List (String × V)) (k : String) (e : String × V) :
    e ∈ mapDelete m k ↔ e ∈ m ∧ e.1 ≠ k := by
  induction m with
  | nil => simp [mapDelete]
  | cons x rest ih =>
    unfold mapDelete
    by_cases h : x.1 = k
    · rw [if_pos h, ih]
      constructor
      · rintro ⟨h1, h2⟩; exact ⟨List.mem_cons_of_mem _ h1, h2⟩
      · rintro ⟨h1, h2⟩
        rcases List.mem_cons.1 h1 with rfl | h1
        · exact absurd h h2
        · exact ⟨h1, h2⟩
    · rw [if_neg h, List.mem_cons, ih]
      constructor
      · rintro (rfl | ⟨h1, h2⟩)
        · exact ⟨List.mem_cons_self _ _, h⟩
        · exact ⟨List.mem_cons_of_mem _ h1, h2⟩
      · rintro ⟨h1, h2⟩
        rcases List.mem_cons.1 h1 with rfl | h1
        · exact Or.inl rfl
        · exact Or.inr ⟨h1, h2⟩

theorem mapDelete_keys {V : Type} (m : List (String × V)) (k : String) :
    (mapDelete m k).map (fun e => e.1) = (m.map (fun e => e.1)).filter (fun x => decide (x ≠ k)) := by
  induction m with
  | nil => simp [mapDelete]
  | cons x rest ih =>
    unfold mapDelete
    by_cases h : x.1 = k
    · rw [if_pos h, ih]; simp [h]
    · rw [if_neg h]; simp [h, ih]

theorem mapDelete_keys_nodup {V : Type} (m : List (String × V)) (k : String)
    (h : (m.map (fun e => e.1)).Nodup) : ((mapDelete m k).map (fun e => e.1)).Nodup := by
  rw [mapDelete_keys]
  exact h.filter _

theorem mapDelete_not_mem {V : Type} (m : List (String × V)) (k : String) :
    k ∉ (mapDelete m k).map (fun e => e.1) := by
  rw [mapDelete_keys]
  simp

theorem mapSet_of_not_mem {V : Type} (m : List (String × V)) (k : String) (v : V)
    (h : k ∉ m.map (fun e => e.1)) : mapSet m k v = m ++ [(k, v)] := by
  induction m with
  | nil => simp [mapSet]
  | cons x rest ih =>
    simp only [List.map_cons, List.mem_cons, not_or] at h
    unfold mapSet
    rw [if_neg (fun hx => h.1 hx.symm), ih h.2]
    rfl

theorem mapSet_keys_of_mem {V : Type} (m : List (String × V)) (k : String) (v : V)
    (h : k ∈ m.map (fun e => e.1)) :
    (mapSet m k v).map (fun e => e.1) = m.map (fun e => e.1) := by
  induction m with
  | nil => simp at h
  | cons x rest ih =>
    unfold mapSet
    by_cases hx : x.1 = k
    · rw [if_pos hx]; simp
    · rw [if_neg hx]
      simp only [List.map_cons, List.mem_cons] at h
      rcases h with h | h
      · exact absurd h.symm hx
      · simp [ih h]

theorem mem_mapSet {V : Type} (m : List (String × V)) (k : String) (v : V) (e : String × V)
    (h : e ∈ mapSet m k v) : e ∈ m ∨ e = (k, v) := by
  induction m with
  | nil =>
    simp only [mapSet, List.mem_singleton] at h
    exact Or.inr h
  | cons x rest ih =>
    unfold mapSet at h
    by_cases hx : x.1 = k
    · rw [if_pos hx] at h
      rcases List.mem_cons.1 h with h | h
      · right; rw [h, hx]
      · left; exact List.mem_cons_of_mem _ h
    · rw [if_neg hx] at h
      rcases List.mem_cons.1 h with h | h
      · left; rw [h]; exact List.mem_cons_self _ _
      · rcases ih h with h | h
        · left; exact List.mem_cons_of_mem _ h
        · right; exact h

theorem mapGet_isSome_iff {V : Type} (m : List (String × V)) (k : String) :
    (mapGet m k).isSome = true ↔ k ∈ m.map (fun e => e.1) := by
  induction m with
  | nil => simp [mapGet]
  | cons x rest ih =>
    unfold mapGet
    by_cases hx : x.1 = k
    · rw [if_pos hx]; simp [hx]
    · rw [if_neg hx, ih]
      simp only [List.map_cons, List.mem_cons]
      constructor
      · intro h; exact Or.inr h
      · rintro (h | h)
        · exact absurd h.symm hx
        · exact h

theorem mapGet_some_mem {V : Type} (m : List (String × V)) (k : String) (v : V)
    (h : mapGet m k = some v) : (k, v) ∈ m := by
  induction m with
  | nil => simp [mapGet] at h
  | cons x rest ih =>
    unfold mapGet at h
    by_cases hx : x.1 = k
    · rw [if_pos hx] at h
      injection h with h
      rw [← hx, ← h]
      exact List.mem_cons_self _ _
    · rw [if_neg hx] at h
      exact List.mem_cons_of_mem _ (ih h)

theorem mapGet_of_mem_nodup {V : Type} (m : List (String × V)) (e : String × V)
    (hnd : (m.map (fun e => e.1)).Nodup) (he : e ∈ m) : mapGet m e.1 = some e.2 := by
  induction m with
  | nil => cases he
  | cons x rest ih =>
    simp only [List.map_cons, List.nodup_cons] at hnd
    unfold mapGet
    rcases List.mem_cons.1 he with rfl | he
    · rw [if_pos rfl]
    · have : x.1 ≠ e.1 := by
        intro hx
        apply hnd.1
        rw [hx]
        exact List.mem_map_of_mem _ he
      rw [if_neg this]
      exact ih hnd.2 he

theorem problemIndexes_mem (problem : Problem) (frontier : Modules)
    (h : ProblemIndexes problem frontier) (n : String) :
    (mapGet problem n).isSome = true ↔ n ∈ frontier.map (fun m => m.Name) := by
  constructor
  · intro hs
    obtain ⟨i, hi⟩ := Option.isSome_iff_exists.1 hs
    have := (h n i).1 hi
    cases hf : frontier[i]? with
    | none => rw [hf] at this; simp at this
    | some m =>
      rw [hf] at this
      simp only [Option.map_some', Option.some.injEq] at this
      rw [← this]
      exact List.mem_map_of_mem _ (List.getElem?_mem hf)
  · intro hn
    obtain ⟨m, hm, rfl⟩ := List.mem_map.1 hn
    obtain ⟨i, hi, hget⟩ := List.getElem_of_mem hm
    have : (frontier[i]?).map (fun m => m.Name) = some m.Name := by
      rw [List.getElem?_eq_getElem hi, hget]; rfl
    rw [(h m.Name i).2 this]
    rfl

theorem inv_local {s : State} (h : s.Inv) : s.Local := by
  cases h; assumption

theorem inv_back {s : State} (h : s.Inv) : ∀ e ∈ s.Solution, e.2.Back.Inv := by
  cases h; assumption

theorem consider_Frontier (s : State) (c : Module) :
    (s.Consider c).Frontier = (considerFrontier c s.Frontier).1 := by
  unfold State.Consider; split <;> rfl

theorem consider_Problem (s : State) (c : Module) :
    (s.Consider c).Problem = (considerFrontier c s.Frontier).2 := by
  unfold State.Consider; split <;> rfl

theorem consider_Solution (s : State) (c : Module) :
    (s.Consider c).Solution =
      if c.Name ≠ "" then mapSet (mapDelete s.Solution c.Name) c.Name { Module := c, Back := s }
      else mapDelete s.Solution c.Name := by
  unfold State.Consider; split <;> rfl

theorem consider_Solution_mem (s : State) (c : Module) (e : String × Partial State)
    (he : e ∈ (s.Consider c).Solution) :
    (e ∈ s.Solution ∧ e.1 ≠ c.Name) ∨ (c.Name ≠ "" ∧ e = (c.Name, { Module := c, Back := s })) := by
  rw [consider_Solution] at he
  by_cases hc : c.Name ≠ ""
  · rw [if_pos hc] at he
    rcases mem_mapSet _ _ _ _ he with h | h
    · exact Or.inl ((mem_mapDelete _ _ _).1 h)
    · exact Or.inr ⟨hc, h⟩
  · rw [if_neg hc] at he
    exact Or.inl ((mem_mapDelete _ _ _).1 he)

theorem consider_Solution_keys (s : State) (c : Module) :
    (s.Consider c).Solution.map (fun e => e.1) =
      if c.Name ≠ "" then (mapDelete s.Solution c.Name).map (fun e => e.1) ++ [c.Name]
      else (mapDelete s.Solution c.Name).map (fun e => e.1) := by
  rw [consider_Solution]
  by_cases hc : c.Name ≠ ""
  · rw [if_pos hc, if_pos hc, mapSet_of_not_mem _ _ _ (mapDelete_not_mem _ _)]
    simp
  · rw [if_neg hc, if_neg hc]

theorem consider_local (s : State) (c : Module) (h : s.Local) : (s.Consider c).Local := by
  obtain ⟨hv, hk, hkn, hd⟩ := h
  have hcf := considerFrontier_valid c s.Frontier hv.1
  refine ⟨?_, ?_, ?_, ?_⟩
  · rw [consider_Frontier, consider_Problem]
    exact hcf.1
  · rw [consider_Solution_keys]
    have hnd := mapDelete_keys_nodup s.Solution c.Name hk
    by_cases hc : c.Name ≠ ""
    · rw [if_pos hc, List.nodup_append]
      refine ⟨hnd, by simp, ?_⟩
      intro a ha hb
      simp only [List.mem_singleton] at hb
      subst hb
      exact mapDelete_not_mem _ _ ha
    · rw [if_neg hc]; exact hnd
  · intro e he
    rcases consider_Solution_mem s c e he with ⟨h1, _⟩ | ⟨_, rfl⟩
    · exact hkn e h1
    · rfl
  · intro m hm e he
    rw [consider_Frontier, hcf.2, List.mem_filter] at hm
    simp only [ne_eq, decide_not, Bool.not_eq_true', decide_eq_false_iff_not] at hm
    rcases consider_Solution_mem s c e he with ⟨h1, _⟩ | ⟨_, rfl⟩
    · exact hd m hm.1 e h1
    · exact fun h => hm.2 h.symm

theorem consider_inv (s : State) (c : Module) (h : s.Inv) : (s.Consider c).Inv := by
  refine State.Inv.intro _ (consider_local s c (inv_local h)) ?_
  intro e he
  rcases consider_Solution_mem s c e he with ⟨h1, _⟩ | ⟨_, rfl⟩
  · exact inv_back h e h1
  · exact h

theorem newState_inv : NewState.Inv := by
  refine State.Inv.intro _ ⟨validFrontier_nil, ?_, ?_, ?_⟩ ?_ <;> simp [NewState]

theorem constrainBacktrack_inv (s : State) (m : Module) (h : s.Inv) :
    (constrainBacktrack s m).Inv := by
  unfold constrainBacktrack
  cases hg : mapGet s.Solution m.Name with
  | none => exact h
  | some p =>
    simp only
    split
    · exact consider_inv _ _ (inv_back h _ (mapGet_some_mem _ _ _ hg))
    · exact h

theorem foldl_constrainBacktrack_inv (ms : Modules) (s : State) (h : s.Inv) :
    (ms.foldl constrainBacktrack s).Inv := by
  induction ms generalizing s with
  | nil => exact h
  | cons m rest ih => exact ih _ (constrainBacktrack_inv s m h)

theorem problemIndexes_names (problem : Problem) (f f' : Modules)
    (hn : f.map (fun m => m.Name) = f'.map (fun m => m.Name))
    (h : ProblemIndexes problem f) : ProblemIndexes problem f' := by
  intro n i
  rw [h n i, ← List.getElem?_map, ← List.getElem?_map, hn]

theorem set_names (l : Modules) (i : Nat) (p x : Module) (hp : l[i]? = some p)
    (hx : x.Name = p.Name) : (l.set i x).map (fun m => m.Name) = l.map (fun m => m.Name) := by
  apply List.ext_getElem?
  intro j
  rw [List.getElem?_map, List.getElem?_map, List.getElem?_set]
  by_cases hij : i = j
  · subst hij
    have hlt : i < l.length := by
      rcases Nat.lt_or_ge i l.length with h | h
      · exact h
      · rw [List.getElem?_eq_none h] at hp; cases hp
    simp [hlt, hp, hx]
  · simp [hij]

theorem mergeFrontier_Name (problem m : Module) (h : problem.Name = m.Name) :
    (mergeFrontier problem m).Name = problem.Name := by
  unfold mergeFrontier
  simp only
  split <;> split <;> first | exact h.symm | rfl

theorem promoteEntry_Back (p : Partial State) (m : Module) : (promoteEntry p m).Back = p.Back := by
  unfold promoteEntry; split <;> rfl

theorem promoteEntry_Name (p : Partial State) (m : Module) :
    (promoteEntry p m).Module.Name = p.Module.Name := by
  unfold promoteEntry; split <;> rfl

theorem promoteSolution_mem (s : State) (p : Partial State) (m : Module)
    (e : String × Partial State) (he : e ∈ (promoteSolution s p m).Solution) :
    e ∈ s.Solution ∨ e = (m.Name, promoteEntry p m) := by
  unfold promoteSolution at he
  split at he
  · exact mem_mapSet _ _ _ _ he
  · exact Or.inl he

theorem promoteSolution_keys (s : State) (p : Partial State) (m : Module)
    (hs : mapGet s.Solution m.Name = some p) :
    (promoteSolution s p m).Solution.map (fun e => e.1) = s.Solution.map (fun e => e.1) := by
  unfold promoteSolution
  split
  · apply mapSet_keys_of_mem
    rw [← mapGet_isSome_iff, hs]; rfl
  · rfl

theorem promoteSolution_local (s : State) (p : Partial State) (m : Module)
    (hs : mapGet s.Solution m.Name = some p) (h : s.Local) : (promoteSolution s p m).Local := by
  obtain ⟨hv, hk, hkn, hd⟩ := h
  have hmem := mapGet_some_mem _ _ _ hs
  refine ⟨?_, ?_, ?_, ?_⟩
  · rw [promoteSolution_Frontier, promoteSolution_Problem]; exact hv
  · rw [promoteSolution_keys s p m hs]; exact hk
  · intro e he
    rcases promoteSolution_mem s p m e he with h1 | rfl
    · exact hkn e h1
    · rw [promoteEntry_Name]; exact hkn _ hmem
  · intro x hx e he
    rw [promoteSolution_Frontier] at hx
    rcases promoteSolution_mem s p m e he with h1 | rfl
    · exact hd x hx e h1
    · exact hd x hx (m.Name, p) hmem

theorem promoteSolution_inv (s : State) (p : Partial State) (m : Module)
    (hs : mapGet s.Solution m.Name = some p) (h : s.Inv) : (promoteSolution s p m).Inv := by
  refine State.Inv.intro _ (promoteSolution_local s p m hs (inv_local h)) ?_
  intro e he
  rcases promoteSolution_mem s p m e he with h1 | rfl
  · exact inv_back h e h1
  · rw [promoteEntry_Back]; exact inv_back h _ (mapGet_some_mem _ _ _ hs)

theorem enqueue_local (s : State) (m : Module) (h : s.Local)
    (hp : mapGet s.Problem m.Name = none) : (enqueue s m).Local := by
  obtain ⟨hv, hk, hkn, hd⟩ := h
  have hnot : m.Name ∉ s.Frontier.map (fun x => x.Name) := by
    rw [← problemIndexes_mem s.Problem s.Frontier hv.2, hp]; simp
  refine ⟨?_, ?_, ?_, ?_⟩
  · exact validFrontier_append (s.Frontier, s.Problem) m hv hnot
  · exact mapDelete_keys_nodup _ _ hk
  · intro e he
    exact hkn e ((mem_mapDelete _ _ _).1 he).1
  · intro x hx e he
    have he' := (mem_mapDelete _ _ _).1 he
    simp only [enqueue, List.mem_append, List.mem_singleton] at hx
    rcases hx with hx | rfl
    · exact hd x hx e he'.1
    · exact fun h => he'.2 h.symm

theorem enqueue_inv (s : State) (m : Module) (h : s.Inv)
    (hp : mapGet s.Problem m.Name = none) : (enqueue s m).Inv := by
  refine State.Inv.intro _ (enqueue_local s m (inv_local h) hp) ?_
  intro e he
  exact inv_back h e ((mem_mapDelete _ _ _).1 he).1

theorem constrainMerge_inv (s : State) (m : Module) (h : s.Inv) : (constrainMerge s m).Inv := by
  cases hp : mapGet s.Problem m.Name with
  | some i =>
    cases hf : s.Frontier[i]? with
    | none => rw [constrainMerge_of_index_none s m i hp hf]; exact h
    | some problem =>
      rw [constrainMerge_of_index s m i problem hp hf]
      obtain ⟨hv, hk, hkn, hd⟩ := inv_local h
      have hpn : problem.Name = m.Name := by
        have := (hv.2 m.Name i).1 hp
        rw [hf] at this
        simpa using this
      have hnames := set_names s.Frontier i problem (mergeFrontier problem m) hf
        (mergeFrontier_Name problem m hpn)
      refine State.Inv.intro _ ⟨⟨?_, ?_⟩, hk, hkn, ?_⟩ (fun e he => inv_back h e he)
      · show ((s.Frontier.set i (mergeFrontier problem m)).map (fun m => m.Name)).Nodup
        rw [hnames]; exact hv.1
      · exact problemIndexes_names _ _ _ hnames.symm hv.2
      · intro x hx e he
        have hx' : x.Name ∈ (s.Frontier.set i (mergeFrontier problem m)).map (fun m => m.Name) :=
          List.mem_map_of_mem _ hx
        rw [hnames] at hx'
        obtain ⟨y, hy, hyx⟩ := List.mem_map.1 hx'
        rw [← hyx]
        exact hd y hy e he
  | none =>
    cases hs : mapGet s.Solution m.Name with
    | none => rw [constrainMerge_of_new s m hp hs]; exact enqueue_inv s m h hp
    | some solution =>
      rw [constrainMerge_of_solution s m solution hp hs]
      have hps := promoteSolution_inv s solution m hs h
      split
      · exact enqueue_inv _ m hps (by rw [promoteSolution_Problem]; exact hp)
      · exact hps

theorem constrainFinished_inv (s : State) (ms : Modules) (test : Bool) (h : s.Inv) :
    (constrainFinished s ms test).Inv := by
  unfold constrainFinished
  have h0 : (List.foldl constrainBacktrack s ms).Clone.Inv :=
    consider_inv _ _ (foldl_constrainBacktrack_inv ms s h)
  generalize (List.foldl constrainBacktrack s ms).Clone = s0 at h0
  induction ms generalizing s0 with
  | nil => exact h0
  | cons m rest ih => exact ih _ (constrainMerge_inv s0 (applyTest test m) h0)

theorem constrain_inv {σ : Type} (loader : SolverLoader σ) (ls : σ) (s : State) (ms : Modules)
    (test : Bool) (h : s.Inv) : (s.Constrain loader ls ms test).1.1.Inv := by
  unfold State.Constrain
  split
  · exact h
  · exact constrainFinished_inv s _ test h

theorem solve_inv {σ : Type} (loader : SolverLoader σ) (fuel : Nat) (ls ls' : σ)
    (s s' : State) (err : Option String) (h : s.Inv)
    (hs : s.Solve loader fuel ls = some ((s', err), ls')) : s'.Inv := by
  induction fuel generalizing s ls with
  | zero =>
    unfold State.Solve at hs
    split at hs
    · injection hs with hs
      injection hs with hs
      injection hs with hs
      rw [← hs]; exact h
    · cases hs
  | succ fuel ih =>
    unfold State.Solve at hs
    split at hs
    · injection hs with hs
      injection hs with hs
      injection hs with hs
      rw [← hs]; exact h
    · rename_i consider rest hfr
      have hc := constrain_inv loader ls (s.Consider consider) consider.Modules consider.Test
        (consider_inv s consider h)
      split at hs
      · rename_i st e ls1 heq
        injection hs with hs
        injection hs with hs
        injection hs with hs
        rw [heq] at hc
        rw [← hs]; exact hc
      · rename_i st ls1 heq
        rw [heq] at hc
        exact ih ls1 st hc hs

theorem lockFrontierFold_valid (choice : Module) (l : Modules)
    (acc : (Modules × Problem) × Bool)
    (hnd : (l.map (fun m => m.Name)).Nodup) (hv : ValidFrontier acc.1)
    (hdisj : ∀ m ∈ l, m.Name ∉ acc.1.1.map (fun x => x.Name))
    (hadd : choice.Name ∈ acc.1.1.map (fun x => x.Name) → acc.2 = true) :
    ValidFrontier (l.foldl (lockFrontierStep choice) acc).1 ∧
    (∀ n ∈ (l.foldl (lockFrontierStep choice) acc).1.1.map (fun x => x.Name),
      n ∈ acc.1.1.map (fun x => x.Name) ∨ n ∈ l.map (fun x => x.Name)) ∧
    (choice.Name ∈ (l.foldl (lockFrontierStep choice) acc).1.1.map (fun x => x.Name) →
      (l.foldl (lockFrontierStep choice) acc).2 = true) := by
  induction l generalizing acc with
  | nil => exact ⟨hv, fun n hn => Or.inl hn, hadd⟩
  | cons m rest ih =>
    simp only [List.map_cons, List.nodup_cons] at hnd
    simp only [List.foldl_cons]
    have happ : ValidFrontier (appendFrontier acc.1 m) :=
      validFrontier_append acc.1 m hv (hdisj m (List.mem_cons_self _ _))
    have hdisj' : ∀ x ∈ rest, x.Name ∉ (appendFrontier acc.1 m).1.map (fun x => x.Name) := by
      intro x hx
      simp only [appendFrontier, List.map_append, List.map_cons, List.map_nil,
        List.mem_append, List.mem_singleton, not_or]
      refine ⟨hdisj x (List.mem_cons_of_mem _ hx), ?_⟩
      intro hxm
      apply hnd.1
      rw [← hxm]
      exact List.mem_map_of_mem _ hx
    have hnames : ∀ n, n ∈ (appendFrontier acc.1 m).1.map (fun x => x.Name) →
        n ∈ acc.1.1.map (fun x => x.Name) ∨ n = m.Name := by
      intro n hn
      simpa [appendFrontier] using hn
    have key : ∀ acc' : (Modules × Problem) × Bool,
        ValidFrontier acc'.1 →
        (∀ x ∈ rest, x.Name ∉ acc'.1.1.map (fun x => x.Name)) →
        (choice.Name ∈ acc'.1.1.map (fun x => x.Name) → acc'.2 = true) →
        (∀ n ∈ acc'.1.1.map (fun x => x.Name),
          n ∈ acc.1.1.map (fun x => x.Name) ∨ n = m.Name) →
        ValidFrontier (rest.foldl (lockFrontierStep choice) acc').1 ∧
        (∀ n ∈ (rest.foldl (lockFrontierStep choice) acc').1.1.map (fun x => x.Name),
          n ∈ acc.1.1.map (fun x => x.Name) ∨
            n ∈ (m.Name :: rest.map (fun x => x.Name))) ∧
        (choice.Name ∈ (rest.foldl (lockFrontierStep choice) acc').1.1.map (fun x => x.Name) →
          (rest.foldl (lockFrontierStep choice) acc').2 = true) := by
      intro acc' h1 h2 h3 h4
      obtain ⟨r1, r2, r3⟩ := ih acc' hnd.2 h1 h2 h3
      refine ⟨r1, ?_, r3⟩
      intro n hn
      rcases r2 n hn with h | h
      · rcases h4 n h with h | h
        · exact Or.inl h
        · exact Or.inr (by rw [h]; exact List.mem_cons_self _ _)
      · exact Or.inr (List.mem_cons_of_mem _ h)
    by_cases hmc : m.Name = choice.Name
    · by_cases hb : choice.Before m = true
      · have hstep : lockFrontierStep choice acc m = (appendFrontier acc.1 m, true) := by
          unfold lockFrontierStep; rw [if_pos hmc, if_pos hb]
        rw [hstep]
        exact key _ happ hdisj' (fun _ => rfl) hnames
      · have hstep : lockFrontierStep choice acc m = acc := by
          unfold lockFrontierStep; rw [if_pos hmc, if_neg hb]
        rw [hstep]
        exact key acc hv (fun x hx => hdisj x (List.mem_cons_of_mem _ hx)) hadd
          (fun n hn => Or.inl hn)
    · have hstep : lockFrontierStep choice acc m = (appendFrontier acc.1 m, acc.2) := by
        unfold lockFrontierStep; rw [if_neg hmc]
      rw [hstep]
      refine key _ happ hdisj' ?_ hnames
      intro hc
      rcases hnames _ hc with h | h
      · exact hadd h
      · exact absurd h.symm hmc

theorem lockSolutionFold_valid (choice : Module) (es : Solution)
    (acc : ((Modules × Problem) × Bool) × Solution)
    (hes : (es.map (fun e => e.1)).Nodup)
    (hesn : ∀ e ∈ es, e.2.Module.Name = e.1 ∧ e.2.Back.Inv)
    (h1 : ValidFrontier acc.1.1)
    (h2 : choice.Name ∈ acc.1.1.1.map (fun x => x.Name) → acc.1.2 = true)
    (h3 : ∀ e ∈ es, e.1 ∉ acc.1.1.1.map (fun x => x.Name))
    (h4 : (acc.2.map (fun e => e.1)).Nodup ∧
      ∀ e ∈ acc.2, e.2.Module.Name = e.1 ∧ e.2.Back.Inv ∧ e.1 ≠ choice.Name)
    (h5 : ∀ e ∈ es, e.1 ∉ acc.2.map (fun e => e.1))
    (h6 : ∀ x ∈ acc.1.1.1, ∀ e ∈ acc.2, x.Name ≠ e.1) :
    ValidFrontier (es.foldl (lockSolutionStep choice) acc).1.1 ∧
    (choice.Name ∈ (es.foldl (lockSolutionStep choice) acc).1.1.1.map (fun x => x.Name) →
      (es.foldl (lockSolutionStep choice) acc).1.2 = true) ∧
    (((es.foldl (lockSolutionStep choice) acc).2.map (fun e => e.1)).Nodup ∧
      ∀ e ∈ (es.foldl (lockSolutionStep choice) acc).2,
        e.2.Module.Name = e.1 ∧ e.2.Back.Inv ∧ e.1 ≠ choice.Name) ∧
    (∀ x ∈ (es.foldl (lockSolutionStep choice) acc).1.1.1,
      ∀ e ∈ (es.foldl (lockSolutionStep choice) acc).2, x.Name ≠ e.1) := by
  induction es generalizing acc with
  | nil => exact ⟨h1, h2, h4, h6⟩
  | cons e rest ih =>
    simp only [List.map_cons, List.nodup_cons] at hes
    simp only [List.foldl_cons]
    have hrestn : ∀ e' ∈ rest, e'.2.Module.Name = e'.1 ∧ e'.2.Back.Inv :=
      fun e' he' => hesn e' (List.mem_cons_of_mem _ he')
    have hne : ∀ e' ∈ rest, e'.1 ≠ e.1 := by
      intro e' he' h
      apply hes.1
      rw [← h]
      exact List.mem_map_of_mem _ he'
    have hen := hesn e (List.mem_cons_self _ _)
    by_cases hmc : e.2.Module.Name = choice.Name
    · by_cases hb : choice.Before e.2.Module = true
      · have hstep : lockSolutionStep choice acc e
            = ((appendFrontier acc.1.1 e.2.Module, true), acc.2) := by
          unfold lockSolutionStep; rw [if_pos hmc, if_pos hb]
        rw [hstep]
        apply ih _ hes.2 hrestn
        · apply validFrontier_append _ _ h1
          rw [hen.1]
          exact h3 e (List.mem_cons_self _ _)
        · intro _; rfl
        · intro e' he'
          simp only [appendFrontier, List.map_append, List.map_cons, List.map_nil,
            List.mem_append, List.mem_singleton, not_or]
          refine ⟨h3 e' (List.mem_cons_of_mem _ he'), ?_⟩
          rw [hen.1]
          exact hne e' he'
        · exact h4
        · exact fun e' he' => h5 e' (List.mem_cons_of_mem _ he')
        · intro x hx e' he'
          simp only [appendFrontier, List.mem_append, List.mem_singleton] at hx
          rcases hx with hx | rfl
          · exact h6 x hx e' he'
          · rw [hmc]
            exact fun h => (h4.2 e' he').2.2 h.symm
      · have hstep : lockSolutionStep choice acc e = acc := by
          unfold lockSolutionStep; rw [if_pos hmc, if_neg hb]
        rw [hstep]
        exact ih acc hes.2 hrestn h1 h2 (fun e' he' => h3 e' (List.mem_cons_of_mem _ he')) h4
          (fun e' he' => h5 e' (List.mem_cons_of_mem _ he')) h6
    · have hstep : lockSolutionStep choice acc e
          = (acc.1, mapSet acc.2 e.1 { Module := e.2.Module, Back := e.2.Back.Consider choice }) := by
        unfold lockSolutionStep; rw [if_neg hmc]
      rw [hstep]
      have hset := mapSet_of_not_mem acc.2 e.1
        ({ Module := e.2.Module, Back := e.2.Back.Consider choice } : Partial State)
        (h5 e (List.mem_cons_self _ _))
      refine ih (acc.1, mapSet acc.2 e.1 { Module := e.2.Module, Back := e.2.Back.Consider choice })
        hes.2 hrestn h1 h2 (fun e' he' => h3 e' (List.mem_cons_of_mem _ he')) ?_ ?_ ?_
      · simp only [hset, List.map_append, List.map_cons, List.map_nil]
        refine ⟨?_, ?_⟩
        · rw [List.nodup_append]
          refine ⟨h4.1, by simp, ?_⟩
          intro a ha hb
          simp only [List.mem_singleton] at hb
          subst hb
          exact h5 e (List.mem_cons_self _ _) ha
        · intro e' he'
          simp only [List.mem_append, List.mem_singleton] at he'
          rcases he' with he' | rfl
          · exact h4.2 e' he'
          · refine ⟨hen.1, consider_inv _ _ hen.2, ?_⟩
            show e.1 ≠ choice.Name
            rw [← hen.1]; exact hmc
      · intro e' he'
        simp only [hset, List.map_append, List.map_cons, List.map_nil, List.mem_append,
          List.mem_singleton, not_or]
        exact ⟨h5 e' (List.mem_cons_of_mem _ he'), hne e' he'⟩
      · intro x hx e' he'
        simp only [hset, List.mem_append, List.mem_singleton] at he'
        rcases he' with he' | rfl
        · exact h6 x hx e' he'
        · intro h
          apply h3 e (List.mem_cons_self _ _)
          show e.1 ∈ _
          rw [← h]
          exact List.mem_map_of_mem _ hx

theorem lock_inv (s : State) (choice : Module) (h : s.Inv) : (s.lock choice).Inv := by
  obtain ⟨hv, hk, hkn, hd⟩ := inv_local h
  obtain ⟨f1, f2, f3⟩ := lockFrontierFold_valid choice s.Frontier (([], []), false) hv.1
    validFrontier_nil (by simp) (by simp)
  have h3 : ∀ e ∈ s.Solution,
      e.1 ∉ (s.Frontier.foldl (lockFrontierStep choice) (([], []), false)).1.1.map
        (fun x => x.Name) := by
    intro e he hmem
    rcases f2 _ hmem with h' | h'
    · simp at h'
    · obtain ⟨x, hx, hxe⟩ := List.mem_map.1 h'
      exact hd x hx e he hxe
  obtain ⟨g1, g2, g4, g6⟩ := lockSolutionFold_valid choice s.Solution
    (s.Frontier.foldl (lockFrontierStep choice) (([], []), false), [])
    hk (fun e he => ⟨hkn e he, inv_back h e he⟩) f1 f3 h3 (by simp) (by simp) (by simp)
  unfold State.lock
  simp only
  by_cases hadd : (s.Solution.foldl (lockSolutionStep choice)
      (s.Frontier.foldl (lockFrontierStep choice) (([], []), false), [])).1.2 = true
  · simp only [hadd, Bool.not_true, Bool.false_eq_true, if_false]
    exact State.Inv.intro _ ⟨g1, g4.1, fun e he => (g4.2 e he).1, g6⟩
      (fun e he => (g4.2 e he).2.1)
  · have hnot : choice.Name ∉ (s.Solution.foldl (lockSolutionStep choice)
        (s.Frontier.foldl (lockFrontierStep choice) (([], []), false), [])).1.1.1.map
        (fun x => x.Name) := fun hc => hadd (g2 hc)
    simp only [Bool.not_eq_true] at hadd
    simp only [hadd, Bool.not_false, if_true]
    refine State.Inv.intro _ ⟨validFrontier_append _ _ g1 hnot, g4.1,
      fun e he => (g4.2 e he).1, ?_⟩ (fun e he => (g4.2 e he).2.1)
    intro x hx e he
    simp only [appendFrontier, List.mem_append, List.mem_singleton] at hx
    rcases hx with hx | rfl
    · exact g6 x hx e he
    · exact fun h' => (g4.2 e he).2.2 h'.symm

theorem add_inv {σ : Type} (loader : SolverLoader σ) (fuel : Nat) (ls ls' : σ)
    (s s' : State) (module : Module) (err : Option String) (h : s.Inv)
    (ha : s.Add loader fuel ls module = some ((some s', err), ls')) : s'.Inv := by
  unfold State.Add at ha
  split at ha
  · cases ha
  · rename_i m ls1 _
    split at ha
    · cases ha
    · rename_i st e ls2 hsolve
      have := solve_inv loader fuel ls1 ls2 (s.lock m) st e (lock_inv s m h) hsolve
      injection ha with ha
      injection ha with ha
      injection ha with ha
      injection ha with ha
      rw [← ha]; exact this

theorem remove_inv {σ : Type} (loader : SolverLoader σ) (fuel : Nat) (ls ls' : σ)
    (s s' : State) (name : String) (order : Solution → Solution) (err : Option String)
    (hr : s.Remove loader fuel ls name order = some ((some s', err), ls')) : s'.Inv := by
  unfold State.Remove at hr
  split at hr
  · cases hr
  · cases hr
  · split at hr
    · cases hr
    · simp only at hr
      split at hr
      · cases hr
      · rename_i st ls2 hcon
        have hc : st.Inv := by
          have := congrArg (fun r => r.1.1) hcon
          simp only at this
          rw [← this]
          exact constrain_inv loader _ NewState _ false newState_inv
        split at hr
        · cases hr
        · cases hr
        · rename_i st2 ls3 hsolve
          have := solve_inv loader fuel _ _ st st2 none hc hsolve
          injection hr with hr
          injection hr with hr
          injection hr with hr
          injection hr with hr
          rw [← hr]; exact this

theorem reachable_inv {σ : Type} (loader : SolverLoader σ) (s : State)
    (h : Reachable loader s) : s.Inv := by
  induction h with
  | newState => exact newState_inv
  | constrain s ls modules test _ ih => exact constrain_inv loader ls s modules test ih
  | solve s s' fuel ls ls' err _ hs ih => exact solve_inv loader fuel ls ls' s s' err ih hs
  | add s s' fuel ls ls' module err _ ha ih => exact add_inv loader fuel ls ls' s s' module err ih ha
  | remove s s' fuel ls ls' name order err _ hr _ =>
    exact remove_inv loader fuel ls ls' s s' name order err hr

/-! ### State.Modules -/

theorem insertModule_perm (m : Module) (l : Modules) : (insertModule m l).Perm (m :: l) := by
  induction l with
  | nil => exact List.Perm.refl _
  | cons x xs ih =>
    unfold insertModule
    split
    · exact List.Perm.refl _
    · exact ((List.Perm.cons x ih).trans (List.Perm.swap m x xs))

theorem sortModules_perm (l : Modules) : (sortModules l).Perm l := by
  induction l with
  | nil => exact List.Perm.refl _
  | cons x xs ih =>
    unfold sortModules
    exact (insertModule_perm x _).trans (List.Perm.cons x ih)

theorem sortStrings_perm (l : List String) : (sortStrings l).Perm l := by
  induction l with
  | nil => exact List.Perm.refl _
  | cons n rest ih =>
    have hstep : sortStrings (n :: rest)
        = (sortStrings rest).filter (fun x => decide (strLess x n)) ++
          n :: (sortStrings rest).filter (fun x => !decide (strLess x n)) := rfl
    rw [hstep]
    refine List.perm_middle.trans (List.Perm.cons n ?_)
    exact (List.filter_append_perm _ _).trans ih

theorem strLess_irrefl (a : String) : ¬ strLess a a := by
  unfold strLess; exact lt_irrefl _

theorem strLess_trans (a b c : String) (h1 : strLess a b) (h2 : strLess b c) : strLess a c := by
  unfold strLess at *; exact lt_trans h1 h2

theorem strLess_total (a b : String) (hne : a ≠ b) (h : ¬ strLess a b) : strLess b a := by
  unfold strLess at *
  rcases lt_trichotomy a.data b.data with h1 | h1 | h1
  · exact absurd h1 h
  · exact absurd (String.ext h1) hne
  · exact h1

theorem before_of_strLess (a b : Module) (h : strLess a.Name b.Name) : a.Before b = true := by
  have hne : a.Name ≠ b.Name := by
    intro he
    rw [he] at h
    exact strLess_irrefl _ h
  unfold Module.Before
  rw [if_pos hne]
  exact decide_eq_true h

theorem before_name_ne (a b : Module) (hne : a.Name ≠ b.Name) :
    a.Before b = decide (strLess a.Name b.Name) := by
  unfold Module.Before
  rw [if_pos hne]

theorem insertModule_sorted (m : Module) (l : Modules)
    (hs : l.Pairwise (fun a b => strLess a.Name b.Name))
    (hm : m.Name ∉ l.map (fun x => x.Name)) :
    (insertModule m l).Pairwise (fun a b => strLess a.Name b.Name) := by
  induction l with
  | nil => simp [insertModule]
  | cons x xs ih =>
    simp only [List.map_cons, List.mem_cons, not_or] at hm
    rw [List.pairwise_cons] at hs
    unfold insertModule
    rw [before_name_ne m x hm.1]
    by_cases hlt : strLess m.Name x.Name
    · rw [if_pos (decide_eq_true hlt)]
      rw [List.pairwise_cons]
      refine ⟨?_, List.pairwise_cons.2 hs⟩
      intro y hy
      rcases List.mem_cons.1 hy with rfl | hy
      · exact hlt
      · exact strLess_trans _ _ _ hlt (hs.1 y hy)
    · rw [if_neg (by simpa using hlt)]
      rw [List.pairwise_cons]
      refine ⟨?_, ih hs.2 hm.2⟩
      intro y hy
      rcases List.mem_cons.1 ((insertModule_perm m xs).mem_iff.1 hy) with rfl | hy
      · exact strLess_total _ _ hm.1 hlt
      · exact hs.1 y hy

theorem sortModules_sorted (l : Modules) (hnd : (l.map (fun x => x.Name)).Nodup) :
    (sortModules l).Pairwise (fun a b => strLess a.Name b.Name) := by
  induction l with
  | nil => simp [sortModules]
  | cons x xs ih =>
    simp only [List.map_cons, List.nodup_cons] at hnd
    unfold sortModules
    apply insertModule_sorted x _ (ih hnd.2)
    intro hx
    apply hnd.1
    exact ((sortModules_perm xs).map _).mem_iff.1 hx

theorem solutionModules_eq (sol : Solution) (hk : (sol.map (fun e => e.1)).Nodup) :
    (sol.map (fun e => e.1)).map (solutionModule sol) = sol.map (fun e => e.2.Module) := by
  rw [List.map_map]
  apply List.map_congr_left
  intro e he
  simp only [Function.comp, solutionModule, mapGet_of_mem_nodup sol e hk he]

theorem solutionModules_perm (sol : Solution) (hk : (sol.map (fun e => e.1)).Nodup) :
    ((Solution.Names sol).map (solutionModule sol)).Perm (sol.map (fun e => e.2.Module)) := by
  rw [← solutionModules_eq sol hk]
  exact (sortStrings_perm _).map _

theorem modules_perm (s : State) (h : s.Local) :
    s.Modules.Perm (s.Solution.map (fun e => e.2.Module) ++ s.Frontier) := by
  unfold State.Modules
  exact (sortModules_perm _).trans ((solutionModules_perm s.Solution h.keysNodup).append_right _)

theorem local_names_nodup (s : State) (h : s.Local) :
    ((s.Solution.map (fun e => e.2.Module) ++ s.Frontier).map (fun x => x.Name)).Nodup := by
  obtain ⟨hv, hk, hkn, hd⟩ := h
  have hkeys : (s.Solution.map (fun e => e.2.Module)).map (fun x => x.Name)
      = s.Solution.map (fun e => e.1) := by
    rw [List.map_map]
    apply List.map_congr_left
    intro e he
    exact hkn e he
  rw [List.map_append, hkeys, List.nodup_append]
  refine ⟨hk, hv.1, ?_⟩
  intro a ha hb
  obtain ⟨e, he, rfl⟩ := List.mem_map.1 ha
  obtain ⟨x, hx, hxe⟩ := List.mem_map.1 hb
  exact hd x hx e he hxe

theorem local_has_iff (s : State) (h : s.Local) (n : String) :
    s.Has n = true ↔
      n ∈ (s.Solution.map (fun e => e.2.Module) ++ s.Frontier).map (fun x => x.Name) := by
  have hkeys : (s.Solution.map (fun e => e.2.Module)).map (fun x => x.Name)
      = s.Solution.map (fun e => e.1) := by
    rw [List.map_map]
    apply List.map_congr_left
    intro e he
    exact h.keyName e he
  rw [List.map_append, hkeys, List.mem_append]
  unfold State.Has
  rw [Bool.or_eq_true, problemIndexes_mem s.Problem s.Frontier h.validFrontier.2,
    mapGet_isSome_iff]
  exact Or.comm

theorem filter_name_length (l : Modules) (n : String) (hnd : (l.map (fun x => x.Name)).Nodup) :
    (l.filter (fun m => decide (m.Name = n))).length
      = if n ∈ l.map (fun x => x.Name) then 1 else 0 := by
  induction l with
  | nil => simp
  | cons x xs ih =>
    simp only [List.map_cons, List.nodup_cons] at hnd
    by_cases hx : x.Name = n
    · have hn : n ∉ xs.map (fun x => x.Name) := by rw [← hx]; exact hnd.1
      have := ih hnd.2
      rw [if_neg hn] at this
      simp [List.filter_cons, hx, this]
    · have := ih hnd.2
      have hx' : ¬ n = x.Name := fun h => hx h.symm
      simp only [List.filter_cons, hx, decide_False, Bool.false_eq_true, if_false, this,
        List.map_cons, List.mem_cons, hx', false_or]

/-- C9: in every state that comes from NewState by Constrain, Solve, Add and
Remove, Modules is a permutation of the modules of the solution together with
the modules of the frontier, every module in it is Before every later one, and
it holds one module of a name when the state has the name and none
otherwise. -/
theorem modules_sorted_union {σ : Type} (loader : SolverLoader σ) (s : State)
    (hr : Reachable loader s) :
    s.Modules.Perm (s.Solution.map (fun e => e.2.Module) ++ s.Frontier) ∧
    s.Modules.Pairwise (fun a b => a.Before b = true) ∧
    ∀ n : String, (s.Modules.filter (fun m => decide (m.Name = n))).length
      = if s.Has n = true then 1 else 0 := by
  have hl := inv_local (reachable_inv loader s hr)
  have hperm := modules_perm s hl
  have hnd := local_names_nodup s hl
  have hnd' : (s.Modules.map (fun x => x.Name)).Nodup := (hperm.map _).nodup_iff.2 hnd
  refine ⟨hperm, ?_, ?_⟩
  · have hsorted : s.Modules.Pairwise (fun a b => strLess a.Name b.Name) := by
      unfold State.Modules
      apply sortModules_sorted
      exact ((solutionModules_perm s.Solution hl.keysNodup).append_right _ |>.map _).nodup_iff.2 hnd
    exact hsorted.imp (fun {a b} hab => before_of_strLess a b hab)
  · intro n
    rw [filter_name_length s.Modules n hnd']
    have hiff : n ∈ s.Modules.map (fun x => x.Name) ↔ s.Has n = true := by
      rw [local_has_iff s hl n]
      exact (hperm.map _).mem_iff
    by_cases hn : s.Has n = true
    · rw [if_pos hn, if_pos (hiff.2 hn)]
    · rw [if_neg hn, if_neg (fun h => hn (hiff.1 h))]

/-- C9, witness: the solved state of the constraints y and c@1.0.0. -/
theorem modules_sorted_union_witness :
    Reachable plainLoader solvedYC ∧
    (solvedYC.Modules.Perm (solvedYC.Solution.map (fun e => e.2.Module) ++ solvedYC.Frontier) ∧
    solvedYC.Modules.Pairwise (fun a b => a.Before b = true) ∧
    ∀ n : String, (solvedYC.Modules.filter (fun m => decide (m.Name = n))).length
      = if solvedYC.Has n = true then 1 else 0) :=
  have hr : Reachable plainLoader solvedYC :=
    Reachable.solve (NewState.Constrain plainLoader emptyMemo [modY, modC1] false).1.1 solvedYC
      4 emptyMemo emptyMemo none
      (Reachable.constrain NewState emptyMemo [modY, modC1] false Reachable.newState) rfl
  ⟨hr, modules_sorted_union plainLoader solvedYC hr⟩



/-- C1 (the code at the failing input): with constraints c@1.0.0 and y, where y
needs c@2.0.0 and c@2.0.0 needs z, Solve returns without error a solution of c
and y in which c lists z, and the state does not hold z. -/
theorem solve_drops_constraints_of_upgrade :
    (constrainAndSolve 3 [modC1, modY]).map
        (fun r => (r.2, r.1.Frontier.length, r.1.Solution.map (fun e => e.1),
          (heldModule r.1 "c").map (fun m => (m.Version, m.Modules.map (fun d => d.Name))),
          r.1.Has "z", shallowConstraintsMet r.1))
      = some (none, 0, ["c", "y"], some ({ major := 2 }, ["z"]), false, false) := by
  rfl

/-- C2 (the code at the failing input): the constraints c@1.0.0, y and
y, c@1.0.0 are permutations of each other, and the modules of the two solved
states differ: c, y for the first and c, y, z for the second. -/
theorem solve_depends_on_constraint_order :
    List.Perm [modC1, modY] [modY, modC1] ∧
    (constrainAndSolve 3 [modC1, modY]).map (fun r => (r.2, namesAndTests r.1.Modules))
      = some (none, [("c", false), ("y", false)]) ∧
    (constrainAndSolve 3 [modY, modC1]).map (fun r => (r.2, namesAndTests r.1.Modules))
      = some (none, [("c", false), ("y", false), ("z", false)]) := by
  refine ⟨List.Perm.swap _ _ _, ?_, ?_⟩ <;> decide

/-- C3 (the code at the failing input): from the solved state of q@1.0.0 and
p@1.0.0, Add of m, which needs p@2.0.0 and q@2.0.0, returns without error a
state with q and p in the solution, an empty frontier, and without m. -/
theorem add_loses_locked_module :
    (addAfterSolve 3).map
        (fun r => (r.2, r.1.map (fun s =>
          (s.Solution.map (fun e => (e.1, e.2.Module.Version)), s.Frontier.length, s.Has "m"))))
      = some (none, some ([("q", { major := 2 }), ("p", { major := 2 })], 0, false)) := by
  decide

/-- C4 (the code at the failing input): from the state that holds c@2.0.0
alone in its solution, where c@2.0.0 needs z and z needs n, Remove of n returns
without error a state that holds n, and whose solution module z lists n. -/
theorem remove_brings_module_back :
    (constrainAfterSolve 3).map (fun s => (s.Solution.map (fun e => e.1), s.Frontier.length))
      = some (["c"], 0) ∧
    (removeAfterConstrain 3).map
        (fun r => (r.2, r.1.map (fun s =>
          (s.Solution.map (fun e => e.1), s.Has "n", solutionMentions s "n"))))
      = some (none, some (["c", "z", "n"], true, true)) := by
  constructor <;> decide

/-- C6 (the code at the failing input): the frontier holds x@1.0.0, not a
test module; Constrain with x@2.0.0 as a test module leaves the frontier entry
x@2.0.0 with Test = true. -/
theorem constrain_merge_keeps_test_of_newer :
    ((NewState.Constrain plainLoader emptyMemo [modX1] false).1.1.Frontier.map
        (fun m => (m.Name, m.Version, m.Test)) = [("x", { major := 1 }, false)]) ∧
    (((NewState.Constrain plainLoader emptyMemo [modX1] false).1.1.Constrain
        plainLoader emptyMemo [modX2Test] false).1.1.Frontier.map
        (fun m => (m.Name, m.Version, m.Test)) = [("x", { major := 2 }, true)]) ∧
    modX1.Before modX2Test = true := by
  refine ⟨?_, ?_, ?_⟩ <;> decide

/-- C7 (the code at the failing input): the promotion of a module of the
solution does not reach the modules it lists. From NewState, Constrain with
test = false of b as a test module and of a, where a lists b and b lists d,
both as modules that are not test modules, followed by Solve, returns without
error a solution in which b has Test = false and d, which b lists and which is
in the solution, has Test = true: the solution is not closed under the
promotion that the comment of solve.go (lines 37-42) promises. -/
theorem promotion_skips_dependencies :
    (constrainAndSolve 3 [modBTest, modA]).map
        (fun r => (r.2, r.1.Solution.map (fun e => (e.1, e.2.Module.Test)),
          (heldModule r.1 "b").map (fun m => m.Modules.map (fun d => d.Name)),
          testPromotionClosed r.1))
      = some (none, [("b", false), ("a", false), ("d", true)], some ["d"], false) := by
  decide

/-! ### Solve comes to an end -/

theorem before_eq_keyBefore (a b : Module) : a.Before b = keyBefore a.key b.key := rfl

theorem versionBefore_irrefl (v : Version) : v.Before v = false := by
  simp [Version.Before]

theorem versionBefore_trans (a b c : Version) (h1 : a.Before b = true) (h2 : b.Before c = true) :
    a.Before c = true := by
  unfold Version.Before at *
  by_cases e1 : a.major = b.major <;> by_cases e2 : b.major = c.major <;>
    by_cases e3 : a.minor = b.minor <;> by_cases e4 : b.minor = c.minor <;>
    by_cases e5 : a.major = c.major <;> by_cases e6 : a.minor = c.minor <;>
    simp_all <;> omega

theorem hashBeforeLoop_irrefl (a : List (Fin 256)) : hashBeforeLoop a a = false := by
  induction a with
  | nil => rfl
  | cons x xs ih => simp [hashBeforeLoop, ih]

theorem hashBeforeLoop_trans (a b c : List (Fin 256)) (h1 : hashBeforeLoop a b = true)
    (h2 : hashBeforeLoop b c = true) : hashBeforeLoop a c = true := by
  induction a generalizing b c with
  | nil => simp [hashBeforeLoop] at h1
  | cons x xs ih =>
    cases b with
    | nil => simp [hashBeforeLoop] at h1
    | cons y ys =>
      cases c with
      | nil => simp [hashBeforeLoop] at h2
      | cons z zs =>
        unfold hashBeforeLoop at h1 h2 ⊢
        by_cases hxy : x < y
        · by_cases hyz : y < z
          · simp [lt_trans hxy hyz]
          · by_cases hzy : y > z
            · simp [hyz, hzy] at h2
            · have : y = z := le_antisymm (not_lt.1 hzy) (not_lt.1 hyz)
              subst this
              simp [hxy]
        · by_cases hyx : x > y
          · simp [hxy, hyx] at h1
          · have hxy' : x = y := le_antisymm (not_lt.1 hyx) (not_lt.1 hxy)
            subst hxy'
            simp only [hxy, if_false, hyx] at h1
            by_cases hyz : x < z
            · simp [hyz]
            · by_cases hzy : x > z
              · simp [hyz, hzy] at h2
              · simp only [hyz, if_false, hzy] at h2 ⊢
                exact ih ys zs h1 h2

theorem keyBefore_irrefl (a : ModuleKey) : keyBefore a a = false := by
  simp [keyBefore, HashBefore, hashBeforeLoop_irrefl]

theorem keyBefore_trans (a b c : ModuleKey) (h1 : keyBefore a b = true)
    (h2 : keyBefore b c = true) : keyBefore a c = true := by
  obtain ⟨an, av, at', ah⟩ := a
  obtain ⟨bn, bv, bt, bh⟩ := b
  obtain ⟨cn, cv, ct, ch⟩ := c
  unfold keyBefore at *
  simp only at *
  by_cases n1 : an = bn
  · subst n1
    by_cases n2 : an = cn
    · subst n2
      simp only [ne_eq, not_true_eq_false, if_false] at h1 h2 ⊢
      by_cases v1 : av = bv
      · subst v1
        by_cases v2 : av = cv
        · subst v2
          simp only [not_true_eq_false, if_false] at h1 h2 ⊢
          by_cases t1 : at' = bt
          · subst t1
            by_cases t2 : at' = ct
            · subst t2
              simp only [not_true_eq_false, if_false] at h1 h2 ⊢
              exact hashBeforeLoop_trans _ _ _ h1 h2
            · simp only [not_true_eq_false, if_false, t2, not_false_eq_true, if_true] at h1 h2 ⊢
              exact h2
          · by_cases t2 : bt = ct
            · subst t2
              simp only [t1, not_false_eq_true, if_true] at h1 ⊢
              exact h1
            · simp only [t1, t2, not_false_eq_true, if_true, decide_eq_true_eq] at h1 h2
              have : at' < ct := lt_trans h1 h2
              simp [ne_of_lt this, this]
        · simp only [not_true_eq_false, if_false, v2, not_false_eq_true, if_true] at h1 h2 ⊢
          exact h2
      · by_cases v2 : bv = cv
        · subst v2
          simp only [v1, not_false_eq_true, if_true] at h1 ⊢
          exact h1
        · simp only [v1, v2, not_false_eq_true, if_true] at h1 h2
          have hac := versionBefore_trans _ _ _ h1 h2
          have : av ≠ cv := by
            intro h
            subst h
            rw [versionBefore_irrefl] at hac
            cases hac
          simp [this, hac]
    · simp only [ne_eq, not_true_eq_false, if_false, n2, not_false_eq_true, if_true] at h1 h2 ⊢
      exact h2
  · by_cases n2 : bn = cn
    · subst n2
      simp only [ne_eq, n1, not_false_eq_true, if_true] at h1 ⊢
      exact h1
    · simp only [ne_eq, n1, n2, not_false_eq_true, if_true, decide_eq_true_eq] at h1 h2
      have hac := strLess_trans _ _ _ h1 h2
      have : an ≠ cn := by
        intro h
        subst h
        exact strLess_irrefl _ hac
      simp [this, hac]

theorem filter_length_lt {α : Type} (p q : α → Bool) (l : List α)
    (hpq : ∀ x ∈ l, p x = true → q x = true) (a : α) (ha : a ∈ l) (hqa : q a = true)
    (hpa : p a = false) : (l.filter p).length < (l.filter q).length := by
  induction l with
  | nil => cases ha
  | cons x xs ih =>
    have hle : (xs.filter p).length ≤ (xs.filter q).length := by
      rw [← List.countP_eq_length_filter, ← List.countP_eq_length_filter]
      exact List.countP_mono_left (fun y hy hp => hpq y (List.mem_cons_of_mem _ hy) hp)
    rcases List.mem_cons.1 ha with rfl | ha'
    · simp only [List.filter_cons, hpa, hqa, if_true, List.length_cons]
      simp
      omega
    · have := ih (fun y hy => hpq y (List.mem_cons_of_mem _ hy)) ha'
      by_cases hp : p x = true
      · have hq := hpq x (List.mem_cons_self _ _) hp
        simp only [List.filter_cons, hp, hq, if_true, List.length_cons]
        omega
      · by_cases hq : q x = true
        · simp only [List.filter_cons, hp, hq, if_true, List.length_cons]
          simp
          omega
        · simp only [List.filter_cons, hp, hq]
          simpa using this

theorem keyRank_pos (K : List ModuleKey) (k : ModuleKey) : 1 ≤ keyRank K k := by
  unfold keyRank; omega

theorem keyRank_lt (K : List ModuleKey) (k : ModuleKey) : keyRank K k < K.length + 2 := by
  unfold keyRank
  have := List.length_filter_le (fun k' => keyBefore k' k) K
  omega

theorem keyRank_lt_of_before (K : List ModuleKey) (k k' : ModuleKey) (hk : k ∈ K)
    (hb : keyBefore k k' = true) : keyRank K k < keyRank K k' := by
  unfold keyRank
  have := filter_length_lt (fun x => keyBefore x k) (fun x => keyBefore x k') K
    (fun x _ hx => keyBefore_trans _ _ _ hx hb) k hk hb (keyBefore_irrefl k)
  omega

theorem chainMeasure_lt (B n : Nat) (rs : List Nat) (hB : 1 ≤ B) (hr : ∀ r ∈ rs, r < B)
    (hlen : rs.length ≤ n + 1) : chainMeasure B n rs < B ^ (n + 1) := by
  induction rs generalizing n with
  | nil => simp only [chainMeasure]; exact Nat.pow_pos hB
  | cons r rs ih =>
    unfold chainMeasure
    have hrB : r + 1 ≤ B := hr r (List.mem_cons_self _ _)
    have hrest : chainMeasure B (n - 1) rs < B ^ n := by
      cases n with
      | zero =>
        cases rs with
        | nil => simp [chainMeasure]
        | cons _ _ => simp at hlen
      | succ n =>
        simp only [List.length_cons] at hlen
        have := ih n (fun x hx => hr x (List.mem_cons_of_mem _ hx)) (by omega)
        simpa using this
    calc r * B ^ n + chainMeasure B (n - 1) rs
        < r * B ^ n + B ^ n := by omega
      _ = (r + 1) * B ^ n := by ring
      _ ≤ B * B ^ n := Nat.mul_le_mul_right _ hrB
      _ = B ^ (n + 1) := by ring

theorem chainMeasure_append (B n : Nat) (l x : List Nat) (hlen : l.length ≤ n) :
    chainMeasure B n (l ++ x) = chainMeasure B n l + chainMeasure B (n - l.length) x := by
  induction l generalizing n with
  | nil => simp [chainMeasure]
  | cons a l ih =>
    simp only [List.length_cons] at hlen
    show a * B ^ n + chainMeasure B (n - 1) (l ++ x)
      = a * B ^ n + chainMeasure B (n - 1) l + chainMeasure B (n - (l.length + 1)) x
    rw [ih (n - 1) (by omega)]
    have : n - 1 - l.length = n - (l.length + 1) := by omega
    rw [this]
    ring

theorem chainMeasure_snoc_lt (B n : Nat) (l : List Nat) (r : Nat) (hB : 1 ≤ B) (hr : 1 ≤ r)
    (hlen : l.length ≤ n) : chainMeasure B n l < chainMeasure B n (l ++ [r]) := by
  rw [chainMeasure_append B n l [r] hlen]
  simp only [chainMeasure, add_zero]
  have : 0 < r * B ^ (n - l.length) := Nat.mul_pos hr (Nat.pow_pos hB)
  omega

theorem chainMeasure_replace_lt (B n : Nat) (pre post : List Nat) (r r' : Nat) (hB : 1 ≤ B)
    (hrr : r < r') (hpost : ∀ x ∈ post, x < B) (hlen : (pre ++ r :: post).length ≤ n) :
    chainMeasure B n (pre ++ r :: post) < chainMeasure B n (pre ++ [r']) := by
  simp only [List.length_append, List.length_cons] at hlen
  rw [chainMeasure_append B n pre _ (by omega), chainMeasure_append B n pre _ (by omega)]
  simp only [chainMeasure, add_zero]
  have hj : 1 ≤ n - pre.length := by omega
  have hrest : chainMeasure B (n - pre.length - 1) post < B ^ (n - pre.length - 1 + 1) :=
    chainMeasure_lt B _ post hB hpost (by omega)
  have he : n - pre.length - 1 + 1 = n - pre.length := by omega
  rw [he] at hrest
  have : (r + 1) * B ^ (n - pre.length) ≤ r' * B ^ (n - pre.length) :=
    Nat.mul_le_mul_right _ hrr
  have h2 : (r + 1) * B ^ (n - pre.length) = r * B ^ (n - pre.length) + B ^ (n - pre.length) := by
    ring
  omega

theorem chain_frontier {K : List ModuleKey} {s : State} (h : Chain K s) :
    ∀ m ∈ s.Frontier, inUniverse K m.key := by
  cases h; assumption

theorem chain_sig {K : List ModuleKey} {s : State} (h : Chain K s) :
    ∀ x ∈ s.sig, inUniverse K x.2.1 := by
  cases h; assumption

theorem chain_back {K : List ModuleKey} {s : State} (h : Chain K s) :
    ∀ i x, s.sig[i]? = some x → x.2.2.sig = s.sig.take i := by
  cases h; assumption

theorem chain_back_chain {K : List ModuleKey} {s : State} (h : Chain K s) :
    ∀ x ∈ s.sig, Chain K x.2.2 := by
  cases h; assumption

theorem sig_keys (s : State) : s.sig.map (fun x => x.1) = s.Solution.map (fun e => e.1) := by
  simp [State.sig, entrySig, List.map_map, Function.comp]

theorem sig_key_name (s : State) (h : s.Local) : ∀ x ∈ s.sig, x.2.1.1 = x.1 := by
  intro x hx
  obtain ⟨e, he, rfl⟩ := List.mem_map.1 hx
  exact h.keyName e he

theorem sig_length_le (K : List ModuleKey) (s : State) (hl : s.Local) (hc : Chain K s) :
    s.sig.length ≤ K.length := by
  have hsub : s.sig.map (fun x => x.1) ⊆ K.map (fun k => k.1) := by
    intro n hn
    obtain ⟨x, hx, rfl⟩ := List.mem_map.1 hn
    rw [← sig_key_name s hl x hx]
    exact List.mem_map_of_mem _ (chain_sig hc x hx).2
  have hnd : (s.sig.map (fun x => x.1)).Nodup := by rw [sig_keys]; exact hl.keysNodup
  have := (List.subperm_of_subset hnd hsub).length_le
  simpa using this

theorem mapDelete_of_not_mem {V : Type} (m : List (String × V)) (k : String)
    (h : k ∉ m.map (fun e => e.1)) : mapDelete m k = m := by
  induction m with
  | nil => rfl
  | cons x rest ih =>
    simp only [List.map_cons, List.mem_cons, not_or] at h
    unfold mapDelete
    rw [if_neg (fun hx => h.1 hx.symm), ih h.2]

theorem consider_sig (s : State) (c : Module) (hc : c.Name ≠ "")
    (hk : c.Name ∉ s.Solution.map (fun e => e.1)) :
    (s.Consider c).sig = s.sig ++ [(c.Name, c.key, s)] := by
  unfold State.sig
  rw [consider_Solution, if_pos hc, mapDelete_of_not_mem _ _ hk, mapSet_of_not_mem _ _ _ hk]
  simp [entrySig]

theorem consider_sig_empty (s : State) (c : Module) (hc : c.Name = "")
    (hk : "" ∉ s.Solution.map (fun e => e.1)) : (s.Consider c).sig = s.sig := by
  unfold State.sig
  rw [consider_Solution, if_neg (by simpa using hc), hc, mapDelete_of_not_mem _ _ hk]

theorem consider_Frontier_mem (s : State) (c m : Module) (hm : m ∈ (s.Consider c).Frontier) :
    m ∈ s.Frontier := by
  have h : ∀ (l : Modules) (fp : Modules × Problem),
      m ∈ (l.foldl (fun fp module =>
        if c.Name ≠ module.Name then appendFrontier fp module else fp) fp).1 →
      m ∈ fp.1 ∨ m ∈ l := by
    intro l
    induction l with
    | nil => intro fp h; exact Or.inl h
    | cons x xs ih =>
      intro fp h
      simp only [List.foldl_cons] at h
      rcases ih _ h with h' | h'
      · split at h'
        · simp only [appendFrontier, List.mem_append, List.mem_singleton] at h'
          rcases h' with h' | rfl
          · exact Or.inl h'
          · exact Or.inr (List.mem_cons_self _ _)
        · exact Or.inl h'
      · exact Or.inr (List.mem_cons_of_mem _ h')
  rw [consider_Frontier] at hm
  rcases h s.Frontier ([], []) hm with h' | h'
  · cases h'
  · exact h'

theorem chain_consider (K : List ModuleKey) (s : State) (c : Module) (hch : Chain K s)
    (hc : inUniverse K c.key) (hk : c.Name ∉ s.Solution.map (fun e => e.1)) :
    Chain K (s.Consider c) := by
  have hsig := consider_sig s c hc.1 hk
  refine Chain.intro _ ?_ ?_ ?_ ?_
  · intro m hm
    exact chain_frontier hch m (consider_Frontier_mem s c m hm)
  · intro x hx
    rw [hsig, List.mem_append, List.mem_singleton] at hx
    rcases hx with hx | rfl
    · exact chain_sig hch x hx
    · exact hc
  · intro i x hx
    rw [hsig] at hx ⊢
    rcases Nat.lt_trichotomy i s.sig.length with hlt | heq | hgt
    · rw [List.getElem?_append_left hlt] at hx
      rw [List.take_append_of_le_length (Nat.le_of_lt hlt)]
      exact chain_back hch i x hx
    · subst heq
      simp only [List.getElem?_concat_length, Option.some.injEq] at hx
      subst hx
      simp only [List.take_left']
    · rw [List.getElem?_eq_none (by simp; omega)] at hx
      cases hx
  · intro x hx
    rw [hsig, List.mem_append, List.mem_singleton] at hx
    rcases hx with hx | rfl
    · exact chain_back_chain hch x hx
    · exact hch

theorem sig_no_empty_key (K : List ModuleKey) (s : State) (hl : s.Local) (hch : Chain K s) :
    "" ∉ s.Solution.map (fun e => e.1) := by
  intro h
  rw [← sig_keys] at h
  obtain ⟨x, hx, hx0⟩ := List.mem_map.1 h
  have h1 := sig_key_name s hl x hx
  have h2 := (chain_sig hch x hx).1
  have hx1 : x.1 = "" := hx0
  rw [hx1] at h1
  exact h2 h1

theorem clone_sig (K : List ModuleKey) (s : State) (hl : s.Local) (hch : Chain K s) :
    s.Clone.sig = s.sig :=
  consider_sig_empty s _ rfl (sig_no_empty_key K s hl hch)

theorem chain_of_sig (K : List ModuleKey) (s s' : State) (hch : Chain K s)
    (hsig : s'.sig = s.sig) (hf : ∀ m ∈ s'.Frontier, inUniverse K m.key) : Chain K s' := by
  refine Chain.intro _ hf ?_ ?_ ?_
  · rw [hsig]; exact chain_sig hch
  · rw [hsig]; exact chain_back hch
  · rw [hsig]; exact chain_back_chain hch

theorem chain_clone (K : List ModuleKey) (s : State) (hl : s.Local) (hch : Chain K s) :
    Chain K s.Clone :=
  chain_of_sig K s s.Clone hch (clone_sig K s hl hch)
    (fun m hm => chain_frontier hch m (consider_Frontier_mem s _ m hm))

theorem mapGet_index {V : Type} (l : List (String × V)) (k : String) (v : V)
    (h : mapGet l k = some v) : ∃ i : Nat, l[i]? = some (k, v) := by
  induction l with
  | nil => simp [mapGet] at h
  | cons x rest ih =>
    unfold mapGet at h
    by_cases hx : x.1 = k
    · rw [if_pos hx] at h
      injection h with h
      refine ⟨0, ?_⟩
      simp only [List.getElem?_cons_zero, Option.some.injEq]
      rw [← hx, ← h]
    · rw [if_neg hx] at h
      obtain ⟨i, hi⟩ := ih h
      exact ⟨i + 1, by simpa using hi⟩

theorem nodup_not_mem_take {α : Type} (l : List α) (i : Nat) (a : α) (hnd : l.Nodup)
    (hi : l[i]? = some a) : a ∉ l.take i := by
  intro hmem
  obtain ⟨j, hj, hja⟩ := List.mem_take_iff_getElem.1 hmem
  have hjlt : j < l.length := by omega
  have hilt : i < l.length := by
    rcases Nat.lt_or_ge i l.length with h | h
    · exact h
    · rw [List.getElem?_eq_none h] at hi; cases hi
  rw [List.getElem?_eq_getElem hilt] at hi
  injection hi with hi
  have : j = i := (hnd.getElem_inj_iff).1 (hja.trans hi.symm)
  omega

theorem sig_split (s : State) (i : Nat) (x : String × ModuleKey × State)
    (hi : s.sig[i]? = some x) : s.sig = s.sig.take i ++ x :: s.sig.drop (i + 1) := by
  have hilt : i < s.sig.length := by
    rcases Nat.lt_or_ge i s.sig.length with h | h
    · exact h
    · rw [List.getElem?_eq_none h] at hi; cases hi
  rw [List.getElem?_eq_getElem hilt] at hi
  injection hi with hi
  rw [← hi, List.getElem_cons_drop, List.take_append_drop]

theorem solverMeasure_consider (K : List ModuleKey) (s : State) (c : Module)
    (hinv : s.Inv) (hch : Chain K s) (hc : inUniverse K c.key)
    (hk : c.Name ∉ s.Solution.map (fun e => e.1)) :
    solverMeasure K s < solverMeasure K (s.Consider c) := by
  have hlen := sig_length_le K (s.Consider c) (inv_local (consider_inv s c hinv))
    (chain_consider K s c hch hc hk)
  unfold solverMeasure
  rw [consider_sig s c hc.1 hk] at hlen ⊢
  simp only [List.length_append, List.length_singleton] at hlen
  rw [List.map_append]
  apply chainMeasure_snoc_lt _ _ _ _ (by omega) (keyRank_pos K _)
  simp only [List.length_map]
  omega

/-- What a back-track gives: the state before the entry was considered, with
the newer module considered in its place. -/
theorem backtrack_good (K : List ModuleKey) (s : State) (m : Module) (p : Partial State)
    (hinv : s.Inv) (hch : Chain K s) (hm : inUniverse K m.key)
    (hg : mapGet s.Solution m.Name = some p) (hb : p.Module.Before m = true) :
    (p.Back.Consider m).Inv ∧ Chain K (p.Back.Consider m) ∧
    solverMeasure K s < solverMeasure K (p.Back.Consider m) ∧
    ∃ i : Nat, s.sig[i]? = some (m.Name, p.Module.key, p.Back) ∧
      (p.Back.Consider m).sig = s.sig.take i ++ [(m.Name, m.key, p.Back)] ∧
      m.Name ∉ (s.sig.take i).map (fun x => x.1) := by
  obtain ⟨i, hi⟩ := mapGet_index _ _ _ hg
  have hsi : s.sig[i]? = some (m.Name, p.Module.key, p.Back) := by
    simp only [State.sig, List.getElem?_map, hi, Option.map_some', entrySig]
  have hmem : (m.Name, p.Module.key, p.Back) ∈ s.sig := List.getElem?_mem hsi
  have hbsig := chain_back hch i _ hsi
  have hbch := chain_back_chain hch _ hmem
  have hbinv := inv_back hinv _ (mapGet_some_mem _ _ _ hg)
  have hl := inv_local hinv
  have hknd : (s.sig.map (fun x => x.1)).Nodup := by rw [sig_keys]; exact hl.keysNodup
  have hnot : m.Name ∉ (s.sig.take i).map (fun x => x.1) := by
    rw [List.map_take]
    apply nodup_not_mem_take _ i _ hknd
    simp only [List.getElem?_map, hsi, Option.map_some']
  have hk : m.Name ∉ p.Back.Solution.map (fun e => e.1) := by
    rw [← sig_keys]
    simp only at hbsig
    rw [hbsig]
    exact hnot
  have hsig' : (p.Back.Consider m).sig = s.sig.take i ++ [(m.Name, m.key, p.Back)] := by
    rw [consider_sig _ m hm.1 hk]
    simp only at hbsig
    rw [hbsig]
  refine ⟨consider_inv _ m hbinv, chain_consider K _ m hbch hm hk, ?_, i, hsi, hsig', hnot⟩
  have hlen := sig_length_le K s hl hch
  have hsplit := sig_split s i _ hsi
  unfold solverMeasure
  rw [hsig']
  conv_lhs => rw [hsplit]
  simp only [List.map_append, List.map_cons, List.map_nil]
  apply chainMeasure_replace_lt _ _ _ _ _ _ (by omega)
  · apply keyRank_lt_of_before K _ _ (chain_sig hch _ hmem).2
    rw [← before_eq_keyBefore]
    exact hb
  · intro r hr
    obtain ⟨y, _, rfl⟩ := List.mem_map.1 hr
    exact keyRank_lt K _
  · have : (List.map (fun x => keyRank K x.2.1) (List.take i s.sig) ++
        keyRank K p.Module.key :: List.map (fun x => keyRank K x.2.1) (List.drop (i + 1) s.sig)).length
        = s.sig.length := by
      conv_rhs => rw [hsplit]
      simp
    rw [this]
    exact hlen
theorem notBefore_of_get (s : State) (m : Module) (hl : s.Local)
    (h : ∀ p, mapGet s.Solution m.Name = some p → p.Module.Before m = false) :
    notBefore s m := by
  intro x hx hxn
  obtain ⟨e, he, rfl⟩ := List.mem_map.1 hx
  have hget := mapGet_of_mem_nodup s.Solution e hl.keysNodup he
  have he1 : e.1 = m.Name := hxn
  rw [he1] at hget
  have := h e.2 hget
  rw [before_eq_keyBefore] at this
  exact this

theorem get_of_notBefore (s : State) (m : Module) (p : Partial State) (h : notBefore s m)
    (hg : mapGet s.Solution m.Name = some p) : p.Module.Before m = false := by
  have hmem := mapGet_some_mem _ _ _ hg
  have : entrySig (m.Name, p) ∈ s.sig := List.mem_map_of_mem _ hmem
  rw [before_eq_keyBefore]
  exact h _ this rfl

theorem constrainBacktrack_good (K : List ModuleKey) (s : State) (m : Module)
    (hinv : s.Inv) (hch : Chain K s) (hm : inUniverse K m.key) :
    (constrainBacktrack s m).Inv ∧ Chain K (constrainBacktrack s m) ∧
    solverMeasure K s ≤ solverMeasure K (constrainBacktrack s m) ∧
    notBefore (constrainBacktrack s m) m ∧
    ∀ m' : Module, notBefore s m' → notBefore (constrainBacktrack s m) m' := by
  unfold constrainBacktrack
  cases hg : mapGet s.Solution m.Name with
  | none =>
    refine ⟨hinv, hch, le_refl _, ?_, fun _ h => h⟩
    apply notBefore_of_get s m (inv_local hinv)
    intro p hp
    rw [hg] at hp
    cases hp
  | some p =>
    simp only
    by_cases hb : p.Module.Before m = true
    · rw [if_pos hb]
      obtain ⟨h1, h2, h3, i, hsi, hsig, hnot⟩ := backtrack_good K s m p hinv hch hm hg hb
      refine ⟨h1, h2, Nat.le_of_lt h3, ?_, ?_⟩
      · intro x hx hxn
        simp only [Partial.Backtrack] at hx
        rw [hsig, List.mem_append, List.mem_singleton] at hx
        rcases hx with hx | rfl
        · exfalso
          apply hnot
          rw [← hxn]
          exact List.mem_map_of_mem _ hx
        · exact keyBefore_irrefl _
      · intro m' hm' x hx hxn
        simp only [Partial.Backtrack] at hx
        rw [hsig, List.mem_append, List.mem_singleton] at hx
        rcases hx with hx | rfl
        · exact hm' x (List.mem_of_mem_take hx) hxn
        · have hpm' := hm' _ (List.getElem?_mem hsi) hxn
          simp only at hpm' ⊢
          rw [before_eq_keyBefore] at hb
          cases hmm : keyBefore m.key m'.key with
          | false => rfl
          | true =>
            have := keyBefore_trans _ _ _ hb hmm
            rw [hpm'] at this
            cases this
    · rw [if_neg hb]
      refine ⟨hinv, hch, le_refl _, ?_, fun _ h => h⟩
      apply notBefore_of_get s m (inv_local hinv)
      intro p' hp'
      rw [hg] at hp'
      injection hp' with hp'
      subst hp'
      simpa using hb

theorem foldl_constrainBacktrack_good (K : List ModuleKey) (ms : Modules) (s : State)
    (hinv : s.Inv) (hch : Chain K s) (hms : ∀ m ∈ ms, inUniverse K m.key) :
    (ms.foldl constrainBacktrack s).Inv ∧ Chain K (ms.foldl constrainBacktrack s) ∧
    solverMeasure K s ≤ solverMeasure K (ms.foldl constrainBacktrack s) ∧
    (∀ m ∈ ms, notBefore (ms.foldl constrainBacktrack s) m) ∧
    ∀ m' : Module, notBefore s m' → notBefore (ms.foldl constrainBacktrack s) m' := by
  induction ms generalizing s with
  | nil => exact ⟨hinv, hch, le_refl _, by simp, fun _ h => h⟩
  | cons m rest ih =>
    obtain ⟨h1, h2, h3, h4, h5⟩ :=
      constrainBacktrack_good K s m hinv hch (hms m (List.mem_cons_self _ _))
    obtain ⟨g1, g2, g3, g4, g5⟩ :=
      ih (constrainBacktrack s m) h1 h2 (fun x hx => hms x (List.mem_cons_of_mem _ hx))
    simp only [List.foldl_cons]
    refine ⟨g1, g2, le_trans h3 g3, ?_, fun m' hm' => g5 m' (h5 m' hm')⟩
    intro x hx
    rcases List.mem_cons.1 hx with rfl | hx
    · exact g5 _ h4
    · exact g4 x hx
theorem applyTest_key (test : Bool) (m : Module) : (applyTest test m).key = m.key := by
  unfold applyTest; split <;> rfl

theorem promoteEntry_key (p : Partial State) (m : Module) :
    (promoteEntry p m).Module.key = p.Module.key := by
  unfold promoteEntry; split <;> rfl

theorem mergeFrontier_key (problem m : Module) :
    (mergeFrontier problem m).key = problem.key ∨ (mergeFrontier problem m).key = m.key := by
  unfold mergeFrontier
  simp only
  split <;> split <;> first | exact Or.inr rfl | exact Or.inl rfl

theorem mapSet_map_same {V W : Type} (f : String × V → W) (l : List (String × V)) (k : String)
    (v v' : V) (hg : mapGet l k = some v) (hf : ∀ k', f (k', v') = f (k', v)) :
    (mapSet l k v').map f = l.map f := by
  induction l with
  | nil => simp [mapGet] at hg
  | cons x rest ih =>
    unfold mapGet at hg
    unfold mapSet
    by_cases hx : x.1 = k
    · rw [if_pos hx] at hg ⊢
      injection hg with hg
      simp only [List.map_cons, List.cons.injEq, and_true]
      rw [hf, ← hg]
    · rw [if_neg hx] at hg ⊢
      simp only [List.map_cons, ih hg]

theorem promoteSolution_sig (s : State) (p : Partial State) (m : Module)
    (hs : mapGet s.Solution m.Name = some p) : (promoteSolution s p m).sig = s.sig := by
  unfold promoteSolution
  split
  · unfold State.sig
    apply mapSet_map_same entrySig _ _ p _ hs
    intro k'
    simp only [entrySig, promoteEntry_key, promoteEntry_Back]
  · rfl

theorem constrainMerge_sig (s : State) (m : Module) (hnb : notBefore s m) :
    (constrainMerge s m).sig = s.sig := by
  cases hp : mapGet s.Problem m.Name with
  | some i =>
    cases hf : s.Frontier[i]? with
    | none => rw [constrainMerge_of_index_none s m i hp hf]
    | some problem => rw [constrainMerge_of_index s m i problem hp hf]; rfl
  | none =>
    cases hs : mapGet s.Solution m.Name with
    | none =>
      rw [constrainMerge_of_new s m hp hs]
      have hk : m.Name ∉ s.Solution.map (fun e => e.1) := by
        rw [← mapGet_isSome_iff, hs]; simp
      simp only [State.sig, enqueue, mapDelete_of_not_mem _ _ hk]
    | some p =>
      rw [constrainMerge_of_solution s m p hp hs]
      have hb : (promoteEntry p m).Module.Before m = false := by
        rw [before_eq_keyBefore, promoteEntry_key, ← before_eq_keyBefore]
        exact get_of_notBefore s m p hnb hs
      rw [if_neg (by simp [hb])]
      exact promoteSolution_sig s p m hs

theorem constrainMerge_frontier (K : List ModuleKey) (s : State) (m : Module)
    (hf : ∀ x ∈ s.Frontier, inUniverse K x.key) (hm : inUniverse K m.key) :
    ∀ x ∈ (constrainMerge s m).Frontier, inUniverse K x.key := by
  have henq : ∀ s' : State, (∀ x ∈ s'.Frontier, inUniverse K x.key) →
      ∀ x ∈ (enqueue s' m).Frontier, inUniverse K x.key := by
    intro s' hs' x hx
    simp only [enqueue, List.mem_append, List.mem_singleton] at hx
    rcases hx with hx | rfl
    · exact hs' x hx
    · exact hm
  cases hp : mapGet s.Problem m.Name with
  | some i =>
    cases hfi : s.Frontier[i]? with
    | none => rw [constrainMerge_of_index_none s m i hp hfi]; exact hf
    | some problem =>
      rw [constrainMerge_of_index s m i problem hp hfi]
      intro x hx
      rcases List.mem_or_eq_of_mem_set hx with hx | rfl
      · exact hf x hx
      · rcases mergeFrontier_key problem m with h | h
        · rw [h]; exact hf problem (List.getElem?_mem hfi)
        · rw [h]; exact hm
  | none =>
    cases hs : mapGet s.Solution m.Name with
    | none => rw [constrainMerge_of_new s m hp hs]; exact henq s hf
    | some p =>
      rw [constrainMerge_of_solution s m p hp hs]
      split
      · exact henq _ (by rw [promoteSolution_Frontier]; exact hf)
      · rw [promoteSolution_Frontier]; exact hf

theorem notBefore_of_sig (s s' : State) (m : Module) (hsig : s'.sig = s.sig)
    (h : notBefore s m) : notBefore s' m := by
  unfold notBefore
  rw [hsig]
  exact h

theorem notBefore_applyTest (s : State) (test : Bool) (m : Module) (h : notBefore s m) :
    notBefore s (applyTest test m) := by
  intro x hx hxn
  rw [applyTest_key]
  rw [applyTest_Name] at hxn
  exact h x hx hxn

theorem foldl_constrainAdd_good (K : List ModuleKey) (test : Bool) (ms : Modules) (s : State)
    (hinv : s.Inv) (hch : Chain K s) (hms : ∀ m ∈ ms, inUniverse K m.key)
    (hnb : ∀ m ∈ ms, notBefore s m) :
    (ms.foldl (constrainAdd test) s).Inv ∧ Chain K (ms.foldl (constrainAdd test) s) ∧
    (ms.foldl (constrainAdd test) s).sig = s.sig := by
  induction ms generalizing s with
  | nil => exact ⟨hinv, hch, rfl⟩
  | cons m rest ih =>
    simp only [List.foldl_cons]
    have hm := hms m (List.mem_cons_self _ _)
    have hm' : inUniverse K (applyTest test m).key := by rw [applyTest_key]; exact hm
    have hnbm := notBefore_applyTest s test m (hnb m (List.mem_cons_self _ _))
    have hsig : (constrainAdd test s m).sig = s.sig :=
      constrainMerge_sig s _ hnbm
    have hinv' : (constrainAdd test s m).Inv := constrainMerge_inv s _ hinv
    have hch' : Chain K (constrainAdd test s m) :=
      chain_of_sig K s _ hch hsig (constrainMerge_frontier K s _ (chain_frontier hch) hm')
    obtain ⟨g1, g2, g3⟩ := ih (constrainAdd test s m) hinv' hch'
      (fun x hx => hms x (List.mem_cons_of_mem _ hx))
      (fun x hx => notBefore_of_sig s _ x hsig (hnb x (List.mem_cons_of_mem _ hx)))
    exact ⟨g1, g2, g3.trans hsig⟩

theorem solverMeasure_of_sig (K : List ModuleKey) (s s' : State) (hsig : s'.sig = s.sig) :
    solverMeasure K s' = solverMeasure K s := by
  unfold solverMeasure; rw [hsig]

theorem constrainFinished_good (K : List ModuleKey) (s : State) (ms : Modules) (test : Bool)
    (hinv : s.Inv) (hch : Chain K s) (hms : ∀ m ∈ ms, inUniverse K m.key) :
    (constrainFinished s ms test).Inv ∧ Chain K (constrainFinished s ms test) ∧
    solverMeasure K s ≤ solverMeasure K (constrainFinished s ms test) := by
  obtain ⟨h1, h2, h3, h4, _⟩ := foldl_constrainBacktrack_good K ms s hinv hch hms
  have hl := inv_local h1
  have hcs := clone_sig K _ hl h2
  have hcc := chain_clone K _ hl h2
  have hci : (ms.foldl constrainBacktrack s).Clone.Inv := consider_inv _ _ h1
  obtain ⟨g1, g2, g3⟩ := foldl_constrainAdd_good K test ms _ hci hcc hms
    (fun m hm => notBefore_of_sig _ _ m hcs (h4 m hm))
  refine ⟨g1, g2, ?_⟩
  unfold constrainFinished
  rw [solverMeasure_of_sig K _ _ (g3.trans hcs)]
  exact h3

theorem solverMeasure_lt (K : List ModuleKey) (s : State) (hinv : s.Inv) (hch : Chain K s) :
    solverMeasure K s < (K.length + 2) ^ (K.length + 1) := by
  unfold solverMeasure
  apply chainMeasure_lt _ _ _ (by omega)
  · intro r hr
    obtain ⟨x, _, rfl⟩ := List.mem_map.1 hr
    exact keyRank_lt K _
  · have := sig_length_le K s (inv_local hinv) hch
    simp only [List.length_map]
    omega

theorem constrain_good {σ : Type} (loader : SolverLoader σ) (K : List ModuleKey)
    (hK : loaderWithin loader K) (ls : σ) (s : State) (ms : Modules) (test : Bool)
    (hinv : s.Inv) (hch : Chain K s) :
    (s.Constrain loader ls ms test).1.1.Inv ∧ Chain K (s.Constrain loader ls ms test).1.1 ∧
    solverMeasure K s ≤ solverMeasure K (s.Constrain loader ls ms test).1.1 := by
  unfold State.Constrain
  cases hf : loader.FinishModules ls ms with
  | mk res ls' =>
    cases res with
    | error e => exact ⟨hinv, hch, le_refl _⟩
    | ok out => exact constrainFinished_good K s out test hinv hch (hK ls ms out ls' hf)

theorem newState_chain (K : List ModuleKey) : Chain K NewState := by
  refine Chain.intro _ ?_ ?_ ?_ ?_ <;> simp [NewState, State.sig]

theorem constrainReachable_good {σ : Type} (loader : SolverLoader σ) (K : List ModuleKey)
    (hK : loaderWithin loader K) (s : State) (hs : ConstrainReachable loader s) :
    s.Inv ∧ Chain K s := by
  induction hs with
  | newState => exact ⟨newState_inv, newState_chain K⟩
  | constrain s ls ms test _ ih =>
    obtain ⟨h1, h2, _⟩ := constrain_good loader K hK ls s ms test ih.1 ih.2
    exact ⟨h1, h2⟩

theorem solve_step_good {σ : Type} (loader : SolverLoader σ) (K : List ModuleKey)
    (hK : loaderWithin loader K) (ls : σ) (s : State) (c : Module) (rest : Modules)
    (hinv : s.Inv) (hch : Chain K s) (hf : s.Frontier = c :: rest) :
    ((s.Consider c).Constrain loader ls c.Modules c.Test).1.1.Inv ∧
    Chain K ((s.Consider c).Constrain loader ls c.Modules c.Test).1.1 ∧
    solverMeasure K s < solverMeasure K ((s.Consider c).Constrain loader ls c.Modules c.Test).1.1 := by
  have hc : c ∈ s.Frontier := by rw [hf]; exact List.mem_cons_self _ _
  have hcu := chain_frontier hch c hc
  have hk : c.Name ∉ s.Solution.map (fun e => e.1) := by
    intro h
    obtain ⟨e, he, hec⟩ := List.mem_map.1 h
    exact (inv_local hinv).disjoint c hc e he hec.symm
  obtain ⟨h1, h2, h3⟩ := constrain_good loader K hK ls (s.Consider c) c.Modules c.Test
    (consider_inv s c hinv) (chain_consider K s c hch hcu hk)
  exact ⟨h1, h2, lt_of_lt_of_le (solverMeasure_consider K s c hinv hch hcu hk) h3⟩

theorem solve_returns {σ : Type} (loader : SolverLoader σ) (K : List ModuleKey)
    (hK : loaderWithin loader K) (fuel : Nat) (ls : σ) (s : State) (hinv : s.Inv)
    (hch : Chain K s) (hfuel : (K.length + 2) ^ (K.length + 1) ≤ solverMeasure K s + fuel) :
    ∃ r, s.Solve loader fuel ls = some r := by
  induction fuel generalizing s ls with
  | zero =>
    have := solverMeasure_lt K s hinv hch
    omega
  | succ fuel ih =>
    unfold State.Solve
    cases hf : s.Frontier with
    | nil => exact ⟨_, rfl⟩
    | cons c rest =>
      simp only
      obtain ⟨h1, h2, h3⟩ := solve_step_good loader K hK ls s c rest hinv hch hf
      cases hr : (s.Consider c).Constrain loader ls c.Modules c.Test with
      | mk se ls' =>
        cases se with
        | mk st err =>
          rw [hr] at h1 h2 h3
          cases err with
          | some e => exact ⟨_, rfl⟩
          | none => exact ih ls' st h1 h2 (by simp only at h3; omega)

theorem solve_frontier_empty {σ : Type} (loader : SolverLoader σ) (fuel : Nat) (ls ls' : σ)
    (s s' : State) (h : s.Solve loader fuel ls = some ((s', none), ls')) : s'.Frontier = [] := by
  induction fuel generalizing s ls with
  | zero =>
    unfold State.Solve at h
    split at h
    · rename_i hf
      injection h with h
      injection h with h
      injection h with h
      rw [← h]; exact hf
    · cases h
  | succ fuel ih =>
    unfold State.Solve at h
    split at h
    · rename_i hf
      injection h with h
      injection h with h
      injection h with h
      rw [← h]; exact hf
    · split at h
      · injection h with h
        injection h with h
        injection h with h
        rename_i h2
        cases h2
      · exact ih _ _ h

/-- C8, as the code has it: when the universe of the loader is finite and no
module of it has the empty name, Solve comes to an end on every state that
comes from NewState by Constrain, within `(|K| + 2) ^ (|K| + 1)` passes of its
loop, and a state that it returns without error has an empty frontier. -/
theorem solve_terminates {σ : Type} (loader : SolverLoader σ) (K : List ModuleKey)
    (hK : loaderWithin loader K) (s : State) (hs : ConstrainReachable loader s) (ls : σ) :
    (∃ r, s.Solve loader ((K.length + 2) ^ (K.length + 1)) ls = some r) ∧
    ∀ fuel s' ls', s.Solve loader fuel ls = some ((s', none), ls') → s'.Frontier = [] := by
  obtain ⟨hinv, hch⟩ := constrainReachable_good loader K hK s hs
  exact ⟨solve_returns loader K hK _ ls s hinv hch (by omega),
    fun fuel s' ls' h => solve_frontier_empty loader fuel ls ls' s s' h⟩
theorem universeFinish_key (known : Modules) (m m' : Module)
    (h : universeFinish known m = .ok m') : ∃ u ∈ known, m'.key = u.key := by
  unfold universeFinish at h
  cases hf : known.find?
      (fun u => decide (u.Name = m.Name ∧ u.Version = m.Version ∧ u.Time = m.Time)) with
  | none => rw [hf] at h; cases h
  | some u =>
    rw [hf] at h
    simp only [Except.ok.injEq] at h
    refine ⟨u, List.mem_of_find?_eq_some hf, ?_⟩
    rw [← h]
    rfl

theorem universeFinishModules_keys (known : Modules) (ms out : Modules)
    (h : universeFinishModules known ms = .ok out) :
    ∀ m ∈ out, m.key ∈ known.map Module.key := by
  induction ms generalizing out with
  | nil =>
    simp only [universeFinishModules, Except.ok.injEq] at h
    subst h
    simp
  | cons m rest ih =>
    unfold universeFinishModules at h
    cases h1 : universeFinish known m with
    | error e => rw [h1] at h; cases h
    | ok m' =>
      rw [h1] at h
      simp only at h
      cases h2 : universeFinishModules known rest with
      | error e => rw [h2] at h; cases h
      | ok rest' =>
        rw [h2] at h
        simp only [Except.ok.injEq] at h
        subst h
        intro x hx
        rcases List.mem_cons.1 hx with rfl | hx
        · obtain ⟨u, hu, hk⟩ := universeFinish_key known m x h1
          rw [hk]
          exact List.mem_map_of_mem _ hu
        · exact ih rest' h2 x hx

theorem universeLoader_keys (known : Modules) (ls ls' : Unit) (ms out : Modules)
    (h : (universeLoader known).FinishModules ls ms = (.ok out, ls')) :
    ∀ m ∈ out, m.key ∈ known.map Module.key := by
  simp only [universeLoader, Prod.mk.injEq] at h
  exact universeFinishModules_keys known ms out h.1

theorem universeLoader_within (known : Modules) (hn : ∀ u ∈ known, u.Name ≠ "") :
    loaderWithin (universeLoader known) (known.map Module.key) := by
  intro ls ms out ls' h m hm
  have hk := universeLoader_keys known ls ls' ms out h m hm
  refine ⟨?_, hk⟩
  obtain ⟨u, hu, hku⟩ := List.mem_map.1 hk
  have : m.key.1 = u.key.1 := by rw [hku]
  intro hm0
  apply hn u hu
  show u.key.1 = ""
  rw [← this]
  exact hm0

/-- C8, witness: the loader over the universe c@1.0.0, c@2.0.0, y, z, and the
state of the constraints c@1.0.0 and y. -/
theorem solve_terminates_witness :
    loaderWithin (universeLoader smallUniverse) (smallUniverse.map Module.key) ∧
    ConstrainReachable (universeLoader smallUniverse)
      (NewState.Constrain (universeLoader smallUniverse) () [modC1, modY] false).1.1 ∧
    ((∃ r, (NewState.Constrain (universeLoader smallUniverse) () [modC1, modY] false).1.1.Solve
        (universeLoader smallUniverse)
        (((smallUniverse.map Module.key).length + 2) ^ ((smallUniverse.map Module.key).length + 1))
        () = some r) ∧
      ∀ fuel s' ls',
        (NewState.Constrain (universeLoader smallUniverse) () [modC1, modY] false).1.1.Solve
          (universeLoader smallUniverse) fuel () = some ((s', none), ls') → s'.Frontier = []) :=
  have hw : loaderWithin (universeLoader smallUniverse) (smallUniverse.map Module.key) :=
    universeLoader_within smallUniverse (by decide)
  have hr : ConstrainReachable (universeLoader smallUniverse)
      (NewState.Constrain (universeLoader smallUniverse) () [modC1, modY] false).1.1 :=
    ConstrainReachable.constrain NewState () [modC1, modY] false ConstrainReachable.newState
  ⟨hw, hr, solve_terminates (universeLoader smallUniverse) (smallUniverse.map Module.key) hw _ hr ()⟩

theorem loopState_step (fuel : Nat) :
    loopState.Solve (universeLoader loopUniverse) (fuel + 1) ()
      = loopState.Solve (universeLoader loopUniverse) fuel () := by
  rfl

theorem loopState_never_returns (fuel : Nat) :
    loopState.Solve (universeLoader loopUniverse) fuel () = none := by
  induction fuel with
  | zero => rfl
  | succ fuel ih => rw [loopState_step, ih]

/-- C8, counterexample: the universe of the loader has one module, which has
the empty name and lists a module with the empty name; every module the loader
returns has the key of that module.  The state that Constrain makes of the
constraint with the empty name has that module in its frontier, and Solve does
not return from it, whatever the fuel. -/
theorem solve_loops_on_empty_name :
    (∀ ls ms out ls', (universeLoader loopUniverse).FinishModules ls ms = (.ok out, ls') →
      ∀ m ∈ out, m.key ∈ loopUniverse.map Module.key) ∧
    ConstrainReachable (universeLoader loopUniverse) loopState ∧
    loopState.Frontier.map (fun m => (m.Name, m.Modules.map (fun d => d.Name))) = [("", [""])] ∧
    ¬ ∃ fuel, (loopState.Solve (universeLoader loopUniverse) fuel ()).isSome = true := by
  refine ⟨fun ls ms out ls' h => universeLoader_keys loopUniverse ls ls' ms out h,
    ConstrainReachable.constrain NewState () _ false ConstrainReachable.newState, by decide, ?_⟩
  rintro ⟨fuel, h⟩
  rw [loopState_never_returns fuel] at h
  cases h

/-! ### Promotion of test modules -/

theorem mergeFrontier_nonTest (problem m : Module) (hm : m.Test = false) :
    (mergeFrontier problem m).Test = false := by
  unfold mergeFrontier
  simp only [hm, Bool.not_false, if_true]
  split
  · exact hm
  · rfl

theorem promoteEntry_nonTest (p : Partial State) (m : Module) (hm : m.Test = false) :
    (promoteEntry p m).Module.Test = false := by
  unfold promoteEntry
  simp [hm]

theorem enqueue_held_self (s : State) (m : Module) :
    heldModule (enqueue s m) m.Name = some m := by
  simp [heldModule, enqueue, mapGet_mapSet_self]

theorem constrainMerge_held_self (s : State) (m : Module) (hl : s.Local) (hm : m.Test = false) :
    heldNonTest (constrainMerge s m) m.Name := by
  cases hp : mapGet s.Problem m.Name with
  | some i =>
    cases hf : s.Frontier[i]? with
    | none =>
      exfalso
      have := (hl.validFrontier.2 m.Name i).1 hp
      rw [hf] at this
      cases this
    | some problem =>
      rw [constrainMerge_of_index s m i problem hp hf]
      refine ⟨mergeFrontier problem m, ?_, mergeFrontier_nonTest problem m hm⟩
      have hlt : i < s.Frontier.length := by
        rcases Nat.lt_or_ge i s.Frontier.length with h | h
        · exact h
        · rw [List.getElem?_eq_none h] at hf; cases hf
      simp [heldModule, hp, List.getElem?_set, hlt]
  | none =>
    cases hs : mapGet s.Solution m.Name with
    | none => rw [constrainMerge_of_new s m hp hs]; exact ⟨m, enqueue_held_self s m, hm⟩
    | some p =>
      rw [constrainMerge_of_solution s m p hp hs]
      split
      · exact ⟨m, enqueue_held_self _ m, hm⟩
      · refine ⟨(promoteEntry p m).Module, ?_, promoteEntry_nonTest p m hm⟩
        simp [heldModule, promoteSolution_Problem, hp, promoteSolution_get_self s p m hs]

theorem enqueue_held_ne (s : State) (x : Module) (n : String) (hl : s.Local)
    (hn : n ≠ x.Name) : heldModule (enqueue s x) n = heldModule s n := by
  simp only [heldModule, enqueue, mapGet_mapSet_ne _ _ _ _ hn, mapGet_mapDelete_ne _ _ _ hn]
  cases hp : mapGet s.Problem n with
  | none => rfl
  | some j =>
    simp only
    have := (hl.validFrontier.2 n j).1 hp
    have hlt : j < s.Frontier.length := by
      rcases Nat.lt_or_ge j s.Frontier.length with h | h
      · exact h
      · rw [List.getElem?_eq_none h] at this; cases this
    rw [List.getElem?_append_left hlt]

theorem promoteSolution_held_ne (s : State) (p : Partial State) (x : Module) (n : String)
    (hn : n ≠ x.Name) : heldModule (promoteSolution s p x) n = heldModule s n := by
  simp only [heldModule, promoteSolution_Problem, promoteSolution_Frontier,
    promoteSolution_get_ne s p x n hn]

theorem constrainMerge_held_ne (s : State) (x : Module) (n : String) (hl : s.Local)
    (hn : n ≠ x.Name) : heldModule (constrainMerge s x) n = heldModule s n := by
  cases hp : mapGet s.Problem x.Name with
  | some i =>
    cases hf : s.Frontier[i]? with
    | none => rw [constrainMerge_of_index_none s x i hp hf]
    | some problem =>
      rw [constrainMerge_of_index s x i problem hp hf]
      simp only [heldModule]
      cases hpn : mapGet s.Problem n with
      | none => rfl
      | some j =>
        simp only
        have h1 := (hl.validFrontier.2 x.Name i).1 hp
        have h2 := (hl.validFrontier.2 n j).1 hpn
        have hij : i ≠ j := by
          intro h
          subst h
          rw [h1] at h2
          injection h2 with h2
          exact hn h2.symm
        rw [List.getElem?_set_ne hij]
  | none =>
    cases hs : mapGet s.Solution x.Name with
    | none => rw [constrainMerge_of_new s x hp hs]; exact enqueue_held_ne s x n hl hn
    | some p =>
      rw [constrainMerge_of_solution s x p hp hs]
      split
      · rw [enqueue_held_ne _ x n (promoteSolution_local s p x hs hl) hn]
        exact promoteSolution_held_ne s p x n hn
      · exact promoteSolution_held_ne s p x n hn

theorem foldl_constrainAdd_held (ms : Modules) (s : State) (n : String) (hinv : s.Inv)
    (hms : ∀ x ∈ ms, x.Name ≠ n) :
    heldModule (ms.foldl (constrainAdd false) s) n = heldModule s n := by
  induction ms generalizing s with
  | nil => rfl
  | cons x rest ih =>
    simp only [List.foldl_cons]
    have hx : n ≠ (applyTest false x).Name := by
      rw [applyTest_Name]
      exact fun h => hms x (List.mem_cons_self _ _) h.symm
    rw [ih (constrainAdd false s x) (constrainMerge_inv s _ hinv)
      (fun y hy => hms y (List.mem_cons_of_mem _ hy))]
    exact constrainMerge_held_ne s _ n (inv_local hinv) hx

theorem foldl_constrainAdd_inv (test : Bool) (ms : Modules) (s : State) (hinv : s.Inv) :
    (ms.foldl (constrainAdd test) s).Inv := by
  induction ms generalizing s with
  | nil => exact hinv
  | cons x rest ih => exact ih _ (constrainMerge_inv s _ hinv)

/-- The promotion that one call of Constrain does: when Constrain is given with
`test = false`, in a state that comes from NewState by Constrain, Solve, Add and
Remove, modules that the loader finishes as `before ++ m :: after`, where `m`
has Test = false and no module of `after` has its name, the state returned
holds under the name of `m`, in the frontier or in the solution, a module that
has Test = false. -/
theorem constrain_promotes_listed {σ : Type} (loader : SolverLoader σ) (ls ls' : σ)
    (s : State) (ms before after : Modules) (m : Module) (hr : Reachable loader s)
    (hfin : loader.FinishModules ls ms = (.ok (before ++ m :: after), ls'))
    (hm : m.Test = false) (hafter : ∀ x ∈ after, x.Name ≠ m.Name) :
    heldNonTest (s.Constrain loader ls ms false).1.1 m.Name := by
  unfold State.Constrain
  rw [hfin]
  show heldNonTest (constrainFinished s (before ++ m :: after) false) m.Name
  unfold constrainFinished
  have h0 : ((before ++ m :: after).foldl constrainBacktrack s).Clone.Inv :=
    consider_inv _ _ (foldl_constrainBacktrack_inv _ s (reachable_inv loader s hr))
  generalize ((before ++ m :: after).foldl constrainBacktrack s).Clone = s0 at h0
  rw [List.foldl_append, List.foldl_cons]
  have h1 := foldl_constrainAdd_inv false before s0 h0
  obtain ⟨h, hh, ht⟩ := constrainMerge_held_self _ m (inv_local h1) hm
  have h2 : (constrainAdd false (before.foldl (constrainAdd false) s0) m).Inv :=
    constrainMerge_inv _ _ h1
  refine ⟨h, ?_, ht⟩
  rw [foldl_constrainAdd_held after _ m.Name h2 hafter]
  exact hh

/-- An instance of the promotion by one call of Constrain: the state holds b as
a test module in its solution, and Constrain is given d and b with
Test = false: the state returned holds b with Test = false. -/
theorem constrain_promotes_listed_witness :
    Reachable plainLoader solvedBTest ∧
    solvedBTest.Solution.map (fun e => (e.1, e.2.Module.Test)) = [("b", true), ("d", true)] ∧
    plainLoader.FinishModules emptyMemo [modD, modB] = (.ok ([modD] ++ modB :: []), emptyMemo) ∧
    heldNonTest (solvedBTest.Constrain plainLoader emptyMemo [modD, modB] false).1.1 modB.Name :=
  have hr : Reachable plainLoader solvedBTest :=
    Reachable.solve (NewState.Constrain plainLoader emptyMemo [modBTest] false).1.1 solvedBTest
      4 emptyMemo emptyMemo none
      (Reachable.constrain NewState emptyMemo [modBTest] false Reachable.newState) rfl
  ⟨hr, by decide, rfl,
    constrain_promotes_listed plainLoader emptyMemo emptyMemo solvedBTest [modD, modB]
      [modD] [] modB hr rfl rfl (by simp)⟩

/-- A module listed as a test module stays one: with the constraint leslie,
which lists morgan as a test module, Solve returns without error a solution in
which leslie has Test = false and morgan, which leslie lists, has
Test = true. -/
theorem test_dependency_stays_test :
    (constrainAndSolve 4 [modLeslie]).map
        (fun r => (r.2, r.1.Solution.map (fun e => (e.1, e.2.Module.Test)),
          (heldModule r.1 "leslie").map (fun m => m.Modules.map (fun d => (d.Name, d.Test))),
          testPromotionClosed r.1))
      = some (none, [("leslie", false), ("morgan", true), ("carey", true)],
          some [("morgan", true)], false) := by
  rfl

/-! ### Version.CanUpgradeTo -/

theorem wrapInt_of_range (x : Int) (h1 : -2 ^ 63 ≤ x) (h2 : x < 2 ^ 63) : wrapInt x = x := by
  unfold wrapInt
  norm_num at h1 h2 ⊢
  omega

theorem versionBefore_iff (v w : Version) :
    v.Before w = true ↔
      (v.major < w.major ∨ (v.major = w.major ∧
        (v.minor < w.minor ∨ (v.minor = w.minor ∧ v.patch < w.patch)))) := by
  unfold Version.Before
  by_cases e1 : v.major = w.major <;> by_cases e2 : v.minor = w.minor <;> simp [e1, e2]

theorem wrapInt_le (x : Int) (h : 0 ≤ x) : wrapInt x ≤ x := by
  unfold wrapInt
  norm_num
  omega

/-- The upgrades of a version with non-negative components, with the overflow of nextBreak
left explicit. -/
theorem canUpgradeTo_iff (v w : Version)
    (hv : 0 ≤ v.major ∧ 0 ≤ v.minor ∧ 0 ≤ v.patch)
    (hw : 0 ≤ w.major ∧ 0 ≤ w.minor ∧ 0 ≤ w.patch) :
    v.CanUpgradeTo w = true ↔
      (v.Before w = true ∧ v.major = w.major ∧
        ((0 < v.major ∧ v.major < wrapInt (v.major + 1)) ∨
         (v.major = 0 ∧ v.minor = w.minor ∧ v.minor < wrapInt (v.minor + 1)))) := by
  obtain ⟨hv0, hv1, hv2⟩ := hv
  obtain ⟨hw0, hw1, hw2⟩ := hw
  have b0 := wrapInt_le (v.major + 1) (by omega)
  have b1 := wrapInt_le (v.minor + 1) (by omega)
  unfold Version.CanUpgradeTo
  rw [Bool.and_eq_true, versionBefore_iff, versionBefore_iff]
  unfold Version.nextBreak
  by_cases h0 : v.major = 0
  · rw [if_pos h0]
    dsimp only
    constructor
    · rintro ⟨h1, h2⟩
      refine ⟨h1, ?_⟩
      omega
    · rintro ⟨h1, h2, h3⟩
      refine ⟨h1, ?_⟩
      omega
  · rw [if_neg h0]
    dsimp only
    have h0p : 0 < v.major := by omega
    constructor
    · rintro ⟨h1, h2⟩
      refine ⟨h1, ?_⟩
      omega
    · rintro ⟨h1, h2, h3⟩
      refine ⟨h1, ?_⟩
      omega

/-- C11 (as stated): the version 9223372036854775807.0.0, whose components are not negative,
is before 9223372036854775807.0.1 and has the same major number, which is greater than zero,
but CanUpgradeTo returns false: nextBreak overflows. -/
theorem canUpgradeTo_fails_at_max_int :
    (0 ≤ versionMaxMajor.major ∧ 0 ≤ versionMaxMajor.minor ∧ 0 ≤ versionMaxMajor.patch) ∧
    (0 ≤ versionMaxMajorPatch.major ∧ 0 ≤ versionMaxMajorPatch.minor ∧
      0 ≤ versionMaxMajorPatch.patch) ∧
    versionMaxMajor.major < 2 ^ 63 ∧ versionMaxMajorPatch.major < 2 ^ 63 ∧
    versionMaxMajor.Before versionMaxMajorPatch = true ∧
    versionMaxMajor.major = versionMaxMajorPatch.major ∧ 0 < versionMaxMajor.major ∧
    versionMaxMajor.nextBreak = { major := -2 ^ 63, minor := 0, patch := 0 } ∧
    versionMaxMajor.CanUpgradeTo versionMaxMajorPatch = false := by
  decide

/-- C11 (amended): for versions v and w with non-negative components, where the major and
the minor number of v are smaller than the greatest int, v.CanUpgradeTo(w) holds if and only
if v is Before w, they have the same major number, and the major number is greater than zero
or they have the same minor number. -/
theorem canUpgradeTo_same_window (v w : Version)
    (hv : 0 ≤ v.major ∧ 0 ≤ v.minor ∧ 0 ≤ v.patch)
    (hw : 0 ≤ w.major ∧ 0 ≤ w.minor ∧ 0 ≤ w.patch)
    (hmajor : v.major < 2 ^ 63 - 1) (hminor : v.minor < 2 ^ 63 - 1) :
    v.CanUpgradeTo w = true ↔
      (v.Before w = true ∧ v.major = w.major ∧ (0 < v.major ∨ v.minor = w.minor)) := by
  rw [canUpgradeTo_iff v w hv hw]
  have e1 : wrapInt (v.major + 1) = v.major + 1 := by
    apply wrapInt_of_range <;> norm_num at hmajor ⊢ <;> omega
  have e2 : wrapInt (v.minor + 1) = v.minor + 1 := by
    apply wrapInt_of_range <;> norm_num at hminor ⊢ <;> omega
  rw [e1, e2]
  constructor
  · rintro ⟨h1, h2, h3⟩
    refine ⟨h1, h2, ?_⟩
    omega
  · rintro ⟨h1, h2, h3⟩
    refine ⟨h1, h2, ?_⟩
    omega

theorem canUpgradeTo_same_window_witness :
    (({ major := 1, minor := 2, patch := 3 } : Version).CanUpgradeTo
        { major := 1, minor := 4, patch := 0 } = true ↔
      ((({ major := 1, minor := 2, patch := 3 } : Version).Before
          { major := 1, minor := 4, patch := 0 } = true) ∧
        (1 : Int) = 1 ∧ ((0 : Int) < 1 ∨ (2 : Int) = 4))) ∧
    ({ major := 1, minor := 2, patch := 3 } : Version).CanUpgradeTo
        { major := 1, minor := 4, patch := 0 } = true :=
  ⟨canUpgradeTo_same_window { major := 1, minor := 2, patch := 3 }
      { major := 1, minor := 4, patch := 0 } (by decide) (by decide) (by decide) (by decide),
    by decide⟩
/-! ### ParseHashPrefix -/

theorem two_step_induction {α : Type} {P : List α → Prop} (h0 : P []) (h1 : ∀ a, P [a])
    (h2 : ∀ a b l, P l → P (a :: b :: l)) : ∀ l, P l := by
  have key : ∀ l, P l ∧ ∀ a, P (a :: l) := by
    intro l
    induction l with
    | nil => exact ⟨h0, h1⟩
    | cons b l ih => exact ⟨ih.2 b, fun a => h2 a b l ih.1⟩
  exact fun l => (key l).1

theorem char_consts : '0'.toNat = 48 ∧ '9'.toNat = 57 ∧ 'a'.toNat = 97 ∧ 'f'.toNat = 102 := by
  decide

theorem hexValue_lt (r : Char) (h : isHexRune r) : hexValue r < 16 := by
  obtain ⟨c0, c9, ca, cf⟩ := char_consts
  unfold isHexRune at h
  unfold hexValue
  simp only [c0, c9, ca, cf] at h ⊢
  split <;> omega

theorem highDigit_of_hex (r : Char) (h : isHexRune r) :
    highDigit r = some (toByte (16 * hexValue r)) := by
  obtain ⟨c0, c9, ca, cf⟩ := char_consts
  unfold isHexRune at h
  unfold highDigit hexValue
  simp only [c0, c9, ca, cf] at h ⊢
  by_cases h1 : 48 ≤ r.toNat ∧ r.toNat ≤ 57
  · rw [if_pos h1, if_pos h1.2]
  · rw [if_neg h1]
    have h2 : 97 ≤ r.toNat ∧ r.toNat ≤ 102 := by omega
    rw [if_pos h2, if_neg (by omega)]

theorem lowDigit_of_hex (r : Char) (h : isHexRune r) :
    lowDigit r = some (toByte (hexValue r)) := by
  obtain ⟨c0, c9, ca, cf⟩ := char_consts
  unfold isHexRune at h
  unfold lowDigit hexValue
  simp only [c0, c9, ca, cf] at h ⊢
  by_cases h1 : 48 ≤ r.toNat ∧ r.toNat ≤ 57
  · rw [if_pos h1, if_pos h1.2]
  · rw [if_neg h1]
    have h2 : 97 ≤ r.toNat ∧ r.toNat ≤ 102 := by omega
    rw [if_pos h2, if_neg (by omega)]

theorem highDigit_of_not_hex (r : Char) (h : ¬ isHexRune r) : highDigit r = none := by
  unfold isHexRune at h
  unfold highDigit
  rw [if_neg (fun h1 => h (Or.inl h1)), if_neg (fun h1 => h (Or.inr h1))]

theorem lowDigit_of_not_hex (r : Char) (h : ¬ isHexRune r) : lowDigit r = none := by
  unfold isHexRune at h
  unfold lowDigit
  rw [if_neg (fun h1 => h (Or.inl h1)), if_neg (fun h1 => h (Or.inr h1))]

theorem highDigit_isSome (r : Char) (h : isHexRune r) : ∃ v, highDigit r = some v :=
  ⟨_, highDigit_of_hex r h⟩

theorem hexDigit_hexValue (r : Char) (h : isHexRune r) : hexDigit (hexValue r) = r := by
  obtain ⟨c0, c9, ca, cf⟩ := char_consts
  unfold isHexRune at h
  unfold hexDigit hexValue
  simp only [c0, c9, ca, cf] at h ⊢
  by_cases h1 : r.toNat ≤ 57
  · rw [if_pos h1, if_pos (by omega)]
    have e : 48 + (r.toNat - 48) = r.toNat := by omega
    rw [e, Char.ofNat_toNat]
  · rw [if_neg h1, if_neg (by omega)]
    have e : 87 + (r.toNat - 97 + 10) = r.toNat := by omega
    rw [e, Char.ofNat_toNat]

theorem hexDigit_injective : ∀ a b : Fin 16, hexDigit a.val = hexDigit b.val → a = b := by
  decide

theorem hexDigit_eq_hexValue (n : Nat) (hn : n < 16) (r : Char) (h : isHexRune r)
    (e : hexDigit n = r) : n = hexValue r := by
  have h1 := hexDigit_injective ⟨n, hn⟩ ⟨hexValue r, hexValue_lt r h⟩
    (by rw [e, hexDigit_hexValue r h])
  exact congrArg Fin.val h1

/-- A bad rune anywhere makes the loop return NoHash for both bounds. -/
theorem parseHashPrefixLoop_bad (l : List Char) :
    ∀ (i : Nat) (min max : Hash), (∃ c ∈ l, ¬ isHexRune c) →
      parseHashPrefixLoop i l min max = (NoHash, NoHash) := by
  induction l using two_step_induction with
  | h0 => intro i min max h; obtain ⟨c, hc, _⟩ := h; cases hc
  | h1 a =>
    intro i min max h
    obtain ⟨c, hc, hbad⟩ := h
    rw [List.mem_singleton] at hc
    subst hc
    unfold parseHashPrefixLoop
    rw [highDigit_of_not_hex c hbad]
  | h2 a b l ih =>
    intro i min max h
    unfold parseHashPrefixLoop
    by_cases ha : isHexRune a
    · rw [highDigit_of_hex a ha]
      dsimp only
      by_cases hb : isHexRune b
      · rw [lowDigit_of_hex b hb]
        dsimp only
        apply ih
        obtain ⟨c, hc, hbad⟩ := h
        rcases List.mem_cons.mp hc with e | hc
        · exact absurd (e ▸ ha) hbad
        rcases List.mem_cons.mp hc with e | hc
        · exact absurd (e ▸ hb) hbad
        exact ⟨c, hc, hbad⟩
      · rw [lowDigit_of_not_hex b hb]
    · rw [highDigit_of_not_hex a ha]

/-- C13: for every string that is longer than 40 characters or holds a character outside
0-9 and a-f, at an even or an odd position, ParseHashPrefix returns (NoHash, NoHash). -/
theorem parseHashPrefix_rejects (s : String)
    (h : s.data.length > 40 ∨ ∃ c ∈ s.data, ¬ isHexRune c) :
    ParseHashPrefix s = (NoHash, NoHash) := by
  unfold ParseHashPrefix
  dsimp only
  by_cases hlen : s.data.length > 40
  · rw [if_pos hlen]
  · rw [if_neg hlen]
    rcases h with h | h
    · exact absurd h hlen
    · apply parseHashPrefixLoop_bad
      have e : (if s.data.length < 40 then s.data.length else 40) = s.data.length := by
        split <;> omega
      rw [e, List.take_length]
      exact h

theorem parseHashPrefix_rejects_witness :
    ("a28ced3c08ed0b0a1cf11c341376b0e5f2bceeEe".data.length > 40 ∨
        ∃ c ∈ "a28ced3c08ed0b0a1cf11c341376b0e5f2bceeEe".data, ¬ isHexRune c) ∧
      ParseHashPrefix "a28ced3c08ed0b0a1cf11c341376b0e5f2bceeEe" = (NoHash, NoHash) :=
  ⟨Or.inr ⟨'E', by decide, by decide⟩,
    parseHashPrefix_rejects "a28ced3c08ed0b0a1cf11c341376b0e5f2bceeEe"
      (Or.inr ⟨'E', by decide, by decide⟩)⟩
theorem set_at_length {α : Type} (pre : List α) (x y : α) (xs : List α) :
    (pre ++ x :: xs).set pre.length y = pre ++ y :: xs := by
  induction pre with
  | nil => rfl
  | cons p pre ih => simp [List.set, ih]

theorem getD_at_length {α : Type} (pre : List α) (x d : α) (xs : List α) :
    (pre ++ x :: xs).getD pre.length d = x := by
  induction pre with
  | nil => rfl
  | cons p pre ih => simpa [List.getD] using ih

theorem toByte_high_max (a : Nat) (_ : a < 16) :
    toByte ((toByte (16 * a)).val + 0xf) = toByte (16 * a + 15) := by
  unfold toByte
  apply Fin.ext
  simp only
  omega

theorem toByte_low_min (a b : Nat) (_ : a < 16) (_ : b < 16) :
    toByte ((toByte (16 * a)).val + (toByte b).val) = toByte (16 * a + b) := by
  unfold toByte
  apply Fin.ext
  simp only
  omega

theorem toByte_low_max (a b : Nat) (_ : a < 16) (_ : b < 16) :
    toByte ((toByte ((toByte (16 * a)).val + 0xf)).val + (toByte ((toByte b).val + 256 - 0xf)).val)
      = toByte (16 * a + b) := by
  unfold toByte
  apply Fin.ext
  simp only
  omega

/-- The loop of ParseHashPrefix on digits of `0-9a-f`: it overwrites the bytes that follow
`pre` with the bytes the digits stand for, and leaves the rest as it was. -/
theorem parseHashPrefixLoop_hex (l : List Char) :
    ∀ (pre : List (Fin 256)) (k : Nat) (min max : Hash),
      (∀ c ∈ l, isHexRune c) → (l.length + 1) / 2 ≤ k →
      min.1 = pre ++ List.replicate k 0 → max.1 = pre ++ List.replicate k 255 →
      (parseHashPrefixLoop (2 * pre.length) l min max).1.1 =
          pre ++ (packBytes 0 l ++ List.replicate (k - (l.length + 1) / 2) 0) ∧
      (parseHashPrefixLoop (2 * pre.length) l min max).2.1 =
          pre ++ (packBytes 15 l ++ List.replicate (k - (l.length + 1) / 2) 255) := by
  induction l using two_step_induction with
  | h0 =>
    intro pre k min max _ _ hmin hmax
    unfold parseHashPrefixLoop
    simp [packBytes, hmin, hmax]
  | h1 a =>
    intro pre k min max hhex hk hmin hmax
    have ha := hhex a (List.mem_singleton.mpr rfl)
    have hlt := hexValue_lt a ha
    simp only [List.length_singleton] at hk ⊢
    obtain ⟨k, rfl⟩ : ∃ j, k = j + 1 := ⟨k - 1, by omega⟩
    unfold parseHashPrefixLoop
    rw [highDigit_of_hex a ha]
    dsimp only [Hash.set]
    have e : 2 * pre.length / 2 = pre.length := by omega
    rw [e, hmin, hmax]
    simp only [List.replicate_succ, set_at_length, toByte_high_max _ hlt]
    simp [packBytes]
  | h2 a b l ih =>
    intro pre k min max hhex hk hmin hmax
    have ha := hhex a (List.mem_cons_self _ _)
    have hb := hhex b (List.mem_cons_of_mem _ (List.mem_cons_self _ _))
    have hrest : ∀ c ∈ l, isHexRune c := fun c hc =>
      hhex c (List.mem_cons_of_mem _ (List.mem_cons_of_mem _ hc))
    have hlta := hexValue_lt a ha
    have hltb := hexValue_lt b hb
    simp only [List.length_cons] at hk ⊢
    obtain ⟨k, rfl⟩ : ∃ j, k = j + 1 := ⟨k - 1, by omega⟩
    unfold parseHashPrefixLoop
    rw [highDigit_of_hex a ha]
    dsimp only
    rw [lowDigit_of_hex b hb]
    dsimp only
    have e : 2 * pre.length / 2 = pre.length := by omega
    have e1 : (2 * pre.length + 1) / 2 = pre.length := by omega
    have e2 : 2 * pre.length + 2 = 2 * (pre ++ [toByte (16 * hexValue a + hexValue b)]).length := by
      simp; omega
    rw [e2]
    have key := ih (pre ++ [toByte (16 * hexValue a + hexValue b)]) k
      ((min.set (2 * pre.length / 2) (toByte (16 * hexValue a))).set ((2 * pre.length + 1) / 2)
        (toByte (((min.set (2 * pre.length / 2) (toByte (16 * hexValue a))).get
          ((2 * pre.length + 1) / 2)).val + (toByte (hexValue b)).val)))
      ((max.set (2 * pre.length / 2) (toByte ((toByte (16 * hexValue a)).val + 0xf))).set
        ((2 * pre.length + 1) / 2)
        (toByte (((max.set (2 * pre.length / 2) (toByte ((toByte (16 * hexValue a)).val + 0xf))).get
          ((2 * pre.length + 1) / 2)).val + (toByte ((toByte (hexValue b)).val + 256 - 0xf)).val)))
      hrest (by omega)
      (by
        dsimp only [Hash.set, Hash.get]
        rw [e, e1, hmin, List.replicate_succ, set_at_length, getD_at_length, set_at_length,
          toByte_low_min _ _ hlta hltb]
        simp)
      (by
        dsimp only [Hash.set, Hash.get]
        rw [e, e1, hmax, List.replicate_succ, set_at_length, getD_at_length, set_at_length,
          toByte_low_max _ _ hlta hltb]
        simp)
    have e3 : k + 1 - (l.length + 1 + 1 + 1) / 2 = k - (l.length + 1) / 2 := by omega
    rw [e3]
    constructor
    · rw [key.1]; simp [packBytes]
    · rw [key.2]; simp [packBytes]
theorem flatMap_replicate_hex (f : Fin 256) (c : Char) (h2 : hexDigit (f.val / 16) = c)
    (h3 : hexDigit (f.val % 16) = c) (m : Nat) :
    (List.replicate m f).flatMap (fun b => [hexDigit (b.val / 16), hexDigit (b.val % 16)]) =
      List.replicate (2 * m) c := by
  induction m with
  | zero => rfl
  | succ m ih =>
    rw [List.replicate_succ, List.flatMap_cons, ih, h2, h3]
    have e : 2 * (m + 1) = (2 * m + 1) + 1 := by omega
    rw [e, List.replicate_succ, List.replicate_succ]
    rfl

theorem toByte_pack (a b : Nat) (ha : a < 16) (hb : b < 16) :
    (toByte (16 * a + b)).val / 16 = a ∧ (toByte (16 * a + b)).val % 16 = b := by
  unfold toByte
  simp only
  omega

/-- The hexadecimal form of the bytes that ParseHashPrefix writes. -/
theorem flatMap_packBytes (p : Nat) (f : Fin 256) (c : Char) (hp : p < 16)
    (h1 : hexDigit p = c) (h2 : hexDigit (f.val / 16) = c) (h3 : hexDigit (f.val % 16) = c)
    (l : List Char) :
    ∀ m : Nat, (∀ r ∈ l, isHexRune r) →
      (packBytes p l ++ List.replicate m f).flatMap
          (fun b => [hexDigit (b.val / 16), hexDigit (b.val % 16)]) =
        l ++ List.replicate (l.length % 2 + 2 * m) c := by
  induction l using two_step_induction with
  | h0 =>
    intro m _
    simp only [packBytes, List.nil_append, List.length_nil, Nat.zero_mod, Nat.zero_add]
    exact flatMap_replicate_hex f c h2 h3 m
  | h1 a =>
    intro m hhex
    have ha := hhex a (List.mem_singleton.mpr rfl)
    have hp2 := toByte_pack (hexValue a) p (hexValue_lt a ha) hp
    simp only [packBytes, List.singleton_append, List.flatMap_cons, List.length_singleton]
    rw [hp2.1, hp2.2, hexDigit_hexValue a ha, h1, flatMap_replicate_hex f c h2 h3 m]
    have e : 1 % 2 + 2 * m = 2 * m + 1 := by omega
    rw [e, List.replicate_succ]
    rfl
  | h2 a b l ih =>
    intro m hhex
    have ha := hhex a (List.mem_cons_self _ _)
    have hb := hhex b (List.mem_cons_of_mem _ (List.mem_cons_self _ _))
    have hrest : ∀ c ∈ l, isHexRune c := fun c hc =>
      hhex c (List.mem_cons_of_mem _ (List.mem_cons_of_mem _ hc))
    have hp2 := toByte_pack (hexValue a) (hexValue b) (hexValue_lt a ha) (hexValue_lt b hb)
    simp only [packBytes, List.cons_append, List.flatMap_cons, List.length_cons]
    rw [hp2.1, hp2.2, hexDigit_hexValue a ha, hexDigit_hexValue b hb, ih m hrest]
    have e : (l.length + 1 + 1) % 2 = l.length % 2 := by omega
    rw [e]
    rfl

theorem hashAfterLoop_max (hb : List (Fin 256)) :
    ∀ m : Nat, hashAfterLoop hb (List.replicate m 255) = false := by
  induction hb with
  | nil => intro m; cases m <;> rfl
  | cons x hb ih =>
    intro m
    cases m with
    | zero => rfl
    | succ m =>
      rw [List.replicate_succ]
      unfold hashAfterLoop
      have hx : ¬ x > 255 := by
        have := x.isLt
        intro h
        have h2 : (255 : Fin 256).val < x.val := h
        simp at h2
        omega
      rw [if_neg hx]
      split
      · rfl
      · exact ih m

theorem hashAfterLoop_min (hb : List (Fin 256)) :
    ∀ m : Nat, hashAfterLoop (List.replicate m 0) hb = false := by
  induction hb with
  | nil => intro m; cases m <;> rfl
  | cons x hb ih =>
    intro m
    cases m with
    | zero => rfl
    | succ m =>
      rw [List.replicate_succ]
      unfold hashAfterLoop
      have hx : ¬ (0 : Fin 256) > x := by
        intro h
        have h2 : x.val < (0 : Fin 256).val := h
        simp at h2
      rw [if_neg hx]
      split
      · rfl
      · exact ih m

theorem hashAfterLoop_cons_self (x : Fin 256) (a b : List (Fin 256)) :
    hashAfterLoop (x :: a) (x :: b) = hashAfterLoop a b := by
  show (if x > x then true else if x < x then false else hashAfterLoop a b) = _
  rw [if_neg (lt_irrefl x), if_neg (lt_irrefl x)]

/-- A hash whose hexadecimal form starts with the digits lies between the bytes padded with
zeros and the bytes padded with 0xff. -/
theorem hashAfterLoop_bounds (l : List Char) :
    ∀ (hb : List (Fin 256)) (m : Nat), (∀ r ∈ l, isHexRune r) →
      hb.length = (l.length + 1) / 2 + m →
      l <+: hb.flatMap (fun b => [hexDigit (b.val / 16), hexDigit (b.val % 16)]) →
      hashAfterLoop hb (packBytes 15 l ++ List.replicate m 255) = false ∧
      hashAfterLoop (packBytes 0 l ++ List.replicate m 0) hb = false := by
  induction l using two_step_induction with
  | h0 =>
    intro hb m _ _ _
    exact ⟨hashAfterLoop_max hb m, hashAfterLoop_min hb m⟩
  | h1 a =>
    intro hb m hhex hlen hpre
    have ha := hhex a (List.mem_singleton.mpr rfl)
    cases hb with
    | nil => simp at hlen; omega
    | cons x tb =>
      rw [List.flatMap_cons] at hpre
      have h1 : hexDigit (x.val / 16) = a := ((List.cons_prefix_cons).mp hpre).1.symm
      have h2 := hexDigit_eq_hexValue (x.val / 16) (by have := x.isLt; omega) a ha h1
      have hlt := hexValue_lt a ha
      simp only [packBytes, List.singleton_append]
      unfold hashAfterLoop
      have hx := x.isLt
      have v15 : (toByte (16 * hexValue a + 15)).val = 16 * hexValue a + 15 := by
        unfold toByte; simp only; omega
      have v0 : (toByte (16 * hexValue a + 0)).val = 16 * hexValue a := by
        unfold toByte; simp only; omega
      constructor
      · have n1 : ¬ x > toByte (16 * hexValue a + 15) := by
          intro h
          have h3 : (toByte (16 * hexValue a + 15)).val < x.val := h
          omega
        rw [if_neg n1]
        split
        · rfl
        · exact hashAfterLoop_max tb m
      · have n1 : ¬ toByte (16 * hexValue a + 0) > x := by
          intro h
          have h3 : x.val < (toByte (16 * hexValue a + 0)).val := h
          omega
        rw [if_neg n1]
        split
        · rfl
        · exact hashAfterLoop_min tb m
  | h2 a b l ih =>
    intro hb m hhex hlen hpre
    have ha := hhex a (List.mem_cons_self _ _)
    have hb2 := hhex b (List.mem_cons_of_mem _ (List.mem_cons_self _ _))
    have hrest : ∀ c ∈ l, isHexRune c := fun c hc =>
      hhex c (List.mem_cons_of_mem _ (List.mem_cons_of_mem _ hc))
    cases hb with
    | nil => simp at hlen; omega
    | cons x tb =>
      rw [List.flatMap_cons] at hpre
      have p1 := (List.cons_prefix_cons).mp hpre
      have p2 := (List.cons_prefix_cons).mp p1.2
      have hx := x.isLt
      have h1 := hexDigit_eq_hexValue (x.val / 16) (by omega) a ha p1.1.symm
      have h2 := hexDigit_eq_hexValue (x.val % 16) (by omega) b hb2 p2.1.symm
      have hlta := hexValue_lt a ha
      have hltb := hexValue_lt b hb2
      have ex : toByte (16 * hexValue a + hexValue b) = x := by
        apply Fin.ext
        unfold toByte
        simp only
        omega
      simp only [packBytes, List.cons_append, ex, hashAfterLoop_cons_self]
      apply ih tb m hrest _ p2.2
      simp only [List.length_cons] at hlen
      omega

/-- C12: for every string of at most 40 characters of 0-9 and a-f, ParseHashPrefix returns
(min, max) where min is the string padded with the digit 0 and max is the string padded with
the digit f to 40 hexadecimal digits; min is not after max, and every hash whose hexadecimal
form starts with the string satisfies HashBetween(min, h, max). -/
theorem parseHashPrefix_bounds (s : String) (hlen : s.data.length ≤ 40)
    (hhex : ∀ c ∈ s.data, isHexRune c) :
    hashHex (ParseHashPrefix s).1 = s.data ++ List.replicate (40 - s.data.length) '0' ∧
    hashHex (ParseHashPrefix s).2 = s.data ++ List.replicate (40 - s.data.length) 'f' ∧
    HashAfter (ParseHashPrefix s).1 (ParseHashPrefix s).2 = false ∧
    ∀ h : Hash, s.data <+: hashHex h →
      HashBetween (ParseHashPrefix s).1 h (ParseHashPrefix s).2 = true := by
  have e : (if s.data.length < 40 then s.data.length else 40) = s.data.length := by
    split <;> omega
  have hP : ParseHashPrefix s = parseHashPrefixLoop (2 * ([] : List (Fin 256)).length) s.data
      NoHash MaxHash := by
    unfold ParseHashPrefix
    dsimp only
    rw [if_neg (by omega), e, List.take_length]
    rfl
  have key := parseHashPrefixLoop_hex s.data [] 20 NoHash MaxHash hhex (by omega) rfl rfl
  rw [← hP] at key
  simp only [List.nil_append] at key
  obtain ⟨kmin, kmax⟩ := key
  have hlen2 : s.data.length % 2 + 2 * (20 - (s.data.length + 1) / 2) = 40 - s.data.length := by
    omega
  have hbetween : ∀ h : Hash, s.data <+: hashHex h →
      HashAfter h (ParseHashPrefix s).2 = false ∧ HashAfter (ParseHashPrefix s).1 h = false := by
    intro h hpre
    unfold HashAfter
    rw [kmin, kmax]
    exact hashAfterLoop_bounds s.data h.1 (20 - (s.data.length + 1) / 2) hhex
      (by rw [h.2]; omega) hpre
  have hmin : hashHex (ParseHashPrefix s).1 =
      s.data ++ List.replicate (40 - s.data.length) '0' := by
    unfold hashHex
    rw [kmin, flatMap_packBytes 0 0 '0' (by omega) (by decide) (by decide) (by decide) s.data _
      hhex, hlen2]
  refine ⟨hmin, ?_, ?_, ?_⟩
  · unfold hashHex
    rw [kmax, flatMap_packBytes 15 255 'f' (by omega) (by decide) (by decide) (by decide) s.data _
      hhex, hlen2]
  · exact (hbetween (ParseHashPrefix s).1 (by rw [hmin]; exact List.prefix_append _ _)).1
  · intro h hpre
    have hb := hbetween h hpre
    unfold HashBetween
    rw [hb.1, hb.2]
    rfl

theorem parseHashPrefix_bounds_witness :
    hashHex (ParseHashPrefix "a28ced3c08e").1 =
        "a28ced3c08e".data ++ List.replicate (40 - "a28ced3c08e".data.length) '0' ∧
    hashHex (ParseHashPrefix "a28ced3c08e").2 =
        "a28ced3c08e".data ++ List.replicate (40 - "a28ced3c08e".data.length) 'f' ∧
    HashAfter (ParseHashPrefix "a28ced3c08e").1 (ParseHashPrefix "a28ced3c08e").2 = false ∧
    ∀ h : Hash, "a28ced3c08e".data <+: hashHex h →
      HashBetween (ParseHashPrefix "a28ced3c08e").1 h (ParseHashPrefix "a28ced3c08e").2 = true :=
  parseHashPrefix_bounds "a28ced3c08e" (by decide) (by decide)
/-! ### Module.Before is a strict total order -/

theorem versionBefore_total (v w : Version) (h1 : v.Before w = false) (h2 : w.Before v = false) :
    v = w := by
  obtain ⟨a, b, c⟩ := v
  obtain ⟨d, e, f⟩ := w
  unfold Version.Before at h1 h2
  simp only at h1 h2
  by_cases e1 : a = d <;> by_cases e2 : b = e <;> by_cases e3 : c = f <;>
    simp_all [eq_comm] <;> omega

theorem hashBeforeLoop_total (a : List (Fin 256)) :
    ∀ b : List (Fin 256), a.length = b.length → hashBeforeLoop a b = false →
      hashBeforeLoop b a = false → a = b := by
  induction a with
  | nil =>
    intro b hlen _ _
    cases b with
    | nil => rfl
    | cons y ys => simp at hlen
  | cons x xs ih =>
    intro b hlen h1 h2
    cases b with
    | nil => simp at hlen
    | cons y ys =>
      unfold hashBeforeLoop at h1 h2
      by_cases hxy : x < y
      · rw [if_pos hxy] at h1; cases h1
      · by_cases hyx : y < x
        · rw [if_pos hyx] at h2; cases h2
        · have e : x = y := le_antisymm (not_lt.mp hyx) (not_lt.mp hxy)
          subst e
          rw [if_neg hxy, if_neg hxy] at h1 h2
          rw [ih ys (by simpa using hlen) h1 h2]

theorem keyBefore_total (a b : ModuleKey) (h1 : keyBefore a b = false)
    (h2 : keyBefore b a = false) : a = b := by
  obtain ⟨an, av, at', ah⟩ := a
  obtain ⟨bn, bv, bt, bh⟩ := b
  unfold keyBefore at h1 h2
  simp only at h1 h2
  by_cases n1 : an = bn
  · subst n1
    simp only [ne_eq, not_true_eq_false, if_false] at h1 h2
    by_cases v1 : av = bv
    · subst v1
      simp only [not_true_eq_false, if_false] at h1 h2
      by_cases t1 : at' = bt
      · subst t1
        simp only [not_true_eq_false, if_false] at h1 h2
        have e : ah = bh := Subtype.ext
          (hashBeforeLoop_total ah.1 bh.1 (by rw [ah.2, bh.2]) h1 h2)
        rw [e]
      · have t2 : ¬ bt = at' := fun e => t1 e.symm
        simp only [t1, t2, not_false_eq_true, if_true, decide_eq_false_iff_not] at h1 h2
        have h3 : (at' : Int) < bt ∨ (bt : Int) < at' := lt_or_gt_of_ne t1
        rcases h3 with h3 | h3
        · exact absurd h3 h1
        · exact absurd h3 h2
    · have v2 : ¬ bv = av := fun e => v1 e.symm
      simp only [v1, v2, not_false_eq_true, if_true] at h1 h2
      exact absurd (versionBefore_total av bv h1 h2) v1
  · have n2 : ¬ bn = an := fun e => n1 e.symm
    simp only [ne_eq, n1, n2, not_false_eq_true, if_true, decide_eq_false_iff_not] at h1 h2
    exact absurd (strLess_total an bn n1 h1) h2

theorem module_before_lexicographic (a b : Module) :
    a.Before b = true ↔
      (strLess a.Name b.Name ∨ (a.Name = b.Name ∧
        (a.Version.Before b.Version = true ∨ (a.Version = b.Version ∧
          (a.Time < b.Time ∨ (a.Time = b.Time ∧ HashBefore a.Hash b.Hash = true)))))) := by
  unfold Module.Before
  by_cases hn : a.Name = b.Name
  · by_cases hv : a.Version = b.Version
    · by_cases ht : a.Time = b.Time
      · simp [hn, hv, ht, strLess_irrefl, versionBefore_irrefl]
      · simp [hn, hv, ht, strLess_irrefl, versionBefore_irrefl]
    · simp [hn, hv, strLess_irrefl]
  · simp [hn]

/-- C14: Module.Before is a strict total order on the key (Name, Version, Time, Hash)
compared lexicographically in that priority. It is irreflexive and transitive; for any two
modules a and b exactly one of a.Before(b), b.Before(a) and equality of the four key fields
holds; and a.Before(b) holds exactly when the name of a is less than the name of b, or the
names are equal and the version of a is before the version of b, or names and versions are
equal and the time of a is earlier than the time of b, or names, versions and times are
equal and the hash of a is before the hash of b. -/
theorem module_before_strict_total_order (a b c : Module) :
    a.Before a = false ∧
    (a.Before b = true → b.Before c = true → a.Before c = true) ∧
    ((a.Before b = true ∧ b.Before a = false ∧ a.key ≠ b.key) ∨
     (a.Before b = false ∧ b.Before a = true ∧ a.key ≠ b.key) ∨
     (a.Before b = false ∧ b.Before a = false ∧ a.key = b.key)) ∧
    (a.Before b = true ↔
      (strLess a.Name b.Name ∨ (a.Name = b.Name ∧
        (a.Version.Before b.Version = true ∨ (a.Version = b.Version ∧
          (a.Time < b.Time ∨ (a.Time = b.Time ∧ HashBefore a.Hash b.Hash = true))))))) := by
  refine ⟨?_, ?_, ?_, module_before_lexicographic a b⟩
  all_goals simp only [before_eq_keyBefore]
  · exact keyBefore_irrefl _
  · exact keyBefore_trans _ _ _
  have asym : ∀ x y : ModuleKey, keyBefore x y = true → keyBefore y x = false ∧ x ≠ y := by
    intro x y h
    constructor
    · cases h2 : keyBefore y x with
      | false => rfl
      | true =>
        have h3 := keyBefore_trans x y x h h2
        rw [keyBefore_irrefl] at h3
        cases h3
    · intro e
      rw [e, keyBefore_irrefl] at h
      cases h
  cases h1 : keyBefore a.key b.key with
  | true => exact Or.inl ⟨rfl, (asym _ _ h1).1, (asym _ _ h1).2⟩
  | false =>
    cases h2 : keyBefore b.key a.key with
    | true => exact Or.inr (Or.inl ⟨rfl, rfl, fun e => (asym _ _ h2).2 e.symm⟩)
    | false => exact Or.inr (Or.inr ⟨rfl, rfl, keyBefore_total _ _ h1 h2⟩)

/-- C14, witness: the modules of TestMonotonicModules that are sequential by version and not
by time. The module alpha at 1.0.1 with the time 30 is before alpha at 2.0.0 with the time
20, and alpha at 2.0.0 is before beta at 0.0.1 with the time 2: the name outranks the
version, and the version outranks the time. -/
theorem module_before_strict_total_order_witness :
    (alpha101.Before alpha200 = true ∧ alpha200.Time < alpha101.Time ∧
     alpha200.Before beta001 = true ∧ beta001.Version.Before alpha200.Version = true ∧
     alpha100.Before alpha101 = true) ∧
    (alpha101.Before alpha101 = false ∧
     (alpha101.Before alpha200 = true → alpha200.Before beta001 = true →
        alpha101.Before beta001 = true) ∧
     ((alpha101.Before alpha200 = true ∧ alpha200.Before alpha101 = false ∧
          alpha101.key ≠ alpha200.key) ∨
      (alpha101.Before alpha200 = false ∧ alpha200.Before alpha101 = true ∧
          alpha101.key ≠ alpha200.key) ∨
      (alpha101.Before alpha200 = false ∧ alpha200.Before alpha101 = false ∧
          alpha101.key = alpha200.key)) ∧
     (alpha101.Before alpha200 = true ↔
       (strLess alpha101.Name alpha200.Name ∨ (alpha101.Name = alpha200.Name ∧
         (alpha101.Version.Before alpha200.Version = true ∨
           (alpha101.Version = alpha200.Version ∧
             (alpha101.Time < alpha200.Time ∨ (alpha101.Time = alpha200.Time ∧
               HashBefore alpha101.Hash alpha200.Hash = true)))))))) :=
  ⟨by decide, module_before_strict_total_order alpha101 alpha200 beta001⟩
/-! ### Upgrades of modules -/

theorem wrapInt_succ_gt_iff (x : Int) (h : 0 ≤ x) :
    x < wrapInt (x + 1) ↔ x < 9223372036854775807 := by
  unfold wrapInt
  norm_num
  omega

/-- Version.CanUpgradeTo on versions without negative components, in linear arithmetic. -/
theorem canUpgradeTo_linear (v w : Version) (hv : v.NonNegative) (hw : w.NonNegative) :
    v.CanUpgradeTo w = true ↔
      ((v.major < w.major ∨ (v.major = w.major ∧
          (v.minor < w.minor ∨ (v.minor = w.minor ∧ v.patch < w.patch)))) ∧
        v.major = w.major ∧
        ((0 < v.major ∧ v.major < 9223372036854775807) ∨
         (v.major = 0 ∧ v.minor = w.minor ∧ v.minor < 9223372036854775807))) := by
  rw [canUpgradeTo_iff v w hv hw, versionBefore_iff, wrapInt_succ_gt_iff _ hv.1,
    wrapInt_succ_gt_iff _ hv.2.1]

theorem version_ext_iff (v w : Version) :
    v = w ↔ (v.major = w.major ∧ v.minor = w.minor ∧ v.patch = w.patch) := by
  constructor
  · rintro rfl; exact ⟨rfl, rfl, rfl⟩
  · obtain ⟨a, b, c⟩ := v
    obtain ⟨d, e, f⟩ := w
    rintro ⟨h1, h2, h3⟩
    simp only at h1 h2 h3
    rw [h1, h2, h3]

theorem version_canUpgradeTo_trans (u v w : Version) (hu : u.NonNegative) (hv : v.NonNegative)
    (hw : w.NonNegative) (h1 : u.CanUpgradeTo v = true) (h2 : v.CanUpgradeTo w = true) :
    u.CanUpgradeTo w = true := by
  rw [canUpgradeTo_linear _ _ hu hv] at h1
  rw [canUpgradeTo_linear _ _ hv hw] at h2
  rw [canUpgradeTo_linear _ _ hu hw]
  omega

theorem version_canUpgradeTo_ne (u v : Version) (h : u.CanUpgradeTo v = true) : u ≠ v := by
  intro e
  subst e
  unfold Version.CanUpgradeTo at h
  rw [versionBefore_irrefl] at h
  cases h

/-- Module.CanUpgradeTo, as a proposition. -/
theorem module_canUpgradeTo_iff (a b : Module) :
    a.CanUpgradeTo b = true ↔
      (a.Time ≤ b.Time ∧
        ((a.Version ≠ b.Version ∧ a.Version.CanUpgradeTo b.Version = true) ∨
         (a.Version = b.Version ∧ a.Ref = "" ∧ b.Ref = "heads/master") ∨
         (a.Version = b.Version ∧ a.Ref ≠ "" ∧ a.Time < b.Time ∧ a.Ref = b.Ref))) := by
  unfold Module.CanUpgradeTo
  by_cases ht : a.Time > b.Time
  · rw [if_pos ht]
    constructor
    · intro h; cases h
    · rintro ⟨h, _⟩; exact absurd ht (not_lt.mpr h)
  · rw [if_neg ht]
    have ht2 : a.Time ≤ b.Time := not_lt.mp ht
    by_cases hv : a.Version = b.Version
    · rw [if_neg (not_not.mpr hv)]
      by_cases hr : a.Ref = ""
      · rw [if_pos hr]
        simp [hv, hr, ht2]
      · rw [if_neg hr]
        simp [hv, hr, ht2]
    · rw [if_pos hv]
      simp [hv, ht2]

theorem module_canUpgradeTo_irrefl (a : Module) : a.CanUpgradeTo a = false := by
  cases h : a.CanUpgradeTo a with
  | false => rfl
  | true =>
    rw [module_canUpgradeTo_iff] at h
    obtain ⟨_, h | h | h⟩ := h
    · exact absurd rfl h.1
    · obtain ⟨_, h1, h2⟩ := h
      rw [h1] at h2
      exact absurd h2 (by decide)
    · exact absurd h.2.2.1 (lt_irrefl _)

theorem module_canUpgradeTo_trans (a b c : Module) (ha : a.Version.NonNegative)
    (hb : b.Version.NonNegative) (hc : c.Version.NonNegative)
    (h1 : a.CanUpgradeTo b = true) (h2 : b.CanUpgradeTo c = true) :
    a.CanUpgradeTo c = true := by
  rw [module_canUpgradeTo_iff] at h1 h2 ⊢
  obtain ⟨t1, h1⟩ := h1
  obtain ⟨t2, h2⟩ := h2
  refine ⟨le_trans t1 t2, ?_⟩
  rcases h1 with ⟨n1, u1⟩ | ⟨e1, r1, m1⟩ | ⟨e1, r1, l1, s1⟩
  · rcases h2 with ⟨n2, u2⟩ | ⟨e2, _, _⟩ | ⟨e2, _, _, _⟩
    · have u3 := version_canUpgradeTo_trans _ _ _ ha hb hc u1 u2
      exact Or.inl ⟨version_canUpgradeTo_ne _ _ u3, u3⟩
    · rw [← e2]; exact Or.inl ⟨n1, u1⟩
    · rw [← e2]; exact Or.inl ⟨n1, u1⟩
  · rcases h2 with ⟨n2, u2⟩ | ⟨e2, r2, _⟩ | ⟨e2, r2, l2, s2⟩
    · rw [e1]; exact Or.inl ⟨n2, u2⟩
    · rw [r2] at m1; exact absurd m1 (by decide)
    · exact Or.inr (Or.inl ⟨e1.trans e2, r1, by rw [← s2]; exact m1⟩)
  · rcases h2 with ⟨n2, u2⟩ | ⟨e2, r2, _⟩ | ⟨e2, r2, l2, s2⟩
    · rw [e1]; exact Or.inl ⟨n2, u2⟩
    · rw [← s1] at r2; exact absurd r2 r1
    · exact Or.inr (Or.inr ⟨e1.trans e2, r1, lt_trans l1 l2, s1.trans s2⟩)

/-- The loop of findUpgradeModule keeps: the current module is the first one or a candidate it
has seen that the first one can upgrade to, it is not older than the first one, and it cannot
upgrade to any candidate seen. -/
theorem findUpgrade_loop (m : Module) (hm : m.Version.NonNegative) (cs : Modules) :
    ∀ (seen : Modules) (cur : Module),
      (∀ c ∈ seen ++ cs, c.Version.NonNegative) →
      (cur = m ∨ (cur ∈ seen ∧ m.CanUpgradeTo cur = true)) → m.Time ≤ cur.Time →
      (∀ c ∈ seen, cur.CanUpgradeTo c = false) →
      ((cs.foldl upgradeStep cur = m ∨
          (cs.foldl upgradeStep cur ∈ seen ++ cs ∧
            m.CanUpgradeTo (cs.foldl upgradeStep cur) = true)) ∧
        m.Time ≤ (cs.foldl upgradeStep cur).Time ∧
        ∀ c ∈ seen ++ cs, (cs.foldl upgradeStep cur).CanUpgradeTo c = false) := by
  induction cs with
  | nil =>
    intro seen cur _ h1 h2 h3
    simp only [List.foldl_nil, List.append_nil]
    exact ⟨h1, h2, h3⟩
  | cons u cs ih =>
    intro seen cur hnn h1 h2 h3
    have hcur : cur.Version.NonNegative := by
      rcases h1 with rfl | ⟨h, _⟩
      · exact hm
      · exact hnn cur (List.mem_append_left _ h)
    have hu : u.Version.NonNegative := hnn u (by simp)
    have e : seen ++ u :: cs = (seen ++ [u]) ++ cs := by simp
    rw [List.foldl_cons, e]
    rw [e] at hnn
    unfold upgradeStep
    by_cases hup : cur.CanUpgradeTo u = true
    · rw [if_pos hup]
      have hmu : m.CanUpgradeTo u = true := by
        rcases h1 with rfl | ⟨_, h⟩
        · exact hup
        · exact module_canUpgradeTo_trans m cur u hm hcur hu h hup
      apply ih (seen ++ [u]) u hnn (Or.inr ⟨by simp, hmu⟩)
      · exact le_trans h2 ((module_canUpgradeTo_iff cur u).mp hup).1
      · intro c hc
        rcases List.mem_append.mp hc with hc | hc
        · cases h : u.CanUpgradeTo c with
          | false => rfl
          | true =>
            have := module_canUpgradeTo_trans cur u c hcur hu
              (hnn c (List.mem_append_left _ (List.mem_append_left _ hc))) hup h
            rw [h3 c hc] at this
            cases this
        · rw [List.mem_singleton] at hc
          rw [hc]
          exact module_canUpgradeTo_irrefl u
    · rw [if_neg hup]
      apply ih (seen ++ [u]) cur hnn _ h2
      · intro c hc
        rcases List.mem_append.mp hc with hc | hc
        · exact h3 c hc
        · rw [List.mem_singleton] at hc
          rw [hc]
          exact Bool.eq_false_iff.mpr hup
      · rcases h1 with h | ⟨h, h4⟩
        · exact Or.inl h
        · exact Or.inr ⟨List.mem_append_left _ h, h4⟩

set_option maxRecDepth 100000 in
/-- A version that wrapped around breaks the loop of findUpgradeModule as well: with the
candidates 0.2.5 and {0, 2, -1} (the version that ParseVersion reads from the tag
0.2.18446744073709551615) for a module at 0.1.0, findUpgradeModule returns the second
candidate, which can upgrade to the first one; with the candidates in the other order it
returns 0.2.5. -/
theorem findUpgradeModule_not_highest :
    ParseVersion "0.2.18446744073709551615" = modWrapped.Version ∧
    (findUpgradeModule [modNew, modWrapped] modOld).Version = modWrapped.Version ∧
    (findUpgradeModule [modNew, modWrapped] modOld).CanUpgradeTo modNew = true ∧
    (findUpgradeModule [modWrapped, modNew] modOld).Version = modNew.Version := by
  decide

/-- What the loop of findUpgradeModule does achieve: for every module m and every list cs of
candidate modules, all with versions that have no negative component, r =
findUpgradeModule(cs, m) is m itself or an element of cs with m.CanUpgradeTo(r), r.Time is
not earlier than m.Time, and no candidate of cs satisfies r.CanUpgradeTo(c). The result is
maximal under CanUpgradeTo; it need not be the highest version that m can upgrade to. -/
theorem findUpgradeModule_highest (m : Module) (cs : Modules) (hm : m.Version.NonNegative)
    (hcs : ∀ c ∈ cs, c.Version.NonNegative) :
    (findUpgradeModule cs m = m ∨
      (findUpgradeModule cs m ∈ cs ∧ m.CanUpgradeTo (findUpgradeModule cs m) = true)) ∧
    m.Time ≤ (findUpgradeModule cs m).Time ∧
    ∀ c ∈ cs, (findUpgradeModule cs m).CanUpgradeTo c = false := by
  have key := findUpgrade_loop m hm cs [] m (by simpa using hcs) (Or.inl rfl) (le_refl _)
    (by intro c hc; cases hc)
  simpa [findUpgradeModule] using key

/-- An instance of the maximality of the result: the module at 0.1.0 with the candidates
0.2.5 and 0.1.5. -/
theorem findUpgradeModule_highest_witness :
    (findUpgradeModule [modNew, modPatch] modOld).Version = modPatch.Version ∧
    ((findUpgradeModule [modNew, modPatch] modOld = modOld ∨
      (findUpgradeModule [modNew, modPatch] modOld ∈ [modNew, modPatch] ∧
        modOld.CanUpgradeTo (findUpgradeModule [modNew, modPatch] modOld) = true)) ∧
    modOld.Time ≤ (findUpgradeModule [modNew, modPatch] modOld).Time ∧
    ∀ c ∈ [modNew, modPatch], (findUpgradeModule [modNew, modPatch] modOld).CanUpgradeTo c = false) :=
  ⟨by decide, findUpgradeModule_highest modOld [modNew, modPatch] (by decide) (by decide)⟩

/-- C15 (the code at the failing input): the module at 1.0.0 with the commit time 0 can
upgrade to both candidates, 1.5.1 with the commit time 10 and 1.7.0 with the commit time 5,
and no version has a negative component. With the candidates in the order 1.5.1, 1.7.0
findUpgradeModule returns 1.5.1, although 1.7.0 is a candidate that the module can upgrade
to and the version 1.5.1 can upgrade to the version 1.7.0: the loop has moved to 1.5.1, and
from there 1.7.0 is backward in time. With the candidates in the order 1.7.0, 1.5.1 it
returns 1.7.0. The result depends on the order of the candidates and is not the highest
upgrade. -/
theorem findUpgradeModule_depends_on_order :
    up100.CanUpgradeTo up151 = true ∧ up100.CanUpgradeTo up170 = true ∧
    up100.Version.NonNegative ∧ up151.Version.NonNegative ∧ up170.Version.NonNegative ∧
    up151.Version.CanUpgradeTo up170.Version = true ∧
    up151.CanUpgradeTo up170 = false ∧
    ((findUpgradeModule [up151, up170] up100).Version,
      (findUpgradeModule [up151, up170] up100).Time) = (up151.Version, up151.Time) ∧
    ((findUpgradeModule [up170, up151] up100).Version,
      (findUpgradeModule [up170, up151] up100).Time) = (up170.Version, up170.Time) ∧
    up151.Version.Before up170.Version = true := by
  decide
/-! ### FindVersion -/

theorem findVersion_loop (v : Version) (hv : v.NonNegative) (ms : Modules) :
    ∀ (seen : Modules) (st : Version × Module × Bool),
      (∀ m ∈ seen ++ ms, m.Version.NonNegative) →
      (st.2.2 = false → st.1 = v ∧ ∀ m ∈ seen, ¬ versionSatisfies v m.Version) →
      (st.2.2 = true → st.2.1 ∈ seen ∧ st.2.1.Version = st.1 ∧ versionSatisfies v st.1 ∧
        ∀ m ∈ seen, versionSatisfies v m.Version → st.1.Before m.Version = false) →
      (((ms.foldl findVersionStep st).2.2 = true ↔
          ∃ m ∈ seen ++ ms, versionSatisfies v m.Version) ∧
        ((ms.foldl findVersionStep st).2.2 = true →
          (ms.foldl findVersionStep st).2.1 ∈ seen ++ ms ∧
          versionSatisfies v (ms.foldl findVersionStep st).2.1.Version ∧
          ∀ m ∈ seen ++ ms, versionSatisfies v m.Version →
            (ms.foldl findVersionStep st).2.1.Version.Before m.Version = false)) := by
  induction ms with
  | nil =>
    intro seen st _ h0 h1
    simp only [List.foldl_nil, List.append_nil]
    constructor
    · constructor
      · intro h
        obtain ⟨hmem, hver, hsat, _⟩ := h1 h
        exact ⟨st.2.1, hmem, by rw [hver]; exact hsat⟩
      · rintro ⟨m, hm, hsat⟩
        cases hok : st.2.2 with
        | true => rfl
        | false => exact absurd hsat ((h0 hok).2 m hm)
    · intro h
      obtain ⟨hmem, hver, hsat, hmax⟩ := h1 h
      exact ⟨hmem, by rw [hver]; exact hsat, by rw [hver]; exact hmax⟩
  | cons u ms ih =>
    intro seen st hnn h0 h1
    have hu : u.Version.NonNegative := hnn u (by simp)
    have e : seen ++ u :: ms = (seen ++ [u]) ++ ms := by simp
    rw [List.foldl_cons, e]
    rw [e] at hnn
    have hcur : st.1.NonNegative := by
      cases hok : st.2.2 with
      | false => rw [(h0 hok).1]; exact hv
      | true =>
        obtain ⟨hmem, hver, _, _⟩ := h1 hok
        rw [← hver]
        exact hnn _ (List.mem_append_left _ (List.mem_append_left _ hmem))
    have hcurv : versionSatisfies v st.1 := by
      cases hok : st.2.2 with
      | false => exact Or.inl (h0 hok).1
      | true => exact (h1 hok).2.2.1
    unfold findVersionStep
    by_cases hc : st.1 = u.Version ∨ st.1.CanUpgradeTo u.Version = true
    · rw [if_pos hc]
      have hsatu : versionSatisfies v u.Version := by
        rcases hc with hc | hc
        · rw [← hc]; exact hcurv
        · rcases hcurv with hcv | hcv
          · rw [hcv] at hc; exact Or.inr hc
          · exact Or.inr (version_canUpgradeTo_trans v st.1 u.Version hv hcur hu hcv hc)
      have hle : ∀ w : Version, st.1.Before w = false → u.Version.Before w = false := by
        intro w hw
        cases h : u.Version.Before w with
        | false => rfl
        | true =>
          rcases hc with hc | hc
          · rw [hc, h] at hw; cases hw
          · have h2 : st.1.Before u.Version = true := by
              unfold Version.CanUpgradeTo at hc
              exact (Bool.and_eq_true _ _ ▸ hc).1
            rw [versionBefore_trans _ _ _ h2 h] at hw
            cases hw
      apply ih (seen ++ [u]) (u.Version, u, true) hnn
      · intro h; cases h
      · intro _
        refine ⟨by simp, rfl, hsatu, ?_⟩
        intro m hm hsat
        rcases List.mem_append.mp hm with hm | hm
        · cases hok : st.2.2 with
          | false => exact absurd hsat ((h0 hok).2 m hm)
          | true => exact hle _ ((h1 hok).2.2.2 m hm hsat)
        · rw [List.mem_singleton] at hm
          rw [hm]
          exact versionBefore_irrefl _
    · rw [if_neg hc]
      have hc1 : ¬ st.1 = u.Version := fun h => hc (Or.inl h)
      have hc2 : ¬ st.1.CanUpgradeTo u.Version = true := fun h => hc (Or.inr h)
      apply ih (seen ++ [u]) st hnn
      · intro hok
        refine ⟨(h0 hok).1, ?_⟩
        intro m hm
        rcases List.mem_append.mp hm with hm | hm
        · exact (h0 hok).2 m hm
        · rw [List.mem_singleton] at hm
          rw [hm]
          rw [(h0 hok).1] at hc1 hc2
          rintro (h | h)
          · exact hc1 h.symm
          · exact hc2 h
      · intro hok
        obtain ⟨hmem, hver, hsat, hmax⟩ := h1 hok
        refine ⟨List.mem_append_left _ hmem, hver, hsat, ?_⟩
        intro m hm hsatm
        rcases List.mem_append.mp hm with hm | hm
        · exact hmax m hm hsatm
        · rw [List.mem_singleton] at hm
          rw [hm] at hsatm ⊢
          cases hb : st.1.Before u.Version with
          | false => rfl
          | true =>
            exfalso
            rw [versionBefore_iff] at hb
            rw [canUpgradeTo_linear _ _ hcur hu] at hc2
            rw [version_ext_iff] at hc1
            unfold versionSatisfies at hsat hsatm
            rcases hsat with hsat | hsat
            · rw [hsat] at hc1 hc2 hb
              rcases hsatm with hsatm | hsatm
              · rw [version_ext_iff] at hsatm; omega
              · rw [canUpgradeTo_linear _ _ hv hu] at hsatm; omega
            · rw [canUpgradeTo_linear _ _ hv hcur] at hsat
              rcases hsatm with hsatm | hsatm
              · rw [version_ext_iff] at hsatm; omega
              · rw [canUpgradeTo_linear _ _ hv hu] at hsatm; omega

/-- C16 (as stated): for the version 0.1.0 and the modules at {0, 2, -1} and 0.2.5,
FindVersion returns the module at 0.2.5, a version that is not 0.1.0 and that 0.1.0 cannot
upgrade to. -/
theorem findVersion_leaves_window :
    modOld.Version.NonNegative ∧
    (Modules.FindVersion [modWrapped, modNew] modOld.Version).2 = true ∧
    (Modules.FindVersion [modWrapped, modNew] modOld.Version).1.Version = modNew.Version ∧
    modNew.Version ≠ modOld.Version ∧
    modOld.Version.CanUpgradeTo modNew.Version = false := by
  decide

/-- C16 (amended): for every list of modules ms and every version v, all versions without a
negative component, ms.FindVersion(v) returns ok = true exactly when some module of ms has a
version w with w = v or v.CanUpgradeTo(w); the module returned is then a module of ms whose
version is such a w, and no such w in ms is greater. -/
theorem findVersion_greatest (ms : Modules) (v : Version) (hv : v.NonNegative)
    (hms : ∀ m ∈ ms, m.Version.NonNegative) :
    ((Modules.FindVersion ms v).2 = true ↔
        ∃ m ∈ ms, m.Version = v ∨ v.CanUpgradeTo m.Version = true) ∧
    ((Modules.FindVersion ms v).2 = true →
      (Modules.FindVersion ms v).1 ∈ ms ∧
      ((Modules.FindVersion ms v).1.Version = v ∨
        v.CanUpgradeTo (Modules.FindVersion ms v).1.Version = true) ∧
      ∀ m ∈ ms, (m.Version = v ∨ v.CanUpgradeTo m.Version = true) →
        (Modules.FindVersion ms v).1.Version.Before m.Version = false) := by
  have key := findVersion_loop v hv ms [] (v, zeroModule, false) (by simpa using hms)
    (by intro _; exact ⟨rfl, by intro m hm; cases hm⟩) (by intro h; cases h)
  simpa [Modules.FindVersion, versionSatisfies] using key

theorem findVersion_greatest_witness :
    (Modules.FindVersion alphaRevisions { major := 2 }).1.Version = { major := 2 } ∧
    (((Modules.FindVersion alphaRevisions { major := 2 }).2 = true ↔
        ∃ m ∈ alphaRevisions, m.Version = { major := 2 } ∨
          ({ major := 2 } : Version).CanUpgradeTo m.Version = true) ∧
    ((Modules.FindVersion alphaRevisions { major := 2 }).2 = true →
      (Modules.FindVersion alphaRevisions { major := 2 }).1 ∈ alphaRevisions ∧
      ((Modules.FindVersion alphaRevisions { major := 2 }).1.Version = { major := 2 } ∨
        ({ major := 2 } : Version).CanUpgradeTo
          (Modules.FindVersion alphaRevisions { major := 2 }).1.Version = true) ∧
      ∀ m ∈ alphaRevisions, (m.Version = { major := 2 } ∨
          ({ major := 2 } : Version).CanUpgradeTo m.Version = true) →
        (Modules.FindVersion alphaRevisions { major := 2 }).1.Version.Before m.Version = false)) :=
  ⟨by decide, findVersion_greatest alphaRevisions { major := 2 } (by decide) (by decide)⟩
/-! ### FindBestVersion -/

theorem noVersion_before (v : Version) (hv : v.NonNegative) (hne : v ≠ NoVersion) :
    NoVersion.Before v = true := by
  rw [versionBefore_iff]
  rw [Ne, version_ext_iff] at hne
  have e1 : NoVersion.major = 0 := rfl
  have e2 : NoVersion.minor = 0 := rfl
  have e3 : NoVersion.patch = 0 := rfl
  obtain ⟨h0, h1, h2⟩ := hv
  rw [e1, e2, e3] at hne ⊢
  omega

theorem before_noVersion (v : Version) (hv : v.NonNegative) : v.Before NoVersion = false := by
  cases h : v.Before NoVersion with
  | false => rfl
  | true =>
    rw [versionBefore_iff] at h
    have e1 : NoVersion.major = 0 := rfl
    have e2 : NoVersion.minor = 0 := rfl
    have e3 : NoVersion.patch = 0 := rfl
    obtain ⟨h0, h1, h2⟩ := hv
    rw [e1, e2, e3] at h
    omega

/-- Module.Better, as a proposition. -/
theorem better_iff (u best : Module) :
    u.Better best = true ↔
      ((u.Ref = "heads/master" ∧ best.Version = NoVersion) ∨
        (u.Version ≠ NoVersion ∧
          ((u.Version = best.Version ∧ u.Time > best.Time) ∨
           (u.Version ≠ best.Version ∧ best.Version.Before u.Version = true)))) := by
  unfold Module.Better
  by_cases h1 : u.Ref = "heads/master" ∧ best.Version = NoVersion
  · rw [if_pos h1]
    simp [h1]
  · rw [if_neg h1]
    by_cases h2 : u.Version = NoVersion
    · rw [if_pos h2]
      simp [h1, h2]
    · rw [if_neg h2]
      by_cases h3 : u.Version = best.Version
      · rw [if_pos h3]
        constructor
        · intro h
          exact Or.inr ⟨h2, Or.inl ⟨h3, by simpa using h⟩⟩
        · rintro (h | ⟨_, ⟨_, h⟩ | ⟨h, _⟩⟩)
          · exact absurd h h1
          · simpa using h
          · exact absurd h3 h
      · rw [if_neg h3]
        simp [h1, h2, h3]

theorem findBestVersion_loop (ms : Modules) :
    ∀ (seen : Modules) (st : Module × Bool),
      (∀ m ∈ seen ++ ms, m.Version.NonNegative) →
      (st.2 = false → st.1.Version = NoVersion ∧
        ∀ m ∈ seen, m.Version = NoVersion ∧ m.Ref ≠ "heads/master") →
      (st.2 = true → st.1 ∈ seen ∧
        (st.1.Version = NoVersion →
          st.1.Ref = "heads/master" ∧ ∀ m ∈ seen, m.Version = NoVersion) ∧
        (st.1.Version ≠ NoVersion → ∀ m ∈ seen, st.1.Version.Before m.Version = false ∧
          (m.Version = st.1.Version → m.Time ≤ st.1.Time))) →
      (((ms.foldl findBestVersionStep st).2 = false →
          ∀ m ∈ seen ++ ms, m.Version = NoVersion ∧ m.Ref ≠ "heads/master") ∧
        ((ms.foldl findBestVersionStep st).2 = true →
          (ms.foldl findBestVersionStep st).1 ∈ seen ++ ms ∧
          ((ms.foldl findBestVersionStep st).1.Version = NoVersion →
            (ms.foldl findBestVersionStep st).1.Ref = "heads/master" ∧
            ∀ m ∈ seen ++ ms, m.Version = NoVersion) ∧
          ((ms.foldl findBestVersionStep st).1.Version ≠ NoVersion →
            ∀ m ∈ seen ++ ms,
              (ms.foldl findBestVersionStep st).1.Version.Before m.Version = false ∧
              (m.Version = (ms.foldl findBestVersionStep st).1.Version →
                m.Time ≤ (ms.foldl findBestVersionStep st).1.Time)))) := by
  induction ms with
  | nil =>
    intro seen st _ h0 h1
    simp only [List.foldl_nil, List.append_nil]
    exact ⟨fun h => (h0 h).2, h1⟩
  | cons u ms ih =>
    intro seen st hnn h0 h1
    have hu : u.Version.NonNegative := hnn u (by simp)
    have e : seen ++ u :: ms = (seen ++ [u]) ++ ms := by simp
    rw [List.foldl_cons, e]
    rw [e] at hnn
    have hseen : ∀ m ∈ seen, m.Version.NonNegative := fun m hm =>
      hnn m (List.mem_append_left _ (List.mem_append_left _ hm))
    -- while the best module has no version, no module seen has one
    have hall : st.1.Version = NoVersion → ∀ m ∈ seen, m.Version = NoVersion := by
      intro hv
      cases hok : st.2 with
      | false => exact fun m hm => ((h0 hok).2 m hm).1
      | true => exact ((h1 hok).2.1 hv).2
    have hbestnn : st.1.Version.NonNegative := by
      cases hok : st.2 with
      | false => rw [(h0 hok).1]; decide
      | true => exact hseen _ (h1 hok).1
    unfold findBestVersionStep
    by_cases hb : u.Better st.1 = true
    · rw [if_pos hb]
      rw [better_iff] at hb
      apply ih (seen ++ [u]) (u, true) hnn
      · intro h; cases h
      · intro _
        refine ⟨by simp, ?_, ?_⟩
        · intro huv
          rcases hb with ⟨hr, hbv⟩ | ⟨hne, _⟩
          · refine ⟨hr, ?_⟩
            intro m hm
            rcases List.mem_append.mp hm with hm | hm
            · exact hall hbv m hm
            · rw [List.mem_singleton] at hm; rw [hm]; exact huv
          · exact absurd huv hne
        · intro hune m hm
          rcases List.mem_append.mp hm with hm | hm
          · by_cases hbv : st.1.Version = NoVersion
            · rw [hall hbv m hm]
              exact ⟨before_noVersion _ hu, fun h => absurd h.symm hune⟩
            · have hok : st.2 = true := by
                cases hok : st.2 with
                | true => rfl
                | false => exact absurd (h0 hok).1 hbv
              have hm1 := (h1 hok).2.2 hbv m hm
              rcases hb with ⟨_, h⟩ | ⟨_, ⟨hv, ht⟩ | ⟨hv, hlt⟩⟩
              · exact absurd h hbv
              · rw [hv]
                exact ⟨hm1.1, fun h => le_trans (hm1.2 h) (le_of_lt ht)⟩
              · constructor
                · cases h : u.Version.Before m.Version with
                  | false => rfl
                  | true =>
                    rw [versionBefore_trans _ _ _ hlt h] at hm1
                    cases hm1.1
                · intro h
                  rw [h, hlt] at hm1
                  cases hm1.1
          · rw [List.mem_singleton] at hm
            rw [hm]
            exact ⟨versionBefore_irrefl _, fun _ => le_refl _⟩
    · rw [if_neg hb]
      rw [better_iff] at hb
      -- a module that is not better than a best module without a version has no version
      -- and is not the master
      have hnone : st.1.Version = NoVersion →
          u.Version = NoVersion ∧ u.Ref ≠ "heads/master" := by
        intro hbv
        have hr : u.Ref ≠ "heads/master" := fun hr => hb (Or.inl ⟨hr, hbv⟩)
        refine ⟨?_, hr⟩
        by_contra hune
        apply hb
        refine Or.inr ⟨hune, Or.inr ⟨?_, ?_⟩⟩
        · rw [hbv]; exact hune
        · rw [hbv]; exact noVersion_before _ hu hune
      apply ih (seen ++ [u]) st hnn
      · intro hok
        refine ⟨(h0 hok).1, ?_⟩
        intro m hm
        rcases List.mem_append.mp hm with hm | hm
        · exact (h0 hok).2 m hm
        · rw [List.mem_singleton] at hm
          rw [hm]
          exact hnone (h0 hok).1
      · intro hok
        obtain ⟨hmem, hA, hB⟩ := h1 hok
        refine ⟨List.mem_append_left _ hmem, ?_, ?_⟩
        · intro hbv
          refine ⟨(hA hbv).1, ?_⟩
          intro m hm
          rcases List.mem_append.mp hm with hm | hm
          · exact (hA hbv).2 m hm
          · rw [List.mem_singleton] at hm
            rw [hm]
            exact (hnone hbv).1
        · intro hbv m hm
          rcases List.mem_append.mp hm with hm | hm
          · exact hB hbv m hm
          · rw [List.mem_singleton] at hm
            rw [hm]
            by_cases hune : u.Version = NoVersion
            · rw [hune]
              exact ⟨before_noVersion _ hbestnn, fun h => absurd h.symm hbv⟩
            · by_cases hv : u.Version = st.1.Version
              · rw [hv]
                refine ⟨versionBefore_irrefl _, fun _ => ?_⟩
                by_contra hgt
                exact hb (Or.inr ⟨hune, Or.inl ⟨hv, not_le.mp hgt⟩⟩)
              · constructor
                · cases h : st.1.Version.Before u.Version with
                  | false => rfl
                  | true => exact absurd (Or.inr ⟨hune, Or.inr ⟨hv, h⟩⟩) hb
                · intro h; exact absurd h hv

/-- C17 (as stated): the only module of the list has the version {0, 0, -1} (what
ParseVersion reads from the tag 0.0.18446744073709551615), a version other than NoVersion,
and FindBestVersion returns found = false. -/
theorem findBestVersion_misses_negative :
    modNegative.Version ≠ NoVersion ∧ (Modules.FindBestVersion [modNegative]).2 = false := by
  decide

/-- C17 (amended): for every list of modules ms with versions that have no negative
component, ms.FindBestVersion() returns a module of ms with the highest version in ms, and
the latest Time among the modules of that version, when some module has a version other than
NoVersion; otherwise it returns a module of ms whose Ref is heads/master when there is one;
otherwise it returns found = false. -/
theorem findBestVersion_best (ms : Modules) (hms : ∀ m ∈ ms, m.Version.NonNegative) :
    ((∃ m ∈ ms, m.Version ≠ NoVersion) →
      (Modules.FindBestVersion ms).2 = true ∧ (Modules.FindBestVersion ms).1 ∈ ms ∧
      ∀ m ∈ ms, (Modules.FindBestVersion ms).1.Version.Before m.Version = false ∧
        (m.Version = (Modules.FindBestVersion ms).1.Version →
          m.Time ≤ (Modules.FindBestVersion ms).1.Time)) ∧
    ((∀ m ∈ ms, m.Version = NoVersion) → (∃ m ∈ ms, m.Ref = "heads/master") →
      (Modules.FindBestVersion ms).2 = true ∧ (Modules.FindBestVersion ms).1 ∈ ms ∧
      (Modules.FindBestVersion ms).1.Ref = "heads/master") ∧
    ((∀ m ∈ ms, m.Version = NoVersion) → (∀ m ∈ ms, m.Ref ≠ "heads/master") →
      (Modules.FindBestVersion ms).2 = false) := by
  have key := findBestVersion_loop ms [] (zeroModule, false) (by simpa using hms)
    (by intro _; exact ⟨rfl, by intro m hm; cases hm⟩) (by intro h; cases h)
  simp only [List.nil_append] at key
  unfold Modules.FindBestVersion
  obtain ⟨k0, k1⟩ := key
  refine ⟨?_, ?_, ?_⟩
  · rintro ⟨m, hm, hne⟩
    cases hok : (ms.foldl findBestVersionStep (zeroModule, false)).2 with
    | false => exact absurd (k0 hok m hm).1 hne
    | true =>
      obtain ⟨hmem, hA, hB⟩ := k1 hok
      refine ⟨rfl, hmem, hB ?_⟩
      intro hbv
      exact hne ((hA hbv).2 m hm)
  · rintro hall ⟨m, hm, hr⟩
    cases hok : (ms.foldl findBestVersionStep (zeroModule, false)).2 with
    | false => exact absurd hr (k0 hok m hm).2
    | true =>
      obtain ⟨hmem, hA, _⟩ := k1 hok
      exact ⟨rfl, hmem, (hA (hall _ hmem)).1⟩
  · intro hall hnr
    cases hok : (ms.foldl findBestVersionStep (zeroModule, false)).2 with
    | false => rfl
    | true =>
      obtain ⟨hmem, hA, _⟩ := k1 hok
      exact absurd (hA (hall _ hmem)).1 (hnr _ hmem)

theorem findBestVersion_best_witness :
    (Modules.FindBestVersion alphaRevisions).1.Version = { major := 2 } ∧
    (∃ m ∈ alphaRevisions, m.Version ≠ NoVersion) ∧
    (Modules.FindBestVersion alphaRevisions).2 = true ∧
    (Modules.FindBestVersion alphaRevisions).1 ∈ alphaRevisions ∧
    ∀ m ∈ alphaRevisions,
      (Modules.FindBestVersion alphaRevisions).1.Version.Before m.Version = false ∧
      (m.Version = (Modules.FindBestVersion alphaRevisions).1.Version →
        m.Time ≤ (Modules.FindBestVersion alphaRevisions).1.Time) :=
  ⟨by decide, ⟨alphaTwo, by simp [alphaRevisions], by decide⟩,
    (findBestVersion_best alphaRevisions (by decide)).1
      ⟨alphaTwo, by simp [alphaRevisions], by decide⟩⟩
/-! ### StringGraph.Transitive -/

theorem contains_iff_mem {l : List String} {x : String} : l.contains x = true ↔ x ∈ l :=
  List.elem_iff

theorem stringSet_has_iff (s : StringSet) (x : String) : StringSet.Has s x = true ↔ x ∈ s := by
  unfold StringSet.Has
  exact contains_iff_mem

theorem stringSet_mem_add (s : StringSet) (x y : String) :
    y ∈ StringSet.Add s x ↔ y ∈ s ∨ y = x := by
  unfold StringSet.Add
  by_cases h : s.contains x = true
  · rw [if_pos h]
    constructor
    · exact Or.inl
    · rintro (h1 | h1)
      · exact h1
      · rw [h1]; exact contains_iff_mem.mp h
  · rw [if_neg h]
    simp

theorem lookup_mem {α β : Type} [BEq α] [LawfulBEq α] (l : List (α × β)) (k : α) (v : β)
    (h : l.lookup k = some v) : (k, v) ∈ l := by
  induction l with
  | nil => simp at h
  | cons p l ih =>
    obtain ⟨a, b⟩ := p
    by_cases e : k = a
    · subst e
      simp at h
      subst h
      exact List.mem_cons_self _ _
    · rw [List.lookup_cons] at h
      have e2 : (k == a) = false := by simpa using e
      rw [e2] at h
      exact List.mem_cons_of_mem _ (ih h)

theorem graph_get_allTargets (g : StringGraph) (name x : String) (h : x ∈ g.get name) :
    x ∈ StringGraph.allTargets g := by
  unfold StringGraph.get at h
  cases hl : g.lookup name with
  | none => rw [hl] at h; cases h
  | some tgts =>
    rw [hl] at h
    unfold StringGraph.allTargets
    exact List.mem_flatMap.mpr ⟨(name, tgts), lookup_mem g name tgts hl, h⟩

theorem graph_has_iff (g : StringGraph) (a b : String) :
    StringGraph.Has g a b = true ↔ b ∈ g.get a := by
  unfold StringGraph.Has StringGraph.get
  cases g.lookup a with
  | none => simp
  | some tgts => exact stringSet_has_iff tgts b

theorem unseenTargets_add (g : StringGraph) (c : StringSet) (x : String)
    (hx : x ∈ StringGraph.allTargets g) (hc : x ∉ c) :
    unseenTargets g (StringSet.Add c x) + 1 ≤ unseenTargets g c := by
  unfold unseenTargets
  generalize StringGraph.allTargets g = ts at hx
  induction ts with
  | nil => cases hx
  | cons t ts ih =>
    have hmono : ∀ l : List String,
        (l.filter (fun y => !(StringSet.Add c x).contains y)).length ≤
          (l.filter (fun y => !c.contains y)).length := by
      intro l
      induction l with
      | nil => exact le_refl _
      | cons y l ihl =>
        simp only [List.filter_cons]
        by_cases hy : y ∈ c
        · have h1 : y ∈ StringSet.Add c x := (stringSet_mem_add c x y).mpr (Or.inl hy)
          rw [contains_iff_mem.mpr hy, contains_iff_mem.mpr h1]
          simpa using ihl
        · have h0 : c.contains y = false := by
            rw [Bool.eq_false_iff]; exact fun h => hy (contains_iff_mem.mp h)
          rw [h0]
          simp only [Bool.not_false, if_true, List.length_cons]
          split
          · simp only [List.length_cons]; omega
          · omega
    simp only [List.filter_cons]
    by_cases e : t = x
    · subst e
      have h1 : t ∈ StringSet.Add c t := (stringSet_mem_add c t t).mpr (Or.inr rfl)
      have h0 : c.contains t = false := by
        rw [Bool.eq_false_iff]; exact fun h => hc (contains_iff_mem.mp h)
      rw [contains_iff_mem.mpr h1, h0]
      simp only [Bool.not_true, Bool.not_false, if_true, List.length_cons]
      have := hmono ts
      simp only [Bool.false_eq_true, if_false]
      omega
    · have hx2 : x ∈ ts := by
        rcases List.mem_cons.mp hx with h | h
        · exact absurd h.symm e
        · exact h
      have := ih hx2
      by_cases ht : t ∈ c
      · have h1 : t ∈ StringSet.Add c x := (stringSet_mem_add c x t).mpr (Or.inl ht)
        rw [contains_iff_mem.mpr h1, contains_iff_mem.mpr ht]
        simpa using this
      · have h0 : c.contains t = false := by
          rw [Bool.eq_false_iff]; exact fun h => ht (contains_iff_mem.mp h)
        have h1 : (StringSet.Add c x).contains t = false := by
          rw [Bool.eq_false_iff]
          intro h
          rcases (stringSet_mem_add c x t).mp (contains_iff_mem.mp h) with h | h
          · exact ht h
          · exact e h
        rw [h0, h1]
        simp only [Bool.not_false, if_true, List.length_cons]
        omega

theorem stringSet_length_add (s : StringSet) (x : String) (h : x ∉ s) :
    (StringSet.Add s x).length = s.length + 1 := by
  unfold StringSet.Add
  have h0 : ¬ s.contains x = true := fun hc => h (contains_iff_mem.mp hc)
  rw [if_neg h0]
  simp

/-- The inner loop of Transitive adds the targets to the collection, the new ones to the
frontier, and does not raise the measure of the loop. -/
theorem transitiveInner_spec (g : StringGraph) (imps : List String) :
    ∀ (f c : StringSet), (∀ x ∈ f, x ∈ c) → (∀ x ∈ imps, x ∈ StringGraph.allTargets g) →
      (∀ x, x ∈ (transitiveInner imps (f, c)).2 ↔ x ∈ c ∨ x ∈ imps) ∧
      (∀ x, x ∈ (transitiveInner imps (f, c)).1 ↔ x ∈ f ∨ (x ∈ imps ∧ x ∉ c)) ∧
      2 * unseenTargets g (transitiveInner imps (f, c)).2 +
          (transitiveInner imps (f, c)).1.length ≤ 2 * unseenTargets g c + f.length := by
  induction imps with
  | nil =>
    intro f c _ _
    simp [transitiveInner]
  | cons imp imps ih =>
    intro f c hfc himps
    have himps2 : ∀ x ∈ imps, x ∈ StringGraph.allTargets g := fun x hx =>
      himps x (List.mem_cons_of_mem _ hx)
    unfold transitiveInner
    by_cases hc : imp ∈ c
    · have hcond : (StringSet.Has c imp || StringSet.Has f imp) = true := by
        rw [(stringSet_has_iff c imp).mpr hc]; rfl
      rw [if_pos hcond]
      obtain ⟨h1, h2, h3⟩ := ih f c hfc himps2
      refine ⟨?_, ?_, h3⟩
      · intro x
        rw [h1 x, List.mem_cons]
        constructor
        · rintro (h | h)
          · exact Or.inl h
          · exact Or.inr (Or.inr h)
        · rintro (h | h | h)
          · exact Or.inl h
          · exact Or.inl (h ▸ hc)
          · exact Or.inr h
      · intro x
        rw [h2 x, List.mem_cons]
        constructor
        · rintro (h | ⟨h, h4⟩)
          · exact Or.inl h
          · exact Or.inr ⟨Or.inr h, h4⟩
        · rintro (h | ⟨h | h, h4⟩)
          · exact Or.inl h
          · exact absurd (h ▸ hc) h4
          · exact Or.inr ⟨h, h4⟩
    · have hf : imp ∉ f := fun h => hc (hfc imp h)
      have hcond : ¬ (StringSet.Has c imp || StringSet.Has f imp) = true := by
        rw [Bool.or_eq_true, stringSet_has_iff, stringSet_has_iff]
        rintro (h | h)
        · exact hc h
        · exact hf h
      rw [if_neg hcond]
      have hfc2 : ∀ x ∈ StringSet.Add f imp, x ∈ StringSet.Add c imp := by
        intro x hx
        rw [stringSet_mem_add] at hx ⊢
        rcases hx with h | h
        · exact Or.inl (hfc x h)
        · exact Or.inr h
      obtain ⟨h1, h2, h3⟩ := ih (StringSet.Add f imp) (StringSet.Add c imp) hfc2 himps2
      refine ⟨?_, ?_, ?_⟩
      · intro x
        rw [h1 x, stringSet_mem_add, List.mem_cons]
        tauto
      · intro x
        rw [h2 x, stringSet_mem_add, stringSet_mem_add, List.mem_cons]
        constructor
        · rintro ((h | h) | ⟨h, h4⟩)
          · exact Or.inl h
          · exact Or.inr ⟨Or.inl h, h ▸ hc⟩
          · exact Or.inr ⟨Or.inr h, fun h5 => h4 (Or.inl h5)⟩
        · rintro (h | ⟨h | h, h4⟩)
          · exact Or.inl (Or.inl h)
          · exact Or.inl (Or.inr h)
          · by_cases e : x = imp
            · exact Or.inl (Or.inr e)
            · exact Or.inr ⟨h, fun h5 => h5.elim h4 e⟩
      · have m1 := unseenTargets_add g c imp (himps imp (List.mem_cons_self _ _)) hc
        have m2 := stringSet_length_add f imp hf
        omega

/-- The loop of Transitive returns with enough fuel, and what it returns is closed under the
edges of the graph. -/
theorem transitiveLoop_spec (g : StringGraph) (pick : Nat → Nat) (seed : StringSet) :
    ∀ (fuel : Nat) (f c : StringSet),
      (∀ x ∈ f, x ∈ c) → (∀ x ∈ seed, x ∈ c) → (∀ x ∈ c, Reaches g seed x) →
      (∀ x ∈ c, x ∉ f → ∀ y ∈ g.get x, y ∈ c) →
      2 * unseenTargets g c + f.length ≤ fuel →
      ∃ result, transitiveLoop g pick fuel f c = some result ∧
        (∀ x ∈ seed, x ∈ result) ∧ (∀ x ∈ result, Reaches g seed x) ∧
        (∀ x ∈ result, ∀ y ∈ g.get x, y ∈ result) := by
  intro fuel
  induction fuel with
  | zero =>
    intro f c _ h2 h3 h4 hm
    cases f with
    | nil => exact ⟨c, rfl, h2, h3, fun x hx => h4 x hx (by simp)⟩
    | cons n f => simp at hm
  | succ fuel ih =>
    intro f c h1 h2 h3 h4 hm
    cases f with
    | nil => exact ⟨c, rfl, h2, h3, fun x hx => h4 x hx (by simp)⟩
    | cons first others =>
      unfold transitiveLoop
      dsimp only
      generalize hname : (first :: others).getD (pick (fuel + 1) % (others.length + 1)) first
        = name
      have hmem : name ∈ first :: others := by
        rw [← hname, List.getD_eq_getElem _ _ (by
          simp only [List.length_cons]; exact Nat.mod_lt _ (Nat.succ_pos _))]
        exact List.getElem_mem _
      have hsub : ∀ x ∈ (first :: others).erase name, x ∈ c := fun x hx =>
        h1 x (List.mem_of_mem_erase hx)
      obtain ⟨i1, i2, i3⟩ := transitiveInner_spec g (g.get name)
        ((first :: others).erase name) c hsub (fun x hx => graph_get_allTargets g name x hx)
      apply ih
      · intro x hx
        rw [i1 x]
        rcases (i2 x).mp hx with h | h
        · exact Or.inl (hsub x h)
        · exact Or.inr h.1
      · intro x hx
        exact (i1 x).mpr (Or.inl (h2 x hx))
      · intro x hx
        rcases (i1 x).mp hx with h | h
        · exact h3 x h
        · exact Reaches.step name x (h3 name (h1 name hmem)) ((graph_has_iff g name x).mpr h)
      · intro x hx hnf y hy
        rw [i1 y]
        rw [i2 x] at hnf
        rcases (i1 x).mp hx with h | h
        · by_cases e : x = name
          · rw [e] at hy; exact Or.inr hy
          · have hxf : x ∉ first :: others := fun hf =>
              hnf (Or.inl ((List.mem_erase_of_ne e).mpr hf))
            exact Or.inl (h4 x h hxf y hy)
        · by_cases hxc : x ∈ c
          · by_cases e : x = name
            · rw [e] at hy; exact Or.inr hy
            · have hxf : x ∉ first :: others := fun hf =>
                hnf (Or.inl ((List.mem_erase_of_ne e).mpr hf))
              exact Or.inl (h4 x hxc hxf y hy)
          · exact absurd (Or.inr ⟨h, hxc⟩) hnf
      · have hl := List.length_erase_of_mem hmem
        simp only [List.length_cons] at hl hm
        omega

theorem reaches_of_closed (g : StringGraph) (seed result : StringSet)
    (h1 : ∀ x ∈ seed, x ∈ result) (h2 : ∀ x ∈ result, ∀ y ∈ g.get x, y ∈ result) (x : String)
    (h : Reaches g seed x) : x ∈ result := by
  induction h with
  | seed x hx => exact h1 x hx
  | step a b _ hab ih => exact h2 a ih b ((graph_has_iff g a b).mp hab)

/-- C18: for every string graph (cyclic or not), every seed set and every order in which the
frontier is read, Transitive returns when the fuel is at least twice the number of targets
of the graph plus the size of the seed, and the set returned is exactly the set of nodes
reachable from a member of the seed by zero or more edges: it contains the seed, is closed
under the edges of the graph, and contains nothing else. -/
theorem transitive_is_reachable_set (g : StringGraph) (pick : Nat → Nat) (seed : StringSet)
    (fuel : Nat) (hfuel : 2 * (StringGraph.allTargets g).length + seed.length ≤ fuel) :
    ∃ result, StringGraph.Transitive g pick fuel seed = some result ∧
      (∀ x ∈ seed, x ∈ result) ∧
      (∀ a b, a ∈ result → StringGraph.Has g a b = true → b ∈ result) ∧
      (∀ x, x ∈ result ↔ Reaches g seed x) := by
  have hm : 2 * unseenTargets g seed + seed.length ≤ fuel := by
    have : unseenTargets g seed ≤ (StringGraph.allTargets g).length := by
      unfold unseenTargets
      exact List.length_filter_le _ _
    omega
  obtain ⟨result, hr, r1, r2, r3⟩ := transitiveLoop_spec g pick seed fuel seed seed
    (fun _ h => h) (fun _ h => h) (fun x hx => Reaches.seed x hx)
    (fun x hx hnx => absurd hx hnx) hm
  refine ⟨result, hr, r1, ?_, ?_⟩
  · intro a b ha hab
    exact r3 a ha b ((graph_has_iff g a b).mp hab)
  · intro x
    exact ⟨r2 x, reaches_of_closed g seed result r1 r3 x⟩

theorem transitive_is_reachable_set_witness :
    StringGraph.Transitive testGraph (fun _ => 0) 13 ["sfo"] =
        some ["sfo", "dca", "phx", "sea", "irn"] ∧
    ∃ result, StringGraph.Transitive testGraph (fun n => n) 13 ["sfo"] = some result ∧
      (∀ x ∈ ["sfo"], x ∈ result) ∧
      (∀ a b, a ∈ result → StringGraph.Has testGraph a b = true → b ∈ result) ∧
      (∀ x, x ∈ result ↔ Reaches testGraph ["sfo"] x) :=
  ⟨by decide, transitive_is_reachable_set testGraph (fun n => n) ["sfo"] 13 (by decide)⟩
/-! ### Patterns -/

theorem joinParts_data (parts : List String) : (joinParts parts).data = parts.flatMap String.data :=
  rfl

theorem flushPart_data (parts : List String) (part : List Char) :
    (flushPart parts part).flatMap String.data = parts.flatMap String.data ++ part := by
  unfold flushPart
  cases part with
  | nil => simp
  | cons c cs => simp

/-- The parts that PatternSplit has made, the part it is reading and the runes that are left
make the string. -/
theorem patternSplitLoop_join (runes : List Char) :
    ∀ (skip : Nat) (part : List Char) (parts : List String),
      (patternSplitLoop runes skip part parts).flatMap String.data =
        parts.flatMap String.data ++ part ++ runes.drop skip := by
  induction runes with
  | nil =>
    intro skip part parts
    unfold patternSplitLoop
    simp [flushPart_data]
  | cons r rest ih =>
    intro skip part parts
    cases skip with
    | succ skip =>
      unfold patternSplitLoop
      rw [ih]
      rfl
    | zero =>
      unfold patternSplitLoop
      by_cases h1 : r = '*'
      · rw [if_pos h1, ih]
        simp [flushPart_data, h1]
      · rw [if_neg h1]
        by_cases h2 : r = '.' ∧ rest.take 2 = ['.', '.']
        · rw [if_pos h2, ih]
          have e : rest = ['.', '.'] ++ rest.drop 2 := by
            conv_lhs => rw [← List.take_append_drop 2 rest, h2.2]
          simp only [List.flatMap_append, flushPart_data, List.flatMap_cons, List.flatMap_nil,
            List.append_nil, List.drop_zero, h2.1]
          conv_rhs => rw [e]
          simp
        · rw [if_neg h2]
          by_cases h3 : r = '/' ∨ r = ':'
          · rw [if_pos h3, ih]
            simp [flushPart_data]
          · rw [if_neg h3, ih]
            simp

theorem joinParts_patternSplit (s : String) : joinParts (PatternSplit s) = s := by
  apply String.ext
  rw [joinParts_data]
  unfold PatternSplit
  rw [patternSplitLoop_join]
  simp

theorem matchLoop_eq_specMatch (parts : List String) (ms : List String) :
    ∀ (i : Nat) (matched wild : List String), i + ms.length ≤ parts.length →
      matchLoop parts i ms matched wild =
        (specMatch ms (parts.drop i)).map (fun r => (matched ++ r.1, wild ++ r.2)) := by
  induction ms with
  | nil =>
    intro i matched wild _
    simp [matchLoop, specMatch]
  | cons m ms ih =>
    intro i matched wild hlen
    simp only [List.length_cons] at hlen
    have hi : i < parts.length := by omega
    have hd : parts.drop i = parts[i] :: parts.drop (i + 1) := List.drop_eq_getElem_cons hi
    have hg : parts.getD i "" = parts[i] := List.getD_eq_getElem _ _ hi
    unfold matchLoop specMatch
    rw [hg]
    by_cases h1 : m = "*"
    · have h2 : ¬ m = "..." := by rw [h1]; decide
      rw [if_pos h1, if_neg h2, hd]
      simp only [if_pos h1]
      rw [ih (i + 1) _ _ (by omega)]
      cases specMatch ms (parts.drop (i + 1)) <;> simp
    · rw [if_neg h1]
      by_cases h2 : m = "..."
      · rw [if_pos h2, if_pos h2]
        rfl
      · rw [if_neg h2, if_neg h2, hd]
        simp only [if_neg h1]
        by_cases h3 : m = parts[i]
        · rw [if_neg (not_not.mpr h3), if_pos h3, ih (i + 1) _ _ (by omega)]
          cases specMatch ms (parts.drop (i + 1)) <;> simp [h3]
        · rw [if_pos h3, if_neg h3]
          rfl

theorem replaceLoop_eq_specSubst (rs : List String) :
    ∀ (wild replaced : List String),
      replaceLoop rs wild replaced = (specSubst rs wild).map (fun out => replaced ++ out) := by
  induction rs with
  | nil =>
    intro wild replaced
    simp [replaceLoop, specSubst]
  | cons r rs ih =>
    intro wild replaced
    unfold replaceLoop specSubst
    by_cases h1 : r = "*"
    · rw [if_pos h1, if_pos h1]
      cases wild with
      | nil => rfl
      | cons w ws =>
        simp only
        rw [ih]
        cases specSubst rs ws <;> simp
    · rw [if_neg h1, if_neg h1]
      by_cases h2 : r = "..."
      · rw [if_pos h2, if_pos h2, ih]
        cases specSubst rs [] <;> simp
      · rw [if_neg h2, if_neg h2, ih]
        cases specSubst rs wild <;> simp

/-- Pattern.replace does what the specification says of a pattern that applies. -/
theorem replace_eq_patternApplies (pattern : Pattern) (parts : List String) :
    pattern.replace parts = patternApplies pattern parts := by
  unfold Pattern.replace patternApplies
  by_cases hlen : parts.length < pattern.Match.length
  · rw [if_pos hlen, if_pos hlen]
  · rw [if_neg hlen, if_neg hlen, matchLoop_eq_specMatch parts pattern.Match 0 [] [] (by omega)]
    simp only [List.drop_zero, List.nil_append]
    cases specMatch pattern.Match parts with
    | none => rfl
    | some r =>
      obtain ⟨matched, wild⟩ := r
      simp only [Option.map_some', Option.some_bind]
      rw [replaceLoop_eq_specSubst]
      cases specSubst pattern.Replace wild <;> simp

theorem specMatch_prefix (ms : List String) :
    ∀ (ts matched wild : List String), specMatch ms ts = some (matched, wild) →
      matched <+: ts := by
  induction ms with
  | nil =>
    intro ts matched wild h
    simp [specMatch] at h
    rw [h.1]
    exact List.nil_prefix
  | cons m ms ih =>
    intro ts matched wild h
    unfold specMatch at h
    by_cases h2 : m = "..."
    · rw [if_pos h2] at h
      simp at h
      rw [h.1]
    · rw [if_neg h2] at h
      cases ts with
      | nil => simp at h
      | cons t ts =>
        simp only at h
        cases hr : specMatch ms ts with
        | none => rw [hr] at h; split at h <;> [skip; split at h] <;> simp at h
        | some r =>
          have hp := ih ts r.1 r.2 hr
          rw [hr] at h
          split at h
          · simp at h
            rw [← h.1]
            exact (List.cons_prefix_cons).mpr ⟨rfl, hp⟩
          · split at h
            · simp at h
              rw [← h.1]
              exact (List.cons_prefix_cons).mpr ⟨rfl, hp⟩
            · simp at h

theorem patternsReplaceLoop_none (parts : List String) (ps : List Pattern) :
    ∀ index : Int, (∀ p ∈ ps, patternApplies p parts = none) →
      patternsReplaceLoop parts index ps = ("", "", -1) := by
  induction ps with
  | nil => intro index _; rfl
  | cons p ps ih =>
    intro index h
    unfold patternsReplaceLoop
    rw [replace_eq_patternApplies, h p (List.mem_cons_self _ _)]
    exact ih _ (fun q hq => h q (List.mem_cons_of_mem _ hq))

theorem patternsReplaceLoop_first (parts : List String) (ps : List Pattern) :
    ∀ (index : Int) (i : Nat) (p : Pattern) (matched replaced : List String),
      ps[i]? = some p → patternApplies p parts = some (matched, replaced) →
      (∀ j < i, ∀ q, ps[j]? = some q → patternApplies q parts = none) →
      patternsReplaceLoop parts index ps = (joinParts matched, joinParts replaced, index + i) := by
  induction ps with
  | nil => intro index i p matched replaced h; simp at h
  | cons q ps ih =>
    intro index i p matched replaced h1 h2 h3
    unfold patternsReplaceLoop
    rw [replace_eq_patternApplies]
    cases i with
    | zero =>
      simp at h1
      rw [h1, h2]
      simp
    | succ i =>
      rw [h3 0 (Nat.succ_pos _) q (by simp)]
      simp only [List.getElem?_cons_succ] at h1
      rw [ih (index + 1) i p matched replaced h1 h2
        (fun j hj q' hq' => h3 (j + 1) (by omega) q' (by simpa using hq'))]
      simp only [Nat.cast_succ]
      have e : index + 1 + (i : Int) = index + ((i : Int) + 1) := by omega
      rw [e]

/-- C19 (as stated): the match side `example.com` of the last rule of TestPatternMatch
matches the tokens of `example.com/a/b/c`, taking no wildcard token, and no earlier rule
matches; Replace returns ("", "", -1), because the replacement asks for a `*`. -/
theorem replace_skips_matching_pattern :
    specMatch (PatternSplit "example.com") (PatternSplit "example.com/a/b/c") =
        some (["example.com"], []) ∧
    Patterns.Replace (NewPatterns [("example.com", "ssh://example.com/*")])
        "example.com/a/b/c" = ("", "", -1) ∧
    Patterns.Replace testPatterns "example.com/a/b/c" = ("", "", -1) := by
  decide

/-- C19 (amended): a pattern applies to a string that has at least as many tokens as the
match side of the pattern, whose tokens the match side matches, and whose tokens taken by
the wildcards are enough for every `*` of the replacement side. For every list of patterns
and every string, Replace returns ("", "", -1) when no pattern applies, and otherwise
(matched, replaced, i) where i is the least index of a pattern that applies, matched is the
tokens matched, a prefix of the string, and replaced is the replacement side of pattern i
with the tokens taken by the wildcards substituted in order. -/
theorem patterns_replace_first_applies (ps : Patterns) (s : String) :
    ((∀ p ∈ ps, patternApplies p (PatternSplit s) = none) →
      Patterns.Replace ps s = ("", "", -1)) ∧
    (∀ (i : Nat) (p : Pattern) (matched replaced : List String),
      ps[i]? = some p → patternApplies p (PatternSplit s) = some (matched, replaced) →
      (∀ j < i, ∀ q, ps[j]? = some q → patternApplies q (PatternSplit s) = none) →
      Patterns.Replace ps s = (joinParts matched, joinParts replaced, (i : Int)) ∧
      matched <+: PatternSplit s ∧ (joinParts matched).data <+: s.data) := by
  constructor
  · intro h
    exact patternsReplaceLoop_none _ ps 0 h
  · intro i p matched replaced h1 h2 h3
    refine ⟨?_, ?_⟩
    · unfold Patterns.Replace
      rw [patternsReplaceLoop_first _ ps 0 i p matched replaced h1 h2 h3]
      simp
    · have hp : matched <+: PatternSplit s := by
        unfold patternApplies at h2
        split at h2
        · cases h2
        · cases hm : specMatch p.Match (PatternSplit s) with
          | none => rw [hm] at h2; cases h2
          | some r =>
            rw [hm] at h2
            simp only [Option.some_bind] at h2
            cases hs : specSubst p.Replace r.2 with
            | none => rw [hs] at h2; cases h2
            | some out =>
              rw [hs] at h2
              simp at h2
              rw [← h2.1]
              exact specMatch_prefix _ _ _ _ hm
      refine ⟨hp, ?_⟩
      obtain ⟨rest, hrest⟩ := hp
      have e : s.data = (joinParts (PatternSplit s)).data := by rw [joinParts_patternSplit]
      rw [e, ← hrest, joinParts_data, joinParts_data, List.flatMap_append]
      exact List.prefix_append _ _

theorem patterns_replace_first_applies_witness :
    Patterns.Replace testPatterns "code.uber.internal/infra/lottery" =
      ("code.uber.internal/infra/lottery", "ssh://gitolite@code.uber.internal:infra/lottery", 2) ∧
    (∀ (i : Nat) (p : Pattern) (matched replaced : List String),
      testPatterns[i]? = some p →
      patternApplies p (PatternSplit "code.uber.internal/infra/lottery") =
        some (matched, replaced) →
      (∀ j < i, ∀ q, testPatterns[j]? = some q →
        patternApplies q (PatternSplit "code.uber.internal/infra/lottery") = none) →
      Patterns.Replace testPatterns "code.uber.internal/infra/lottery" =
        (joinParts matched, joinParts replaced, (i : Int)) ∧
      matched <+: PatternSplit "code.uber.internal/infra/lottery" ∧
      (joinParts matched).data <+: "code.uber.internal/infra/lottery".data) :=
  ⟨by decide, (patterns_replace_first_applies testPatterns "code.uber.internal/infra/lottery").2⟩
/-! ### The round trip of a rule and its inverse -/

theorem restLast_cons (p : String) (ps : List String) (h : restLast (p :: ps) = true) :
    (p = "..." → ps = []) ∧ restLast ps = true := by
  unfold restLast at h
  rw [Bool.and_eq_true, Bool.or_eq_true] at h
  refine ⟨?_, h.2⟩
  intro hp
  rcases h.1 with h1 | h1
  · simp [hp] at h1
  · exact List.isEmpty_iff.mp h1

theorem wildcards_cons_star (ps : List String) : wildcards ("*" :: ps) = "*" :: wildcards ps := by
  simp [wildcards]

theorem wildcards_cons_rest (ps : List String) :
    wildcards ("..." :: ps) = "..." :: wildcards ps := by
  simp [wildcards]

theorem wildcards_cons_fixed (p : String) (ps : List String) (h1 : p ≠ "*") (h2 : p ≠ "...") :
    wildcards (p :: ps) = wildcards ps := by
  simp [wildcards, h1, h2]

/-- The tokens that the wildcards of a pattern took from tokens it matches in full fit the
wildcards of the pattern, and put back into the pattern they give the tokens. -/
theorem specMatch_full (ms : List String) :
    ∀ (ts wild : List String), restLast ms = true → ms.length ≤ ts.length →
      specMatch ms ts = some (ts, wild) →
      wildFits (wildcards ms) wild ∧ specSubst ms wild = some ts := by
  induction ms with
  | nil =>
    intro ts wild _ _ h
    simp [specMatch] at h
    rw [h.1, h.2]
    exact ⟨rfl, rfl⟩
  | cons m ms ih =>
    intro ts wild hl hlen h
    obtain ⟨hl1, hl2⟩ := restLast_cons m ms hl
    unfold specMatch at h
    by_cases h2 : m = "..."
    · rw [if_pos h2] at h
      simp at h
      rw [h2, hl1 h2, ← h]
      simp only [List.length_cons, List.length_nil] at hlen
      have hne : ts ≠ [] := by
        intro e; rw [e] at hlen; simp at hlen
      refine ⟨?_, ?_⟩
      · rw [wildcards_cons_rest]
        unfold wildFits
        rw [if_pos rfl]
        exact hne
      · simp [specSubst]
    · rw [if_neg h2] at h
      cases ts with
      | nil => simp at h
      | cons t ts =>
        simp only [List.length_cons] at hlen
        simp only at h
        cases hr : specMatch ms ts with
        | none => rw [hr] at h; split at h <;> [skip; split at h] <;> simp at h
        | some r =>
          obtain ⟨r1, r2⟩ := r
          rw [hr] at h
          by_cases h1 : m = "*"
          · rw [if_pos h1] at h
            simp at h
            obtain ⟨e1, e2⟩ := h
            rw [e1] at hr
            obtain ⟨f1, f2⟩ := ih ts r2 hl2 (by omega) hr
            rw [h1, ← e2]
            refine ⟨?_, ?_⟩
            · rw [wildcards_cons_star]
              unfold wildFits
              rw [if_neg (by decide)]
              exact f1
            · unfold specSubst
              rw [if_pos rfl]
              simp only
              rw [f2]
              rfl
          · rw [if_neg h1] at h
            by_cases h3 : m = t
            · rw [if_pos h3] at h
              simp at h
              obtain ⟨e1, e2⟩ := h
              rw [e1, e2] at hr
              obtain ⟨f1, f2⟩ := ih ts wild hl2 (by omega) hr
              refine ⟨?_, ?_⟩
              · rw [wildcards_cons_fixed m ms h1 h2]
                exact f1
              · unfold specSubst
                rw [if_neg h1, if_neg h2, f2, h3]
                rfl
            · rw [if_neg h3] at h
              cases h

/-- Tokens that fit the wildcards of a pattern can be put into the pattern, and the pattern
matches the result in full, taking the same tokens. -/
theorem specSubst_fits (rs : List String) :
    ∀ (wild : List String), restLast rs = true → wildFits (wildcards rs) wild →
      ∃ out, specSubst rs wild = some out ∧ specMatch rs out = some (out, wild) ∧
        rs.length ≤ out.length := by
  induction rs with
  | nil =>
    intro wild _ hf
    have e : wild = [] := hf
    rw [e]
    exact ⟨[], rfl, rfl, le_refl _⟩
  | cons r rs ih =>
    intro wild hl hf
    obtain ⟨hl1, hl2⟩ := restLast_cons r rs hl
    by_cases h2 : r = "..."
    · rw [h2, hl1 h2] at hf ⊢
      rw [wildcards_cons_rest] at hf
      unfold wildFits at hf
      rw [if_pos rfl] at hf
      refine ⟨wild, by simp [specSubst], by simp [specMatch], ?_⟩
      cases wild with
      | nil => exact absurd rfl hf
      | cons w ws => simp
    · by_cases h1 : r = "*"
      · rw [h1] at hf ⊢
        rw [wildcards_cons_star] at hf
        unfold wildFits at hf
        rw [if_neg (by decide)] at hf
        cases wild with
        | nil => exact absurd hf (by simp)
        | cons w ws =>
          simp only at hf
          obtain ⟨out, o1, o2, o3⟩ := ih ws hl2 hf
          refine ⟨w :: out, ?_, ?_, ?_⟩
          · unfold specSubst
            rw [if_pos rfl]
            simp only
            rw [o1]
            rfl
          · unfold specMatch
            rw [if_neg (by decide)]
            simp only [if_true]
            rw [o2]
            rfl
          · simp only [List.length_cons]; omega
      · rw [wildcards_cons_fixed r rs h1 h2] at hf
        obtain ⟨out, o1, o2, o3⟩ := ih wild hl2 hf
        refine ⟨r :: out, ?_, ?_, ?_⟩
        · unfold specSubst
          rw [if_neg h1, if_neg h2, o1]
          rfl
        · unfold specMatch
          rw [if_neg h2]
          simp only [if_neg h1, if_true]
          rw [o2]
          rfl
        · simp only [List.length_cons]; omega

/-- The round trip on tokens: when the rule from M to R replaces tokens that M matches in
full, the inverse rule gives them back. -/
theorem replace_round_trip_tokens (M R ts rs : List String) (hw : wildcards M = wildcards R)
    (hM : restLast M = true) (hR : restLast R = true)
    (h : Pattern.replace { Match := M, Replace := R } ts = some (ts, rs)) :
    Pattern.replace { Match := R, Replace := M } rs = some (rs, ts) := by
  rw [replace_eq_patternApplies] at h ⊢
  unfold patternApplies at h ⊢
  simp only at h ⊢
  by_cases hlen : ts.length < M.length
  · rw [if_pos hlen] at h; cases h
  · rw [if_neg hlen] at h
    cases hm : specMatch M ts with
    | none => rw [hm] at h; cases h
    | some r =>
      obtain ⟨matched, wild⟩ := r
      rw [hm] at h
      simp only [Option.some_bind] at h
      cases hs : specSubst R wild with
      | none => rw [hs] at h; cases h
      | some out =>
        rw [hs] at h
        simp at h
        obtain ⟨e1, e2⟩ := h
        rw [e1] at hm
        rw [e2] at hs
        obtain ⟨f1, f2⟩ := specMatch_full M ts wild hM (by omega) hm
        rw [hw] at f1
        obtain ⟨out2, o1, o2, o3⟩ := specSubst_fits R wild hR f1
        rw [hs] at o1
        cases o1
        rw [if_neg (by omega), o2]
        simp only [Option.some_bind]
        rw [f2]
        rfl

/-- C20 (as stated): the rule from `a/*` to `b*` has the same wildcard on both sides and its
match side matches `a/c` in full; it gives `bc`, which the inverse rule from `b*` to `a/*`
does not match, since `bc` is one token. -/
theorem round_trip_fails_on_merged_tokens :
    wildcards (PatternSplit "a/*") = wildcards (PatternSplit "b*") ∧
    Patterns.Replace (NewPatterns [("a/*", "b*")]) "a/c" = ("a/c", "bc", 0) ∧
    PatternSplit "bc" = ["bc"] ∧
    Patterns.Replace (NewPatterns [("b*", "a/*")]) "bc" = ("", "", -1) := by
  decide

/-- C20 (amended): for every rule with match pattern M and replacement pattern R that carry
the same sequence of wildcards, with `...` nowhere but at the end of M and of R, and every
string s that M matches in full: the rule from M to R gives s and a replaced string, and
when the replaced string splits into the tokens it was joined from, the inverse rule from R
to M applied to the replaced string returns s. -/
theorem pattern_round_trip (M R : List String) (s : String) (rs : List String)
    (hw : wildcards M = wildcards R) (hM : restLast M = true) (hR : restLast R = true)
    (hfull : Pattern.replace { Match := M, Replace := R } (PatternSplit s) =
      some (PatternSplit s, rs))
    (hsplit : PatternSplit (joinParts rs) = rs) :
    Patterns.Replace [{ Match := M, Replace := R }] s = (s, joinParts rs, 0) ∧
    Patterns.Replace [{ Match := R, Replace := M }] (joinParts rs) = (joinParts rs, s, 0) := by
  have hback := replace_round_trip_tokens M R (PatternSplit s) rs hw hM hR hfull
  constructor
  · unfold Patterns.Replace patternsReplaceLoop
    rw [hfull]
    simp only
    rw [joinParts_patternSplit]
  · unfold Patterns.Replace patternsReplaceLoop
    rw [hsplit, hback]
    simp only
    rw [joinParts_patternSplit]

theorem pattern_round_trip_witness :
    Patterns.Replace
        [{ Match := PatternSplit "go.uber.org/*",
           Replace := PatternSplit "ssh://gitolite@code.uber.internal:github/uber-go/*" }]
        "go.uber.org/fx" =
      ("go.uber.org/fx", joinParts (PatternSplit
        "ssh://gitolite@code.uber.internal:github/uber-go/fx"), 0) ∧
    Patterns.Replace
        [{ Match := PatternSplit "ssh://gitolite@code.uber.internal:github/uber-go/*",
           Replace := PatternSplit "go.uber.org/*" }]
        (joinParts (PatternSplit "ssh://gitolite@code.uber.internal:github/uber-go/fx")) =
      (joinParts (PatternSplit "ssh://gitolite@code.uber.internal:github/uber-go/fx"),
        "go.uber.org/fx", 0) :=
  pattern_round_trip (PatternSplit "go.uber.org/*")
    (PatternSplit "ssh://gitolite@code.uber.internal:github/uber-go/*") "go.uber.org/fx"
    (PatternSplit "ssh://gitolite@code.uber.internal:github/uber-go/fx")
    (by decide) (by decide) (by decide) (by decide)
    (by rw [joinParts_patternSplit])
/-! ### The tree walker -/

theorem preorder_ne_nil (pre : String) (e : TreeEntry) : preorder pre e ≠ [] := by
  cases e with
  | file name => simp [preorder]
  | dir name listed entries => cases listed <;> simp [preorder]

theorem preorderList_cons (pre : String) (e : TreeEntry) (es : List TreeEntry) :
    preorderList pre (e :: es) = preorder pre e ++ preorderList pre es := by
  simp [preorderList]

/-- One call of Next returns the first of what remains and leaves the rest; when nothing
remains it returns io.EOF and nothing remains. -/
theorem next_remaining (w : walkerStack) :
    (remaining w = [] →
      (walkerStack.Next w).stack = [] ∧
      ((walkerStack.Next w).path, (walkerStack.Next w).entry, (walkerStack.Next w).err)
        = endOfWalk) ∧
    (∀ x xs, remaining w = x :: xs →
      ((walkerStack.Next w).path, (walkerStack.Next w).entry, (walkerStack.Next w).err) = x ∧
      remaining (walkerStack.Next w).stack = xs) := by
  induction w with
  | nil =>
    constructor
    · intro _; exact ⟨rfl, rfl⟩
    · intro x xs h; simp [remaining] at h
  | cons top below ih =>
    unfold walkerStack.Next
    cases hget : top.Entries[top.Index]? with
    | none =>
      have hdrop : top.Entries.drop top.Index = [] := by
        apply List.drop_eq_nil_of_le
        exact List.getElem?_eq_none_iff.mp hget
      have hrem : remaining (top :: below) = remaining below := by
        simp [remaining, hdrop, preorderList]
      simp only
      rw [hrem]
      exact ih
    | some entry =>
      have hlt : top.Index < top.Entries.length := by
        by_contra hge
        rw [List.getElem?_eq_none_iff.mpr (not_lt.mp hge)] at hget
        cases hget
      have hentry : top.Entries[top.Index] = entry := by
        rw [List.getElem?_eq_getElem hlt] at hget
        exact Option.some.inj hget
      have hdrop : top.Entries.drop top.Index = entry :: top.Entries.drop (top.Index + 1) := by
        rw [List.drop_eq_getElem_cons hlt, hentry]
      have hrem : remaining (top :: below) =
          preorder top.Prefix entry ++
            (preorderList top.Prefix (top.Entries.drop (top.Index + 1)) ++ remaining below) := by
        simp [remaining, hdrop, preorderList_cons]
      rw [hrem]
      simp only
      constructor
      · intro h
        exact absurd (List.append_eq_nil.mp h).1 (preorder_ne_nil _ _)
      · intro x xs h
        cases entry with
        | file name =>
          simp only [preorder, List.singleton_append, List.cons.injEq] at h
          simp only [TreeEntry.IsDir, TreeEntry.Name, Bool.false_eq_true, if_false]
          refine ⟨h.1, ?_⟩
          rw [← h.2]
          rfl
        | dir name listed entries =>
          cases listed with
          | false =>
            simp only [preorder, List.singleton_append, List.cons.injEq] at h
            simp only [TreeEntry.IsDir, TreeEntry.Name, TreeEntry.List, if_true]
            refine ⟨h.1, ?_⟩
            rw [← h.2]
            rfl
          | true =>
            simp only [preorder, List.cons_append, List.cons.injEq] at h
            simp only [TreeEntry.IsDir, TreeEntry.Name, TreeEntry.List, if_true]
            refine ⟨h.1, ?_⟩
            rw [← h.2]
            simp [remaining]

theorem take_append_replicate {α : Type} (xs : List α) (e : α) (n k : Nat) (hk : n ≤ k) :
    (xs ++ List.replicate k e).take n = (xs ++ List.replicate n e).take n := by
  rw [List.take_append_eq_append_take, List.take_append_eq_append_take, List.take_replicate,
    List.take_replicate]
  congr 2
  omega

/-- The calls of Next return what remains, in order, and then io.EOF for ever. -/
theorem nextCalls_eq (n : Nat) :
    ∀ w : walkerStack, nextCalls n w = (remaining w ++ List.replicate n endOfWalk).take n := by
  induction n with
  | zero => intro w; simp [nextCalls]
  | succ n ih =>
    intro w
    unfold nextCalls
    obtain ⟨h0, h1⟩ := next_remaining w
    cases hr : remaining w with
    | nil =>
      obtain ⟨hs, he⟩ := h0 hr
      rw [he, ih, hs]
      simp [remaining, List.replicate_succ]
    | cons x xs =>
      obtain ⟨hx, hxs⟩ := h1 x xs hr
      rw [hx, ih, hxs]
      simp only [List.cons_append, List.take_succ_cons]
      rw [take_append_replicate xs endOfWalk n (n + 1) (by omega)]

theorem nextCalls_append (w : walkerStack) (m : Nat) :
    nextCalls ((remaining w).length + m) w = remaining w ++ List.replicate m endOfWalk := by
  rw [nextCalls_eq, List.take_append_eq_append_take]
  simp [List.take_replicate]

mutual
theorem preorder_ok (pre : String) :
    ∀ e : TreeEntry, listsSucceed e = true →
      ∀ y ∈ preorder pre e, y.2.2 = none ∧ y.2.1.isSome = true
  | .file name, _, y, hy => by
    simp only [preorder, List.mem_singleton] at hy
    rw [hy]
    exact ⟨rfl, rfl⟩
  | .dir name true entries, h, y, hy => by
    simp only [preorder, List.mem_cons] at hy
    simp only [listsSucceed, Bool.true_and] at h
    rcases hy with hy | hy
    · rw [hy]; exact ⟨rfl, rfl⟩
    · exact preorderList_ok (pre ++ name ++ "/") entries h y hy
  | .dir name false entries, h, _, _ => by
    simp [listsSucceed] at h
theorem preorderList_ok (pre : String) :
    ∀ es : List TreeEntry, listsSucceedList es = true →
      ∀ y ∈ preorderList pre es, y.2.2 = none ∧ y.2.1.isSome = true
  | [], _, y, hy => by simp [preorderList] at hy
  | e :: es, h, y, hy => by
    simp only [listsSucceedList, Bool.and_eq_true] at h
    simp only [preorderList, List.mem_append] at hy
    rcases hy with hy | hy
    · exact preorder_ok pre e h.1 y hy
    · exact preorderList_ok pre es h.2 y hy
end

/-- C21: for every finite tree of entries whose List calls succeed, the calls of Next on
Walk(dir, root), without Skip, return the entries of the tree in depth-first pre-order, each
once, with no error and with the path dir + "/" + the names on the way from the root joined
by "/", and then io.EOF on every later call. -/
theorem walk_yields_preorder (dir : String) (root : TreeEntry) (hok : listsSucceed root = true)
    (m : Nat) :
    nextCalls ((preorder (dir ++ "/") root).length + m) (Walk dir root) =
        preorder (dir ++ "/") root ++ List.replicate m ("", none, some "EOF") ∧
    ∀ y ∈ preorder (dir ++ "/") root, y.2.2 = none ∧ y.2.1.isSome = true := by
  have hrem : remaining (Walk dir root) = preorder (dir ++ "/") root := by
    simp [Walk, remaining, preorderList]
  refine ⟨?_, preorder_ok _ root hok⟩
  have h := nextCalls_append (Walk dir root) m
  rw [hrem] at h
  exact h

theorem walk_yields_preorder_witness :
    (preorder ("example.com" ++ "/") exampleTree).map (fun y => y.1) =
      ["example.com/example", "example.com/example/CHANGELOG.md",
       "example.com/example/internal", "example.com/example/internal/exampleutil",
       "example.com/example/internal/exampleutil/exampleutil.go",
       "example.com/example/main.go", "example.com/example/testdata",
       "example.com/example/testdata/x.go"] ∧
    nextCalls ((preorder ("example.com" ++ "/") exampleTree).length + 2)
        (Walk "example.com" exampleTree) =
      preorder ("example.com" ++ "/") exampleTree ++
        List.replicate 2 ("", none, some "EOF") ∧
    ∀ y ∈ preorder ("example.com" ++ "/") exampleTree, y.2.2 = none ∧ y.2.1.isSome = true :=
  ⟨by decide, walk_yields_preorder "example.com" exampleTree (by decide) 2⟩

/-- C22 (as stated): in a tree whose root lists a directory `locked`, whose List fails, and
a file `main.go`, Next returns the directory entry `locked` with the error; Skip after that
drops `main.go`, which is not in the subtree of `locked`: the next call returns io.EOF, where
the walk without Skip returns `main.go`. -/
theorem skip_after_failed_list_drops_sibling :
    (walkerStack.Next (walkerStack.Next (Walk "x" brokenTree)).stack).path = "x/root/locked" ∧
    ((walkerStack.Next (walkerStack.Next (Walk "x" brokenTree)).stack).entry.map
      TreeEntry.IsDir) = some true ∧
    (walkerStack.Next (walkerStack.Next (Walk "x" brokenTree)).stack).err =
      some "list failed" ∧
    (nextCalls 1 (walkerStack.Next (walkerStack.Next (Walk "x" brokenTree)).stack).stack).map
      (fun y => y.1) = ["x/root/main.go"] ∧
    (nextCalls 1 (walkerStack.Skip
      (walkerStack.Next (walkerStack.Next (Walk "x" brokenTree)).stack).stack)).map
      (fun y => (y.1, y.2.2)) = [("", some "EOF")] := by
  decide

/-- C22 (amended): for every walk, when Next has returned a directory entry d without an
error, the walk without Skip goes on with the descendants of d, which are under the path of
d, and then with exactly what the calls of Next return after Skip: Skip drops the
descendants of d and nothing else. -/
theorem skip_drops_descendants (w : walkerStack) (name : String) (listed : Bool)
    (entries : List TreeEntry)
    (hentry : (walkerStack.Next w).entry = some (.dir name listed entries))
    (herr : (walkerStack.Next w).err = none) (n : Nat) :
    nextCalls (1 + (preorderList ((walkerStack.Next w).path ++ "/") entries).length + n) w =
      ((walkerStack.Next w).path, some (.dir name listed entries), none) ::
        (preorderList ((walkerStack.Next w).path ++ "/") entries ++
          nextCalls n (walkerStack.Skip (walkerStack.Next w).stack)) := by
  have hrem : remaining w =
      ((walkerStack.Next w).path, some (.dir name listed entries), none) ::
        (preorderList ((walkerStack.Next w).path ++ "/") entries ++
          remaining (walkerStack.Skip (walkerStack.Next w).stack)) := by
    induction w with
    | nil => simp [walkerStack.Next] at hentry
    | cons top below ih =>
      unfold walkerStack.Next at hentry herr ⊢
      cases hget : top.Entries[top.Index]? with
      | none =>
        rw [hget] at hentry herr
        simp only at hentry herr ⊢
        have hdrop : top.Entries.drop top.Index = [] := by
          apply List.drop_eq_nil_of_le
          exact List.getElem?_eq_none_iff.mp hget
        have hr : remaining (top :: below) = remaining below := by
          simp [remaining, hdrop, preorderList]
        rw [hr]
        exact ih hentry herr
      | some entry =>
        rw [hget] at hentry herr
        simp only at hentry herr ⊢
        have hlt : top.Index < top.Entries.length := by
          by_contra hge
          rw [List.getElem?_eq_none_iff.mpr (not_lt.mp hge)] at hget
          cases hget
        have hget2 : top.Entries[top.Index] = entry := by
          rw [List.getElem?_eq_getElem hlt] at hget
          exact Option.some.inj hget
        have hdrop : top.Entries.drop top.Index =
            entry :: top.Entries.drop (top.Index + 1) := by
          rw [List.drop_eq_getElem_cons hlt, hget2]
        cases entry with
        | file fname =>
          simp [TreeEntry.IsDir] at hentry
        | dir dname dlisted dentries =>
          cases dlisted with
          | false => simp [TreeEntry.IsDir, TreeEntry.List] at herr
          | true =>
            simp only [TreeEntry.IsDir, TreeEntry.List, if_true, Option.some.injEq,
              TreeEntry.dir.injEq] at hentry
            obtain ⟨e1, e2, e3⟩ := hentry
            subst e1 e2 e3
            simp [TreeEntry.IsDir, TreeEntry.List, TreeEntry.Name, walkerStack.Skip, remaining,
              hdrop, preorderList_cons, preorder]
  have key := nextCalls_eq (1 + (preorderList ((walkerStack.Next w).path ++ "/") entries).length
    + n) w
  rw [key, hrem, nextCalls_eq n]
  have e : 1 + (preorderList ((walkerStack.Next w).path ++ "/") entries).length + n
      = ((preorderList ((walkerStack.Next w).path ++ "/") entries).length + n) + 1 := by omega
  rw [e]
  simp only [List.cons_append, List.take_succ_cons, List.append_assoc]
  rw [List.take_append_eq_append_take, List.take_of_length_le (by omega)]
  congr 2
  have e2 : (preorderList ((walkerStack.Next w).path ++ "/") entries).length + n -
      (preorderList ((walkerStack.Next w).path ++ "/") entries).length = n := by omega
  rw [e2]
  exact take_append_replicate _ _ _ _ (by omega)

theorem skip_drops_descendants_witness :
    nextCalls (1 + (preorderList ((walkerStack.Next (Walk "example.com" exampleTree)).path
        ++ "/") [.file "CHANGELOG.md",
         .dir "internal" true [.dir "exampleutil" true [.file "exampleutil.go"]],
         .file "main.go", .dir "testdata" true [.file "x.go"]]).length + 1)
      (Walk "example.com" exampleTree) =
      ((walkerStack.Next (Walk "example.com" exampleTree)).path,
        some (.dir "example" true [.file "CHANGELOG.md",
          .dir "internal" true [.dir "exampleutil" true [.file "exampleutil.go"]],
          .file "main.go", .dir "testdata" true [.file "x.go"]]), none) ::
        (preorderList ((walkerStack.Next (Walk "example.com" exampleTree)).path ++ "/")
          [.file "CHANGELOG.md",
           .dir "internal" true [.dir "exampleutil" true [.file "exampleutil.go"]],
           .file "main.go", .dir "testdata" true [.file "x.go"]] ++
          nextCalls 1 (walkerStack.Skip (walkerStack.Next (Walk "example.com" exampleTree)).stack)) :=
  skip_drops_descendants (Walk "example.com" exampleTree) "example" true _ rfl rfl 1
/-! ### Packages -/

theorem stringSet_mem_include (t : StringSet) :
    ∀ (s : StringSet) (x : String), x ∈ StringSet.Include s t ↔ x ∈ s ∨ x ∈ t := by
  induction t with
  | nil => intro s x; simp [StringSet.Include]
  | cons y t ih =>
    intro s x
    have e : StringSet.Include s (y :: t) = StringSet.Include (StringSet.Add s y) t := rfl
    rw [e, ih, stringSet_mem_add, List.mem_cons]
    tauto

theorem has_cons (k : String) (v : StringSet) (rest : StringGraph) (a b : String) :
    StringGraph.Has ((k, v) :: rest) a b =
      if a = k then StringSet.Has v b else StringGraph.Has rest a b := by
  unfold StringGraph.Has
  rw [List.lookup_cons]
  by_cases h : a = k
  · subst h
    simp
  · have e : (a == k) = false := by simpa using h
    rw [e, if_neg h]

theorem has_nil (a b : String) : StringGraph.Has [] a b = false := rfl

theorem has_add (g : StringGraph) (s t a b : String) :
    StringGraph.Has (StringGraph.Add g s t) a b = true ↔
      (StringGraph.Has g a b = true ∨ (a = s ∧ b = t)) := by
  induction g with
  | nil =>
    unfold StringGraph.Add
    rw [has_cons, has_nil]
    by_cases h : a = s
    · rw [if_pos h, stringSet_has_iff]
      simp [h]
    · rw [if_neg h]
      simp [h]
  | cons e g ih =>
    obtain ⟨k, v⟩ := e
    unfold StringGraph.Add
    by_cases hk : k = s
    · rw [if_pos hk, has_cons, has_cons]
      by_cases h : a = k
      · rw [if_pos h, if_pos h, stringSet_has_iff, stringSet_has_iff, stringSet_mem_add]
        constructor
        · rintro (h1 | h1)
          · exact Or.inl h1
          · exact Or.inr ⟨h.trans hk, h1⟩
        · rintro (h1 | ⟨_, h1⟩)
          · exact Or.inl h1
          · exact Or.inr h1
      · rw [if_neg h, if_neg h]
        constructor
        · exact Or.inl
        · rintro (h1 | ⟨h1, _⟩)
          · exact h1
          · exact absurd (h1.trans hk.symm) h
    · rw [if_neg hk, has_cons, has_cons]
      by_cases h : a = k
      · rw [if_pos h, if_pos h]
        constructor
        · exact Or.inl
        · rintro (h1 | ⟨h1, _⟩)
          · exact h1
          · exact absurd (h.symm.trans h1) hk
      · rw [if_neg h, if_neg h]
        exact ih

theorem add_keys (g : StringGraph) (s t : String) :
    (StringGraph.Add g s t).map Prod.fst =
      if s ∈ g.map Prod.fst then g.map Prod.fst else g.map Prod.fst ++ [s] := by
  induction g with
  | nil => simp [StringGraph.Add]
  | cons e g ih =>
    obtain ⟨k, v⟩ := e
    unfold StringGraph.Add
    by_cases hk : k = s
    · rw [if_pos hk]
      simp [hk]
    · rw [if_neg hk]
      simp only [List.map_cons, ih, List.mem_cons]
      have hk2 : ¬ s = k := fun h => hk h.symm
      by_cases hm : s ∈ g.map Prod.fst
      · simp [hm]
      · simp [hm, hk2]

theorem add_keysNodup (g : StringGraph) (s t : String) (h : graphKeysNodup g) :
    graphKeysNodup (StringGraph.Add g s t) := by
  unfold graphKeysNodup at *
  rw [add_keys]
  split
  · exact h
  · rename_i hm
    rw [List.nodup_append]
    refine ⟨h, List.nodup_singleton _, ?_⟩
    intro x hx hy
    rw [List.mem_singleton] at hy
    exact hm (hy ▸ hx)

theorem has_includeTargets (g : StringGraph) (s : String) (tgts : StringSet) (a b : String) :
    StringGraph.Has (StringGraph.includeTargets g s tgts) a b = true ↔
      (StringGraph.Has g a b = true ∨ (a = s ∧ b ∈ tgts)) := by
  induction g with
  | nil =>
    unfold StringGraph.includeTargets
    rw [has_cons, has_nil]
    by_cases h : a = s
    · rw [if_pos h, stringSet_has_iff, stringSet_mem_include]
      simp [h]
    · rw [if_neg h]
      simp [h]
  | cons e g ih =>
    obtain ⟨k, v⟩ := e
    unfold StringGraph.includeTargets
    by_cases hk : k = s
    · rw [if_pos hk, has_cons, has_cons]
      by_cases h : a = k
      · rw [if_pos h, if_pos h, stringSet_has_iff, stringSet_has_iff, stringSet_mem_include]
        constructor
        · rintro (h1 | h1)
          · exact Or.inl h1
          · exact Or.inr ⟨h.trans hk, h1⟩
        · rintro (h1 | ⟨_, h1⟩)
          · exact Or.inl h1
          · exact Or.inr h1
      · rw [if_neg h, if_neg h]
        constructor
        · exact Or.inl
        · rintro (h1 | ⟨h1, _⟩)
          · exact h1
          · exact absurd (h1.trans hk.symm) h
    · rw [if_neg hk, has_cons, has_cons]
      by_cases h : a = k
      · rw [if_pos h, if_pos h]
        constructor
        · exact Or.inl
        · rintro (h1 | ⟨h1, _⟩)
          · exact h1
          · exact absurd (h.symm.trans h1) hk
      · rw [if_neg h, if_neg h]
        exact ih

theorem includeTargets_keys (g : StringGraph) (s : String) (tgts : StringSet) :
    (StringGraph.includeTargets g s tgts).map Prod.fst =
      if s ∈ g.map Prod.fst then g.map Prod.fst else g.map Prod.fst ++ [s] := by
  induction g with
  | nil => simp [StringGraph.includeTargets]
  | cons e g ih =>
    obtain ⟨k, v⟩ := e
    unfold StringGraph.includeTargets
    by_cases hk : k = s
    · rw [if_pos hk]
      simp [hk]
    · rw [if_neg hk]
      simp only [List.map_cons, ih, List.mem_cons]
      have hk2 : ¬ s = k := fun h => hk h.symm
      by_cases hm : s ∈ g.map Prod.fst
      · simp [hm]
      · simp [hm, hk2]

theorem includeTargets_keysNodup (g : StringGraph) (s : String) (tgts : StringSet)
    (h : graphKeysNodup g) : graphKeysNodup (StringGraph.includeTargets g s tgts) := by
  unfold graphKeysNodup at *
  rw [includeTargets_keys]
  split
  · exact h
  · rename_i hm
    rw [List.nodup_append]
    refine ⟨h, List.nodup_singleton _, ?_⟩
    intro x hx hy
    rw [List.mem_singleton] at hy
    exact hm (hy ▸ hx)

theorem include_keysNodup (q : StringGraph) :
    ∀ g : StringGraph, graphKeysNodup g → graphKeysNodup (StringGraph.Include g q) := by
  induction q with
  | nil => intro g h; exact h
  | cons e q ih =>
    intro g h
    exact ih _ (includeTargets_keysNodup g e.1 e.2 h)

theorem has_include_mem (q : StringGraph) :
    ∀ (g : StringGraph) (a b : String),
      StringGraph.Has (StringGraph.Include g q) a b = true ↔
        (StringGraph.Has g a b = true ∨ ∃ e ∈ q, e.1 = a ∧ b ∈ e.2) := by
  induction q with
  | nil => intro g a b; simp [StringGraph.Include]
  | cons e q ih =>
    intro g a b
    have e1 : StringGraph.Include g (e :: q) =
        StringGraph.Include (StringGraph.includeTargets g e.1 e.2) q := rfl
    rw [e1, ih, has_includeTargets]
    constructor
    · rintro ((h | ⟨h1, h2⟩) | ⟨e', he', h⟩)
      · exact Or.inl h
      · exact Or.inr ⟨e, List.mem_cons_self _ _, h1.symm, h2⟩
      · exact Or.inr ⟨e', List.mem_cons_of_mem _ he', h⟩
    · rintro (h | ⟨e', he', h1, h2⟩)
      · exact Or.inl (Or.inl h)
      · rcases List.mem_cons.mp he' with rfl | he'
        · exact Or.inl (Or.inr ⟨h1.symm, h2⟩)
        · exact Or.inr ⟨e', he', h1, h2⟩

theorem has_iff_mem (q : StringGraph) (hq : graphKeysNodup q) (a b : String) :
    StringGraph.Has q a b = true ↔ ∃ e ∈ q, e.1 = a ∧ b ∈ e.2 := by
  induction q with
  | nil => simp [has_nil]
  | cons e q ih =>
    obtain ⟨k, v⟩ := e
    unfold graphKeysNodup at hq
    rw [List.map_cons, List.nodup_cons] at hq
    rw [has_cons]
    by_cases h : a = k
    · rw [if_pos h, stringSet_has_iff]
      constructor
      · intro hb
        exact ⟨(k, v), List.mem_cons_self _ _, h.symm, hb⟩
      · rintro ⟨e', he', h1, h2⟩
        rcases List.mem_cons.mp he' with rfl | he'
        · exact h2
        · exfalso
          have hk := List.mem_map_of_mem Prod.fst he'
          rw [h1, h] at hk
          exact hq.1 hk
    · rw [if_neg h, ih hq.2]
      constructor
      · rintro ⟨e', he', h1⟩
        exact ⟨e', List.mem_cons_of_mem _ he', h1⟩
      · rintro ⟨e', he', h1, h2⟩
        rcases List.mem_cons.mp he' with rfl | he'
        · exact absurd h1.symm h
        · exact ⟨e', he', h1, h2⟩

theorem has_include (g q : StringGraph) (hq : graphKeysNodup q) (a b : String) :
    StringGraph.Has (StringGraph.Include g q) a b = true ↔
      (StringGraph.Has g a b = true ∨ StringGraph.Has q a b = true) := by
  rw [has_include_mem, has_iff_mem q hq]

theorem newPackages_inv (importer : String → Prop) : PackagesInv importer NewPackages where
  keysImports := List.nodup_nil
  keysTestImports := List.nodup_nil
  keysCoImports := List.nodup_nil
  keysCoTestImports := List.nodup_nil
  transpose := by intro a b; simp [NewPackages, has_nil]
  transposeTest := by intro a b; simp [NewPackages, has_nil]
  commands := by intro x hx; cases hx
  exports := by intro x hx; cases hx
  imported := by intro a b h; simp [NewPackages, has_nil] at h
  importedTest := by intro a b h; simp [NewPackages, has_nil] at h
  all := by intro _ x hx; cases hx
  importing := by intro _ a b h; simp [NewPackages, has_nil] at h
  importingTest := by intro _ a b h; simp [NewPackages, has_nil] at h

theorem command_inv (importer : String → Prop) (p : Packages) (exp : String)
    (h : PackagesInv importer p) : PackagesInv importer (p.Command exp) := by
  unfold Packages.Command
  by_cases hb : isBuiltin exp = true
  · rw [if_pos hb]; exact h
  · rw [if_neg hb]
    have hb2 : isBuiltin exp = false := Bool.eq_false_iff.mpr hb
    exact
      { h with
        commands := by
          intro x hx
          rcases (stringSet_mem_add _ _ _).mp hx with hx | hx
          · exact h.commands x hx
          · rw [hx]; exact hb2
        all := by
          intro hi x hx
          rcases (stringSet_mem_add _ _ _).mp hx with hx | hx
          · exact h.all hi x hx
          · rw [hx]; exact hb2 }

theorem export_inv (importer : String → Prop) (p : Packages) (exp : String)
    (h : PackagesInv importer p) : PackagesInv importer (p.Export exp) := by
  unfold Packages.Export
  by_cases hb : isBuiltin exp = true
  · rw [if_pos hb]; exact h
  · rw [if_neg hb]
    have hb2 : isBuiltin exp = false := Bool.eq_false_iff.mpr hb
    exact
      { h with
        exports := by
          intro x hx
          rcases (stringSet_mem_add _ _ _).mp hx with hx | hx
          · exact h.exports x hx
          · rw [hx]; exact hb2
        all := by
          intro hi x hx
          rcases (stringSet_mem_add _ _ _).mp hx with hx | hx
          · exact h.all hi x hx
          · rw [hx]; exact hb2 }

theorem import_inv (importer : String → Prop) (p : Packages) (exp imp : String)
    (h : PackagesInv importer p) (hexp : importer exp) :
    PackagesInv importer (p.Import exp imp) := by
  unfold Packages.Import
  by_cases hb : isBuiltin imp = true
  · rw [if_pos hb]; exact h
  · rw [if_neg hb]
    have hb2 : isBuiltin imp = false := Bool.eq_false_iff.mpr hb
    exact
      { h with
        keysImports := add_keysNodup _ _ _ h.keysImports
        keysCoImports := add_keysNodup _ _ _ h.keysCoImports
        transpose := by
          intro a b
          show StringGraph.Has (StringGraph.Add p.CoImports imp exp) b a = true ↔
            StringGraph.Has (StringGraph.Add p.Imports exp imp) a b = true
          rw [has_add, has_add, h.transpose]
          tauto
        imported := by
          intro a b hab
          rcases (has_add _ _ _ _ _).mp hab with h1 | ⟨_, h1⟩
          · exact h.imported a b h1
          · rw [h1]; exact hb2
        all := by
          intro hi x hx
          rcases (stringSet_mem_add _ _ _).mp hx with hx | hx
          · rcases (stringSet_mem_add _ _ _).mp hx with hx | hx
            · exact h.all hi x hx
            · rw [hx]; exact hb2
          · rw [hx]; exact hi exp hexp
        importing := by
          intro hi a b hab
          rcases (has_add _ _ _ _ _).mp hab with h1 | ⟨h1, _⟩
          · exact h.importing hi a b h1
          · rw [h1]; exact hi exp hexp }

theorem testImport_inv (importer : String → Prop) (p : Packages) (exp imp : String)
    (h : PackagesInv importer p) (hexp : importer exp) :
    PackagesInv importer (p.TestImport exp imp) := by
  unfold Packages.TestImport
  by_cases hb : isBuiltin imp = true
  · rw [if_pos hb]; exact h
  · rw [if_neg hb]
    have hb2 : isBuiltin imp = false := Bool.eq_false_iff.mpr hb
    exact
      { h with
        keysTestImports := add_keysNodup _ _ _ h.keysTestImports
        keysCoTestImports := add_keysNodup _ _ _ h.keysCoTestImports
        transposeTest := by
          intro a b
          show StringGraph.Has (StringGraph.Add p.CoTestImports imp exp) b a = true ↔
            StringGraph.Has (StringGraph.Add p.TestImports exp imp) a b = true
          rw [has_add, has_add, h.transposeTest]
          tauto
        importedTest := by
          intro a b hab
          rcases (has_add _ _ _ _ _).mp hab with h1 | ⟨_, h1⟩
          · exact h.importedTest a b h1
          · rw [h1]; exact hb2
        all := by
          intro hi x hx
          rcases (stringSet_mem_add _ _ _).mp hx with hx | hx
          · rcases (stringSet_mem_add _ _ _).mp hx with hx | hx
            · exact h.all hi x hx
            · rw [hx]; exact hb2
          · rw [hx]; exact hi exp hexp
        importingTest := by
          intro hi a b hab
          rcases (has_add _ _ _ _ _).mp hab with h1 | ⟨h1, _⟩
          · exact h.importingTest hi a b h1
          · rw [h1]; exact hi exp hexp }

theorem include_inv (importer : String → Prop) (p q : Packages)
    (hp : PackagesInv importer p) (hq : PackagesInv importer q) :
    PackagesInv importer (p.Include q) where
  keysImports := include_keysNodup _ _ hp.keysImports
  keysTestImports := include_keysNodup _ _ hp.keysTestImports
  keysCoImports := include_keysNodup _ _ hp.keysCoImports
  keysCoTestImports := include_keysNodup _ _ hp.keysCoTestImports
  transpose := by
    intro a b
    show StringGraph.Has (StringGraph.Include p.CoImports q.CoImports) b a = true ↔
      StringGraph.Has (StringGraph.Include p.Imports q.Imports) a b = true
    rw [has_include _ _ hq.keysCoImports, has_include _ _ hq.keysImports, hp.transpose,
      hq.transpose]
  transposeTest := by
    intro a b
    show StringGraph.Has (StringGraph.Include p.CoTestImports q.CoTestImports) b a = true ↔
      StringGraph.Has (StringGraph.Include p.TestImports q.TestImports) a b = true
    rw [has_include _ _ hq.keysCoTestImports, has_include _ _ hq.keysTestImports,
      hp.transposeTest, hq.transposeTest]
  commands := by
    intro x hx
    rcases (stringSet_mem_include _ _ _).mp hx with hx | hx
    · exact hp.commands x hx
    · exact hq.commands x hx
  exports := by
    intro x hx
    rcases (stringSet_mem_include _ _ _).mp hx with hx | hx
    · exact hp.exports x hx
    · exact hq.exports x hx
  imported := by
    intro a b hab
    rcases (has_include _ _ hq.keysImports _ _).mp hab with h1 | h1
    · exact hp.imported a b h1
    · exact hq.imported a b h1
  importedTest := by
    intro a b hab
    rcases (has_include _ _ hq.keysTestImports _ _).mp hab with h1 | h1
    · exact hp.importedTest a b h1
    · exact hq.importedTest a b h1
  all := by
    intro hi x hx
    rcases (stringSet_mem_include _ _ _).mp hx with hx | hx
    · exact hp.all hi x hx
    · exact hq.all hi x hx
  importing := by
    intro hi a b hab
    rcases (has_include _ _ hq.keysImports _ _).mp hab with h1 | h1
    · exact hp.importing hi a b h1
    · exact hq.importing hi a b h1
  importingTest := by
    intro hi a b hab
    rcases (has_include _ _ hq.keysTestImports _ _).mp hab with h1 | h1
    · exact hp.importingTest hi a b h1
    · exact hq.importingTest hi a b h1

theorem built_inv (importer : String → Prop) (p : Packages) (h : Built importer p) :
    PackagesInv importer p := by
  induction h with
  | new => exact newPackages_inv importer
  | command p exp _ ih => exact command_inv importer p exp ih
  | exported p exp _ ih => exact export_inv importer p exp ih
  | imports p exp imp _ hexp ih => exact import_inv importer p exp imp ih hexp
  | testImports p exp imp _ hexp ih => exact testImport_inv importer p exp imp ih hexp
  | includes p q _ _ ihp ihq => exact include_inv importer p q ihp ihq

theorem averyPackages_built : Built (fun _ => True) averyPackages := by
  unfold averyPackages
  repeat first
    | exact Built.new
    | apply Built.command
    | apply Built.exported
    | refine Built.imports _ _ _ ?_ trivial
    | refine Built.testImports _ _ _ ?_ trivial

theorem careyPackages_built : Built (fun _ => True) careyPackages := by
  unfold careyPackages
  repeat first
    | exact Built.new
    | apply Built.command
    | apply Built.exported
    | refine Built.imports _ _ _ ?_ trivial
    | refine Built.testImports _ _ _ ?_ trivial

/-- C23: for every Packages value built from NewPackages() by any sequence of Command,
Export, Import, TestImport and Include calls, CoImports is the transpose of Imports and
CoTestImports is the transpose of TestImports. -/
theorem coImports_is_transpose (p : Packages) (h : Built (fun _ => True) p) (a b : String) :
    (StringGraph.Has p.CoImports b a = true ↔ StringGraph.Has p.Imports a b = true) ∧
    (StringGraph.Has p.CoTestImports b a = true ↔
      StringGraph.Has p.TestImports a b = true) :=
  ⟨(built_inv _ p h).transpose a b, (built_inv _ p h).transposeTest a b⟩

theorem coImports_is_transpose_witness :
    StringGraph.Has (averyPackages.Include careyPackages).Imports
      "example.com/carey/internal/carey" "example.com/carey" = true ∧
    ((StringGraph.Has (averyPackages.Include careyPackages).CoImports "example.com/carey"
        "example.com/carey/internal/carey" = true ↔
      StringGraph.Has (averyPackages.Include careyPackages).Imports
        "example.com/carey/internal/carey" "example.com/carey" = true) ∧
    (StringGraph.Has (averyPackages.Include careyPackages).CoTestImports "example.com/carey"
        "example.com/carey/internal/carey" = true ↔
      StringGraph.Has (averyPackages.Include careyPackages).TestImports
        "example.com/carey/internal/carey" "example.com/carey" = true)) :=
  ⟨by decide, coImports_is_transpose (averyPackages.Include careyPackages)
    (Built.includes _ _ averyPackages_built careyPackages_built)
    "example.com/carey/internal/carey" "example.com/carey"⟩

/-- C24 (as stated): the call Import("cmd", "example.com/x") on NewPackages() puts the
builtin package cmd into All and makes it the source of an edge in Imports: Import checks
the imported package only. -/
theorem import_keeps_builtin_importer :
    Built (fun _ => True) (NewPackages.Import "cmd" "example.com/x") ∧
    isBuiltin "cmd" = true ∧
    "cmd" ∈ (NewPackages.Import "cmd" "example.com/x").All ∧
    StringGraph.Has (NewPackages.Import "cmd" "example.com/x").Imports "cmd"
      "example.com/x" = true :=
  ⟨Built.imports _ _ _ Built.new trivial, by decide, by decide, by decide⟩

/-- C24 (amended): for every Packages value built from NewPackages() by any sequence of
Command, Export, Import, TestImport and Include calls, no builtin package is a member of
Commands or Exports or the imported package of an edge in Imports or TestImports; and when
the importing package of every Import and TestImport call is not builtin, no builtin
package is a member of All or the importing package of an edge either. -/
theorem builtins_excluded (p : Packages) :
    (Built (fun _ => True) p →
      (∀ x ∈ p.Commands, isBuiltin x = false) ∧ (∀ x ∈ p.Exports, isBuiltin x = false) ∧
      (∀ a b, StringGraph.Has p.Imports a b = true → isBuiltin b = false) ∧
      (∀ a b, StringGraph.Has p.TestImports a b = true → isBuiltin b = false)) ∧
    (Built (fun e => isBuiltin e = false) p →
      (∀ x ∈ p.All, isBuiltin x = false) ∧
      (∀ x ∈ p.Commands, isBuiltin x = false) ∧ (∀ x ∈ p.Exports, isBuiltin x = false) ∧
      (∀ a b, StringGraph.Has p.Imports a b = true → isBuiltin a = false ∧ isBuiltin b = false) ∧
      (∀ a b, StringGraph.Has p.TestImports a b = true →
        isBuiltin a = false ∧ isBuiltin b = false)) := by
  constructor
  · intro h
    have hi := built_inv _ p h
    exact ⟨hi.commands, hi.exports, hi.imported, hi.importedTest⟩
  · intro h
    have hi := built_inv _ p h
    exact ⟨hi.all (fun _ he => he), hi.commands, hi.exports,
      fun a b hab => ⟨hi.importing (fun _ he => he) a b hab, hi.imported a b hab⟩,
      fun a b hab => ⟨hi.importingTest (fun _ he => he) a b hab, hi.importedTest a b hab⟩⟩

theorem builtins_excluded_witness :
    (NewPackages.Import "example.com/avery" "net/http").All = [] ∧
    (NewPackages.Import "example.com/avery" "example.com/blake").All =
      ["example.com/blake", "example.com/avery"] ∧
    ((∀ x ∈ (NewPackages.Import "example.com/avery" "example.com/blake").All,
        isBuiltin x = false) ∧
      (∀ x ∈ (NewPackages.Import "example.com/avery" "example.com/blake").Commands,
        isBuiltin x = false) ∧
      (∀ x ∈ (NewPackages.Import "example.com/avery" "example.com/blake").Exports,
        isBuiltin x = false) ∧
      (∀ a b, StringGraph.Has (NewPackages.Import "example.com/avery"
          "example.com/blake").Imports a b = true →
        isBuiltin a = false ∧ isBuiltin b = false) ∧
      (∀ a b, StringGraph.Has (NewPackages.Import "example.com/avery"
          "example.com/blake").TestImports a b = true →
        isBuiltin a = false ∧ isBuiltin b = false)) :=
  ⟨by decide, by decide,
    (builtins_excluded (NewPackages.Import "example.com/avery" "example.com/blake")).2
      (Built.imports _ _ _ Built.new (by decide))⟩
/-! ### The round trip through a glide.lock -/

theorem digit_char_facts (d : Nat) (hd : d < 10) :
    isDigit (Char.ofNat (48 + d)) = true ∧ runeValue (Char.ofNat (48 + d)) = (d : Int) ∧
    (d = 0 → Char.ofNat (48 + d) = '0') ∧
    (0 < d → '1' ≤ Char.ofNat (48 + d) ∧ Char.ofNat (48 + d) ≤ '9') := by
  interval_cases d <;> decide

theorem itoaLoop_shape (fuel : Nat) :
    ∀ (n : Nat) (acc : List Char), n < 10 ^ (fuel + 1) →
      ∃ c cs, itoaLoop (fuel + 1) n acc = c :: (cs ++ acc) ∧ cs.all isDigit = true ∧
        ((n = 0 ∧ c = '0' ∧ cs = []) ∨ (0 < n ∧ '1' ≤ c ∧ c ≤ '9')) := by
  induction fuel with
  | zero =>
    intro n acc h
    have h10 : n < 10 := by simpa using h
    unfold itoaLoop
    rw [if_pos h10]
    obtain ⟨_, _, f3, f4⟩ := digit_char_facts n h10
    refine ⟨Char.ofNat (48 + n), [], rfl, rfl, ?_⟩
    by_cases h0 : n = 0
    · exact Or.inl ⟨h0, f3 h0, rfl⟩
    · exact Or.inr ⟨by omega, f4 (by omega)⟩
  | succ fuel ih =>
    intro n acc h
    unfold itoaLoop
    by_cases h10 : n < 10
    · rw [if_pos h10]
      obtain ⟨_, _, f3, f4⟩ := digit_char_facts n h10
      refine ⟨Char.ofNat (48 + n), [], rfl, rfl, ?_⟩
      by_cases h0 : n = 0
      · exact Or.inl ⟨h0, f3 h0, rfl⟩
      · exact Or.inr ⟨by omega, f4 (by omega)⟩
    · rw [if_neg h10]
      have hdiv : n / 10 < 10 ^ (fuel + 1) := by
        rw [pow_succ] at h
        omega
      obtain ⟨c, cs, e, hall, hc⟩ := ih (n / 10) (Char.ofNat (48 + n % 10) :: acc) hdiv
      obtain ⟨f1, _, _, _⟩ := digit_char_facts (n % 10) (by omega)
      refine ⟨c, cs ++ [Char.ofNat (48 + n % 10)], ?_, ?_, ?_⟩
      · rw [e]; simp
      · rw [List.all_append, hall]
        simp [f1]
      · rcases hc with ⟨h0, _, _⟩ | ⟨h0, h1, h2⟩
        · omega
        · exact Or.inr ⟨by omega, h1, h2⟩

theorem itoaLoop_value (fuel : Nat) :
    ∀ (n : Nat) (acc : List Char), n < 10 ^ (fuel + 1) →
      (itoaLoop (fuel + 1) n acc).foldl (fun a c => a * 10 + runeValue c) 0 =
        acc.foldl (fun a c => a * 10 + runeValue c) (n : Int) := by
  induction fuel with
  | zero =>
    intro n acc h
    have h10 : n < 10 := by simpa using h
    unfold itoaLoop
    rw [if_pos h10]
    obtain ⟨_, f2, _, _⟩ := digit_char_facts n h10
    rw [List.foldl_cons, f2]
    simp
  | succ fuel ih =>
    intro n acc h
    unfold itoaLoop
    by_cases h10 : n < 10
    · rw [if_pos h10]
      obtain ⟨_, f2, _, _⟩ := digit_char_facts n h10
      rw [List.foldl_cons, f2]
      simp
    · rw [if_neg h10]
      have hdiv : n / 10 < 10 ^ (fuel + 1) := by
        rw [pow_succ] at h
        omega
      rw [ih (n / 10) _ hdiv, List.foldl_cons]
      obtain ⟨_, f2, _, _⟩ := digit_char_facts (n % 10) (by omega)
      rw [f2]
      congr 1
      omega

/-- The decimal digits that strconv.Itoa writes for a number that is not negative are a
number of the grammar of versions, with that value. -/
theorem itoa_number (x : Int) (h0 : 0 ≤ x) (h1 : x < 2 ^ 63) :
    isVersionNumber (Itoa x).data = true ∧ decimalValue (Itoa x).data = x := by
  have hx : ¬ x < 0 := by omega
  have hn : x.toNat < 10 ^ 20 := by
    have : (x.toNat : Int) = x := Int.toNat_of_nonneg h0
    norm_num at h1 ⊢
    omega
  unfold Itoa
  rw [if_neg hx]
  simp only
  constructor
  · obtain ⟨c, cs, e, hall, hc⟩ := itoaLoop_shape 19 x.toNat [] hn
    rw [e]
    simp only [List.append_nil]
    unfold isVersionNumber
    rcases hc with ⟨_, hc0, hcs⟩ | ⟨_, hc1, hc2⟩
    · simp [hc0, hcs]
    · simp only [Bool.or_eq_true, Bool.and_eq_true, decide_eq_true_eq]
      exact Or.inr ⟨⟨hc1, hc2⟩, hall⟩
  · unfold decimalValue
    rw [itoaLoop_value 19 x.toNat [] hn]
    simp only [List.foldl_nil]
    exact Int.toNat_of_nonneg h0

theorem parseVersion_string (v : Version) (hv : v.InRange) : ParseVersion v.String = v := by
  unfold Version.String
  by_cases h : v = NoVersion
  · rw [if_pos h, h]
    rfl
  · rw [if_neg h]
    obtain ⟨⟨a0, a1⟩, ⟨b0, b1⟩, ⟨c0, c1⟩⟩ := hv
    obtain ⟨na, va⟩ := itoa_number v.major a0 a1
    obtain ⟨nb, vb⟩ := itoa_number v.minor b0 b1
    obtain ⟨nc, vc⟩ := itoa_number v.patch c0 c1
    unfold ParseVersion
    simp only
    have hm : matchesVersion
        ((Itoa v.major).data ++ '.' :: (Itoa v.minor).data ++ '.' :: (Itoa v.patch).data)
        [(Itoa v.major).data, (Itoa v.minor).data, (Itoa v.patch).data] := by
      refine ⟨by simp, by simp, ?_, Or.inl ?_⟩
      · intro n hn
        simp only [List.mem_cons, List.mem_singleton, List.not_mem_nil, or_false] at hn
        rcases hn with rfl | rfl | rfl
        · exact na
        · exact nb
        · exact nc
      · simp [joinDots]
    rw [parseVersionRunes_matches _ _ hm]
    · simp only [versionOf, List.getD_cons_zero, List.getD_cons_succ, va, vb, vc]
    · intro n hn
      simp only [List.mem_cons, List.mem_singleton, List.not_mem_nil, or_false] at hn
      rcases hn with rfl | rfl | rfl
      · rw [va]; exact a1
      · rw [vb]; exact b1
      · rw [vc]; exact c1

theorem fromHexChar_hexDigit : ∀ x : Fin 16, fromHexChar (hexDigit x.val) = some x.val := by
  decide

theorem hexDecode_hex (l : List (Fin 256)) :
    hexDecode (l.flatMap (fun b => [hexDigit (b.val / 16), hexDigit (b.val % 16)])) = l := by
  induction l with
  | nil => rfl
  | cons b l ih =>
    have hb := b.isLt
    have h1 := fromHexChar_hexDigit ⟨b.val / 16, by omega⟩
    have h2 := fromHexChar_hexDigit ⟨b.val % 16, by omega⟩
    simp only at h1 h2
    rw [List.flatMap_cons]
    simp only [List.cons_append, List.nil_append, hexDecode, h1, h2, ih]
    congr 1
    apply Fin.ext
    unfold toByte
    simp only
    omega

theorem newHash_hashString (h : Hash) : NewHash (HashString h) = h := by
  unfold HashString
  by_cases e : h = NoHash
  · rw [if_pos e, e]
    rfl
  · rw [if_neg e]
    apply Subtype.ext
    unfold NewHash hashHex
    simp only
    rw [hexDecode_hex, List.take_of_length_le (by rw [h.2]), h.2]
    simp
theorem mem_newStringSet_keys (s : StringSet) (x : String) :
    x ∈ NewStringSet (StringSet.Keys s) ↔ x ∈ s := by
  have e : NewStringSet (StringSet.Keys s) = StringSet.Include [] (sortStrings s) := rfl
  rw [e, stringSet_mem_include, (sortStrings_perm s).mem_iff]
  simp

theorem yamlInner_has (key : String) (values : List String) :
    ∀ (gs : StringGraph × StringGraph) (a b : String),
      (StringGraph.Has (values.foldl (fun gs value =>
          (StringGraph.Add gs.1 key value, StringGraph.Add gs.2 value key)) gs).1 a b = true ↔
        (StringGraph.Has gs.1 a b = true ∨ (a = key ∧ b ∈ values))) ∧
      (StringGraph.Has (values.foldl (fun gs value =>
          (StringGraph.Add gs.1 key value, StringGraph.Add gs.2 value key)) gs).2 b a = true ↔
        (StringGraph.Has gs.2 b a = true ∨ (a = key ∧ b ∈ values))) := by
  induction values with
  | nil => intro gs a b; simp
  | cons v values ih =>
    intro gs a b
    rw [List.foldl_cons]
    obtain ⟨h1, h2⟩ := ih (StringGraph.Add gs.1 key v, StringGraph.Add gs.2 v key) a b
    rw [h1, h2]
    simp only [has_add, List.mem_cons]
    constructor <;> tauto

theorem yamlToStringGraphs_has (yaml : List (String × List String)) :
    ∀ (gs : StringGraph × StringGraph) (a b : String),
      (StringGraph.Has (yaml.foldl (fun gs e =>
          e.2.foldl (fun gs value =>
            (StringGraph.Add gs.1 e.1 value, StringGraph.Add gs.2 value e.1)) gs) gs).1 a b = true ↔
        (StringGraph.Has gs.1 a b = true ∨ ∃ e ∈ yaml, e.1 = a ∧ b ∈ e.2)) ∧
      (StringGraph.Has (yaml.foldl (fun gs e =>
          e.2.foldl (fun gs value =>
            (StringGraph.Add gs.1 e.1 value, StringGraph.Add gs.2 value e.1)) gs) gs).2 b a = true ↔
        (StringGraph.Has gs.2 b a = true ∨ ∃ e ∈ yaml, e.1 = a ∧ b ∈ e.2)) := by
  induction yaml with
  | nil => intro gs a b; simp
  | cons e yaml ih =>
    intro gs a b
    rw [List.foldl_cons]
    obtain ⟨h1, h2⟩ := ih (e.2.foldl (fun gs value =>
      (StringGraph.Add gs.1 e.1 value, StringGraph.Add gs.2 value e.1)) gs) a b
    obtain ⟨i1, i2⟩ := yamlInner_has e.1 e.2 gs a b
    rw [h1, h2, i1, i2]
    simp only [List.mem_cons, exists_eq_or_imp]
    constructor
    · constructor
      · rintro ((h | ⟨h3, h4⟩) | h)
        · exact Or.inl h
        · exact Or.inr (Or.inl ⟨h3.symm, h4⟩)
        · exact Or.inr (Or.inr h)
      · rintro (h | ⟨h3, h4⟩ | h)
        · exact Or.inl (Or.inl h)
        · exact Or.inl (Or.inr ⟨h3.symm, h4⟩)
        · exact Or.inr h
    · constructor
      · rintro ((h | ⟨h3, h4⟩) | h)
        · exact Or.inl h
        · exact Or.inr (Or.inl ⟨h3.symm, h4⟩)
        · exact Or.inr (Or.inr h)
      · rintro (h | ⟨h3, h4⟩ | h)
        · exact Or.inl (Or.inl h)
        · exact Or.inl (Or.inr ⟨h3.symm, h4⟩)
        · exact Or.inr h

/-- The graph read back from its YAML form has the edges of the graph, and the second graph
read back is its transpose. -/
theorem yaml_round_trip (g : StringGraph) (hg : graphKeysNodup g) (a b : String) :
    (StringGraph.Has (yamlToStringGraphs (stringGraphToYAML g)).1 a b = true ↔
      StringGraph.Has g a b = true) ∧
    (StringGraph.Has (yamlToStringGraphs (stringGraphToYAML g)).2 b a = true ↔
      StringGraph.Has g a b = true) := by
  obtain ⟨h1, h2⟩ := yamlToStringGraphs_has (stringGraphToYAML g) ([], []) a b
  have key : (∃ e ∈ stringGraphToYAML g, e.1 = a ∧ b ∈ e.2) ↔ StringGraph.Has g a b = true := by
    rw [has_iff_mem g hg]
    unfold stringGraphToYAML
    constructor
    · rintro ⟨e, he, h3, h4⟩
      obtain ⟨e0, he0, rfl⟩ := List.mem_map.mp he
      exact ⟨e0, he0, h3, ((sortStrings_perm e0.2).mem_iff).mp h4⟩
    · rintro ⟨e0, he0, h3, h4⟩
      exact ⟨(e0.1, StringSet.Keys e0.2), List.mem_map.mpr ⟨e0, he0, rfl⟩, h3,
        ((sortStrings_perm e0.2).mem_iff).mpr h4⟩
  unfold yamlToStringGraphs
  rw [h1, h2, key]
  simp [has_nil]

theorem foldl_append_singleton {α β : Type} (f : α → β) (l : List α) :
    ∀ acc : List β, l.foldl (fun acc x => acc ++ [f x]) acc = acc ++ l.map f := by
  induction l with
  | nil => intro acc; simp
  | cons x l ih => intro acc; rw [List.foldl_cons, ih]; simp

theorem requirementsFromModules_eq (ms : Modules) :
    ∀ acc : List GlideLockRequirement,
      ms.foldl (fun requirements module =>
        if !module.Test then requirements ++ [glideLockRequirementFromModule module]
        else requirements) acc =
      acc ++ (ms.filter (fun x => !x.Test)).map glideLockRequirementFromModule := by
  induction ms with
  | nil => intro acc; simp
  | cons m ms ih =>
    intro acc
    rw [List.foldl_cons, ih]
    cases h : m.Test <;> simp [h]

theorem requirement_round_trip (m : Module) (hv : m.Version.InRange) :
    moduleFromGlideLockRequirement (glideLockRequirementFromModule m) = requirementView m := by
  unfold moduleFromGlideLockRequirement glideLockRequirementFromModule requirementView
  simp only [parseVersion_string m.Version hv, newHash_hashString]

theorem requirements_round_trip (ms : Modules)
    (hv : ∀ m ∈ ms, m.Test = false → m.Version.InRange) :
    modulesFromGlideLockRequirements (glideLockRequirementsFromModules ms) =
      (ms.filter (fun x => !x.Test)).map requirementView := by
  unfold modulesFromGlideLockRequirements glideLockRequirementsFromModules
  rw [requirementsFromModules_eq, foldl_append_singleton, List.nil_append, List.nil_append,
    List.map_map]
  apply List.map_congr_left
  intro m hm
  rw [List.mem_filter] at hm
  exact requirement_round_trip m (hv m hm.1 (by simpa using hm.2))

/-- One module written to a glide.lock and read back. -/
theorem import_round_trip (m : Module) (test : Bool) (hv : m.Version.InRange)
    (hms : ∀ x ∈ m.Modules, x.Test = false → x.Version.InRange)
    (hi : graphKeysNodup m.Packages.Imports) (ht : graphKeysNodup m.Packages.TestImports) :
    ∃ m', moduleFromGlideLockImport (glideLockImportFromModule m) test = .ok m' ∧
      KeepsFields { m with Test := test } m' := by
  unfold moduleFromGlideLockImport
  have hvcs : ¬ ((glideLockImportFromModule m).Requirement.VCS ≠ "" ∧
      (glideLockImportFromModule m).Requirement.VCS ≠ "git") := by
    intro h
    exact h.1 rfl
  rw [if_neg hvcs]
  refine ⟨_, rfl, ?_⟩
  exact
    { name := rfl
      hash := newHash_hashString m.Hash
      time := rfl
      ref := rfl
      version := parseVersion_string m.Version hv
      remote := rfl
      root := rfl
      test := rfl
      noLock := rfl
      changelog := newHash_hashString m.Changelog
      glidelock := newHash_hashString m.Glidelock
      deplock := rfl
      warnings := rfl
      mirror := rfl
      mirrorCreated := rfl
      modules := requirements_round_trip m.Modules hms
      commands := mem_newStringSet_keys m.Packages.Commands
      exports := mem_newStringSet_keys m.Packages.Exports
      imports := fun a b => (yaml_round_trip m.Packages.Imports hi a b).1
      testImports := fun a b => (yaml_round_trip m.Packages.TestImports ht a b).1
      coImports := fun a b => (yaml_round_trip m.Packages.Imports hi a b).2
      coTestImports := fun a b => (yaml_round_trip m.Packages.TestImports ht a b).2 }

theorem glideLockFromModules_split (ms : Modules) :
    ∀ acc : List GlideLockImport × List GlideLockImport,
      ms.foldl (fun (acc : List GlideLockImport × List GlideLockImport) module =>
        if module.Test then (acc.1, acc.2 ++ [glideLockImportFromModule module])
        else (acc.1 ++ [glideLockImportFromModule module], acc.2)) acc =
      (acc.1 ++ (ms.filter (fun x => !x.Test)).map glideLockImportFromModule,
        acc.2 ++ (ms.filter (fun x => x.Test)).map glideLockImportFromModule) := by
  induction ms with
  | nil => intro acc; simp
  | cons m ms ih =>
    intro acc
    rw [List.foldl_cons, ih]
    cases h : m.Test <;> simp [h]

theorem modulesFromImports_ok (test : Bool) (ms : Modules)
    (hv : ∀ m ∈ ms, m.Version.InRange ∧ (∀ x ∈ m.Modules, x.Test = false → x.Version.InRange) ∧
      graphKeysNodup m.Packages.Imports ∧ graphKeysNodup m.Packages.TestImports)
    (htest : ∀ m ∈ ms, m.Test = test) :
    ∀ acc : Modules, ∃ out,
      modulesFromImports test (ms.map glideLockImportFromModule) acc = .ok (acc ++ out) ∧
      List.Forall₂ KeepsFields ms out := by
  induction ms with
  | nil => intro acc; exact ⟨[], by simp [modulesFromImports], List.Forall₂.nil⟩
  | cons m ms ih =>
    intro acc
    obtain ⟨h1, h2, h3, h4⟩ := hv m (List.mem_cons_self _ _)
    obtain ⟨m', e, hk⟩ := import_round_trip m test h1 h2 h3 h4
    obtain ⟨out, e2, hf⟩ := ih (fun x hx => hv x (List.mem_cons_of_mem _ hx))
      (fun x hx => htest x (List.mem_cons_of_mem _ hx)) (acc ++ [m'])
    refine ⟨m' :: out, ?_, List.Forall₂.cons ?_ hf⟩
    · rw [List.map_cons]
      unfold modulesFromImports
      rw [e]
      simp only
      rw [e2]
      simp
    · have ht := htest m (List.mem_cons_self _ _)
      have em : { m with Test := test } = m := by
        rw [← ht]
        cases m
        rfl
      rw [em] at hk
      exact hk

/-- C25 (as stated): a module with a Gopkg.lock hash and a test module among its Modules, in
a list in which no test module precedes a module that is not one, is read back without the
Gopkg.lock hash and without the test module. -/
theorem glide_lock_drops_deplock :
    modLocked.Test = false ∧
    (rereadModules [modLocked]).map (fun m => m.Name) = ["avery"] ∧
    modLocked.Deplock ≠ NoHash ∧
    (rereadModules [modLocked]).map (fun m => m.Deplock) = [NoHash] ∧
    modLocked.Modules.map (fun m => m.Name) = ["blake", "carey"] ∧
    (rereadModules [modLocked]).map (fun m => m.Modules.map (fun x => x.Name)) = [["blake"]] := by
  decide

/-- C25 (amended): for every list of modules in which all non-test modules precede all test
modules, whose versions and whose non-test Modules' versions have components from 0 to
2^63 - 1, and whose Imports and TestImports have one entry per package,
ModulesFromGlideLock(GlideLockFromModules(ms)) succeeds and returns as many modules in the
same order, each with the same Name, Hash, Time, Ref, Version, Remote, Root, Test flag,
NoLock, Changelog and Glidelock hashes, Warnings and mirror flags, the same Commands and
Exports, the same edges in Imports and TestImports and their transposes in CoImports and
CoTestImports; its Modules are the non-test Modules, each with its Name, Version, Hash, Time,
Remote, Root and Ref only, and its Deplock hash is NoHash. -/
theorem glide_lock_round_trip (front back : Modules)
    (hfront : ∀ m ∈ front, m.Test = false) (hback : ∀ m ∈ back, m.Test = true)
    (hv : ∀ m ∈ front ++ back, m.Version.InRange ∧
      (∀ x ∈ m.Modules, x.Test = false → x.Version.InRange) ∧
      graphKeysNodup m.Packages.Imports ∧ graphKeysNodup m.Packages.TestImports) :
    ∃ out, ModulesFromGlideLock (some (GlideLockFromModules (front ++ back))) = .ok out ∧
      List.Forall₂ KeepsFields (front ++ back) out := by
  have hsplit := glideLockFromModules_split (front ++ back) ([], [])
  have hf1 : (front ++ back).filter (fun x => !x.Test) = front := by
    rw [List.filter_append, List.filter_eq_self.mpr (fun m hm => by simp [hfront m hm]),
      List.filter_eq_nil_iff.mpr (fun m hm => by simp [hback m hm]), List.append_nil]
  have hf2 : (front ++ back).filter (fun x => x.Test) = back := by
    rw [List.filter_append, List.filter_eq_nil_iff.mpr (fun m hm => by simp [hfront m hm]),
      List.filter_eq_self.mpr (fun m hm => by simp [hback m hm]), List.nil_append]
  rw [hf1, hf2] at hsplit
  simp only [List.nil_append] at hsplit
  obtain ⟨out1, e1, k1⟩ := modulesFromImports_ok false front
    (fun m hm => hv m (List.mem_append_left _ hm)) hfront []
  obtain ⟨out2, e2, k2⟩ := modulesFromImports_ok true back
    (fun m hm => hv m (List.mem_append_right _ hm)) hback ([] ++ out1)
  refine ⟨out1 ++ out2, ?_, ?_⟩
  · unfold ModulesFromGlideLock GlideLockFromModules
    simp only [hsplit]
    rw [e1]
    simp only
    rw [e2]
    simp
  · exact List.rel_append k1 k2

theorem glide_lock_round_trip_witness :
    (rereadModules mapperModules).map (fun m => (m.Name, m.Test)) =
      [("avery", false), ("blake", false), ("carey", false), ("drew", true)] ∧
    ∃ out, ModulesFromGlideLock (some (GlideLockFromModules (mapperModules.take 3 ++
        mapperModules.drop 3))) = .ok out ∧
      List.Forall₂ KeepsFields (mapperModules.take 3 ++ mapperModules.drop 3) out :=
  ⟨by decide,
    glide_lock_round_trip (mapperModules.take 3) (mapperModules.drop 3) (by decide) (by decide)
      (by
        intro m hm
        simp only [mapperModules, List.take, List.drop, List.cons_append, List.nil_append,
          List.mem_cons, List.mem_singleton, List.not_mem_nil, or_false] at hm
        rcases hm with rfl | rfl | rfl | rfl <;>
          exact ⟨by decide, by decide, by decide, by decide⟩)⟩
/-! ### References, roots and fetches -/

/-- C26: with the branches master and zeta as the references of the commit, finishModuleRef
sets Ref to heads/zeta, although heads/master is present and no reference is a version; with
the branch dev and the tag rc1, which is no version, it sets Ref to heads/dev, which is not
the greatest reference; with the tags v1.2.0 and v1.10.0 it sets Ref to the tag of the
highest version. -/
theorem finishModuleRef_passes_over_master :
    (finishModuleRef refsMasterZeta modRooted).Ref = "heads/zeta" ∧
    (finishModuleRef refsMasterZeta modRooted).Version = NoVersion ∧
    (finishModuleRef refsDevTag modRooted).Ref = "heads/dev" ∧
    (finishModuleRef refsTags modRooted).Ref = "tags/v1.10.0" ∧
    (finishModuleRef refsTags modRooted).Version = { major := 1, minor := 10, patch := 0 } := by
  decide

theorem trimSuffix_append (x suf : List Char) :
    trimSuffix (String.mk (x ++ suf)) (String.mk suf) = String.mk x := by
  unfold trimSuffix hasSuffix
  simp only
  rw [if_pos (List.isSuffixOf_iff_suffix.mpr (List.suffix_append x suf))]
  simp

theorem trimSuffix_none (x suf : List Char) (h : ¬ suf <:+ x) :
    trimSuffix (String.mk x) (String.mk suf) = String.mk x := by
  unfold trimSuffix hasSuffix
  simp only
  rw [if_neg (fun hs => h (List.isSuffixOf_iff_suffix.mp hs))]

theorem trimPrefix_append (pre x : List Char) :
    trimPrefix (String.mk (pre ++ x)) (String.mk pre) = String.mk x := by
  unfold trimPrefix hasPrefix
  simp only
  rw [if_pos (List.isPrefixOf_iff_prefix.mpr (List.prefix_append pre x))]
  simp

theorem hasPrefix_iff (s pre : List Char) :
    hasPrefix (String.mk s) (String.mk pre) = true ↔ pre <+: s := by
  unfold hasPrefix
  exact List.isPrefixOf_iff_prefix

theorem dropWhile_at (pre rest : List Char) (h : '@' ∉ pre) :
    ((pre ++ '@' :: rest).dropWhile (fun c => c != '@')).drop 1 = rest := by
  induction pre with
  | nil => simp
  | cons c pre ih =>
    have hc : c ≠ '@' := fun e => h (e ▸ List.mem_cons_self _ _)
    have hp : '@' ∉ pre := fun hm => h (List.mem_cons_of_mem _ hm)
    simp only [List.cons_append, List.dropWhile_cons]
    have e : (c != '@') = true := by simpa using hc
    rw [e]
    simpa using ih hp

theorem afterUserinfo_at (pre rest : List Char) (h : '@' ∉ pre) :
    afterUserinfo (String.mk (pre ++ '@' :: rest)) = String.mk rest := by
  unfold afterUserinfo
  simp only
  have hc : (pre ++ '@' :: rest).contains '@' = true := by simp
  rw [if_pos hc, dropWhile_at pre rest h]

theorem afterUserinfo_none (x : List Char) (h : '@' ∉ x) :
    afterUserinfo (String.mk x) = String.mk x := by
  unfold afterUserinfo
  simp only
  have hc : ¬ x.contains '@' = true := by simpa using h
  rw [if_neg hc]

theorem afterScheme_https (rest : List Char) :
    afterScheme (String.mk ("https://".data ++ rest)) = String.mk rest := by
  unfold afterScheme
  rw [if_pos ((hasPrefix_iff _ _).mpr (List.prefix_append _ _))]
  exact trimPrefix_append _ _

theorem afterScheme_git (rest : List Char) :
    afterScheme (String.mk ("git://".data ++ rest)) = String.mk rest := by
  unfold afterScheme
  have h1 : ¬ hasPrefix (String.mk ("git://".data ++ rest)) "https://" = true := by
    intro h
    have hp := (hasPrefix_iff _ "https://".data).mp h
    obtain ⟨t, ht⟩ := hp
    have := congrArg List.head? ht
    simp at this
  rw [if_neg h1, if_pos ((hasPrefix_iff _ _).mpr (List.prefix_append _ _))]
  exact trimPrefix_append _ _

theorem afterScheme_other (x : List Char) (h1 : ¬ "https://".data <+: x)
    (h2 : ¬ "git://".data <+: x) : afterScheme (String.mk x) = String.mk x := by
  unfold afterScheme
  rw [if_neg (fun h => h1 ((hasPrefix_iff _ "https://".data).mp h)),
    if_neg (fun h => h2 ((hasPrefix_iff _ "git://".data).mp h))]

/-- C27 (the code at the failing input): for the remotes http://example.com/repo.git and
ssh://example.com:22/repo, which have no userinfo, RootForRemote does not strip the scheme:
the results are http///example.com/repo and ssh///example.com/22/repo, which begin with the
scheme and hold three slashes in a row, where stripping the scheme gives example.com/repo
and example.com/22/repo. -/
theorem rootForRemote_keeps_http_scheme :
    RootForRemote "http://example.com/repo.git" = "http///example.com/repo" ∧
    RootForRemote "ssh://example.com:22/repo" = "ssh///example.com/22/repo" := by
  decide

/-- What RootForRemote does strip: the result of RootForRemote contains no `:`. For a remote
that is `x` or `x` followed by .git, where `x` does not end in .git: when `x` is a scheme and
a userinfo without `@`, then `@`, then `rest`, or `x` is https:// or git:// and then `rest`
without `@`, and `rest` does not start with https:// or git://, the result is `rest` with
every `:` replaced by `/`. -/
theorem rootForRemote_strips (remote : String) :
    ':' ∉ (RootForRemote remote).data ∧
    ∀ x : List Char, (remote = String.mk (x ++ ".git".data) ∨
        (remote = String.mk x ∧ ¬ ".git".data <:+ x)) →
      ∀ rest : List Char, ¬ "https://".data <+: rest → ¬ "git://".data <+: rest →
        ((∀ pre : List Char, '@' ∉ pre → x = pre ++ '@' :: rest →
          RootForRemote remote = String.mk (colonsToSlashes rest)) ∧
        ('@' ∉ rest → (x = "https://".data ++ rest ∨ x = "git://".data ++ rest) →
          RootForRemote remote = String.mk (colonsToSlashes rest))) := by
  constructor
  · unfold RootForRemote colonsToSlashes
    simp only
    intro h
    obtain ⟨c, _, hc⟩ := List.mem_map.mp h
    by_cases e : c = ':'
    · rw [if_pos e] at hc; exact absurd hc (by decide)
    · rw [if_neg e] at hc; exact e hc
  · intro x hx rest h1 h2
    have htrim : trimSuffix remote ".git" = String.mk x := by
      rcases hx with rfl | ⟨rfl, hs⟩
      · exact trimSuffix_append x ".git".data
      · exact trimSuffix_none x ".git".data hs
    unfold RootForRemote
    rw [htrim]
    constructor
    · intro pre hpre hxe
      rw [hxe, afterUserinfo_at pre rest hpre, afterScheme_other rest h1 h2]
    · intro hrest hxe
      have hat : '@' ∉ x := by
        rcases hxe with rfl | rfl
        · intro hm
          rcases List.mem_append.mp hm with hm | hm
          · revert hm; decide
          · exact hrest hm
        · intro hm
          rcases List.mem_append.mp hm with hm | hm
          · revert hm; decide
          · exact hrest hm
      rw [afterUserinfo_none x hat]
      rcases hxe with rfl | rfl
      · rw [afterScheme_https]
      · rw [afterScheme_git]

/-- An instance of the stripping with a userinfo: the remote
ssh://gitolite@code.uber.internal:github/uber/gg.git. -/
theorem rootForRemote_strips_witness :
    RootForRemote "ssh://gitolite@code.uber.internal:github/uber/gg.git" =
      "code.uber.internal/github/uber/gg" ∧
    RootForRemote "ssh://gitolite@code.uber.internal:github/uber/gg.git" =
      String.mk (colonsToSlashes "code.uber.internal:github/uber/gg".data) :=
  ⟨by decide,
    ((rootForRemote_strips "ssh://gitolite@code.uber.internal:github/uber/gg.git").2
      "ssh://gitolite@code.uber.internal:github/uber/gg".data (Or.inl rfl)
      "code.uber.internal:github/uber/gg".data (by decide) (by decide)).1
      "ssh://gitolite".data (by decide) rfl⟩

theorem fetchLoop_all_fail (n : Nat) (hn : n + 1 < 2 ^ 64) (err : String) (extra : Nat) :
    ∀ (d k : Nat), n - k = d → k ≤ n →
      fetchLoop (n : Int) (fun _ => some err) (fun _ => none) (d + 1 + extra) k k =
        some (n + 1, some err) := by
  have hu : uintOf (n : Int) = n := by
    unfold uintOf
    have h1 : ((n : Int) % 2 ^ 64) = n := by
      apply Int.emod_eq_of_lt
      · exact Int.natCast_nonneg n
      · norm_num at hn ⊢; omega
    rw [h1]
    exact Int.toNat_natCast n
  intro d
  induction d with
  | zero =>
    intro k hd hk
    have e : k = n := by omega
    subst e
    have e1 : 0 + 1 + extra = extra + 1 := by omega
    rw [e1]
    unfold fetchLoop
    simp only
    have e2 : (k + 1) % 2 ^ 64 = k + 1 := Nat.mod_eq_of_lt hn
    rw [e2, hu, if_pos (by omega)]
  | succ d ih =>
    intro k hd hk
    have e1 : d + 1 + 1 + extra = (d + 1 + extra) + 1 := by omega
    rw [e1]
    unfold fetchLoop
    simp only
    have e2 : (k + 1) % 2 ^ 64 = k + 1 := Nat.mod_eq_of_lt (by omega)
    rw [e2, hu, if_neg (by omega)]
    have key := ih (k + 1) (by omega) (by omega)
    split
    · exact key
    · exact key

/-- C28: when every git fetch fails and FinishRemote succeeds, Memo.Fetch with the attempt
cap maxAttempts calls the fetch operation maxAttempts + 1 times before it returns the error:
six times for FetchMaxAttempts = 5, and once for the cap 0. -/
theorem fetch_exceeds_attempt_cap (n fuel : Nat) (hn : n + 1 < 2 ^ 64) (hfuel : n + 1 ≤ fuel)
    (err : String) :
    memoFetch false [] modRemote (n : Int) (fun _ => some err) (fun _ => none) fuel =
      some (n + 1, some err) := by
  unfold memoFetch
  have key := fetchLoop_all_fail n hn err (fuel - (n + 1)) n 0 rfl (Nat.zero_le _)
  have e : n + 1 + (fuel - (n + 1)) = fuel := by omega
  rw [e] at key
  simpa [modRemote, StringSet.Has] using key

theorem fetch_exceeds_attempt_cap_witness :
    memoFetch false [] modRemote FetchMaxAttempts (fun _ => some "exit status 128")
      (fun _ => none) 6 = some (6, some "exit status 128") :=
  fetch_exceeds_attempt_cap 5 6 (by decide) (by decide) "exit status 128"
/-! ### The states of the solver are well formed -/

theorem reachableByAll_inv {σ : Type} (loader : SolverLoader σ) (s : State)
    (h : ReachableByAll loader s) : s.Inv := by
  induction h with
  | newState => exact newState_inv
  | consider s choice _ ih => exact consider_inv s choice ih
  | lock s choice _ ih => exact lock_inv s choice ih
  | constrain s ls modules test _ ih => exact constrain_inv loader ls s modules test ih
  | solve s s' fuel ls ls' err _ hs ih => exact solve_inv loader fuel ls ls' s s' err ih hs
  | add s s' fuel ls ls' module err _ ha ih =>
    exact add_inv loader fuel ls ls' s s' module err ih ha
  | remove s s' fuel ls ls' name order err _ hr _ =>
    exact remove_inv loader fuel ls ls' s s' name order err hr

/-- C29: in every state reachable from NewState() by Consider, Constrain, lock, Add, Solve
and Remove, Problem is an exact index of Frontier (Problem[n] = i if and only if
Frontier[i].Name = n), no two frontier modules share a name, every Solution key equals the
Name of its module, and no name is in both Frontier and Solution. -/
theorem reachable_state_well_formed {σ : Type} (loader : SolverLoader σ) (s : State)
    (h : ReachableByAll loader s) :
    (∀ n i, mapGet s.Problem n = some i ↔ (s.Frontier[i]?).map (fun m => m.Name) = some n) ∧
    (s.Frontier.map (fun m => m.Name)).Nodup ∧
    (∀ e ∈ s.Solution, e.2.Module.Name = e.1) ∧
    (∀ m ∈ s.Frontier, ∀ e ∈ s.Solution, m.Name ≠ e.1) := by
  obtain ⟨hv, _, hkn, hd⟩ := inv_local (reachableByAll_inv loader s h)
  exact ⟨hv.2, hv.1, hkn, hd⟩

theorem reachable_state_well_formed_witness :
    ((NewState.Constrain plainLoader emptyMemo [modY, modC1] false).1.1.Consider modC1).Frontier.map
        (fun m => m.Name) = ["y"] ∧
    ((∀ n i, mapGet ((NewState.Constrain plainLoader emptyMemo [modY, modC1]
        false).1.1.Consider modC1).Problem n = some i ↔
      (((NewState.Constrain plainLoader emptyMemo [modY, modC1]
        false).1.1.Consider modC1).Frontier[i]?).map (fun m => m.Name) = some n) ∧
    (((NewState.Constrain plainLoader emptyMemo [modY, modC1]
        false).1.1.Consider modC1).Frontier.map (fun m => m.Name)).Nodup ∧
    (∀ e ∈ ((NewState.Constrain plainLoader emptyMemo [modY, modC1]
        false).1.1.Consider modC1).Solution, e.2.Module.Name = e.1) ∧
    (∀ m ∈ ((NewState.Constrain plainLoader emptyMemo [modY, modC1]
        false).1.1.Consider modC1).Frontier,
      ∀ e ∈ ((NewState.Constrain plainLoader emptyMemo [modY, modC1]
        false).1.1.Consider modC1).Solution, m.Name ≠ e.1)) :=
  ⟨by decide,
    reachable_state_well_formed plainLoader _
      (ReachableByAll.consider _ modC1
        (ReachableByAll.constrain NewState emptyMemo [modY, modC1] false
          ReachableByAll.newState))⟩

/-! ### The replay of a finished module -/

theorem finishModule_replays (ρ : Type) (finish : ρ → Module → (Module × Option String) × ρ)
    (memo : Memo ρ) (module : Module) (result : ModuleResult) (hh : module.Hash ≠ NoHash)
    (hg : finishedGet memo.Finished module.Hash = some result) :
    (Memo.FinishModule finish memo module).1.1 = result.Module := by
  unfold Memo.FinishModule
  rw [if_neg hh, hg]

/-- C30: a module with a hash other than NoHash is finished as a test dependency; when the
same revision is then finished as a dependency that is not for tests only, Memo.FinishModule
replays the module of the memo, and the Test flag of the module changes from false to true. -/
theorem finishModule_replay_sets_test :
    modAsNormal.Hash ≠ NoHash ∧ modAsNormal.Test = false ∧
    (Memo.FinishModule markFinished { Finished := [], rest := () } modAsTest).1.1.Test = true ∧
    (Memo.FinishModule markFinished memoAfterTest modAsNormal).1.1.Test = true ∧
    (Memo.FinishModule markFinished memoAfterTest modAsNormal).1.2 = none := by
  decide
end GG
